import Mathlib

/-!
# OMNI file system server: a verification development

A shallow embedding of the in-memory core of the server
(`source/server/core/ofs_server.cpp`, `source/server/data_structures/ofs_structures.cpp`)
and theorems about it.

Conventions of the embedding.

* A `std::string` is the list of its characters (`Str`).
* A `std::map<std::string, std::string>` is an association list read with `List.lookup`.
* `int` values are `Int`, `uint32_t` values are `Nat`; a conversion between the two is written
  out (`toInt32`) and arithmetic on the `uint32_t` counter is taken modulo `2 ^ 32`.
* A function of the source whose execution can leave defined behaviour (an index outside a
  vector, a signed sum outside the `int` range, a null pointer that is dereferenced) returns an
  `Option`; `none` stands for the undefined execution and every theorem that speaks about a result
  shows that the result is `some`.
-/

namespace OFS

/-! ## Strings -/

/-- A `std::string` value, as the list of its characters. -/
abbrev Str := List Char

/-- The scan behind `std::string::find(needle)`: the first position, counted from `pos`, at which
`needle` starts; `none` is `std::string::npos`. -/
def strFindFrom (needle : Str) : Str → Nat → Option Nat
  | [], pos => if needle = [] then some pos else none
  | c :: rest, pos =>
    if needle.isPrefixOf (c :: rest) then some pos else strFindFrom needle rest (pos + 1)

/-- The call `hay.find(needle)`. -/
def strFind (hay needle : Str) : Option Nat := strFindFrom needle hay 0

/-! ## Session table and path translation (`ofs_server.cpp`, lines 84-118) -/

/-- The member `active_sessions`: session id to username. -/
abbrev SessionTable := List (Str × Str)

/-- `OFSServer::translatePath`: the statements of the source in their order. The result `[]` is the
empty string the source returns on denial. -/
def translatePath (active_sessions : SessionTable) (client_path session_id : Str) : Str :=
  -- 1. Validate Session
  match active_sessions.lookup session_id with
  | none => []
  | some username =>
    -- 2. ADMIN
    if username = "admin".toList then client_path
    else
      -- 3. REGULAR USER
      let jail_root := "/home/".toList ++ username
      if (strFind client_path "..".toList).isSome then []
      else if client_path = "/".toList ∨ client_path = [] then jail_root
      else
        let client_path1 :=
          if client_path.headD (Char.ofNat 0) ≠ '/' then "/".toList ++ client_path
          else client_path
        jail_root ++ client_path1

/-- The five rules of the translator as the specification words them (section 4.6), with
"contains the substring" read as `List.IsInfix` and "prefix a leading `/` if absent" as
`List.IsPrefix`. -/
def translatePathSpec (sessions : SessionTable) (p sid : Str) : Str :=
  match sessions.lookup sid with
  | none => []
  | some u =>
    if u = "admin".toList then p
    else if "..".toList <:+: p then []
    else if p = [] ∨ p = "/".toList then "/home/".toList ++ u
    else if "/".toList <+: p then "/home/".toList ++ u ++ p
    else "/home/".toList ++ u ++ "/".toList ++ p

/-! ## Block allocator (`ofs_structures.cpp`, lines 287-348) -/

/-- The largest `int`. -/
def INT_MAX : Int := 2147483647

/-- The conversion `(int)n` of a `uint32_t` value: the value itself below `2 ^ 31`, and the value
minus `2 ^ 32` from there on. -/
def toInt32 (n : Nat) : Int :=
  if n % 2 ^ 32 < 2 ^ 31 then ((n % 2 ^ 32 : Nat) : Int) else ((n % 2 ^ 32 : Nat) : Int) - 2 ^ 32

/-- The members of `BlockManager`: `bitmap` (`true` = used), `total_blocks` and
`used_blocks_count` (both `uint32_t`). -/
structure BlockManager where
  bitmap : List Bool
  total_blocks : Nat
  used_blocks_count : Nat
deriving DecidableEq, Repr

/-- The body of the loop of `BlockManager::markUsed` for one value of `idx`:
`if (idx < (int)total_blocks && !bitmap[idx]) { bitmap[idx] = true; used_blocks_count++; }`.
Reading `bitmap[idx]` outside the vector is undefined (`none`). -/
def markUsedAt (bm : BlockManager) (idx : Int) : Option BlockManager :=
  if idx < toInt32 bm.total_blocks then
    if idx < 0 then none
    else
      match bm.bitmap[idx.toNat]? with
      | none => none
      | some b =>
        if !b then
          some { bm with
            bitmap := bm.bitmap.set idx.toNat true
            used_blocks_count := (bm.used_blocks_count + 1) % 2 ^ 32 }
        else some bm
  else some bm

/-- The loop `for (int i = 0; i < count; ++i)` of `markUsed`, `n` passes before its end and `i` the
loop variable. The sum `start_index + i` is an `int`: beyond `INT_MAX` it is undefined (`none`). -/
def markUsedLoop (start_index : Int) : Nat → Int → BlockManager → Option BlockManager
  | 0, _, bm => some bm
  | n + 1, i, bm =>
    let idx := start_index + i
    if INT_MAX < idx then none
    else (markUsedAt bm idx).bind (markUsedLoop start_index n (i + 1))

/-- `BlockManager::markUsed(int start_index, int count)`. -/
def markUsed (bm : BlockManager) (start_index count : Int) : Option BlockManager :=
  markUsedLoop start_index count.toNat 0 bm

/-- The body of the loop of `BlockManager::freeBlocks` for one value of `idx`:
`if (idx < (int)total_blocks && bitmap[idx]) { bitmap[idx] = false; used_blocks_count--; }`. -/
def freeBlocksAt (bm : BlockManager) (idx : Int) : Option BlockManager :=
  if idx < toInt32 bm.total_blocks then
    if idx < 0 then none
    else
      match bm.bitmap[idx.toNat]? with
      | none => none
      | some b =>
        if b then
          some { bm with
            bitmap := bm.bitmap.set idx.toNat false
            used_blocks_count := (bm.used_blocks_count + 2 ^ 32 - 1) % 2 ^ 32 }
        else some bm
  else some bm

/-- The loop of `freeBlocks`, as `markUsedLoop`. -/
def freeBlocksLoop (start_index : Int) : Nat → Int → BlockManager → Option BlockManager
  | 0, _, bm => some bm
  | n + 1, i, bm =>
    let idx := start_index + i
    if INT_MAX < idx then none
    else (freeBlocksAt bm idx).bind (freeBlocksLoop start_index n (i + 1))

/-- `BlockManager::freeBlocks(int start_index, int count)`. -/
def freeBlocks (bm : BlockManager) (start_index count : Int) : Option BlockManager :=
  freeBlocksLoop start_index count.toNat 0 bm

/-- The constructor `BlockManager(uint32_t num_blocks)`: every block free, then `markUsed(0, 1)`. -/
def BlockManager.new (num_blocks : Nat) : Option BlockManager :=
  markUsed { bitmap := List.replicate num_blocks false, total_blocks := num_blocks,
             used_blocks_count := 0 } 0 1

/-- The loop `for (uint32_t i = 0; i < total_blocks; ++i)` of `allocateBlocks`, `n` passes before
its end, with the locals `consecutive_found` and `start_index`. The result `-1` is the source's
"not enough contiguous space"; the assignment `start_index = i` converts a `uint32_t` to `int`. -/
def allocateLoop (bm : BlockManager) (count : Int) :
    Nat → Nat → Int → Int → Option (Int × BlockManager)
  | 0, _, _, _ => some (-1, bm)
  | n + 1, i, consecutive_found, start_index =>
    match bm.bitmap[i]? with
    | none => none
    | some b =>
      if !b then
        let start_index1 := if consecutive_found = 0 then toInt32 i else start_index
        let consecutive_found1 := consecutive_found + 1
        if consecutive_found1 = count then
          (markUsed bm start_index1 count).map (fun bm1 => (start_index1, bm1))
        else allocateLoop bm count n (i + 1) consecutive_found1 start_index1
      else allocateLoop bm count n (i + 1) 0 (-1)

/-- `BlockManager::allocateBlocks(int count)`: the returned `int` and the state afterwards. -/
def allocateBlocks (bm : BlockManager) (count : Int) : Option (Int × BlockManager) :=
  if count ≤ 0 then some (-1, bm)
  else allocateLoop bm count bm.total_blocks 0 0 (-1)

/-- `BlockManager::getFreeBlocksCount`: a `uint32_t` difference. -/
def getFreeBlocksCount (bm : BlockManager) : Nat :=
  (bm.total_blocks + 2 ^ 32 - bm.used_blocks_count) % 2 ^ 32

/-- `BlockManager::getTotalBlocks`. -/
def getTotalBlocks (bm : BlockManager) : Nat := bm.total_blocks

/-- The states a `BlockManager` object can be in: the vector has `total_blocks` entries, the
counter is the number of `true` bits, and a bitmap of `2 ^ 31` blocks or more (where
`(int)total_blocks` is negative, so that no bit is ever written) is entirely free. -/
structure BlockManager.WF (bm : BlockManager) : Prop where
  len : bm.bitmap.length = bm.total_blocks
  range : bm.total_blocks < 2 ^ 32
  cnt : bm.bitmap.count true = bm.used_blocks_count
  big : 2 ^ 31 ≤ bm.total_blocks → bm.bitmap = List.replicate bm.total_blocks false

/-- Blocks `s, s+1, ..., s+n-1` all lie inside the bitmap `l` and are free. -/
def FreeRun (l : List Bool) (s n : Nat) : Prop :=
  s + n ≤ l.length ∧ ∀ j, s ≤ j → j < s + n → l[j]? = some false

/-- The bitmap `l` with the bits `s, ..., s+n-1` that lie below the bound `lim` set to `v`: the
writes of the loops of `markUsed` (`v = true`) and `freeBlocks` (`v = false`). -/
def setBits (v : Bool) (lim : Int) : List Bool → Nat → Nat → List Bool
  | l, _, 0 => l
  | l, s, n + 1 => setBits v lim (if (s : Int) < lim then l.set s v else l) (s + 1) n

/-- The state with the members of `bm` and the bitmap `l`, the counter being the number of `true`
bits of `l`: what a write of either loop leaves. -/
def ofBitmap (bm : BlockManager) (l : List Bool) : BlockManager :=
  { bitmap := l, total_blocks := bm.total_blocks, used_blocks_count := l.count true }

/-- The states reachable from `BlockManager(n)` by calls of `allocateBlocks`, `freeBlocks` and
`markUsed`, the last two with a non-negative start index. A call is a step when its execution is
defined (the function returns `some`). -/
inductive Reachable (n : Nat) : BlockManager → Prop
  | init {bm : BlockManager} : BlockManager.new n = some bm → Reachable n bm
  | allocateBlocks {bm bm' : BlockManager} (count r : Int) :
      Reachable n bm → allocateBlocks bm count = some (r, bm') → Reachable n bm'
  | freeBlocks {bm bm' : BlockManager} (start_index count : Int) :
      Reachable n bm → 0 ≤ start_index → freeBlocks bm start_index count = some bm' →
      Reachable n bm'
  | markUsed {bm bm' : BlockManager} (start_index count : Int) :
      Reachable n bm → 0 ≤ start_index → markUsed bm start_index count = some bm' →
      Reachable n bm'

/-! ## The allocator as the dispatcher drives it (`ofs_server.cpp`) -/

/-- `OFSServer::init`, the branch that formats a new volume (lines 153-154 and 206-207):
`new BlockManager(total_size / block_size)` with `total_size = 104857600` and
`block_size = 4096`, then `markUsed(0, 4)`. -/
def formatBlockManager : Option BlockManager :=
  (BlockManager.new (104857600 / 4096)).bind (fun bm => markUsed bm 0 4)

/-- The calls of the allocator that `OFSServer::processRequest` makes, one constructor for each
operation that makes one, with the values the call site reads from the request or from the node
it resolved: the length of `data` (`size_t`), the start block `sb`/`db` stored in the node's
reserved bytes (`uint32_t`) and the node's `size` (`uint64_t`). -/
inductive AllocRequest
  | user_create
  | file_create (content_length : Nat)
  | file_delete (sb : Nat) (size : Nat)
  | dir_delete (db : Nat)
deriving DecidableEq, Repr

/-- The values of a request lie in the range of their C++ types. -/
def AllocRequest.InRange : AllocRequest → Prop
  | .user_create => True
  | .file_create content_length => content_length < 2 ^ 64
  | .file_delete sb size => sb < 2 ^ 32 ∧ size < 2 ^ 64
  | .dir_delete db => db < 2 ^ 32

/-- The effect of a request on the allocator.
* `user_create`, line 415: `blockManager->allocateBlocks(1)`.
* `file_create`, lines 621-622: `int blks = (content.length() / 4096) + 1;` then
  `blockManager->allocateBlocks(blks)`.
* `file_delete`, line 548: `if(sb > 3) blockManager->freeBlocks(sb, (node->metadata.size/4096)+1)`.
* `dir_delete`, line 584: `if(db > 3) blockManager->freeBlocks(db, 1)`.
A request that fails before its call (unknown path, user exists, ...) leaves the allocator as it
is, which is the reflexive case of `ServerReachable`. -/
def dispatchAlloc (bm : BlockManager) : AllocRequest → Option BlockManager
  | .user_create => (allocateBlocks bm 1).map Prod.snd
  | .file_create content_length =>
    (allocateBlocks bm (toInt32 (content_length / 4096 + 1))).map Prod.snd
  | .file_delete sb size =>
    if sb > 3 then freeBlocks bm (toInt32 sb) (toInt32 (size / 4096 + 1)) else some bm
  | .dir_delete db =>
    if db > 3 then freeBlocks bm (toInt32 db) 1 else some bm

/-- The allocator states of the server reachable from a freshly formatted volume by requests
`user_create`, `file_create`, `file_delete` and `dir_delete`. -/
inductive ServerReachable : BlockManager → Prop
  | format {bm : BlockManager} : formatBlockManager = some bm → ServerReachable bm
  | step {bm bm' : BlockManager} (req : AllocRequest) :
      ServerReachable bm → req.InRange → dispatchAlloc bm req = some bm' → ServerReachable bm'

/-! ## User index: the AVL tree (`ofs_structures.cpp`, lines 16-166) -/

/-- Modelled from the spec: `UserRole` of `odf_types.hpp`, which is not among the sources
(section 3, "role ∈ {ADMIN, NORMAL}"). -/
inductive UserRole
  | ADMIN
  | NORMAL
deriving DecidableEq, Repr

/-- Modelled from the spec: `UserInfo` of `odf_types.hpp`, which is not among the sources (section
3, "User record": username, password hash, role, creation timestamp, active flag). The character
arrays are held as the strings the tree reads from them with `std::string(data.username)`. -/
structure UserInfo where
  username : Str
  password_hash : Str
  role : UserRole
  created_time : Nat
  is_active : Nat
deriving DecidableEq, Repr

/-- A `UserNode*`: `null` is `nullptr`, `node` a node with its `data`, `left`, `right` and
`height`. -/
inductive UserNode
  | null
  | node (data : UserInfo) (left right : UserNode) (height : Int)
deriving DecidableEq, Repr

/-- `UserAVLTree::height`. -/
def height : UserNode → Int
  | .null => 0
  | .node _ _ _ h => h

/-- `UserAVLTree::getBalance`. -/
def getBalance : UserNode → Int
  | .null => 0
  | .node _ l r _ => height l - height r

/-- `UserAVLTree::rightRotate(y)`; `y` and `y->left` are dereferenced, so on any other shape the
execution is undefined (`none`). -/
def rightRotate : UserNode → Option UserNode
  | .node yd (.node xd xl T2 _) yr _ =>
    let y := UserNode.node yd T2 yr (max (height T2) (height yr) + 1)
    some (.node xd xl y (max (height xl) (height y) + 1))
  | _ => none

/-- `UserAVLTree::leftRotate(x)`; `x` and `x->right` are dereferenced. -/
def leftRotate : UserNode → Option UserNode
  | .node xd xl (.node yd T2 yr _) _ =>
    let x := UserNode.node xd xl T2 (max (height xl) (height T2) + 1)
    some (.node yd x yr (max (height x) (height yr) + 1))
  | _ => none

/-- Steps 2 to 4 of `insertRec` on the node with data `d` and children `l`, `r` after the recursive
call: the height is updated, the balance taken, and the four cases are tried in the order of the
source. Under `balance > 1` only the first and third test read `node->left->data.username`
(the second and fourth fail on `balance < -1`), under `balance < -1` only the second and fourth
read `node->right->data.username`. -/
def rebalance (d : UserInfo) (l r : UserNode) (newName : Str) : Option UserNode :=
  let h := 1 + max (height l) (height r)
  let balance := getBalance (.node d l r h)
  if balance > 1 then
    match l with
    | .null => none
    | .node ld _ _ _ =>
      -- Left Left Case
      if newName < ld.username then rightRotate (.node d l r h)
      -- Left Right Case
      else if newName > ld.username then
        (leftRotate l).bind (fun l1 => rightRotate (.node d l1 r h))
      else some (.node d l r h)
  else if balance < -1 then
    match r with
    | .null => none
    | .node rd _ _ _ =>
      -- Right Right Case
      if newName > rd.username then leftRotate (.node d l r h)
      -- Right Left Case
      else if newName < rd.username then
        (rightRotate r).bind (fun r1 => leftRotate (.node d l r1 h))
      else some (.node d l r h)
  else some (.node d l r h)

/-- `UserAVLTree::insertRec`. -/
def insertRec : UserNode → UserInfo → Option UserNode
  | .null, info => some (.node info .null .null 1)
  | .node d l r h, info =>
    let currentName := d.username
    let newName := info.username
    if newName < currentName then
      (insertRec l info).bind (fun l1 => rebalance d l1 r newName)
    else if newName > currentName then
      (insertRec r info).bind (fun r1 => rebalance d l r1 newName)
    else some (.node d l r h)

/-- `UserAVLTree::searchRec`, returning the `data` of the node found. -/
def searchRec : UserNode → Str → Option UserInfo
  | .null, _ => none
  | .node d l r _, username =>
    let currentName := d.username
    if currentName = username then some d
    else if username < currentName then searchRec l username
    else searchRec r username

/-- `UserAVLTree::inorderRec`, the list it appends. -/
def inorderRec : UserNode → List UserInfo
  | .null => []
  | .node d l r _ => inorderRec l ++ d :: inorderRec r

/-- The class `UserAVLTree`: its member `root`. -/
structure UserAVLTree where
  root : UserNode
deriving DecidableEq, Repr

/-- The constructor `UserAVLTree()`. -/
def UserAVLTree.empty : UserAVLTree := { root := .null }

/-- `UserAVLTree::insert`. -/
def UserAVLTree.insert (t : UserAVLTree) (info : UserInfo) : Option UserAVLTree :=
  (insertRec t.root info).map (fun r => { root := r })

/-- `UserAVLTree::search`. -/
def UserAVLTree.search (t : UserAVLTree) (username : Str) : Option UserInfo :=
  searchRec t.root username

/-- `UserAVLTree::getAllUsers`. -/
def UserAVLTree.getAllUsers (t : UserAVLTree) : List UserInfo := inorderRec t.root

/-- A sequence of `insert` calls, starting from the tree `t`. -/
def UserAVLTree.insertAll (t : UserAVLTree) : List UserInfo → Option UserAVLTree
  | [] => some t
  | info :: rest => (t.insert info).bind (fun t1 => t1.insertAll rest)

/-- The stored heights are the heights of the subtrees and the two subtrees of every node differ
in height by at most one. -/
def AVL : UserNode → Prop
  | .null => True
  | .node _ l r h =>
    AVL l ∧ AVL r ∧ h = 1 + max (height l) (height r) ∧
      height l - height r ≤ 1 ∧ height r - height l ≤ 1

/-- The insertion of a record into a list ordered by username, a record whose username is
present being dropped. -/
def listInsert (info : UserInfo) : List UserInfo → List UserInfo
  | [] => [info]
  | a :: rest =>
    if info.username < a.username then info :: a :: rest
    else if a.username < info.username then a :: listInsert info rest
    else a :: rest

/-- The usernames of a list of records are strictly increasing. -/
def SortedByName (l : List UserInfo) : Prop :=
  List.Pairwise (fun a b => a.username < b.username) l

/-- The growth of a subtree by an insertion of the name `x`: the stored height of the result `t1`
is that of `t`, or one more, and in that case (for a `t` that is not `null`) the root of `t1`
leans to the side of `x`. -/
def Grew (x : Str) (t t1 : UserNode) : Prop :=
  height t1 = height t ∨
  (height t1 = height t + 1 ∧
    (t ≠ .null → ∃ d l r h, t1 = .node d l r h ∧
      ((x < d.username ∧ height l = height r + 1) ∨
       (d.username < x ∧ height r = height l + 1))))

/-- The first record of a list whose username is `u`. -/
def findName (u : Str) (l : List UserInfo) : Option UserInfo :=
  l.find? (fun i => decide (i.username = u))

/-! ## Directory tree (`ofs_structures.cpp`, lines 173-280) -/

/-- Modelled from the spec: `EntryType` of `odf_types.hpp`, which is not among the sources
(section 3, "type ∈ {FILE, DIRECTORY}"). -/
inductive EntryType
  | FILE
  | DIRECTORY
deriving DecidableEq, Repr

/-- Modelled from the spec: `FileEntry` of `odf_types.hpp`, which is not among the sources (section
3, "Directory entry": name, type, size, permission bits, owner, inode, parent inode, and the
reserved region whose first four bytes carry the start block). The name is held as the string the
tree reads from the array with `std::string(metadata.name)`. -/
structure FileEntry where
  name : Str
  type : EntryType
  size : Nat
  permissions : Nat
  owner : Str
  inode : Nat
  parent_inode : Nat
  start_block : Nat
deriving DecidableEq, Repr

/-- An `FSNode`: its `metadata` and the vector `children`, each child owned by its node. The
back-reference `parent` of the source is the position of the node in the tree. -/
inductive FSNode
  | mk (metadata : FileEntry) (children : List FSNode)

/-- The member `metadata`. -/
def FSNode.metadata : FSNode → FileEntry
  | .mk m _ => m

/-- The member `children`. -/
def FSNode.children : FSNode → List FSNode
  | .mk _ c => c

/-- The members of `FileSystemTree`: `root` (`none` is `nullptr`) and `next_inode_counter`. -/
structure FileSystemTree where
  root : Option FSNode
  next_inode_counter : Nat

/-- `FileSystemTree::findChild(parent, name)`: the first child with the name. -/
def findChild (parent : Option FSNode) (name : Str) : Option FSNode :=
  match parent with
  | none => none
  | some p => p.children.find? (fun child => decide (child.metadata.name = name))

/-- `std::getline(ss, segment, delim)` on a string stream whose unread characters are `ss`: `none`
when the read fails (no character is left), otherwise the segment read (the characters before the
first `delim`, or all of them) and the characters left unread after the delimiter. -/
def getline (delim : Char) : Str → Option (Str × Str)
  | [] => none
  | c :: rest =>
    some ((c :: rest).takeWhile (fun x => x != delim),
          ((c :: rest).dropWhile (fun x => x != delim)).drop 1)

/-- The loop `while (std::getline(ss, segment, '/'))` of `resolvePath`, with `current` and the
unread characters of `ss`. Every pass consumes a character, so the `fuel` that `resolvePath` gives
(one more than the length of the path) is never used up. -/
def resolveLoop : Nat → FSNode → Str → Option FSNode
  | 0, _, _ => none
  | fuel + 1, current, ss =>
    match getline '/' ss with
    | none => some current
    | some (segment, ss1) =>
      if segment = [] then resolveLoop fuel current ss1
      else
        match findChild (some current) segment with
        | none => none
        | some next => resolveLoop fuel next ss1

/-- `FileSystemTree::resolvePath`. -/
def resolvePath (t : FileSystemTree) (path : Str) : Option FSNode :=
  match t.root with
  | none => none
  | some root =>
    if path = [] then none
    else if path = "/".toList then some root
    else resolveLoop (path.length + 1) root path

/-- The walk of the specification (section 4.4, `resolve`): from `current`, each segment is
matched against the names of the children of the current node; the walk stops with `none` at the
first segment without a matching child. -/
def walkSegments : FSNode → List Str → Option FSNode
  | current, [] => some current
  | current, segment :: rest =>
    match current.children.find? (fun child => decide (child.metadata.name = segment)) with
    | none => none
    | some next => walkSegments next rest

/-- The segments of a path as the specification words them: the path split on `/`, the empty
segments discarded. -/
def pathSegments (path : Str) : List Str :=
  (List.splitOn '/' path).filter (fun segment => decide (segment ≠ []))

/-- Resolution as the specification words it: split, discard the empty segments, walk from the
root. -/
def resolvePathSpec (root : FSNode) (path : Str) : Option FSNode :=
  walkSegments root (pathSegments path)

/-! ## Directory tree: nodes by pointer, `addChild`, `removeChild` -/

/-- An `FSNode*` into the tree: the indices of the children taken from the root, the root itself
being `[]`. The member `parent` of the node at `p ++ [i]` is `p`, that of the root is `nullptr`. -/
abbrev NodePtr := List Nat

/-- The node a pointer designates below `n`; `none` when the pointer designates no node of the
tree. -/
def nodeAt : FSNode → NodePtr → Option FSNode
  | n, [] => some n
  | n, i :: rest =>
    match n.children[i]? with
    | none => none
    | some c => nodeAt c rest

/-- The node a pointer designates in the tree. -/
def FileSystemTree.node (t : FileSystemTree) (p : NodePtr) : Option FSNode :=
  t.root.bind (fun r => nodeAt r p)

/-- The member `parent` of the node `p` points to. -/
def parentPtr : NodePtr → Option NodePtr
  | [] => none
  | i :: rest => some ((i :: rest).dropLast)

/-- The position of the first node of a `children` vector whose name is `name`: the loop of
`findChild`, returning the place of the child it returns. -/
def findChildIdx : List FSNode → Str → Option Nat
  | [], _ => none
  | child :: rest, name =>
    if child.metadata.name = name then some 0
    else (findChildIdx rest name).map (fun i => i + 1)

/-- The loop of `resolvePath` as `resolveLoop`, with the pointer to `current` carried along. -/
def resolveLoopPtr : Nat → FSNode → NodePtr → Str → Option NodePtr
  | 0, _, _, _ => none
  | fuel + 1, current, ptr, ss =>
    match getline '/' ss with
    | none => some ptr
    | some (segment, ss1) =>
      if segment = [] then resolveLoopPtr fuel current ptr ss1
      else
        match findChildIdx current.children segment with
        | none => none
        | some i =>
          match current.children[i]? with
          | none => none
          | some next => resolveLoopPtr fuel next (ptr ++ [i]) ss1

/-- `FileSystemTree::resolvePath`, the pointer it returns (`none` is `nullptr`). -/
def resolvePathPtr (t : FileSystemTree) (path : Str) : Option NodePtr :=
  match t.root with
  | none => none
  | some root =>
    if path = [] then none
    else if path = "/".toList then some []
    else resolveLoopPtr (path.length + 1) root [] path

/-- The tree below `n` with the node at `p` replaced by its image under `f`. -/
def modifyAt (f : FSNode → FSNode) : NodePtr → FSNode → FSNode
  | [], n => f n
  | i :: rest, .mk m cs =>
    match cs[i]? with
    | none => .mk m cs
    | some c => .mk m (cs.set i (modifyAt f rest c))

/-- The constructor `FileSystemTree()`. -/
def FileSystemTree.new : FileSystemTree := { root := none, next_inode_counter := 1 }

/-- `FileSystemTree::setRoot`. -/
def setRoot (t : FileSystemTree) (rootEntry : FileEntry) : FileSystemTree :=
  { t with root := some (.mk rootEntry []) }

/-- `FileSystemTree::addChild(parent, entry)`: the pointer returned (`none` is `nullptr`) and the
tree afterwards. `getNextInode` returns the counter and increments it, a `uint32_t`. A `parent`
that points to no node of the tree is a dangling pointer (the outer `none`). -/
def addChild (t : FileSystemTree) (parent : Option NodePtr) (entry : FileEntry) :
    Option (Option NodePtr × FileSystemTree) :=
  match parent with
  | none => some (none, t)
  | some p =>
    match t.node p with
    | none => none
    | some pn =>
      if (findChild (some pn) entry.name).isSome then some (none, t)
      else
        let entry1 := { entry with
          inode := t.next_inode_counter
          parent_inode := pn.metadata.inode }
        let newNode := FSNode.mk entry1 []
        some (some (p ++ [pn.children.length]),
          { root := t.root.map (modifyAt (fun n => .mk n.metadata (n.children ++ [newNode])) p)
            next_inode_counter := (t.next_inode_counter + 1) % 2 ^ 32 })

/-- The loop of `removeChild` over the `children` vector: the value returned and the vector
afterwards. -/
def removeLoop (name : Str) : List FSNode → Bool × List FSNode
  | [] => (false, [])
  | child :: rest =>
    if child.metadata.name = name then
      if child.metadata.type = EntryType.DIRECTORY ∧ child.children.isEmpty = false then
        (false, child :: rest)
      else (true, rest)
    else ((removeLoop name rest).1, child :: (removeLoop name rest).2)

/-- `FileSystemTree::removeChild(parent, name)`: the `bool` returned and the tree afterwards. -/
def removeChild (t : FileSystemTree) (parent : Option NodePtr) (name : Str) :
    Option (Bool × FileSystemTree) :=
  match parent with
  | none => some (false, t)
  | some p =>
    match t.node p with
    | none => none
    | some pn =>
      some ((removeLoop name pn.children).1,
        { t with root :=
            t.root.map (modifyAt (fun n => .mk n.metadata (removeLoop name n.children).2) p) })

/-- `FileSystemTree::listDirectory`. -/
def listDirectory (t : FileSystemTree) (path : Str) : List FileEntry :=
  match resolvePath t path with
  | none => []
  | some node =>
    if node.metadata.type = EntryType.DIRECTORY then node.children.map (fun c => c.metadata)
    else []

/-- The walk of `walkSegments`, returning the pointer to the node reached, `ptr` being the pointer
to `current`. -/
def walkSegmentsPtr : FSNode → NodePtr → List Str → Option NodePtr
  | _, ptr, [] => some ptr
  | current, ptr, segment :: rest =>
    match findChildIdx current.children segment with
    | none => none
    | some i =>
      match current.children[i]? with
      | none => none
      | some next => walkSegmentsPtr next (ptr ++ [i]) rest

/-! ## Directory tree: invariants and reachable trees -/

mutual
/-- Every node of the subtree below a node, the node itself first, then the subtrees of its
children in order. -/
def FSNode.nodes : FSNode → List FSNode
  | .mk m cs => .mk m cs :: nodesL cs
/-- The nodes of a list of subtrees, in order. -/
def nodesL : List FSNode → List FSNode
  | [] => []
  | c :: cs => c.nodes ++ nodesL cs
end

/-- Every node of the tree (none when there is no root). -/
def FileSystemTree.nodes (t : FileSystemTree) : List FSNode :=
  match t.root with
  | none => []
  | some r => r.nodes

/-- No two children of the same node share a name. -/
def NamesUnique (t : FileSystemTree) : Prop :=
  ∀ n ∈ t.nodes, (n.children.map (fun c => c.metadata.name)).Nodup

/-- No two nodes of the whole tree share an inode. -/
def InodesUnique (t : FileSystemTree) : Prop :=
  (t.nodes.map (fun n => n.metadata.inode)).Nodup

/-- Every child records the inode of the node it hangs under. -/
def ParentInodes (t : FileSystemTree) : Prop :=
  ∀ n ∈ t.nodes, ∀ c ∈ n.children, c.metadata.parent_inode = n.metadata.inode

/-- Trees reachable from `setRoot` (root entry with inode 0) on a new tree by calls of `addChild`
and `removeChild` on pointers into the tree; the index counts the `addChild` calls that returned
a node. -/
inductive TreeReachable : Nat → FileSystemTree → Prop
  | root (e : FileEntry) (he : e.inode = 0) : TreeReachable 0 (setRoot FileSystemTree.new e)
  | added {a : Nat} {t : FileSystemTree} (parent : Option NodePtr) (entry : FileEntry)
      (p : NodePtr) (t1 : FileSystemTree) :
      TreeReachable a t → addChild t parent entry = some (some p, t1) → TreeReachable (a + 1) t1
  | refused {a : Nat} {t : FileSystemTree} (parent : Option NodePtr) (entry : FileEntry)
      (t1 : FileSystemTree) :
      TreeReachable a t → addChild t parent entry = some (none, t1) → TreeReachable a t1
  | removed {a : Nat} {t : FileSystemTree} (parent : Option NodePtr) (name : Str) (b : Bool)
      (t1 : FileSystemTree) :
      TreeReachable a t → removeChild t parent name = some (b, t1) → TreeReachable a t1

/-- The root entry of the server, `FileEntry root("/", EntryType::DIRECTORY, 0, 0755, "admin", 0,
0)` with block 2 copied into its reserved bytes: inode 0. -/
def rootDirEntry : FileEntry :=
  { name := ['/'], type := .DIRECTORY, size := 0, permissions := 0o755,
    owner := ['a', 'd', 'm', 'i', 'n'], inode := 0, parent_inode := 0, start_block := 2 }

/-- A file entry named `a`, as a caller hands it to `addChild`. -/
def probeEntry : FileEntry :=
  { name := ['a'], type := .FILE, size := 0, permissions := 0o600,
    owner := ['a', 'd', 'm', 'i', 'n'], inode := 0, parent_inode := 0, start_block := 0 }

/-- The tree that holds the root alone, with a given value of the inode counter. -/
def rootOnly (counter : Nat) : FileSystemTree :=
  { root := some (.mk rootDirEntry []), next_inode_counter := counter }

/-- The tree that holds the root and one file `a` with a given inode. -/
def rootWithProbe (inode counter : Nat) : FileSystemTree :=
  { root := some (.mk rootDirEntry
      [.mk { probeEntry with inode := inode, parent_inode := 0 } []])
    next_inode_counter := counter }

/-! ## The server (`ofs_server.cpp`) -/

/-- The zero byte. -/
def NUL : Char := Char.ofNat 0

/-- `std::string(a)` for a character array `a`: the characters before the first zero byte. -/
def cstr (bytes : List Char) : Str := bytes.takeWhile (fun c => c != NUL)

/-- The volume file `file_stream`: the byte at every offset. -/
abbrev Disk := Nat → Char

/-- `seekp(off)` followed by `write(bytes, bytes.length)`. -/
def Disk.write (d : Disk) (off : Nat) (bytes : List Char) : Disk :=
  fun a => if off ≤ a ∧ a < off + bytes.length then bytes.getD (a - off) NUL else d a

/-- `seekg(off)` followed by `read(buf, n)`: the `n` bytes read. -/
def Disk.read (d : Disk) (off n : Nat) : List Char :=
  (List.range n).map (fun i => d (off + i))

/-- Modelled from the spec: `OMNIHeader` of `odf_types.hpp`, which is not among the sources
(section 3, "Volume header": magic, format version, total size, maximum user count, block size,
offset of the user table). `header_size` is the third argument of the constructor call
`OMNIHeader(0x00010000, total_size, 512, block_size)`. -/
structure OMNIHeader where
  magic : Str
  format_version : Nat
  total_size : Nat
  header_size : Nat
  block_size : Nat
  user_table_offset : Nat
  max_users : Nat
deriving DecidableEq, Repr

/-- Modelled from the spec: the memory layout of the records of `odf_types.hpp`, which is not
among the sources. The server writes a record as the `sizeof` bytes of the object
(`reinterpret_cast<char*>(&r)`) and reads one by filling an object with `sizeof` bytes; the
layout gives these sizes and the two directions of the conversion. The names of a record are
character arrays of a fixed size (section 3: "username (bounded ASCII ...)", "name (bounded)"):
`usernameCap`, `nameCap` and `ownerCap` are the numbers of characters the fields `username` of a
user record and `name` and `owner` of a directory entry hold. The names the server itself gives
at `init` are held whole (`admin`, `home`, `/`), and a username that the bytes of a record give
back whole is not longer than its field. -/
structure Layout where
  sizeofOMNIHeader : Nat
  sizeofUserInfo : Nat
  sizeofFileEntry : Nat
  headerBytes : OMNIHeader → List Char
  userBytes : UserInfo → List Char
  userOfBytes : List Char → UserInfo
  entryBytes : FileEntry → List Char
  entryOfBytes : List Char → FileEntry
  usernameCap : Nat
  nameCap : Nat
  ownerCap : Nat
  admin_fits : 5 ≤ usernameCap
  home_fits : 4 ≤ nameCap
  username_whole : ∀ u : UserInfo, (userOfBytes (userBytes u)).username = u.username →
    u.username.length ≤ usernameCap

/-- Modelled from the spec: the name an object of `odf_types.hpp` holds after its constructor has
been given the string `name` for a field of `cap` characters (`UserInfo info(u, ...)`, line 389;
`FileEntry userHome(u, ...)`, line 414; `FileEntry nf(fname, ...)`, line 625): the first `cap`
characters, read as `std::string(field)`, which ends before the first zero byte. -/
def storedName (cap : Nat) (name : Str) : Str := cstr (name.take cap)

/-- Modelled from the spec: what the claims use of the layout of a directory entry. An entry
occupies `sizeof(FileEntry)` bytes, at least one, and `name` is its first field, so that
`name[0]` is the first byte of a slot (section 3, "A slot is empty iff its first name byte is
zero"). -/
structure Layout.Lawful (L : Layout) : Prop where
  entry_pos : 0 < L.sizeofFileEntry
  entry_len : ∀ e : FileEntry, (L.entryBytes e).length = L.sizeofFileEntry
  name_first : ∀ bs : List Char, bs.length = L.sizeofFileEntry →
    ((L.entryOfBytes bs).name = [] ↔ bs.head? = some NUL)

/-- The members of `OFSServer` that `processRequest` reads or writes: the header, the user index,
the directory tree, the allocator (`*blockManager`), the session table and the volume file. -/
structure ServerState where
  header : OMNIHeader
  userTree : UserAVLTree
  fileTree : FileSystemTree
  blockManager : BlockManager
  active_sessions : SessionTable
  disk : Disk

/-- The fields of a request: for each key the value `getJsonValue(json, key)` returns for the
payload (the empty string for a key that is absent). -/
structure Request where
  operation : Str
  request_id : Str
  session_id : Str
  username : Str
  password : Str
  path : Str
  data : Str
  type : Str
deriving DecidableEq, Repr

/-- `simpleHash`. -/
def simpleHash (password : Str) : Str :=
  if password = "admin123".toList then "8c6976e5b5410415bde908bd4dee15df".toList
  else "password123".toList

/-- `std::to_string` of an unsigned value: its decimal digits. -/
def to_string (n : Nat) : Str := (Nat.repr n).toList

/-- `active_sessions[k] = v` on the `std::map`: the entry for `k` is replaced or added. -/
def sessionStore (m : SessionTable) (k v : Str) : SessionTable :=
  (k, v) :: m.filter (fun e => decide (e.1 ≠ k))

/-- `s.find_last_of(c)`: the position of the last `c` in `s`, `none` for `npos`. -/
def findLastOf : Str → Char → Option Nat
  | [], _ => none
  | x :: rest, c =>
    match findLastOf rest c with
    | some i => some (i + 1)
    | none => if x = c then some 0 else none

mutual
/-- `countEntries(node, files, dirs)` on a node that is not null: the two counters afterwards.
A directory whose name is not `/` counts as a directory and its children are visited, any other
node counts as a file. -/
def countEntries : FSNode → Nat × Nat → Nat × Nat
  | .mk m cs, (files, dirs) =>
    if m.type = EntryType.DIRECTORY then
      countEntriesL cs (files, if m.name ≠ "/".toList then dirs + 1 else dirs)
    else (files + 1, dirs)
/-- The loop `for (FSNode* child : node->children)` of `countEntries`. -/
def countEntriesL : List FSNode → Nat × Nat → Nat × Nat
  | [], acc => acc
  | c :: cs, acc => countEntriesL cs (countEntries c acc)
end

/-! ### The responses of `processRequest` -/

/-- The response of a successful `user_login`. -/
def respLoginOk (rid new_sid : Str) : Str :=
  "\x7b \"status\": \"success\", \"operation\": \"user_login\", \"request_id\": \"".toList ++ rid
    ++ "\", \"data\": \x7b \"session_id\": \"".toList ++ new_sid
    ++ "\", \"message\": \"Login Successful\" \x7d \x7d".toList

/-- The response of a refused `user_login`. -/
def respInvalidCredentials (rid : Str) : Str :=
  "\x7b \"status\": \"error\", \"request_id\": \"".toList ++ rid
    ++ "\", \"error_code\": -2, \"error_message\": \"Invalid credentials\" \x7d".toList

/-- The response of `user_create` for a username that is in the index. -/
def respUserExists (rid : Str) : Str :=
  "\x7b \"status\": \"error\", \"request_id\": \"".toList ++ rid
    ++ "\", \"error_message\": \"User exists\" \x7d".toList

/-- The response of a successful `user_create`. -/
def respUserCreated (rid : Str) : Str :=
  "\x7b \"status\": \"success\", \"operation\": \"user_create\", \"request_id\": \"".toList ++ rid
    ++ "\", \"data\": \x7b \"message\": \"User and Home created\" \x7d \x7d".toList

/-- The response of `user_create` when no slot of the user table is free. -/
def respTableFull : Str :=
  "\x7b \"status\": \"error\", \"error_message\": \"User table full\" \x7d".toList

/-- The response of `user_list`, around the list of users. -/
def respUserList (rid list : Str) : Str :=
  "\x7b \"status\": \"success\", \"operation\": \"user_list\", \"request_id\": \"".toList ++ rid
    ++ "\", \"data\": \x7b \"users\": ".toList ++ list ++ " \x7d \x7d".toList

/-- The response of a refused `user_delete`. -/
def respInvalidTarget : Str :=
  "\x7b \"status\": \"error\", \"error_message\": \"Invalid target\" \x7d".toList

/-- The response of a successful `user_delete`. -/
def respUserDeleted : Str :=
  "\x7b \"status\": \"success\", \"data\": \x7b \"message\": \"User deleted\" \x7d \x7d".toList

/-- The response of `get_stats`, around the five numbers. -/
def respStats (total_size ub fb fc dc : Str) : Str :=
  "\x7b \"status\": \"success\", \"operation\": \"get_stats\", \"data\": \x7b \"stats\": \x7b \"total_size\": ".toList
    ++ total_size ++ ", \"used_space\": ".toList ++ ub ++ ", \"free_space\": ".toList ++ fb
    ++ ", \"total_files\": ".toList ++ fc ++ ", \"total_directories\": ".toList ++ dc
    ++ " \x7d \x7d \x7d".toList

/-- The response to a request whose path the translator refuses. -/
def respDenied (rid : Str) : Str :=
  "\x7b \"status\": \"error\", \"request_id\": \"".toList ++ rid
    ++ "\", \"error_message\": \"Access Denied / Invalid Session\" \x7d".toList

/-- The response of `dir_list`, around the list of entries. -/
def respDirList (rid list : Str) : Str :=
  "\x7b \"status\": \"success\", \"operation\": \"dir_list\", \"request_id\": \"".toList ++ rid
    ++ "\", \"data\": \x7b \"files\": ".toList ++ list ++ " \x7d \x7d".toList

/-- An error response that carries nothing but its message. -/
def respError (message : Str) : Str :=
  "\x7b \"status\": \"error\", \"error_message\": \"".toList ++ message ++ "\" \x7d".toList

/-- The response of a successful `file_read`. -/
def respContent (content : Str) : Str :=
  "\x7b \"status\": \"success\", \"operation\": \"file_read\", \"data\": \x7b \"content\": \"".toList
    ++ content ++ "\" \x7d \x7d".toList

/-- The response of a successful `file_delete` or `dir_delete`. -/
def respDeleted : Str :=
  "\x7b \"status\": \"success\", \"data\": \x7b \"message\": \"Deleted\" \x7d \x7d".toList

/-- The response of a successful `file_create`. -/
def respCreated (rid : Str) : Str :=
  "\x7b \"status\": \"success\", \"operation\": \"file_create\", \"request_id\": \"".toList ++ rid
    ++ "\", \"data\": \x7b \"message\": \"Created\" \x7d \x7d".toList

/-! ### The operations of `processRequest` -/

/-- The branch `user_login` (lines 368-380); `now` is the value of `std::time(nullptr)`. -/
def userLogin (now : Nat) (s : ServerState) (rid u p : Str) : Option (Str × ServerState) :=
  match s.userTree.search u with
  | some user =>
    if user.password_hash = simpleHash p then
      let new_sid := "sess_".toList ++ u ++ "_".toList ++ to_string now
      some (respLoginOk rid new_sid,
        { s with active_sessions := sessionStore s.active_sessions new_sid u })
    else some (respInvalidCredentials rid, s)
  | none => some (respInvalidCredentials rid, s)

/-- The loop over the user table of `user_create` (lines 393-404), `n` passes before its end and
`i` the loop variable: the offset of the first slot whose record has `username[0] == '\0'` or
`is_active == 0`. -/
def findUserSlot (L : Layout) (d : Disk) (u_start : Nat) : Nat → Nat → Option Nat
  | 0, _ => none
  | n + 1, i =>
    let off := u_start + i * L.sizeofUserInfo
    let temp := L.userOfBytes (d.read off L.sizeofUserInfo)
    if temp.username = [] ∨ temp.is_active = 0 then some off
    else findUserSlot L d u_start n (i + 1)

/-- The loops over a directory block that look for a free slot (lines 431-439 and 643-651), `n`
passes before the end and `k` the loop variable: the offset of the first slot whose entry has
`name[0] == '\0'`. -/
def findFreeSlot (L : Layout) (d : Disk) (base : Nat) : Nat → Nat → Option Nat
  | 0, _ => none
  | n + 1, k =>
    let off := base + k * L.sizeofFileEntry
    if (L.entryOfBytes (d.read off L.sizeofFileEntry)).name = [] then some off
    else findFreeSlot L d base n (k + 1)

/-- The loops over a directory block that look for a name (lines 556-566 and 590-600): the
offset of the first slot whose entry has `std::string(t.name) == name`. -/
def findNamedSlot (L : Layout) (d : Disk) (base : Nat) (name : Str) : Nat → Nat → Option Nat
  | 0, _ => none
  | n + 1, i =>
    let off := base + i * L.sizeofFileEntry
    if (L.entryOfBytes (d.read off L.sizeofFileEntry)).name = name then some off
    else findNamedSlot L d base name n (i + 1)

/-- The bound `int me = header.block_size / sizeof(FileEntry)` of the loops over a directory
block, as the number of passes. -/
def maxEntries (L : Layout) (s : ServerState) : Nat :=
  (toInt32 (s.header.block_size / L.sizeofFileEntry)).toNat

/-- Home provisioning of `user_create` (lines 410-445) for the user `u`. The entry written to the
block of `/home` is the local `userHome`, whose inode is 0: `addChild` numbers its own copy. The
entry holds of `u` what its fields `name` and `owner` have room for. -/
def provisionHome (L : Layout) (s : ServerState) (u : Str) : Option ServerState :=
  match resolvePathPtr s.fileTree "/home".toList with
  | none => some s
  | some hp =>
    match s.fileTree.node hp with
    | none => none
    | some homeNode =>
      match allocateBlocks s.blockManager 1 with
      | none => none
      | some (db, bm1) =>
        if db = -1 then some { s with blockManager := bm1 }
        else
          let d_blk := (db % 2 ^ 32).toNat
          let userHome : FileEntry :=
            { name := storedName L.nameCap u, type := EntryType.DIRECTORY, size := 0,
              permissions := 0o700, owner := storedName L.ownerCap u,
              inode := 0, parent_inode := homeNode.metadata.inode, start_block := d_blk }
          let disk1 := s.disk.write (d_blk * s.header.block_size) (List.replicate 4096 NUL)
          match addChild s.fileTree (some hp) userHome with
          | none => none
          | some (none, t1) => some { s with blockManager := bm1, disk := disk1, fileTree := t1 }
          | some (some _, t1) =>
            let h_off := homeNode.metadata.start_block * s.header.block_size
            let disk2 :=
              match findFreeSlot L disk1 h_off (maxEntries L s) 0 with
              | none => disk1
              | some off => disk1.write off (L.entryBytes userHome)
            some { s with blockManager := bm1, disk := disk2, fileTree := t1 }

/-- The branch `user_create` (lines 382-452). The record is
`UserInfo info(u, simpleHash(p), UserRole::NORMAL, std::time(nullptr))`, active; its username is
what the field has room for, while `search(u)` looks for the whole of `u`. The same object is
inserted into the index and written to the table. -/
def userCreate (L : Layout) (now : Nat) (s : ServerState) (rid u p : Str) :
    Option (Str × ServerState) :=
  match s.userTree.search u with
  | some _ => some (respUserExists rid, s)
  | none =>
    let info : UserInfo :=
      { username := storedName L.usernameCap u, password_hash := simpleHash p,
        role := UserRole.NORMAL, created_time := now, is_active := 1 }
    match findUserSlot L s.disk s.header.block_size s.header.max_users 0 with
    | none => some (respTableFull, s)
    | some off =>
      match s.userTree.insert info with
      | none => none
      | some userTree1 =>
        (provisionHome L { s with disk := s.disk.write off (L.userBytes info),
                                  userTree := userTree1 } u).map
          (fun s1 => (respUserCreated rid, s1))

/-- One object of the list of `user_list`. -/
def userItem (u : UserInfo) : Str :=
  "\x7b \"username\": \"".toList ++ u.username ++ "\", \"role\": ".toList
    ++ (if u.role = UserRole.ADMIN then "\"admin\"".toList else "\"user\"".toList)
    ++ " \x7d".toList

/-- The branch `user_list` (lines 454-463): the objects of all users, separated by `, `. -/
def userList (s : ServerState) (rid : Str) : Str :=
  respUserList rid
    ("[".toList ++ List.intercalate ", ".toList (s.userTree.getAllUsers.map userItem)
      ++ "]".toList)

/-- The write `u->is_active = 0` through the pointer `userTree.search(target)` returns: the
record of the node `searchRec` finds is changed in place. -/
def setInactiveRec : UserNode → Str → UserNode
  | .null, _ => .null
  | .node d l r h, username =>
    if d.username = username then .node { d with is_active := 0 } l r h
    else if username < d.username then .node d (setInactiveRec l username) r h
    else .node d l (setInactiveRec r username) h

/-- The loop over the user table of `user_delete` (lines 472-483): the offset and the record of
the first slot with `std::string(temp.username) == target`. -/
def findUserNamed (L : Layout) (d : Disk) (u_start : Nat) (target : Str) :
    Nat → Nat → Option (Nat × UserInfo)
  | 0, _ => none
  | n + 1, i =>
    let off := u_start + i * L.sizeofUserInfo
    let temp := L.userOfBytes (d.read off L.sizeofUserInfo)
    if temp.username = target then some (off, temp)
    else findUserNamed L d u_start target n (i + 1)

/-- The branch `user_delete` (lines 464-487). -/
def userDelete (L : Layout) (s : ServerState) (target : Str) : Option (Str × ServerState) :=
  match s.userTree.search target with
  | none => some (respInvalidTarget, s)
  | some u =>
    if u.username = "admin".toList then some (respInvalidTarget, s)
    else
      let disk1 :=
        match findUserNamed L s.disk s.header.block_size target s.header.max_users 0 with
        | none => s.disk
        | some (off, temp) => s.disk.write off (L.userBytes { temp with is_active := 0 })
      some (respUserDeleted,
        { s with userTree := { root := setInactiveRec s.userTree.root target }, disk := disk1 })

/-- The branch `get_stats` (lines 489-498); `free` and `total` are `uint32_t`, the two products
`uint64_t`. -/
def getStats (s : ServerState) : Str :=
  let free := getFreeBlocksCount s.blockManager
  let total := getTotalBlocks s.blockManager
  let fb := free * s.header.block_size % 2 ^ 64
  let ub := (total + 2 ^ 32 - free) % 2 ^ 32 * s.header.block_size % 2 ^ 64
  let counts :=
    match s.fileTree.root with
    | none => (0, 0)
    | some root => countEntries root (0, 0)
  respStats (to_string s.header.total_size) (to_string ub) (to_string fb)
    (to_string counts.1) (to_string counts.2)

/-- One object of the list of `dir_list`. -/
def fileItem (e : FileEntry) : Str :=
  "\x7b \"name\": \"".toList ++ e.name ++ "\", \"type\": ".toList
    ++ (if e.type = EntryType.DIRECTORY then "\"dir\"".toList else "\"file\"".toList)
    ++ " \x7d".toList

/-- The branch `dir_list` (lines 511-520). -/
def dirList (s : ServerState) (rid r_path : Str) : Str :=
  respDirList rid
    ("[".toList ++ List.intercalate ", ".toList ((listDirectory s.fileTree r_path).map fileItem)
      ++ "]".toList)

/-- The branch `file_read` (lines 522-540): `size` bytes are read at the start block and the
buffer, closed by a zero byte, is taken as a C string. -/
def fileRead (s : ServerState) (r_path : Str) : Option (Str × ServerState) :=
  match resolvePath s.fileTree r_path with
  | none => some (respError "File not found".toList, s)
  | some node =>
    if node.metadata.type = EntryType.DIRECTORY then some (respError "File not found".toList, s)
    else
      let offset := node.metadata.start_block * s.header.block_size
      let content := cstr (s.disk.read offset node.metadata.size ++ [NUL])
      some (respContent content, s)

/-- The block "Remove from Disk (Parent)" of `file_delete` and `dir_delete` (lines 551-569 and
585-603) for the node at `p`: the first slot of the block of the parent whose name is the name of
the node is overwritten with zero bytes. The root has no parent and nothing is written. -/
def clearSlot (L : Layout) (s : ServerState) (p : NodePtr) (node : FSNode) : Option Disk :=
  match parentPtr p with
  | none => some s.disk
  | some pp =>
    match s.fileTree.node pp with
    | none => none
    | some parent =>
      let po := parent.metadata.start_block * s.header.block_size
      match findNamedSlot L s.disk po node.metadata.name (maxEntries L s) 0 with
      | none => some s.disk
      | some off => some (s.disk.write off (List.replicate L.sizeofFileEntry NUL))

/-- The branch `file_delete` (lines 542-573). The value of `removeChild` is not looked at. -/
def fileDelete (L : Layout) (s : ServerState) (r_path : Str) : Option (Str × ServerState) :=
  match resolvePathPtr s.fileTree r_path with
  | none => some (respError "Not Found".toList, s)
  | some p =>
    match s.fileTree.node p with
    | none => none
    | some node =>
      let sb := node.metadata.start_block
      let bm1 :=
        if sb > 3 then
          freeBlocks s.blockManager (toInt32 sb) (toInt32 (node.metadata.size / 4096 + 1))
        else some s.blockManager
      match bm1, clearSlot L s p node, removeChild s.fileTree (parentPtr p) node.metadata.name with
      | some bm1, some disk1, some (_, t1) =>
        some (respDeleted, { s with blockManager := bm1, disk := disk1, fileTree := t1 })
      | _, _, _ => none

/-- The branch `dir_delete` (lines 574-607). -/
def dirDelete (L : Layout) (s : ServerState) (r_path : Str) : Option (Str × ServerState) :=
  match resolvePathPtr s.fileTree r_path with
  | none => some (respError "Not Found".toList, s)
  | some p =>
    match s.fileTree.node p with
    | none => none
    | some node =>
      if node.metadata.type ≠ EntryType.DIRECTORY then some (respError "Not a dir".toList, s)
      else if node.children.isEmpty = false then
        some (respError "Directory not empty".toList, s)
      else
        let db := node.metadata.start_block
        let bm1 := if db > 3 then freeBlocks s.blockManager (toInt32 db) 1 else some s.blockManager
        match bm1, clearSlot L s p node,
            removeChild s.fileTree (parentPtr p) node.metadata.name with
        | some bm1, some disk1, some (_, t1) =>
          some (respDeleted, { s with blockManager := bm1, disk := disk1, fileTree := t1 })
        | _, _, _ => none

/-- `r_path.substr(0, ls)` with `ls = r_path.find_last_of('/')`: with `ls = npos` the whole of
`r_path`. -/
def parentPath (r_path : Str) : Str :=
  match findLastOf r_path '/' with
  | none => r_path
  | some ls => r_path.take ls

/-- `r_path.substr(ls + 1)` with `ls = r_path.find_last_of('/')`: `npos + 1` is 0, so with
`ls = npos` the whole of `r_path`. -/
def fileName (r_path : Str) : Str :=
  match findLastOf r_path '/' with
  | none => r_path
  | some ls => r_path.drop (ls + 1)

/-- The entry `nf` of `file_create` (line 625) with the start block copied into its reserved
bytes; `active_sessions[sid]` reads the entry the translator has found. The entry holds of
`fname` and of the owner what its fields `name` and `owner` have room for. -/
def createEntry (L : Layout) (s : ServerState) (sid fname content type_str : Str)
    (parent : FSNode) (s_b : Nat) : FileEntry :=
  { name := storedName L.nameCap fname
    type := if type_str = "dir".toList then EntryType.DIRECTORY else EntryType.FILE
    size := content.length, permissions := 0o600
    owner := storedName L.ownerCap ((s.active_sessions.lookup sid).getD [])
    inode := 0, parent_inode := parent.metadata.inode, start_block := s_b }

/-- The writes of `file_create` after `addChild` has returned a node (lines 630-652): the content
(or a zeroed directory block) at the start block, then the entry into the first free slot of the
block of the parent. -/
def createDisk (L : Layout) (s : ServerState) (content type_str : Str) (parent : FSNode)
    (nf : FileEntry) : Disk :=
  let disk1 :=
    if type_str ≠ "dir".toList then
      s.disk.write (nf.start_block * s.header.block_size) content
    else s.disk.write (nf.start_block * s.header.block_size) (List.replicate 4096 NUL)
  let po := parent.metadata.start_block * s.header.block_size
  match findFreeSlot L disk1 po (maxEntries L s) 0 with
  | none => disk1
  | some off => disk1.write off (L.entryBytes nf)

/-- The branch `file_create` (lines 609-660). -/
def fileCreate (L : Layout) (s : ServerState) (rid sid r_path content type_str : Str) :
    Option (Str × ServerState) :=
  match resolvePathPtr s.fileTree (parentPath r_path) with
  | none => some (respError "Parent not found".toList, s)
  | some pp =>
    match s.fileTree.node pp with
    | none => none
    | some parent =>
      let blks := toInt32 (content.length / 4096 + 1)
      match allocateBlocks s.blockManager blks with
      | none => none
      | some (sb, bm1) =>
        if sb = -1 then some (respError "Disk full".toList, { s with blockManager := bm1 })
        else
          let nf := createEntry L s sid (fileName r_path) content type_str parent
            (sb % 2 ^ 32).toNat
          match addChild s.fileTree (some pp) nf with
          | none => none
          | some (none, t1) =>
            some (respError "Exists".toList, { s with blockManager := bm1, fileTree := t1 })
          | some (some _, t1) =>
            some (respCreated rid,
              { s with blockManager := bm1, disk := createDisk L s content type_str parent nf,
                       fileTree := t1 })

/-- `OFSServer::processRequest` on a request with the fields `req`: the response written to the
socket and the state afterwards. `now` is the value `std::time(nullptr)` has during the call. -/
def processRequest (L : Layout) (now : Nat) (s : ServerState) (req : Request) :
    Option (Str × ServerState) :=
  let op := req.operation
  let rid := req.request_id
  let sid := req.session_id
  if op = "user_login".toList then userLogin now s rid req.username req.password
  else if op = "user_create".toList then userCreate L now s rid req.username req.password
  else if op = "user_list".toList then some (userList s rid, s)
  else if op = "user_delete".toList then userDelete L s req.username
  else if op = "get_stats".toList then some (getStats s, s)
  else
    let r_path := translatePath s.active_sessions req.path sid
    if r_path = [] then some (respDenied rid, s)
    else if op = "dir_list".toList then some (dirList s rid r_path, s)
    else if op = "file_read".toList then fileRead s r_path
    else if op = "file_delete".toList then fileDelete L s r_path
    else if op = "dir_delete".toList then dirDelete L s r_path
    else if op = "file_create".toList then fileCreate L s rid sid r_path req.data req.type
    else if op = "dir_create".toList then
      some (respError "Use file_create with type=dir".toList, s)
    else some (respError "Unknown OP".toList, s)

/-- The header `init` builds for a new volume (lines 153-159). -/
def formatHeader : OMNIHeader :=
  { magic := "OMNIFS01".toList, format_version := 0x00010000, total_size := 104857600,
    header_size := 512, block_size := 4096, user_table_offset := 4096 * 1, max_users := 50 }

/-- The record `UserInfo admin("admin", "8c6976e5b5410415bde908bd4dee15df", UserRole::ADMIN,
std::time(nullptr))` of `init` (line 161), active. -/
def adminInfo (now : Nat) : UserInfo :=
  { username := "admin".toList, password_hash := "8c6976e5b5410415bde908bd4dee15df".toList,
    role := UserRole.ADMIN, created_time := now, is_active := 1 }

/-- The entry `FileEntry homeDir("home", EntryType::DIRECTORY, 0, 0755, "admin", 0, root.inode)`
of `init` (lines 168-171) with block 3 copied into its reserved bytes. -/
def homeDirEntry : FileEntry :=
  { name := "home".toList, type := EntryType.DIRECTORY, size := 0, permissions := 0o755,
    owner := "admin".toList, inode := 0, parent_inode := rootDirEntry.inode, start_block := 3 }

/-- The bytes of the volume after the writes of `init` (lines 175-195). A file that is created is
empty and the last write extends it to `total_size` bytes, so every byte that is not written is
zero. -/
def formatDisk (L : Layout) (now : Nat) : Disk :=
  let disk0 : Disk := fun _ => NUL
  let disk1 := disk0.write 0 (L.headerBytes formatHeader)
  let disk2 := disk1.write formatHeader.user_table_offset (L.userBytes (adminInfo now))
  let disk3 := disk2.write (formatHeader.block_size * 2) (L.entryBytes homeDirEntry)
  let disk4 := disk3.write (formatHeader.block_size * 2 + L.sizeofFileEntry)
    (List.replicate (4096 - L.sizeofFileEntry) NUL)
  let disk5 := disk4.write (formatHeader.block_size * 3) (List.replicate 4096 NUL)
  disk5.write (formatHeader.total_size - 1) [NUL]

/-- `OFSServer::init`, the branch that formats a new volume (lines 149-209): the state it leaves
(`now` is the value of `std::time(nullptr)`). -/
def formatVolume (L : Layout) (now : Nat) : Option ServerState :=
  (UserAVLTree.empty.insert (adminInfo now)).bind fun userTree =>
  (addChild (setRoot FileSystemTree.new rootDirEntry) (some []) homeDirEntry).bind fun r =>
  formatBlockManager.bind fun bm =>
    some { header := formatHeader, userTree := userTree, fileTree := r.2,
           blockManager := bm, active_sessions := [], disk := formatDisk L now }

/-- The state of the server on a freshly formatted volume: the index holds `admin`, the tree the
root and `home` (inode 1), and blocks 0 to 3 are used. -/
def freshState (L : Layout) (now : Nat) : ServerState :=
  { header := formatHeader
    userTree := { root := .node (adminInfo now) .null .null 1 }
    fileTree :=
      { root := some (.mk rootDirEntry [.mk { homeDirEntry with inode := 1 } []])
        next_inode_counter := 2 }
    blockManager :=
      { bitmap := [true, true, true, true] ++ List.replicate 25596 false,
        total_blocks := 25600, used_blocks_count := 4 }
    active_sessions := []
    disk := formatDisk L now }

/-- The states of the server reachable from a freshly formatted volume by requests. A request is
a step when its execution is defined. -/
inductive Reach (L : Layout) : ServerState → Prop
  | format (now : Nat) {s : ServerState} : formatVolume L now = some s → Reach L s
  | step (now : Nat) (req : Request) (resp : Str) {s s1 : ServerState} :
      Reach L s → processRequest L now s req = some (resp, s1) → Reach L s1

/-- The invariant of the allocator of the server: a well-formed state of 25600 blocks whose
blocks 0 to 3 are used. -/
def AllocInv (bm : BlockManager) : Prop :=
  bm.WF ∧ bm.total_blocks = 25600 ∧ ∀ j, j < 4 → bm.bitmap[j]? = some true

/-- The invariant of the states of the server: the invariant of the allocator, a balanced and
ordered user index, start blocks inside the volume, and the block size of the format. -/
structure ServerInv (s : ServerState) : Prop where
  alloc : AllocInv s.blockManager
  avl : AVL s.userTree.root
  sorted : SortedByName (inorderRec s.userTree.root)
  blocks : ∀ n ∈ s.fileTree.nodes, n.metadata.start_block < 25600
  block_size : s.header.block_size = 4096

/-! ### A layout and states for the examples -/

/-- A string in a field of `n` bytes, zero padded (and cut when it is longer). -/
def padTo (n : Nat) (s : Str) : List Char := (s ++ List.replicate n NUL).take n

/-- A layout for the examples, holding what `processRequest` reads back from the volume: a
directory entry is its name in a field of 16 bytes, a user record is its name in a field of 16
bytes followed by one byte for the active flag, the header is its magic. -/
def demoLayout : Layout :=
  { sizeofOMNIHeader := 8
    sizeofUserInfo := 17
    sizeofFileEntry := 16
    headerBytes := fun h => padTo 8 h.magic
    userBytes := fun u => padTo 16 u.username ++ [if u.is_active = 0 then NUL else Char.ofNat 1]
    userOfBytes := fun bs =>
      { username := cstr (bs.take 16), password_hash := [], role := UserRole.NORMAL,
        created_time := 0, is_active := if bs.getD 16 NUL = NUL then 0 else 1 }
    entryBytes := fun e => padTo 16 e.name
    entryOfBytes := fun bs =>
      { name := cstr (bs.take 16), type := EntryType.FILE, size := 0, permissions := 0,
        owner := [], inode := 0, parent_inode := 0, start_block := 0 }
    usernameCap := 16
    nameCap := 16
    ownerCap := 16
    admin_fits := by decide
    home_fits := by decide
    username_whole := by
      intro u h
      rw [← h]
      exact le_trans (List.takeWhile_prefix _).length_le (List.length_take_le _ _) }

/-- The session id `user_login` mints for `admin` at the time `now`. -/
def adminSid (now : Nat) : Str :=
  "sess_".toList ++ "admin".toList ++ "_".toList ++ to_string now

/-- The state of the server after `admin` has logged in at the time `now1` on a volume formatted
at the time `now`. -/
def adminState (L : Layout) (now now1 : Nat) : ServerState :=
  { freshState L now with active_sessions := [(adminSid now1, "admin".toList)] }

/-- The request `user_login` of `admin` with the password of the format. -/
def adminLogin : Request :=
  { operation := "user_login".toList, request_id := "0".toList, session_id := [],
    username := "admin".toList, password := "admin123".toList, path := [], data := [],
    type := [] }

/-- A request of `admin` on a path: the session is the one minted at the time `now1`. -/
def adminRequest (now1 : Nat) (operation path data type : Str) : Request :=
  { operation := operation, request_id := "1".toList, session_id := adminSid now1,
    username := [], password := [], path := path, data := data, type := type }





/-- The states the server reaches from a state by requests whose execution is defined. -/
inductive Steps (L : Layout) : ServerState → ServerState → Prop
  | refl (s : ServerState) : Steps L s s
  | step (now : Nat) (req : Request) (resp : Str) {s s1 s2 : ServerState} :
      Steps L s s1 → processRequest L now s1 req = some (resp, s2) → Steps L s s2

/-- The session id `user_login` mints for the user `u` at the time `now`. -/
def mintSid (u : Str) (now : Nat) : Str :=
  "sess_".toList ++ u ++ "_".toList ++ to_string now

/-- A request about an account (`user_create`, `user_login`, `user_delete`): the operation, the
request id, the username and the password. -/
def accountRequest (operation rid u p : Str) : Request :=
  { operation := operation, request_id := rid, session_id := [], username := u, password := p,
    path := [], data := [], type := [] }



/-- The names in the occupied slots of the directory block at the start block of the node `n`:
the names of the entries read from the slots of the block that are not empty. A slot is occupied
when the first byte of its name is not zero. -/
def slotNames (L : Layout) (s : ServerState) (n : FSNode) : List Str :=
  ((List.range (maxEntries L s)).map (fun k =>
    (L.entryOfBytes (s.disk.read
      (n.metadata.start_block * s.header.block_size + k * L.sizeofFileEntry)
      L.sizeofFileEntry)).name)).filter (fun name => decide (name ≠ []))

/-- Tree/disk agreement, in the words of the specification: for every directory node of the tree
the names in the occupied slots of its block are the names of its children, as sets. -/
def TreeDiskAgree (L : Layout) (s : ServerState) : Prop :=
  ∀ n ∈ s.fileTree.nodes, n.metadata.type = EntryType.DIRECTORY →
    (∀ name ∈ slotNames L s n, name ∈ n.children.map (fun c => c.metadata.name)) ∧
    (∀ name ∈ n.children.map (fun c => c.metadata.name), name ∈ slotNames L s n)

/-- The value of a string of decimal digits, read from the left. -/
def digitsValue (l : List Char) : Nat :=
  l.foldl (fun acc c => acc * 10 + (c.toNat - 48)) 0

/-- A request as the accept loop queues it (`ClientRequest`): the socket and the payload. -/
structure ClientRequest where
  client_socket : Int
  json_payload : Str
deriving DecidableEq, Repr

/-- The state of `run` and `worker` between two critical sections: the member `requestQueue`
(the front is the head of the list), the local `req` of the worker when `has_req` is set, and
two histories, the requests in the order of their `push` and in the order of their
`processRequest` calls. -/
structure RunState where
  requestQueue : List ClientRequest
  req : Option ClientRequest
  enqueued : List ClientRequest
  dispatched : List ClientRequest

/-- The state when `run` starts the worker: nothing queued, nothing dispatched. -/
def RunState.start : RunState :=
  { requestQueue := [], req := none, enqueued := [], dispatched := [] }

/-- The critical section of the accept loop (lines 331-332): `requestQueue.push(r)` under
`queue_mutex`. -/
def RunState.push (st : RunState) (r : ClientRequest) : RunState :=
  { st with requestQueue := st.requestQueue ++ [r], enqueued := st.enqueued ++ [r] }

/-- The critical section of the worker (lines 343-349) under `queue_mutex`: with a request in
the queue, `req = requestQueue.front(); requestQueue.pop(); has_req = true`; with an empty queue
nothing changes and the worker sleeps. -/
def RunState.take (st : RunState) : RunState :=
  match st.requestQueue with
  | [] => st
  | r :: rest => { st with requestQueue := rest, req := some r }

/-- The worker outside the critical section with `has_req` set (lines 351-353):
`processRequest(req)`, after which it returns to the head of its loop. -/
def RunState.process (st : RunState) : RunState :=
  match st.req with
  | none => st
  | some r => { st with req := none, dispatched := st.dispatched ++ [r] }

/-- The interleavings of the accept thread and the worker thread: the mutex makes each critical
section one step; the worker enters its critical section only from the head of its loop, where
it holds no request. -/
inductive RunReach : RunState → Prop
  | start : RunReach RunState.start
  | push (r : ClientRequest) {st : RunState} : RunReach st → RunReach (st.push r)
  | take {st : RunState} : RunReach st → st.req = none → RunReach st.take
  | process {st : RunState} : RunReach st → RunReach st.process



/-- The entry `userHome` of `user_create` (line 414) with the block `d_blk` copied into its
reserved bytes. -/
def userHomeEntry (L : Layout) (u : Str) (homeNode : FSNode) (d_blk : Nat) : FileEntry :=
  { name := storedName L.nameCap u, type := EntryType.DIRECTORY, size := 0,
    permissions := 0o700, owner := storedName L.ownerCap u,
    inode := 0, parent_inode := homeNode.metadata.inode, start_block := d_blk }

/-- The root of the tree has a child that is a directory named `home` with the start block 3. -/
def HasHome (s : ServerState) : Prop :=
  ∃ root, s.fileTree.root = some root ∧
    ∃ c ∈ root.children, c.metadata.name = "home".toList ∧
      c.metadata.type = EntryType.DIRECTORY ∧ c.metadata.start_block = 3

/-- The request is a `file_delete` or a `dir_delete` whose translated path resolves to a child
of the root that is a directory named `home` and has no children: the deletes that take the
directory `home` out of the tree. A delete of `home` while it has a child is not among them:
`dir_delete` answers `Directory not empty` and `removeChild` refuses for `file_delete`. -/
def DeletesHome (s : ServerState) (req : Request) : Prop :=
  (req.operation = "file_delete".toList ∨ req.operation = "dir_delete".toList) ∧
  ∃ i node,
    resolvePathPtr s.fileTree (translatePath s.active_sessions req.path req.session_id)
      = some [i] ∧
    s.fileTree.node [i] = some node ∧ node.metadata.name = "home".toList ∧
    node.metadata.type = EntryType.DIRECTORY ∧ node.children = []

/-- The states of the server reachable from a freshly formatted volume by requests none of
which is a delete that resolves to the directory `home` of the root while it has no
children. -/
inductive ReachKeepingHome (L : Layout) : ServerState → Prop
  | format (now : Nat) {s : ServerState} : formatVolume L now = some s → ReachKeepingHome L s
  | step (now : Nat) (req : Request) (resp : Str) {s s1 : ServerState} :
      ReachKeepingHome L s → ¬ DeletesHome s req →
      processRequest L now s req = some (resp, s1) → ReachKeepingHome L s1

/-- A request on a path under a session: `dir_list`, `file_read`, `file_delete`, ... -/
def pathRequest (operation rid sid path : Str) : Request :=
  { operation := operation, request_id := rid, session_id := sid, username := [], password := [],
    path := path, data := [], type := [] }

/-- The values of `fc` and `dc` after the call `countEntries(fileTree.getRoot(), fc, dc)` of
`get_stats` (lines 495-496). -/
def statsCounts (s : ServerState) : Nat × Nat :=
  match s.fileTree.root with
  | none => (0, 0)
  | some root => countEntries root (0, 0)

/-- The number of `FILE` nodes in the entire tree, as the specification counts files. -/
def fileCountSpec (t : FileSystemTree) : Nat :=
  (t.nodes.filter (fun n => decide (n.metadata.type = EntryType.FILE))).length

/-- The number of `DIRECTORY` nodes in the entire tree other than the root, as the specification
counts directories. -/
def dirCountSpec (t : FileSystemTree) : Nat :=
  match t.root with
  | none => 0
  | some root =>
    ((nodesL root.children).filter
      (fun n => decide (n.metadata.type = EntryType.DIRECTORY))).length

/-- Modelled from the spec: what the claims use of the layout of a user record (section 3, "User
record" and "User table"). A record occupies `sizeof(UserInfo)` bytes and the table of
`max_users` = 50 records occupies block 1; a slot of zero bytes reads as a record without a
name and with the active flag 0; a record whose username fits the username field (at most `cap`
characters, none a zero byte) and whose active flag is 0 or 1 is read back from its bytes with
the same username, active flag and role; the name `admin` fits. -/
structure Layout.UserLawful (L : Layout) (cap : Nat) : Prop where
  user_len : ∀ u : UserInfo, (L.userBytes u).length = L.sizeofUserInfo
  table_fits : 50 * L.sizeofUserInfo ≤ 4096
  zero_name : (L.userOfBytes (List.replicate L.sizeofUserInfo NUL)).username = []
  zero_active : (L.userOfBytes (List.replicate L.sizeofUserInfo NUL)).is_active = 0
  round_trip : ∀ u : UserInfo, u.username.length ≤ cap → NUL ∉ u.username → u.is_active ≤ 1 →
    (L.userOfBytes (L.userBytes u)).username = u.username ∧
    (L.userOfBytes (L.userBytes u)).is_active = u.is_active ∧
    (L.userOfBytes (L.userBytes u)).role = u.role
  admin_fits : 5 ≤ cap

/-- Modelled from the spec: what the claims use of the layout of the header (section 3, "Volume
header": a fixed-size record at offset 0, the user table occupies block 1). The header occupies
`sizeof(OMNIHeader)` bytes, which lie in block 0. -/
structure Layout.HeaderLawful (L : Layout) : Prop where
  header_len : ∀ h : OMNIHeader, (L.headerBytes h).length = L.sizeofOMNIHeader
  header_fits : L.sizeofOMNIHeader ≤ 4096

/-- The bytes of an unsigned value in a field of `w` bytes, the low byte first. -/
def natBytes (w n : Nat) : List Char :=
  (List.range w).map (fun i => Char.ofNat (n / 256 ^ i % 256))

/-- The unsigned value of a field of bytes, the low byte first. -/
def bytesNat (bs : List Char) : Nat :=
  bs.foldr (fun c acc => c.toNat + 256 * acc) 0

/-- The `w` bytes of a record from the offset `off` on. -/
def field (bs : List Char) (off w : Nat) : List Char := (bs.drop off).take w

/-- A layout for the examples that keeps every field. A user record is its name in a field of 16
bytes, the active flag (1 byte), the role (1 byte), the creation time (8 bytes) and the password
hash in a field of 33 bytes; a directory entry is its name in a field of 16 bytes, the type
(1 byte), the size (8 bytes), the permissions (4 bytes), the owner in a field of 16 bytes, the
inode, the parent inode and the start block (4 bytes each); the header is the magic (8 bytes),
the format version (4 bytes), the total size, the header size, the block size and the offset of
the user table (8 bytes each) and the number of users (4 bytes). -/
def fullLayout : Layout :=
  { sizeofOMNIHeader := 48
    sizeofUserInfo := 59
    sizeofFileEntry := 57
    headerBytes := fun h =>
      padTo 8 h.magic ++ natBytes 4 h.format_version ++ natBytes 8 h.total_size
        ++ natBytes 8 h.header_size ++ natBytes 8 h.block_size
        ++ natBytes 8 h.user_table_offset ++ natBytes 4 h.max_users
    userBytes := fun u =>
      padTo 16 u.username
        ++ (Char.ofNat (u.is_active % 256) ::
            (if u.role = UserRole.ADMIN then Char.ofNat 1 else Char.ofNat 2) ::
            (natBytes 8 u.created_time ++ padTo 33 u.password_hash))
    userOfBytes := fun bs =>
      { username := cstr (bs.take 16)
        password_hash := cstr (field bs 26 33)
        role := if bs.getD 17 NUL = Char.ofNat 1 then UserRole.ADMIN else UserRole.NORMAL
        created_time := bytesNat (field bs 18 8)
        is_active := (bs.getD 16 NUL).toNat }
    entryBytes := fun e =>
      padTo 16 e.name
        ++ ((if e.type = EntryType.DIRECTORY then Char.ofNat 1 else Char.ofNat 2) ::
            (natBytes 8 e.size ++ natBytes 4 e.permissions ++ padTo 16 e.owner
              ++ natBytes 4 e.inode ++ natBytes 4 e.parent_inode ++ natBytes 4 e.start_block))
    entryOfBytes := fun bs =>
      { name := cstr (bs.take 16)
        type := if bs.getD 16 NUL = Char.ofNat 1 then EntryType.DIRECTORY else EntryType.FILE
        size := bytesNat (field bs 17 8)
        permissions := bytesNat (field bs 25 4)
        owner := cstr (field bs 29 16)
        inode := bytesNat (field bs 45 4)
        parent_inode := bytesNat (field bs 49 4)
        start_block := bytesNat (field bs 53 4) }
    usernameCap := 16
    nameCap := 16
    ownerCap := 16
    admin_fits := by decide
    home_fits := by decide
    username_whole := by
      intro u h
      rw [← h]
      exact le_trans (List.takeWhile_prefix _).length_le (List.length_take_le _ _) }

/-- Reading the header of the layout `fullLayout` from its bytes. -/
def fullHeaderOfBytes (bs : List Char) : OMNIHeader :=
  { magic := cstr (bs.take 8)
    format_version := bytesNat (field bs 8 4)
    total_size := bytesNat (field bs 12 8)
    header_size := bytesNat (field bs 20 8)
    block_size := bytesNat (field bs 28 8)
    user_table_offset := bytesNat (field bs 36 8)
    max_users := bytesNat (field bs 44 4) }

/-- A username that the username field of a user record holds whole: at most `cap` characters,
none of them the zero byte. No field of a request holds a zero byte, the payload being
`std::string(buffer)` (line 325). -/
def FitsName (cap : Nat) (u : Str) : Prop := u.length ≤ cap ∧ NUL ∉ u

/-- The states of the server reachable from a freshly formatted volume by `user_create` and
`user_delete` requests, the username of every `user_create` satisfying `fits`. -/
inductive ReachAccounts (L : Layout) (fits : Str → Prop) : ServerState → Prop
  | format (now : Nat) {s : ServerState} : formatVolume L now = some s → ReachAccounts L fits s
  | create (now : Nat) (req : Request) (resp : Str) {s s1 : ServerState} :
      ReachAccounts L fits s → req.operation = "user_create".toList → fits req.username →
      processRequest L now s req = some (resp, s1) → ReachAccounts L fits s1
  | delete (now : Nat) (req : Request) (resp : Str) {s s1 : ServerState} :
      ReachAccounts L fits s → req.operation = "user_delete".toList →
      processRequest L now s req = some (resp, s1) → ReachAccounts L fits s1

/-- The record in slot `i` of the user table of a volume with the header `h`: the
`sizeof(UserInfo)` bytes at `user_table_offset + i * sizeof(UserInfo)`. -/
def userSlot (L : Layout) (h : OMNIHeader) (d : Disk) (i : Nat) : UserInfo :=
  L.userOfBytes (d.read (h.user_table_offset + i * L.sizeofUserInfo) L.sizeofUserInfo)

/-- The user table on the volume has at most one slot with the active flag 1 for each
username. -/
def UserTableUnique (L : Layout) (s : ServerState) : Prop :=
  ∀ i j, i < s.header.max_users → j < s.header.max_users →
    (userSlot L s.header s.disk i).is_active = 1 →
    (userSlot L s.header s.disk j).is_active = 1 →
    (userSlot L s.header s.disk i).username = (userSlot L s.header s.disk j).username → i = j

/-- The user table on the volume holds an active record with the username `admin` and the role
`ADMIN`. -/
def AdminOnDisk (L : Layout) (s : ServerState) : Prop :=
  ∃ i, i < s.header.max_users ∧
    (userSlot L s.header s.disk i).username = "admin".toList ∧
    (userSlot L s.header s.disk i).is_active = 1 ∧
    (userSlot L s.header s.disk i).role = UserRole.ADMIN

/-- The invariant of the user table of a volume `d` with the header of the format, beside the
index `t`: the name of every slot fits the username field and its flag is 0 or 1, the name of
an active slot is in the index, no two active slots have the same name, and slot 0 holds the
active record of `admin`. -/
structure TableInv (L : Layout) (cap : Nat) (d : Disk) (t : UserAVLTree) : Prop where
  fits : ∀ i, i < 50 → FitsName cap (userSlot L formatHeader d i).username ∧
    (userSlot L formatHeader d i).is_active ≤ 1
  known : ∀ i, i < 50 → (userSlot L formatHeader d i).is_active = 1 →
    (t.search (userSlot L formatHeader d i).username).isSome = true
  unique : ∀ i j, i < 50 → j < 50 → (userSlot L formatHeader d i).is_active = 1 →
    (userSlot L formatHeader d j).is_active = 1 →
    (userSlot L formatHeader d i).username = (userSlot L formatHeader d j).username → i = j
  admin : (userSlot L formatHeader d 0).username = "admin".toList ∧
    (userSlot L formatHeader d 0).is_active = 1 ∧
    (userSlot L formatHeader d 0).role = UserRole.ADMIN

/-- The loop `Load Users` of `loadFileSystem` (lines 234-241), `n` passes before its end and `i`
the loop variable. The records are read one after the other from `user_table_offset`; a record
with `u.is_active && u.username[0] != '\0'` is inserted into the index. -/
def loadUsers (L : Layout) (d : Disk) (u_start : Nat) :
    Nat → Nat → UserAVLTree → Option UserAVLTree
  | 0, _, t => some t
  | n + 1, i, t =>
    let u := L.userOfBytes (d.read (u_start + i * L.sizeofUserInfo) L.sizeofUserInfo)
    if u.is_active ≠ 0 ∧ u.username ≠ [] then
      (t.insert u).bind (loadUsers L d u_start n (i + 1))
    else loadUsers L d u_start n (i + 1) t

/-- The inner loop of `loadFileSystem` over the block of `home` (lines 265-276), `n` passes
before its end and `j` the loop variable: an entry with `name[0] != '\0'` is added below
`child`, and its start block `ub` is marked used when `ub > 3`. -/
def loadHomeLoop (L : Layout) (d : Disk) (base : Nat) (child : NodePtr) :
    Nat → Nat → FileSystemTree × BlockManager → Option (FileSystemTree × BlockManager)
  | 0, _, st => some st
  | n + 1, j, st =>
    let userDir := L.entryOfBytes (d.read (base + j * L.sizeofFileEntry) L.sizeofFileEntry)
    if userDir.name ≠ [] then
      (addChild st.1 (some child) userDir).bind fun r =>
        if userDir.start_block > 3 then
          (markUsed st.2 (toInt32 userDir.start_block) 1).bind fun bm1 =>
            loadHomeLoop L d base child n (j + 1) (r.2, bm1)
        else loadHomeLoop L d base child n (j + 1) (r.2, st.2)
    else loadHomeLoop L d base child n (j + 1) st

/-- The loop of `loadFileSystem` over the block of the root (lines 251-281), `n` passes before
its end and `i` the loop variable; `max_entries` is the bound of the inner loop. An entry with
`name[0] != '\0'` is added below the root; when it was added and its name is `home`, the
entries of its block `h_block` are loaded below it. The reads follow one another, the position
being saved and restored around the inner loop. -/
def loadRootLoop (L : Layout) (d : Disk) (blk_size max_entries : Nat) :
    Nat → Nat → FileSystemTree × BlockManager → Option (FileSystemTree × BlockManager)
  | 0, _, st => some st
  | n + 1, i, st =>
    let entry := L.entryOfBytes
      (d.read (2 * blk_size + i * L.sizeofFileEntry) L.sizeofFileEntry)
    if entry.name ≠ [] then
      (addChild st.1 (some []) entry).bind fun r =>
        match r.1 with
        | some child =>
          if entry.name = "home".toList then
            (loadHomeLoop L d (entry.start_block * blk_size) child max_entries 0
              (r.2, st.2)).bind (loadRootLoop L d blk_size max_entries n (i + 1))
          else loadRootLoop L d blk_size max_entries n (i + 1) (r.2, st.2)
        | none => loadRootLoop L d blk_size max_entries n (i + 1) (r.2, st.2)
    else loadRootLoop L d blk_size max_entries n (i + 1) st

/-- `OFSServer::loadFileSystem` (lines 217-286) on a server that has just been constructed,
the volume file holding the bytes `d`; `headerOfBytes` fills an `OMNIHeader` with
`sizeof(OMNIHeader)` bytes. The result is `some none` when the magic is refused (nothing is
loaded) and `some (some s)` with the state `s` that was built; `none` is undefined behaviour.
`strncmp(header.magic, "OMNIFS01", 8)` compares the first 8 characters; the argument of
`new BlockManager` is converted to `uint32_t` and `max_entries` is an `int`. -/
def loadFileSystem (L : Layout) (headerOfBytes : List Char → OMNIHeader) (d : Disk) :
    Option (Option ServerState) :=
  let header := headerOfBytes (d.read 0 L.sizeofOMNIHeader)
  if header.magic.take 8 ≠ "OMNIFS01".toList then some none
  else
    let blk_size := if header.block_size > 0 then header.block_size else 4096
    ((BlockManager.new (header.total_size / blk_size % 2 ^ 32)).bind
        (fun bm0 => markUsed bm0 0 4)).bind fun bm =>
    (loadUsers L d header.user_table_offset header.max_users 0 UserAVLTree.empty).bind
      fun userTree =>
    let max_entries := (toInt32 (blk_size / L.sizeofFileEntry)).toNat
    (loadRootLoop L d blk_size max_entries max_entries 0
        (setRoot FileSystemTree.new rootDirEntry, bm)).bind fun r =>
    some (some { header := header, userTree := userTree, fileTree := r.1,
                 blockManager := r.2, active_sessions := [], disk := d })

/-- The height of a subtree as the claim words it ("the true height of its subtree"): 0 for
`nullptr`, one more than the higher of the two subtrees for a node. The stored field `height`
is not read. -/
def trueHeight : UserNode → Nat
  | .null => 0
  | .node _ l r _ => 1 + max (trueHeight l) (trueHeight r)

/-- A binary search tree on `username`, as the claim words it: at every node the usernames of
the left subtree are less than the username of the node and those of the right subtree
greater. -/
def IsBST : UserNode → Prop
  | .null => True
  | .node d l r _ =>
    IsBST l ∧ IsBST r ∧ (∀ x ∈ inorderRec l, x.username < d.username) ∧
      (∀ x ∈ inorderRec r, d.username < x.username)

/-- Every node's stored `height` field is the height of its subtree. -/
def HeightsStored : UserNode → Prop
  | .null => True
  | .node d l r h =>
    HeightsStored l ∧ HeightsStored r ∧ h = (trueHeight (.node d l r h) : Int)

/-- At every node the heights of the left and the right subtree differ by at most 1. -/
def Balanced : UserNode → Prop
  | .null => True
  | .node _ l r _ =>
    Balanced l ∧ Balanced r ∧ trueHeight l ≤ trueHeight r + 1 ∧
      trueHeight r ≤ trueHeight l + 1

/-- A tree for the examples: the root, `home` below it, the home directory of `bob` below
`home`, and the file `notes` in it. -/
def jailTree : FileSystemTree :=
  { root := some (.mk rootDirEntry
      [.mk { homeDirEntry with inode := 1 }
        [.mk { name := "bob".toList, type := EntryType.DIRECTORY, size := 0, permissions := 0o700,
               owner := "bob".toList, inode := 2, parent_inode := 1, start_block := 4 }
          [.mk { name := "notes".toList, type := EntryType.FILE, size := 5, permissions := 0o600,
                 owner := "bob".toList, inode := 3, parent_inode := 2, start_block := 5 } []]]])
    next_inode_counter := 4 }



theorem storedName_length (cap : Nat) (u : Str) : (storedName cap u).length ≤ cap :=
  le_trans (List.takeWhile_prefix _).length_le (List.length_take_le _ _)

theorem storedName_nul (cap : Nat) (u : Str) : NUL ∉ storedName cap u := by
  intro h
  have h1 := List.mem_takeWhile_imp h
  simp at h1

theorem storedName_fits (cap : Nat) (u : Str) : FitsName cap (storedName cap u) :=
  ⟨storedName_length cap u, storedName_nul cap u⟩

theorem storedName_of_fits {cap : Nat} {u : Str} (h : FitsName cap u) :
    storedName cap u = u := by
  unfold storedName cstr
  rw [List.take_of_length_le h.1, List.takeWhile_eq_self_iff]
  intro x hx
  have hne : x ≠ NUL := fun e => h.2 (e ▸ hx)
  simpa using hne

theorem storedName_idem (cap : Nat) (u : Str) :
    storedName cap (storedName cap u) = storedName cap u :=
  storedName_of_fits (storedName_fits cap u)

theorem storedName_eq_iff {cap : Nat} {u : Str} : storedName cap u = u ↔ FitsName cap u :=
  ⟨fun h => h ▸ storedName_fits cap u, storedName_of_fits⟩

theorem storedName_nil (cap : Nat) : storedName cap [] = [] := by
  simp [storedName, cstr]

/-! ### Lemmas on strings -/

theorem strFindFrom_isSome (needle : Str) (hay : Str) (pos : Nat) :
    (strFindFrom needle hay pos).isSome = true ↔ needle <:+: hay := by
  induction hay generalizing pos with
  | nil =>
    simp only [strFindFrom]
    by_cases h : needle = []
    · simp [h]
    · simp [h, List.infix_nil]
  | cons c rest ih =>
    simp only [strFindFrom]
    by_cases h : needle.isPrefixOf (c :: rest) = true
    · simp only [h, if_true, Option.isSome_some, true_iff]
      exact (List.isPrefixOf_iff_prefix.mp h).isInfix
    · simp only [h, Bool.false_eq_true, if_false]
      rw [ih, List.infix_cons_iff]
      constructor
      · exact fun h1 => Or.inr h1
      · rintro (h1 | h1)
        · exact absurd (List.isPrefixOf_iff_prefix.mpr h1) h
        · exact h1

theorem strFind_isSome (hay needle : Str) :
    (strFind hay needle).isSome = true ↔ needle <:+: hay :=
  strFindFrom_isSome needle hay 0

theorem dotdot_cons (c : Char) (s : Str) :
    ['.', '.'] <:+: c :: s ↔ (c = '.' ∧ s.head? = some '.') ∨ ['.', '.'] <:+: s := by
  rw [List.infix_cons_iff]
  have h : ['.', '.'] <+: c :: s ↔ (c = '.' ∧ s.head? = some '.') := by
    rw [List.cons_prefix_cons]
    cases s with
    | nil => simp
    | cons d t => simp [List.cons_prefix_cons, eq_comm]
  rw [h]

theorem dotdot_append (u rest : Str) (hhead : rest.head? ≠ some '.')
    (hrest : ¬ ['.', '.'] <:+: rest) :
    ['.', '.'] <:+: u ++ rest ↔ ['.', '.'] <:+: u := by
  induction u with
  | nil =>
    simp only [List.nil_append, hrest, false_iff]
    intro h
    have := List.IsInfix.length_le h
    simp at this
  | cons c t ih =>
    rw [List.cons_append, dotdot_cons, dotdot_cons, ih]
    cases t with
    | nil => simp [hhead]
    | cons d t2 => simp

theorem dotdot_home (s : Str) :
    ['.', '.'] <:+: '/' :: 'h' :: 'o' :: 'm' :: 'e' :: '/' :: s ↔ ['.', '.'] <:+: s := by
  simp [dotdot_cons]

theorem head_slash_iff (p : Str) : p.headD (Char.ofNat 0) ≠ '/' ↔ ¬ ['/'] <+: p := by
  cases p with
  | nil => simp [show (Char.ofNat 0 = '/') = False from by decide]
  | cons c t => simp [List.cons_prefix_cons, eq_comm]

/-! ## Path translation -/

/-- The source function and the five-rule definition agree on every input. -/
theorem translatePath_eq_spec (sessions : SessionTable) (p sid : Str) :
    translatePath sessions p sid = translatePathSpec sessions p sid := by
  unfold translatePath translatePathSpec
  cases sessions.lookup sid with
  | none => rfl
  | some u =>
    simp only [String.toList]
    by_cases hadmin : u = ['a', 'd', 'm', 'i', 'n']
    · simp only [hadmin, if_true]
    · simp only [hadmin, if_false, strFind_isSome]
      by_cases hdd : ['.', '.'] <:+: p
      · simp only [hdd, if_true]
      · simp only [hdd, if_false]
        by_cases hroot : p = ['/'] ∨ p = []
        · simp only [hroot, hroot.symm, if_true]
        · have hroot2 : ¬ (p = [] ∨ p = ['/']) := fun h => hroot h.symm
          simp only [hroot, hroot2, if_false]
          by_cases hs : ['/'] <+: p
          · have : ¬ p.headD (Char.ofNat 0) ≠ '/' := by rw [head_slash_iff]; exact not_not.mpr hs
            simp only [hs, if_true]
            rw [if_neg this]
          · have : p.headD (Char.ofNat 0) ≠ '/' := (head_slash_iff p).mpr hs
            simp only [hs, if_false, List.append_assoc]
            rw [if_pos this]

/-- C2. `translatePath` equals the five-rule reference definition on every input (no session:
empty; admin: the path unchanged; a path containing `..`: empty; the empty path or `/`:
`/home/<u>`; otherwise `/home/<u>` followed by the path, a `/` inserted when the path has no
leading one); for the session of alice `/note.txt` becomes `/home/alice/note.txt` and
`/../etc/passwd` is denied. -/
theorem C2_translatePath_five_rules :
    (∀ (sessions : SessionTable) (p sid : Str),
        translatePath sessions p sid = translatePathSpec sessions p sid) ∧
    translatePath [("sess_alice_1".toList, "alice".toList)] "/note.txt".toList
        "sess_alice_1".toList = "/home/alice/note.txt".toList ∧
    translatePath [("sess_alice_1".toList, "alice".toList)] "/../etc/passwd".toList
        "sess_alice_1".toList = [] :=
  ⟨translatePath_eq_spec, by decide, by decide⟩

/-- C1 as stated fails: the session of a user named `a..b` asks for `/x`; the path is accepted and
the physical path `/home/a..b/x` contains `..`. -/
theorem C1_counterexample :
    ¬ (∀ (sessions : SessionTable) (sid u p : Str),
        sessions.lookup sid = some u → u ≠ "admin".toList →
        translatePath sessions p sid ≠ [] →
        ("/home/".toList ++ u) <+: translatePath sessions p sid ∧
        ¬ "..".toList <:+: translatePath sessions p sid) := by
  intro h
  have h1 := h [("s1".toList, "a..b".toList)] "s1".toList "a..b".toList "/x".toList
    (by decide) (by decide) (by decide)
  exact h1.2 (by decide)

/-- C1, amended. For a session of a user `u` other than `admin` and a virtual path that is
accepted, the physical path starts with `/home/` followed by `u`, and it contains `..` only when
`u` itself does: for a username without `..` the physical path is free of `..`. -/
theorem C1_jail_containment (sessions : SessionTable) (sid u p : Str)
    (hs : sessions.lookup sid = some u) (hu : u ≠ "admin".toList)
    (hacc : translatePath sessions p sid ≠ []) :
    ("/home/".toList ++ u) <+: translatePath sessions p sid ∧
    ("..".toList <:+: translatePath sessions p sid ↔ "..".toList <:+: u) := by
  rw [translatePath_eq_spec] at hacc ⊢
  unfold translatePathSpec at hacc ⊢
  simp only [hs, hu, if_false] at hacc ⊢
  simp only [String.toList] at hacc ⊢
  by_cases hdd : ['.', '.'] <:+: p
  · simp only [hdd, if_true, ne_eq, not_true_eq_false] at hacc
  · simp only [hdd, if_false] at hacc ⊢
    by_cases hroot : p = [] ∨ p = ['/']
    · simp only [hroot, if_true]
      exact ⟨List.prefix_refl _, dotdot_home u⟩
    · simp only [hroot, if_false]
      by_cases hsl : ['/'] <+: p
      · simp only [hsl, if_true]
        refine ⟨List.prefix_append _ _, ?_⟩
        rw [List.append_assoc]
        show ['.', '.'] <:+: '/' :: 'h' :: 'o' :: 'm' :: 'e' :: '/' :: (u ++ p) ↔ _
        rw [dotdot_home]
        apply dotdot_append _ _ _ hdd
        obtain ⟨t, rfl⟩ := hsl
        simp
      · simp only [hsl, if_false]
        refine ⟨?_, ?_⟩
        · rw [List.append_assoc]; exact List.prefix_append _ _
        · rw [List.append_assoc, List.append_assoc]
          show ['.', '.'] <:+: '/' :: 'h' :: 'o' :: 'm' :: 'e' :: '/' :: (u ++ '/' :: p) ↔ _
          rw [dotdot_home]
          apply dotdot_append
          · simp
          · rw [dotdot_cons]
            simp [hdd]

/-- Witness of `C1_jail_containment`: alice asks for `/note.txt`. -/
theorem C1_jail_containment_witness :
    ("/home/".toList ++ "alice".toList) <+:
        translatePath [("sess_alice_1".toList, "alice".toList)] "/note.txt".toList
          "sess_alice_1".toList ∧
    ("..".toList <:+:
        translatePath [("sess_alice_1".toList, "alice".toList)] "/note.txt".toList
          "sess_alice_1".toList ↔ "..".toList <:+: "alice".toList) :=
  C1_jail_containment [("sess_alice_1".toList, "alice".toList)] "sess_alice_1".toList
    "alice".toList "/note.txt".toList (by decide) (by decide) (by decide)

/-! ## Block allocator -/

theorem toInt32_small {n : Nat} (h : n < 2 ^ 31) : toInt32 n = (n : Int) := by
  unfold toInt32
  have h1 : n % 2 ^ 32 = n := Nat.mod_eq_of_lt (by omega)
  rw [h1, if_pos h]

theorem toInt32_big {n : Nat} (h1 : 2 ^ 31 ≤ n) (h2 : n < 2 ^ 32) : toInt32 n < 0 := by
  unfold toInt32
  have h3 : n % 2 ^ 32 = n := Nat.mod_eq_of_lt h2
  rw [h3, if_neg (by omega)]
  omega

theorem toInt32_le {n : Nat} (h2 : n < 2 ^ 32) : toInt32 n ≤ (n : Int) := by
  by_cases h : n < 2 ^ 31
  · rw [toInt32_small h]
  · have := toInt32_big (by omega) h2
    omega

theorem count_set_true {l : List Bool} {i : Nat} (h : l[i]? = some false) :
    (l.set i true).count true = l.count true + 1 := by
  obtain ⟨hi, he⟩ := List.getElem?_eq_some_iff.mp h
  rw [List.count_set _ _ _ _ hi, he]
  simp

theorem count_set_false {l : List Bool} {i : Nat} (h : l[i]? = some true) :
    (l.set i false).count true + 1 = l.count true := by
  obtain ⟨hi, he⟩ := List.getElem?_eq_some_iff.mp h
  rw [List.count_set _ _ _ _ hi, he]
  have : 0 < l.count true := by
    apply List.count_pos_iff.mpr
    rw [← he]; exact List.getElem_mem hi
  simp
  omega

theorem set_same {l : List Bool} {i : Nat} {b : Bool} (h : l[i]? = some b) : l.set i b = l := by
  obtain ⟨hi, _⟩ := List.getElem?_eq_some_iff.mp h
  apply List.ext_getElem?
  intro j
  rw [List.getElem?_set]
  by_cases hij : i = j
  · subst hij; simp [hi, h]
  · simp [hij]

theorem ofBitmap_self {bm : BlockManager} (h : bm.WF) : ofBitmap bm bm.bitmap = bm := by
  cases bm
  simp only [ofBitmap]
  have := h.cnt
  simp only at this
  rw [this]

theorem idx_in_range {bm : BlockManager} (h : bm.WF) {s : Nat}
    (hs : (s : Int) < toInt32 bm.total_blocks) : s < bm.bitmap.length ∧ bm.total_blocks < 2 ^ 31 := by
  have h1 := toInt32_le h.range
  have h2 : bm.total_blocks < 2 ^ 31 := by
    by_contra hc
    have := toInt32_big (Nat.le_of_not_lt hc) h.range
    omega
  rw [h.len]
  omega

theorem WF_set {bm : BlockManager} (h : bm.WF) {s : Nat} (v : Bool)
    (hs : (s : Int) < toInt32 bm.total_blocks) : (ofBitmap bm (bm.bitmap.set s v)).WF := by
  have h1 := idx_in_range h hs
  exact ⟨by simp [ofBitmap, h.len], h.range, rfl, fun hb => by simp [ofBitmap] at hb; omega⟩

theorem markUsedAt_eq {bm : BlockManager} (h : bm.WF) (s : Nat) :
    markUsedAt bm (s : Int) =
      some (ofBitmap bm (if (s : Int) < toInt32 bm.total_blocks then bm.bitmap.set s true
        else bm.bitmap)) := by
  unfold markUsedAt
  by_cases hs : (s : Int) < toInt32 bm.total_blocks
  · have h1 := idx_in_range h hs
    have h0 : ¬ ((s : Int) < 0) := by omega
    simp only [hs, h0, if_true, if_false, Int.toNat_ofNat]
    rw [List.getElem?_eq_getElem h1.1]
    simp only []
    cases hb : bm.bitmap[s] with
    | false =>
      have hg : bm.bitmap[s]? = some false := by rw [List.getElem?_eq_getElem h1.1, hb]
      have hc := count_set_true hg
      have hl := List.count_le_length true bm.bitmap
      have h3 := h.len
      have h4 := h.cnt
      have hu : (bm.used_blocks_count + 1) % 2 ^ 32 =
          List.count true (bm.bitmap.set s true) := by
        rw [hc, ← h4]
        apply Nat.mod_eq_of_lt
        omega
      simp only [Bool.not_false, if_true, ofBitmap, hu]
    | true =>
      have hg : bm.bitmap[s]? = some true := by rw [List.getElem?_eq_getElem h1.1, hb]
      simp only [Bool.not_true, Bool.false_eq_true, if_false, set_same hg, ofBitmap_self h]
  · simp only [hs, if_false, ofBitmap_self h]

theorem freeBlocksAt_eq {bm : BlockManager} (h : bm.WF) (s : Nat) :
    freeBlocksAt bm (s : Int) =
      some (ofBitmap bm (if (s : Int) < toInt32 bm.total_blocks then bm.bitmap.set s false
        else bm.bitmap)) := by
  unfold freeBlocksAt
  by_cases hs : (s : Int) < toInt32 bm.total_blocks
  · have h1 := idx_in_range h hs
    have h0 : ¬ ((s : Int) < 0) := by omega
    simp only [hs, h0, if_true, if_false, Int.toNat_ofNat]
    rw [List.getElem?_eq_getElem h1.1]
    simp only []
    cases hb : bm.bitmap[s] with
    | true =>
      have hg : bm.bitmap[s]? = some true := by rw [List.getElem?_eq_getElem h1.1, hb]
      have hc := count_set_false hg
      have hl := List.count_le_length true bm.bitmap
      have h3 := h.len
      have h4 := h.cnt
      have hu : (bm.used_blocks_count + 2 ^ 32 - 1) % 2 ^ 32 =
          List.count true (bm.bitmap.set s false) := by
        rw [← h4, ← hc]
        have : (List.count true (bm.bitmap.set s false) + 1 + 2 ^ 32 - 1) =
            List.count true (bm.bitmap.set s false) + 2 ^ 32 := by omega
        rw [this, Nat.add_mod_right]
        apply Nat.mod_eq_of_lt
        omega
      simp only [if_true, ofBitmap, hu]
    | false =>
      have hg : bm.bitmap[s]? = some false := by rw [List.getElem?_eq_getElem h1.1, hb]
      simp only [Bool.false_eq_true, if_false, set_same hg, ofBitmap_self h]
  · simp only [hs, if_false, ofBitmap_self h]

theorem WF_step {bm : BlockManager} (h : bm.WF) (s : Nat) (v : Bool) :
    (ofBitmap bm (if (s : Int) < toInt32 bm.total_blocks then bm.bitmap.set s v
      else bm.bitmap)).WF := by
  by_cases hs : (s : Int) < toInt32 bm.total_blocks
  · rw [if_pos hs]; exact WF_set h v hs
  · rw [if_neg hs, ofBitmap_self h]; exact h

theorem markUsedLoop_eq (s : Nat) (n : Nat) :
    ∀ (i : Nat) (bm : BlockManager), bm.WF → s + i + n ≤ 2 ^ 31 →
      markUsedLoop (s : Int) n (i : Int) bm =
        some (ofBitmap bm (setBits true (toInt32 bm.total_blocks) bm.bitmap (s + i) n)) := by
  induction n with
  | zero => intro i bm h _; simp only [markUsedLoop, setBits, ofBitmap_self h]
  | succ n ih =>
    intro i bm h hb
    have hidx : ¬ (INT_MAX < (s : Int) + (i : Int)) := by unfold INT_MAX; omega
    have hc : (s : Int) + (i : Int) = ((s + i : Nat) : Int) := by push_cast; rfl
    simp only [markUsedLoop, hidx, if_false]
    rw [hc, markUsedAt_eq h, Option.some_bind]
    have h1 := WF_step h (s + i) true
    have hi : (i : Int) + 1 = ((i + 1 : Nat) : Int) := by push_cast; rfl
    rw [hi, ih (i + 1) _ h1 (by omega)]
    simp only [ofBitmap, setBits, Nat.add_assoc]

theorem freeBlocksLoop_eq (s : Nat) (n : Nat) :
    ∀ (i : Nat) (bm : BlockManager), bm.WF → s + i + n ≤ 2 ^ 31 →
      freeBlocksLoop (s : Int) n (i : Int) bm =
        some (ofBitmap bm (setBits false (toInt32 bm.total_blocks) bm.bitmap (s + i) n)) := by
  induction n with
  | zero => intro i bm h _; simp only [freeBlocksLoop, setBits, ofBitmap_self h]
  | succ n ih =>
    intro i bm h hb
    have hidx : ¬ (INT_MAX < (s : Int) + (i : Int)) := by unfold INT_MAX; omega
    have hc : (s : Int) + (i : Int) = ((s + i : Nat) : Int) := by push_cast; rfl
    simp only [freeBlocksLoop, hidx, if_false]
    rw [hc, freeBlocksAt_eq h, Option.some_bind]
    have h1 := WF_step h (s + i) false
    have hi : (i : Int) + 1 = ((i + 1 : Nat) : Int) := by push_cast; rfl
    rw [hi, ih (i + 1) _ h1 (by omega)]
    simp only [ofBitmap, setBits, Nat.add_assoc]

/-- `markUsed` on a non-negative start whose indices stay within the `int` range. -/
theorem markUsed_eq {bm : BlockManager} (h : bm.WF) (s n : Nat) (hb : s + n ≤ 2 ^ 31) :
    markUsed bm (s : Int) (n : Int) =
      some (ofBitmap bm (setBits true (toInt32 bm.total_blocks) bm.bitmap s n)) := by
  have := markUsedLoop_eq s n 0 bm h (by omega)
  simpa [markUsed] using this

/-- `freeBlocks` on a non-negative start whose indices stay within the `int` range. -/
theorem freeBlocks_eq {bm : BlockManager} (h : bm.WF) (s n : Nat) (hb : s + n ≤ 2 ^ 31) :
    freeBlocks bm (s : Int) (n : Int) =
      some (ofBitmap bm (setBits false (toInt32 bm.total_blocks) bm.bitmap s n)) := by
  have := freeBlocksLoop_eq s n 0 bm h (by omega)
  simpa [freeBlocks] using this

theorem setBits_length (v : Bool) (lim : Int) (n : Nat) :
    ∀ (l : List Bool) (s : Nat), (setBits v lim l s n).length = l.length := by
  induction n with
  | zero => intro l s; rfl
  | succ n ih =>
    intro l s
    simp only [setBits, ih]
    split <;> simp

theorem getElem?_setBits (v : Bool) (lim : Int) (n : Nat) :
    ∀ (l : List Bool) (s j : Nat), (setBits v lim l s n)[j]? =
      if s ≤ j ∧ j < s + n ∧ (j : Int) < lim then (l[j]?).map (fun _ => v) else l[j]? := by
  induction n with
  | zero =>
    intro l s j
    rw [if_neg (by omega)]
    rfl
  | succ n ih =>
    intro l s j
    simp only [setBits, ih]
    by_cases hsj : s = j
    · subst hsj
      have h1 : ¬ (s + 1 ≤ s ∧ s < s + 1 + n ∧ (s : Int) < lim) := by omega
      rw [if_neg h1]
      by_cases hl : (s : Int) < lim
      · have h2 : s ≤ s ∧ s < s + (n + 1) ∧ (s : Int) < lim := ⟨le_refl _, by omega, hl⟩
        rw [if_pos hl, if_pos h2, List.getElem?_set', if_pos rfl]
        rfl
      · have h2 : ¬ (s ≤ s ∧ s < s + (n + 1) ∧ (s : Int) < lim) := fun h => hl h.2.2
        rw [if_neg hl, if_neg h2]
    · have h3 : (if (s : Int) < lim then l.set s v else l)[j]? = l[j]? := by
        split
        · exact List.getElem?_set_ne hsj
        · rfl
      rw [h3]
      by_cases hc : s + 1 ≤ j ∧ j < s + 1 + n ∧ (j : Int) < lim
      · rw [if_pos hc, if_pos ⟨by omega, by omega, hc.2.2⟩]
      · rw [if_neg hc, if_neg (fun h => hc ⟨by omega, by omega, h.2.2⟩)]

theorem setBits_neg (v : Bool) {lim : Int} (hl : lim < 0) (l : List Bool) (s n : Nat) :
    setBits v lim l s n = l := by
  apply List.ext_getElem?
  intro j
  rw [getElem?_setBits, if_neg]
  omega

theorem FreeRun_set {l : List Bool} {s n : Nat} (h : FreeRun l s (n + 1)) :
    FreeRun (l.set s true) (s + 1) n := by
  refine ⟨by have := h.1; simp; omega, ?_⟩
  intro j h1 h2
  rw [List.getElem?_set_ne (by omega)]
  exact h.2 j (by omega) (by omega)

theorem count_setBits_true (n : Nat) :
    ∀ (l : List Bool) (s : Nat), FreeRun l s n →
      (setBits true (l.length : Int) l s n).count true = l.count true + n := by
  induction n with
  | zero => intro l s _; rfl
  | succ n ih =>
    intro l s h
    have hs : ((s : Nat) : Int) < (l.length : Int) := by have := h.1; omega
    simp only [setBits, if_pos hs]
    have h1 := ih (l.set s true) (s + 1) (FreeRun_set h)
    rw [List.length_set] at h1
    rw [h1, count_set_true (h.2 s (le_refl _) (by omega))]
    omega

theorem setBits_false_true {l : List Bool} {s n : Nat} (lim : Int) (h : FreeRun l s n) :
    setBits false lim (setBits true lim l s n) s n = l := by
  apply List.ext_getElem?
  intro j
  rw [getElem?_setBits, getElem?_setBits]
  by_cases hc : s ≤ j ∧ j < s + n ∧ (j : Int) < lim
  · rw [if_pos hc, if_pos hc, h.2 j hc.1 hc.2.1]
    rfl
  · rw [if_neg hc, if_neg hc]

/-- The scan of `allocateBlocks`: it ends with `-1` when no run of `c` free blocks exists, and
otherwise calls `markUsed` on the lowest start of such a run and returns that start. -/
theorem allocateLoop_spec (bm : BlockManager) (c : Nat) (n : Nat) :
    ∀ (i k : Nat) (start : Int), i + n = bm.bitmap.length → k ≤ i → k < c →
      (0 < k → start = toInt32 (i - k)) →
      (∀ j, i - k ≤ j → j < i → bm.bitmap[j]? = some false) →
      (∀ s', s' < i - k → ¬ FreeRun bm.bitmap s' c) →
      (allocateLoop bm (c : Int) n i (k : Int) start = some (-1, bm) ∧
          ∀ s, ¬ FreeRun bm.bitmap s c) ∨
      (∃ s, FreeRun bm.bitmap s c ∧ (∀ s', s' < s → ¬ FreeRun bm.bitmap s' c) ∧
          allocateLoop bm (c : Int) n i (k : Int) start =
            (markUsed bm (toInt32 s) (c : Int)).map (fun b => (toInt32 s, b))) := by
  induction n with
  | zero =>
    intro i k start hlen hk hkc _ _ hmin
    left
    refine ⟨rfl, ?_⟩
    intro s hs
    by_cases h1 : s < i - k
    · exact hmin s h1 hs
    · have := hs.1
      omega
  | succ n ih =>
    intro i k start hlen hk hkc hstart hfree hmin
    have hi : i < bm.bitmap.length := by omega
    simp only [allocateLoop, List.getElem?_eq_getElem hi]
    cases hb : bm.bitmap[i] with
    | true =>
      simp only [Bool.not_true, Bool.false_eq_true, if_false]
      have hbi : bm.bitmap[i]? = some true := by rw [List.getElem?_eq_getElem hi, hb]
      have := ih (i + 1) 0 (-1) (by omega) (by omega) (by omega) (by omega)
        (fun j h1 h2 => by omega)
        (fun s' hs' hrun => by
          by_cases h1 : s' < i - k
          · exact hmin s' h1 hrun
          · by_cases h2 : i < s' + c
            · have := hrun.2 i (by omega) h2
              rw [hbi] at this
              cases this
            · omega)
      simpa using this
    | false =>
      have hbi : bm.bitmap[i]? = some false := by rw [List.getElem?_eq_getElem hi, hb]
      simp only [Bool.not_false, if_true]
      have hst : (if (k : Int) = 0 then toInt32 i else start) = toInt32 (i - k) := by
        by_cases hk0 : k = 0
        · subst hk0; simp
        · have : ¬ ((k : Int) = 0) := by omega
          rw [if_neg this]
          exact hstart (by omega)
      rw [hst]
      by_cases hfound : (k : Int) + 1 = (c : Int)
      · rw [if_pos hfound]
        right
        refine ⟨i - k, ⟨by omega, ?_⟩, hmin, rfl⟩
        intro j h1 h2
        by_cases hj : j < i
        · exact hfree j h1 hj
        · have : j = i := by omega
          rw [this]; exact hbi
      · rw [if_neg hfound]
        have hk1 : (k : Int) + 1 = ((k + 1 : Nat) : Int) := by push_cast; rfl
        rw [hk1]
        have h2 : i + 1 - (k + 1) = i - k := by omega
        apply ih (i + 1) (k + 1) (toInt32 (i - k)) (by omega) (by omega) (by omega)
        · intro _; rw [h2]
        · intro j h3 h4
          by_cases hj : j < i
          · exact hfree j (by omega) hj
          · have : j = i := by omega
            rw [this]; exact hbi
        · intro s' hs'; exact hmin s' (by omega)

/-- `allocateBlocks` for a count `c ≥ 1` on a bitmap whose vector has `total_blocks` entries. -/
theorem allocateBlocks_spec (bm : BlockManager) (hlen : bm.bitmap.length = bm.total_blocks)
    (c : Nat) (hc : 1 ≤ c) :
    (allocateBlocks bm (c : Int) = some (-1, bm) ∧ ∀ s, ¬ FreeRun bm.bitmap s c) ∨
    (∃ s, FreeRun bm.bitmap s c ∧ (∀ s', s' < s → ¬ FreeRun bm.bitmap s' c) ∧
        allocateBlocks bm (c : Int) =
          (markUsed bm (toInt32 s) (c : Int)).map (fun b => (toInt32 s, b))) := by
  have hpos : ¬ ((c : Int) ≤ 0) := by omega
  unfold allocateBlocks
  rw [if_neg hpos]
  have := allocateLoop_spec bm c bm.total_blocks 0 0 (-1) (by omega) (le_refl _) (by omega)
    (by omega) (fun j _ h => by omega) (fun s' h => by omega)
  simpa using this

theorem markUsedLoop_WF (s : Nat) (n : Nat) :
    ∀ (i : Nat) (bm bm' : BlockManager), bm.WF → markUsedLoop (s : Int) n (i : Int) bm = some bm' →
      bm'.WF ∧ bm'.total_blocks = bm.total_blocks := by
  induction n with
  | zero =>
    intro i bm bm' h he
    simp only [markUsedLoop, Option.some.injEq] at he
    subst he; exact ⟨h, rfl⟩
  | succ n ih =>
    intro i bm bm' h he
    simp only [markUsedLoop] at he
    split at he
    · cases he
    · have hc : (s : Int) + (i : Int) = ((s + i : Nat) : Int) := by push_cast; rfl
      have hi : (i : Int) + 1 = ((i + 1 : Nat) : Int) := by push_cast; rfl
      rw [hc, markUsedAt_eq h, Option.some_bind, hi] at he
      have h2 := ih (i + 1) _ bm' (WF_step h (s + i) true) he
      exact ⟨h2.1, h2.2⟩

theorem freeBlocksLoop_WF (s : Nat) (n : Nat) :
    ∀ (i : Nat) (bm bm' : BlockManager), bm.WF → freeBlocksLoop (s : Int) n (i : Int) bm = some bm' →
      bm'.WF ∧ bm'.total_blocks = bm.total_blocks := by
  induction n with
  | zero =>
    intro i bm bm' h he
    simp only [freeBlocksLoop, Option.some.injEq] at he
    subst he; exact ⟨h, rfl⟩
  | succ n ih =>
    intro i bm bm' h he
    simp only [freeBlocksLoop] at he
    split at he
    · cases he
    · have hc : (s : Int) + (i : Int) = ((s + i : Nat) : Int) := by push_cast; rfl
      have hi : (i : Int) + 1 = ((i + 1 : Nat) : Int) := by push_cast; rfl
      rw [hc, freeBlocksAt_eq h, Option.some_bind, hi] at he
      have h2 := ih (i + 1) _ bm' (WF_step h (s + i) false) he
      exact ⟨h2.1, h2.2⟩

/-- `markUsed` with a non-negative start keeps a state well formed. -/
theorem markUsed_WF {bm bm' : BlockManager} (h : bm.WF) {start count : Int} (h0 : 0 ≤ start)
    (he : markUsed bm start count = some bm') : bm'.WF ∧ bm'.total_blocks = bm.total_blocks := by
  obtain ⟨s, rfl⟩ := Int.eq_ofNat_of_zero_le h0
  exact markUsedLoop_WF s count.toNat 0 bm bm' h (by simpa [markUsed] using he)

/-- `freeBlocks` with a non-negative start keeps a state well formed. -/
theorem freeBlocks_WF {bm bm' : BlockManager} (h : bm.WF) {start count : Int} (h0 : 0 ≤ start)
    (he : freeBlocks bm start count = some bm') : bm'.WF ∧ bm'.total_blocks = bm.total_blocks := by
  obtain ⟨s, rfl⟩ := Int.eq_ofNat_of_zero_le h0
  exact freeBlocksLoop_WF s count.toNat 0 bm bm' h (by simpa [freeBlocks] using he)

theorem FreeRun_replicate {n s c : Nat} (h : s + c ≤ n) : FreeRun (List.replicate n false) s c := by
  refine ⟨by simpa using h, ?_⟩
  intro j _ h2
  exact List.getElem?_replicate_of_lt (by omega)

/-- The lowest start of a free run is a non-negative `int` in every state of the allocator. -/
theorem run_start {bm : BlockManager} (h : bm.WF) {s c : Nat} (hc : 1 ≤ c)
    (hrun : FreeRun bm.bitmap s c) (hmin : ∀ s', s' < s → ¬ FreeRun bm.bitmap s' c) :
    toInt32 s = (s : Int) ∧ (bm.total_blocks < 2 ^ 31 ∨ s = 0) := by
  by_cases hsmall : bm.total_blocks < 2 ^ 31
  · have h1 := hrun.1
    have h2 := h.len
    exact ⟨toInt32_small (by omega), Or.inl hsmall⟩
  · have hb := h.big (by omega)
    have hs : s = 0 := by
      by_contra hne
      apply hmin 0 (by omega)
      rw [hb]
      apply FreeRun_replicate
      have h1 := hrun.1
      have h2 := h.len
      omega
    subst hs
    exact ⟨toInt32_small (by decide), Or.inr rfl⟩

/-- The result of `allocateBlocks` when a free run exists: the lowest start `s` of a run, and the
state in which `markUsed(s, c)` ends. -/
theorem allocateBlocks_run {bm : BlockManager} (h : bm.WF) {s c : Nat} (hc : 1 ≤ c)
    (hint : (c : Int) ≤ INT_MAX)
    (hrun : FreeRun bm.bitmap s c) (hmin : ∀ s', s' < s → ¬ FreeRun bm.bitmap s' c) :
    allocateBlocks bm (c : Int) =
      some ((s : Int), ofBitmap bm (setBits true (toInt32 bm.total_blocks) bm.bitmap s c)) := by
  rcases allocateBlocks_spec bm h.len c hc with ⟨_, hno⟩ | ⟨s2, hrun2, hmin2, he⟩
  · exact absurd hrun (hno s)
  · have hs : s2 = s := by
      rcases Nat.lt_trichotomy s2 s with h1 | h1 | h1
      · exact absurd hrun2 (hmin s2 h1)
      · exact h1
      · exact absurd hrun (hmin2 s h1)
    subst hs
    have h3 := run_start h hc hrun hmin
    have hb : s2 + c ≤ 2 ^ 31 := by
      unfold INT_MAX at hint
      rcases h3.2 with h4 | h4
      · have h1 := hrun.1
        have h2 := h.len
        omega
      · omega
    rw [he, h3.1, markUsed_eq h s2 c hb]
    rfl

/-- `allocateBlocks` keeps a state well formed. -/
theorem allocateBlocks_WF {bm bm' : BlockManager} (h : bm.WF) {count r : Int}
    (he : allocateBlocks bm count = some (r, bm')) :
    bm'.WF ∧ bm'.total_blocks = bm.total_blocks := by
  by_cases hc : count ≤ 0
  · simp only [allocateBlocks, if_pos hc, Option.some.injEq, Prod.mk.injEq] at he
    rw [← he.2]; exact ⟨h, rfl⟩
  · obtain ⟨c, rfl⟩ := Int.eq_ofNat_of_zero_le (show 0 ≤ count by omega)
    have hc1 : 1 ≤ c := by omega
    rcases allocateBlocks_spec bm h.len c hc1 with ⟨h1, _⟩ | ⟨s, hrun, hmin, h1⟩
    · rw [h1] at he
      simp only [Option.some.injEq, Prod.mk.injEq] at he
      rw [← he.2]; exact ⟨h, rfl⟩
    · rw [h1, (run_start h hc1 hrun hmin).1] at he
      cases hm : markUsed bm (s : Int) (c : Int) with
      | none => rw [hm] at he; cases he
      | some b =>
        rw [hm] at he
        simp only [Option.map_some', Option.some.injEq, Prod.mk.injEq] at he
        rw [← he.2]
        exact markUsed_WF h (by omega) hm

theorem WF_fresh {n : Nat} (hn : n < 2 ^ 32) :
    BlockManager.WF { bitmap := List.replicate n false, total_blocks := n,
                      used_blocks_count := 0 } :=
  ⟨by simp, hn, by simp [List.count_replicate], fun _ => rfl⟩

/-- The constructor returns a well-formed state for every `uint32_t` number of blocks. -/
theorem new_WF {n : Nat} (hn : n < 2 ^ 32) :
    ∃ bm, BlockManager.new n = some bm ∧ bm.WF ∧ bm.total_blocks = n := by
  have h := markUsed_eq (WF_fresh hn) 0 1 (by omega)
  refine ⟨_, h, ?_⟩
  exact markUsed_WF (WF_fresh hn) (le_refl _) h

theorem Reachable_WF {n : Nat} (hn : n < 2 ^ 32) {bm : BlockManager} (h : Reachable n bm) :
    bm.WF ∧ bm.total_blocks = n := by
  induction h with
  | init he =>
    obtain ⟨b, hb, hwf, ht⟩ := new_WF hn
    rw [hb] at he
    cases he
    exact ⟨hwf, ht⟩
  | allocateBlocks count r _ he ih =>
    have := allocateBlocks_WF ih.1 he
    exact ⟨this.1, this.2.trans ih.2⟩
  | freeBlocks start count _ h0 he ih =>
    have := freeBlocks_WF ih.1 h0 he
    exact ⟨this.1, this.2.trans ih.2⟩
  | markUsed start count _ h0 he ih =>
    have := markUsed_WF ih.1 h0 he
    exact ⟨this.1, this.2.trans ih.2⟩

theorem getFreeBlocksCount_eq {bm : BlockManager} (h : bm.WF) :
    getFreeBlocksCount bm + bm.bitmap.count true = bm.total_blocks := by
  have h1 := List.count_le_length true bm.bitmap
  have h2 := h.len
  have h3 := h.cnt
  have h4 := h.range
  unfold getFreeBlocksCount
  rw [← h3]
  have : bm.total_blocks + 2 ^ 32 - List.count true bm.bitmap =
      (bm.total_blocks - List.count true bm.bitmap) + 2 ^ 32 := by omega
  rw [this, Nat.add_mod_right, Nat.mod_eq_of_lt (by omega)]
  omega

theorem FreeRun_count {l : List Bool} {s c : Nat} (h : FreeRun l s c) :
    l.count true + c ≤ l.length := by
  have h1 := count_setBits_true c l s h
  have h2 := List.count_le_length true (setBits true (l.length : Int) l s c)
  rw [setBits_length] at h2
  omega

/-- C3, at the failing input. On a bitmap of `2 ^ 31` blocks `(int)total_blocks` is negative, so
the test `idx < (int)total_blocks` of `markUsed` never holds and no bit is written: the constructor
`BlockManager(2147483648)` leaves block `0` free (its comment says "Always mark block 0 as used"),
and on that state `allocateBlocks(1)` succeeds with start `0` and returns the state as it was
(its comment says "Mark them as used"): block `0` is still free and the used count is still `0`. -/
theorem C3_failing_input :
    BlockManager.new (2 ^ 31) =
      some { bitmap := List.replicate (2 ^ 31) false, total_blocks := 2 ^ 31,
             used_blocks_count := 0 } ∧
    allocateBlocks { bitmap := List.replicate (2 ^ 31) false, total_blocks := 2 ^ 31,
                     used_blocks_count := 0 } 1 =
      some (0, { bitmap := List.replicate (2 ^ 31) false, total_blocks := 2 ^ 31,
                 used_blocks_count := 0 }) ∧
    (List.replicate (2 ^ 31) false)[0]? = some false := by
  have hwf := WF_fresh (show 2 ^ 31 < 2 ^ 32 by decide)
  have hneg : toInt32 (2 ^ 31) < 0 := toInt32_big (le_refl _) (by decide)
  refine ⟨?_, ?_, ?_⟩
  · have h := markUsed_eq hwf 0 1 (by omega)
    simp only [setBits_neg true hneg, ofBitmap_self hwf] at h
    exact h
  · have hrun : FreeRun (List.replicate (2 ^ 31) false) 0 1 := FreeRun_replicate (by omega)
    have h := allocateBlocks_run hwf (le_refl 1) (by decide) hrun (fun s' hs' => by omega)
    simp only [setBits_neg true hneg, ofBitmap_self hwf] at h
    exact h
  · exact List.getElem?_replicate_of_lt (by omega)

/-- First fit below the `int` range. For every state of an allocator of fewer than `2 ^ 31` blocks
and every count `≥ 1`, `allocateBlocks(count)` returns; if the result is not `-1` it is the
smallest index `s` such that blocks `s, ..., s+count-1` all lie inside the volume and were free,
exactly those blocks are marked used, every other bit is unchanged, and the used count has grown
by exactly `count`. -/
theorem first_fit_below_int_range (bm : BlockManager) (hwf : bm.WF) (hsmall : bm.total_blocks < 2 ^ 31)
    (count : Int) (hcount : 1 ≤ count) :
    ∃ r bm', allocateBlocks bm count = some (r, bm') ∧
      (r ≠ -1 →
        ∃ s : Nat, r = (s : Int) ∧ FreeRun bm.bitmap s count.toNat ∧
          (∀ s', s' < s → ¬ FreeRun bm.bitmap s' count.toNat) ∧
          (∀ j, bm'.bitmap[j]? =
            if s ≤ j ∧ j < s + count.toNat then some true else bm.bitmap[j]?) ∧
          bm'.used_blocks_count = bm.used_blocks_count + count.toNat ∧
          bm'.total_blocks = bm.total_blocks) := by
  obtain ⟨c, rfl⟩ := Int.eq_ofNat_of_zero_le (show 0 ≤ count by omega)
  have hc1 : 1 ≤ c := by omega
  simp only [Int.toNat_ofNat]
  rcases allocateBlocks_spec bm hwf.len c hc1 with ⟨h1, _⟩ | ⟨s, hrun, hmin, _⟩
  · exact ⟨-1, bm, h1, fun h => absurd rfl h⟩
  · have hlen := hwf.len
    have hle := hrun.1
    have hint : (c : Int) ≤ INT_MAX := by unfold INT_MAX; omega
    refine ⟨_, _, allocateBlocks_run hwf hc1 hint hrun hmin, fun _ => ⟨s, rfl, hrun, hmin, ?_, ?_, rfl⟩⟩
    · intro j
      simp only [ofBitmap, getElem?_setBits, toInt32_small hsmall]
      by_cases hj : s ≤ j ∧ j < s + c
      · have h3 : s ≤ j ∧ j < s + c ∧ (j : Int) < (bm.total_blocks : Int) :=
          ⟨hj.1, hj.2, by omega⟩
        rw [if_pos hj, if_pos h3, hrun.2 j hj.1 hj.2]
        rfl
      · rw [if_neg hj, if_neg (fun h => hj ⟨h.1, h.2.1⟩)]
    · have h5 : toInt32 bm.total_blocks = (bm.bitmap.length : Int) := by
        rw [toInt32_small hsmall, hlen]
      simp only [ofBitmap, h5, count_setBits_true c _ s hrun, hwf.cnt]

/-- An instance of `first_fit_below_int_range`: eight blocks of which blocks 0 and 3 are used, two blocks asked. -/
theorem first_fit_below_int_range_example :
    ∃ r bm', allocateBlocks
        { bitmap := [true, false, false, true, false, false, false, false], total_blocks := 8,
          used_blocks_count := 2 } 2 = some (r, bm') ∧
      (r ≠ -1 →
        ∃ s : Nat, r = (s : Int) ∧
          FreeRun [true, false, false, true, false, false, false, false] s (2 : Int).toNat ∧
          (∀ s', s' < s →
            ¬ FreeRun [true, false, false, true, false, false, false, false] s' (2 : Int).toNat) ∧
          (∀ j, bm'.bitmap[j]? =
            if s ≤ j ∧ j < s + (2 : Int).toNat then some true
            else [true, false, false, true, false, false, false, false][j]?) ∧
          bm'.used_blocks_count = 2 + (2 : Int).toNat ∧
          bm'.total_blocks = 8) :=
  first_fit_below_int_range
    { bitmap := [true, false, false, true, false, false, false, false], total_blocks := 8,
      used_blocks_count := 2 }
    ⟨by decide, by decide, by decide, fun h => absurd h (by decide)⟩ (by decide) 2 (by decide)

/-- C4. In every state of the allocator and for every `int` count, `allocateBlocks(count)`
returns; the result is `-1` exactly when `count ≤ 0` or the bitmap holds no run of `count`
consecutive free blocks, in particular whenever `count` exceeds `getFreeBlocksCount()`; and when
the result is `-1` the state (bitmap and used counter) is the one before the call. -/
theorem C4_allocate_none (bm : BlockManager) (hwf : bm.WF) (count : Int)
    (hint : count ≤ INT_MAX) :
    ∃ r bm', allocateBlocks bm count = some (r, bm') ∧
      (r = -1 ↔ (count ≤ 0 ∨ ∀ s, ¬ FreeRun bm.bitmap s count.toNat)) ∧
      ((getFreeBlocksCount bm : Int) < count → r = -1) ∧
      (r = -1 → bm' = bm) := by
  by_cases hc : count ≤ 0
  · refine ⟨-1, bm, by simp [allocateBlocks, hc], by simp [hc], fun _ => rfl, fun _ => rfl⟩
  · obtain ⟨c, rfl⟩ := Int.eq_ofNat_of_zero_le (show 0 ≤ count by omega)
    have hc1 : 1 ≤ c := by omega
    simp only [Int.toNat_ofNat]
    rcases allocateBlocks_spec bm hwf.len c hc1 with ⟨h1, hno⟩ | ⟨s, hrun, hmin, _⟩
    · exact ⟨-1, bm, h1, by simp [hno], fun _ => rfl, fun _ => rfl⟩
    · refine ⟨_, _, allocateBlocks_run hwf hc1 hint hrun hmin, ?_, ?_, ?_⟩
      · constructor
        · intro h; omega
        · rintro (h | h)
          · exact absurd h hc
          · exact absurd hrun (h s)
      · intro hlt
        have h1 := FreeRun_count hrun
        have h2 := getFreeBlocksCount_eq hwf
        have h3 := hwf.len
        omega
      · intro h; omega

/-- Witness of `C4_allocate_none`: eight blocks, blocks 0 and 3 used, five blocks asked. -/
theorem C4_allocate_none_witness :
    ∃ r bm', allocateBlocks
        { bitmap := [true, false, false, true, false, false, false, false], total_blocks := 8,
          used_blocks_count := 2 } 5 = some (r, bm') ∧
      (r = -1 ↔ ((5 : Int) ≤ 0 ∨
        ∀ s, ¬ FreeRun [true, false, false, true, false, false, false, false] s (5 : Int).toNat)) ∧
      ((getFreeBlocksCount
          { bitmap := [true, false, false, true, false, false, false, false], total_blocks := 8,
            used_blocks_count := 2 } : Int) < 5 → r = -1) ∧
      (r = -1 → bm' =
        { bitmap := [true, false, false, true, false, false, false, false], total_blocks := 8,
          used_blocks_count := 2 }) :=
  C4_allocate_none
    { bitmap := [true, false, false, true, false, false, false, false], total_blocks := 8,
      used_blocks_count := 2 }
    ⟨by decide, by decide, by decide, fun h => absurd h (by decide)⟩ 5 (by decide)

/-- C5. In every state reachable from `BlockManager(n)` by calls of `allocateBlocks`, `freeBlocks`
and `markUsed` with non-negative start indices, the number of `true` bits equals
`used_blocks_count`, so `getFreeBlocksCount()` plus the number of set bits is `getTotalBlocks()`;
freeing a block that is free or past the end, and marking a block that is used or past the end,
returns the state unchanged. -/
theorem C5_bitmap_consistency (n : Nat) (hn : n < 2 ^ 32) (bm : BlockManager)
    (h : Reachable n bm) :
    bm.bitmap.count true = bm.used_blocks_count ∧
    getFreeBlocksCount bm + bm.bitmap.count true = getTotalBlocks bm ∧
    (∀ s : Nat, (s : Int) ≤ INT_MAX →
      ((bm.bitmap[s]? = some false ∨ bm.total_blocks ≤ s) →
        freeBlocks bm (s : Int) 1 = some bm) ∧
      ((bm.bitmap[s]? = some true ∨ bm.total_blocks ≤ s) →
        markUsed bm (s : Int) 1 = some bm)) := by
  have hwf := (Reachable_WF hn h).1
  refine ⟨hwf.cnt, getFreeBlocksCount_eq hwf, ?_⟩
  intro s hs
  unfold INT_MAX at hs
  have hle := toInt32_le hwf.range
  constructor
  · intro hcase
    have h1 := freeBlocks_eq hwf s 1 (by omega)
    rw [show ((1 : Nat) : Int) = 1 from rfl] at h1
    rw [h1]
    simp only [setBits]
    rcases hcase with hfree | hpast
    · split
      · rw [set_same hfree, ofBitmap_self hwf]
      · rw [ofBitmap_self hwf]
    · rw [if_neg (by omega), ofBitmap_self hwf]
  · intro hcase
    have h1 := markUsed_eq hwf s 1 (by omega)
    rw [show ((1 : Nat) : Int) = 1 from rfl] at h1
    rw [h1]
    simp only [setBits]
    rcases hcase with hused | hpast
    · split
      · rw [set_same hused, ofBitmap_self hwf]
      · rw [ofBitmap_self hwf]
    · rw [if_neg (by omega), ofBitmap_self hwf]

/-- Witness of `C5_bitmap_consistency`: the state `BlockManager(8)` constructs. -/
theorem C5_bitmap_consistency_witness :
    ([true, false, false, false, false, false, false, false] : List Bool).count true = 1 ∧
    getFreeBlocksCount
        { bitmap := [true, false, false, false, false, false, false, false], total_blocks := 8,
          used_blocks_count := 1 } +
      ([true, false, false, false, false, false, false, false] : List Bool).count true =
      getTotalBlocks
        { bitmap := [true, false, false, false, false, false, false, false], total_blocks := 8,
          used_blocks_count := 1 } ∧
    (∀ s : Nat, (s : Int) ≤ INT_MAX →
      ((([true, false, false, false, false, false, false, false] : List Bool)[s]? = some false ∨
          8 ≤ s) →
        freeBlocks
          { bitmap := [true, false, false, false, false, false, false, false], total_blocks := 8,
            used_blocks_count := 1 } (s : Int) 1 =
          some { bitmap := [true, false, false, false, false, false, false, false],
                 total_blocks := 8, used_blocks_count := 1 }) ∧
      ((([true, false, false, false, false, false, false, false] : List Bool)[s]? = some true ∨
          8 ≤ s) →
        markUsed
          { bitmap := [true, false, false, false, false, false, false, false], total_blocks := 8,
            used_blocks_count := 1 } (s : Int) 1 =
          some { bitmap := [true, false, false, false, false, false, false, false],
                 total_blocks := 8, used_blocks_count := 1 })) :=
  C5_bitmap_consistency 8 (by decide)
    { bitmap := [true, false, false, false, false, false, false, false], total_blocks := 8,
      used_blocks_count := 1 }
    (Reachable.init (by decide))

/-- C7. In every state of the allocator, when `allocateBlocks(n)` returns a start `s`, a following
`freeBlocks(s, n)` returns the state before the allocation: `getFreeBlocksCount()` has its former
value and the whole bitmap is restored. -/
theorem C7_allocate_free (bm : BlockManager) (hwf : bm.WF) (n : Int) (hint : n ≤ INT_MAX)
    (s : Int) (bm1 : BlockManager) (halloc : allocateBlocks bm n = some (s, bm1))
    (hs : s ≠ -1) :
    ∃ bm2, freeBlocks bm1 s n = some bm2 ∧
      getFreeBlocksCount bm2 = getFreeBlocksCount bm ∧ bm2.bitmap = bm.bitmap ∧ bm2 = bm := by
  by_cases hc : n ≤ 0
  · simp only [allocateBlocks, if_pos hc, Option.some.injEq, Prod.mk.injEq] at halloc
    exact absurd halloc.1.symm hs
  · obtain ⟨c, rfl⟩ := Int.eq_ofNat_of_zero_le (show 0 ≤ n by omega)
    have hc1 : 1 ≤ c := by omega
    rcases allocateBlocks_spec bm hwf.len c hc1 with ⟨h1, _⟩ | ⟨s0, hrun, hmin, _⟩
    · rw [h1] at halloc
      simp only [Option.some.injEq, Prod.mk.injEq] at halloc
      exact absurd halloc.1.symm hs
    · have hwf1 := (allocateBlocks_WF hwf halloc).1
      rw [allocateBlocks_run hwf hc1 hint hrun hmin] at halloc
      simp only [Option.some.injEq, Prod.mk.injEq] at halloc
      obtain ⟨rfl, rfl⟩ := halloc
      have hb : s0 + c ≤ 2 ^ 31 := by
        unfold INT_MAX at hint
        rcases (run_start hwf hc1 hrun hmin).2 with h4 | h4
        · have h1 := hrun.1
          have h2 := hwf.len
          omega
        · omega
      refine ⟨bm, ?_, rfl, rfl, rfl⟩
      rw [freeBlocks_eq hwf1 s0 c hb]
      simp only [ofBitmap, setBits_false_true _ hrun]
      exact congrArg some (ofBitmap_self hwf)

/-- Witness of `C7_allocate_free`: eight blocks, blocks 0 and 3 used, three blocks allocated at
start 4 and freed again. -/
theorem C7_allocate_free_witness :
    ∃ bm2, freeBlocks
        { bitmap := [true, false, false, true, true, true, true, false], total_blocks := 8,
          used_blocks_count := 5 } 4 3 = some bm2 ∧
      getFreeBlocksCount bm2 = getFreeBlocksCount
        { bitmap := [true, false, false, true, false, false, false, false], total_blocks := 8,
          used_blocks_count := 2 } ∧
      bm2.bitmap = [true, false, false, true, false, false, false, false] ∧
      bm2 = { bitmap := [true, false, false, true, false, false, false, false],
              total_blocks := 8, used_blocks_count := 2 } :=
  C7_allocate_free
    { bitmap := [true, false, false, true, false, false, false, false], total_blocks := 8,
      used_blocks_count := 2 }
    ⟨by decide, by decide, by decide, fun h => absurd h (by decide)⟩ 3 (by decide) 4
    { bitmap := [true, false, false, true, true, true, true, false], total_blocks := 8,
      used_blocks_count := 5 }
    (by decide) (by decide)

/-! ## Reserved blocks -/

theorem format_bitmap :
    setBits true 25600 (setBits true 25600 (List.replicate 25600 false) 0 1) 0 4 =
      [true, true, true, true] ++ List.replicate 25596 false := by
  apply List.ext_getElem?
  intro j
  rw [getElem?_setBits, getElem?_setBits, List.getElem?_replicate]
  by_cases h4 : j < 4
  · have e : ([true, true, true, true] ++ List.replicate 25596 false)[j]? = some true := by
      rw [List.getElem?_append_left (by simpa using h4)]
      rcases j with _ | _ | _ | _ | j
      · rfl
      · rfl
      · rfl
      · rfl
      · omega
    rw [e, if_pos ⟨by omega, by omega, by omega⟩, if_pos (show j < 25600 by omega)]
    split <;> rfl
  · have e : ([true, true, true, true] ++ List.replicate 25596 false)[j]? =
        if j < 25600 then some false else none := by
      rw [List.getElem?_append_right (by simpa using h4), List.getElem?_replicate]
      simp only [List.length_cons, List.length_nil]
      by_cases h : j < 25600
      · rw [if_pos h, if_pos (by omega)]
      · rw [if_neg h, if_neg (by omega)]
    rw [e, if_neg (by omega), if_neg (by omega)]

/-- The allocator of a freshly formatted volume: 25600 blocks of which blocks 0 to 3 are used. -/
theorem format_state :
    formatBlockManager =
      some { bitmap := [true, true, true, true] ++ List.replicate 25596 false,
             total_blocks := 25600, used_blocks_count := 4 } := by
  have hfresh := WF_fresh (show 25600 < 2 ^ 32 by decide)
  have hlim : toInt32 25600 = 25600 := toInt32_small (by decide)
  have h1 := markUsed_eq hfresh 0 1 (by omega)
  have hwf1 := (markUsed_WF hfresh (le_refl _) h1).1
  have h2 := markUsed_eq hwf1 0 4 (by omega)
  have hdiv : 104857600 / 4096 = 25600 := by decide
  unfold formatBlockManager BlockManager.new
  rw [hdiv]
  rw [show ((1 : Nat) : Int) = 1 from rfl, show ((0 : Nat) : Int) = 0 from rfl] at h1
  rw [show ((4 : Nat) : Int) = 4 from rfl, show ((0 : Nat) : Int) = 0 from rfl] at h2
  rw [h1, Option.some_bind, h2]
  simp only [ofBitmap, hlim, format_bitmap]
  have hc : List.count true ([true, true, true, true] ++ List.replicate 25596 false) = 4 := by
    rw [List.count_append, List.count_replicate]
    rfl
  rw [hc]

theorem freeBlocksLoop_some (s : Nat) (n : Nat) :
    ∀ (i : Nat) (bm bm' : BlockManager), bm.WF → freeBlocksLoop (s : Int) n (i : Int) bm = some bm' →
      bm' = ofBitmap bm (setBits false (toInt32 bm.total_blocks) bm.bitmap (s + i) n) := by
  induction n with
  | zero =>
    intro i bm bm' h he
    simp only [freeBlocksLoop, Option.some.injEq] at he
    rw [← he]
    exact (ofBitmap_self h).symm
  | succ n ih =>
    intro i bm bm' h he
    simp only [freeBlocksLoop] at he
    split at he
    · cases he
    · have hc : (s : Int) + (i : Int) = ((s + i : Nat) : Int) := by push_cast; rfl
      have hi : (i : Int) + 1 = ((i + 1 : Nat) : Int) := by push_cast; rfl
      rw [hc, freeBlocksAt_eq h, Option.some_bind, hi] at he
      have h2 := ih (i + 1) _ bm' (WF_step h (s + i) false) he
      rw [h2]
      simp only [ofBitmap, setBits, Nat.add_assoc]

/-- `freeBlocks` with a negative start on a bitmap whose `(int)total_blocks` is not negative:
the first pass reads `bitmap[idx]` below the vector, so a defined execution has no pass. -/
theorem freeBlocks_neg {bm bm' : BlockManager} {start count : Int} (hs : start < 0)
    (hlim : 0 ≤ toInt32 bm.total_blocks) (he : freeBlocks bm start count = some bm') :
    bm' = bm := by
  unfold freeBlocks at he
  cases hn : count.toNat with
  | zero =>
    rw [hn] at he
    simp only [freeBlocksLoop, Option.some.injEq] at he
    exact he.symm
  | succ n =>
    rw [hn] at he
    have h1 : ¬ (INT_MAX < start + 0) := by unfold INT_MAX; omega
    have h2 : start + 0 < toInt32 bm.total_blocks := by omega
    have h3 : start + 0 < 0 := by omega
    simp only [freeBlocksLoop, h1, if_false, freeBlocksAt, h2, h3, if_true, Option.none_bind] at he
    cases he

theorem toInt32_le_max (n : Nat) : toInt32 n ≤ INT_MAX := by
  unfold toInt32 INT_MAX
  split <;> omega

theorem setBits_true_keeps {l : List Bool} {j : Nat} (h : l[j]? = some true) (lim : Int)
    (s n : Nat) : (setBits true lim l s n)[j]? = some true := by
  rw [getElem?_setBits, h]
  split <;> rfl

/-- The invariant of the server's allocator: a well-formed state of 25600 blocks whose blocks 0 to
3 are used. -/
theorem ServerReachable_inv {bm : BlockManager} (h : ServerReachable bm) :
    bm.WF ∧ bm.total_blocks = 25600 ∧ ∀ j, j < 4 → bm.bitmap[j]? = some true := by
  have halloc : ∀ (bm bm' : BlockManager) (count r : Int),
      (bm.WF ∧ bm.total_blocks = 25600 ∧ ∀ j, j < 4 → bm.bitmap[j]? = some true) →
      count ≤ INT_MAX → allocateBlocks bm count = some (r, bm') →
      (bm'.WF ∧ bm'.total_blocks = 25600 ∧ ∀ j, j < 4 → bm'.bitmap[j]? = some true) := by
    intro bm bm' count r ih hint he
    have hw := allocateBlocks_WF ih.1 he
    refine ⟨hw.1, hw.2.trans ih.2.1, ?_⟩
    by_cases hc : count ≤ 0
    · simp only [allocateBlocks, if_pos hc, Option.some.injEq, Prod.mk.injEq] at he
      rw [← he.2]; exact ih.2.2
    · obtain ⟨c, rfl⟩ := Int.eq_ofNat_of_zero_le (show 0 ≤ count by omega)
      have hc1 : 1 ≤ c := by omega
      rcases allocateBlocks_spec bm ih.1.len c hc1 with ⟨h1, _⟩ | ⟨s, hrun, hmin, _⟩
      · rw [h1] at he
        simp only [Option.some.injEq, Prod.mk.injEq] at he
        rw [← he.2]; exact ih.2.2
      · rw [allocateBlocks_run ih.1 hc1 hint hrun hmin] at he
        simp only [Option.some.injEq, Prod.mk.injEq] at he
        rw [← he.2]
        intro j hj
        exact setBits_true_keeps (ih.2.2 j hj) _ _ _
  have hfree : ∀ (bm bm' : BlockManager) (sb : Nat) (count : Int),
      (bm.WF ∧ bm.total_blocks = 25600 ∧ ∀ j, j < 4 → bm.bitmap[j]? = some true) →
      sb > 3 → sb < 2 ^ 32 → freeBlocks bm (toInt32 sb) count = some bm' →
      (bm'.WF ∧ bm'.total_blocks = 25600 ∧ ∀ j, j < 4 → bm'.bitmap[j]? = some true) := by
    intro bm bm' sb count ih h3 hr he
    have hlim : toInt32 bm.total_blocks = 25600 := by
      rw [ih.2.1]; exact toInt32_small (by decide)
    by_cases hsmall : sb < 2 ^ 31
    · rw [toInt32_small hsmall] at he
      have hw := freeBlocks_WF ih.1 (by omega) he
      refine ⟨hw.1, hw.2.trans ih.2.1, ?_⟩
      have hs := freeBlocksLoop_some sb count.toNat 0 bm bm' ih.1 (by simpa [freeBlocks] using he)
      rw [hs]
      intro j hj
      simp only [ofBitmap, getElem?_setBits]
      rw [if_neg (by omega)]
      exact ih.2.2 j hj
    · have hneg := toInt32_big (Nat.le_of_not_lt hsmall) hr
      have := freeBlocks_neg hneg (by omega) he
      rw [this]; exact ih
  induction h with
  | format he =>
    rw [format_state] at he
    cases he
    refine ⟨⟨?_, by decide, ?_, fun h => absurd h (by decide)⟩, rfl, ?_⟩
    · show ([true, true, true, true] ++ List.replicate 25596 false).length = 25600
      rw [List.length_append, List.length_replicate]
      rfl
    · show List.count true ([true, true, true, true] ++ List.replicate 25596 false) = 4
      rw [List.count_append, List.count_replicate]
      rfl
    · intro j hj
      show ([true, true, true, true] ++ List.replicate 25596 false)[j]? = some true
      rw [List.getElem?_append_left (by simpa using hj)]
      rcases j with _ | _ | _ | _ | j
      · rfl
      · rfl
      · rfl
      · rfl
      · omega
  | step req _ hr he ih =>
    cases req with
    | user_create =>
      simp only [dispatchAlloc, Option.map_eq_some', Prod.exists, exists_eq_right] at he
      obtain ⟨r, he⟩ := he
      exact halloc _ _ 1 r ih (by decide) he
    | file_create len =>
      simp only [dispatchAlloc, Option.map_eq_some', Prod.exists, exists_eq_right] at he
      obtain ⟨r, he⟩ := he
      exact halloc _ _ _ r ih (toInt32_le_max _) he
    | file_delete sb size =>
      simp only [dispatchAlloc] at he
      by_cases h3 : sb > 3
      · rw [if_pos h3] at he
        exact hfree _ _ sb _ ih h3 hr.1 he
      · rw [if_neg h3] at he
        cases he; exact ih
    | dir_delete db =>
      simp only [dispatchAlloc] at he
      by_cases h3 : db > 3
      · rw [if_pos h3] at he
        exact hfree _ _ db _ ih h3 hr he
      · rw [if_neg h3] at he
        cases he; exact ih

/-- C6. In every allocator state of the server reachable from a freshly formatted volume by
`user_create`, `file_create`, `file_delete` and `dir_delete`, blocks 0, 1, 2 and 3 are marked
used, and a call of `allocateBlocks` returns `-1` or a start index of at least 4. -/
theorem C6_reserved_blocks (bm : BlockManager) (h : ServerReachable bm) :
    (∀ j, j < 4 → bm.bitmap[j]? = some true) ∧
    (∀ (count r : Int) (bm' : BlockManager),
      allocateBlocks bm count = some (r, bm') → r = -1 ∨ 4 ≤ r) := by
  obtain ⟨hwf, htot, hres⟩ := ServerReachable_inv h
  refine ⟨hres, ?_⟩
  intro count r bm' he
  by_cases hc : count ≤ 0
  · simp only [allocateBlocks, if_pos hc, Option.some.injEq, Prod.mk.injEq] at he
    exact Or.inl he.1.symm
  · obtain ⟨c, rfl⟩ := Int.eq_ofNat_of_zero_le (show 0 ≤ count by omega)
    have hc1 : 1 ≤ c := by omega
    rcases allocateBlocks_spec bm hwf.len c hc1 with ⟨h1, _⟩ | ⟨s, hrun, hmin, h1⟩
    · rw [h1] at he
      simp only [Option.some.injEq, Prod.mk.injEq] at he
      exact Or.inl he.1.symm
    · right
      have hs4 : 4 ≤ s := by
        by_contra hlt
        have h2 := hrun.2 s (le_refl _) (by omega)
        rw [hres s (by omega)] at h2
        cases h2
      rw [h1, (run_start hwf hc1 hrun hmin).1] at he
      cases hm : markUsed bm (s : Int) (c : Int) with
      | none => rw [hm] at he; cases he
      | some b =>
        rw [hm] at he
        simp only [Option.map_some', Option.some.injEq, Prod.mk.injEq] at he
        rw [← he.1]
        omega

/-- Witness of `C6_reserved_blocks`: the allocator of the freshly formatted volume. -/
theorem C6_reserved_blocks_witness :
    (∀ j, j < 4 →
      ([true, true, true, true] ++ List.replicate 25596 false)[j]? = some true) ∧
    (∀ (count r : Int) (bm' : BlockManager),
      allocateBlocks
        { bitmap := [true, true, true, true] ++ List.replicate 25596 false,
          total_blocks := 25600, used_blocks_count := 4 } count = some (r, bm') →
      r = -1 ∨ 4 ≤ r) :=
  C6_reserved_blocks
    { bitmap := [true, true, true, true] ++ List.replicate 25596 false,
      total_blocks := 25600, used_blocks_count := 4 }
    (ServerReachable.format format_state)

/-! ## User index -/

theorem height_null : height .null = 0 := rfl

theorem height_node (d : UserInfo) (l r : UserNode) (h : Int) : height (.node d l r h) = h := rfl

theorem getBalance_node (d : UserInfo) (l r : UserNode) (h : Int) :
    getBalance (.node d l r h) = height l - height r := rfl

theorem AVL_node (d : UserInfo) (l r : UserNode) (h : Int) :
    AVL (.node d l r h) ↔ (AVL l ∧ AVL r ∧ h = 1 + max (height l) (height r) ∧
      height l - height r ≤ 1 ∧ height r - height l ≤ 1) := Iff.rfl

theorem inorderRec_node (d : UserInfo) (l r : UserNode) (h : Int) :
    inorderRec (.node d l r h) = inorderRec l ++ d :: inorderRec r := rfl

theorem height_nonneg : ∀ t : UserNode, AVL t → 0 ≤ height t
  | .null, _ => le_refl _
  | .node _ l r h, hav => by
    have h1 := height_nonneg l hav.1
    have h2 := height_nonneg r hav.2.1
    have h3 := hav.2.2.1
    simp only [height_node, height_null]
    omega

theorem height_pos_node {t : UserNode} (hav : AVL t) (h : 1 ≤ height t) :
    ∃ d l r hh, t = .node d l r hh := by
  cases t with
  | null => rw [height_null] at h; omega
  | node d l r hh => exact ⟨d, l, r, hh, rfl⟩

/-- The rebalancing step after an insertion into the left subtree. -/
theorem rebalance_left (d : UserInfo) (l l1 r : UserNode) (h : Int) (x : Str)
    (hav : AVL (.node d l r h)) (hav1 : AVL l1) (hg : Grew x l l1) :
    ∃ t1, rebalance d l1 r x = some t1 ∧ AVL t1 ∧
      inorderRec t1 = inorderRec l1 ++ d :: inorderRec r ∧
      (l1 = l → t1 = .node d l r h) ∧
      (height t1 = h ∨ (height t1 = h + 1 ∧ height l1 = height r + 1 ∧
        t1 = .node d l1 r (h + 1))) := by
  obtain ⟨havl, havr, hh, hb1, hb2⟩ := hav
  have hl0 := height_nonneg l havl
  have hr0 := height_nonneg r havr
  unfold rebalance
  simp only [getBalance_node]
  by_cases hb : height l1 - height r > 1
  · rw [if_pos hb]
    rcases hg with hg | ⟨hg, hshape⟩
    · omega
    · have hlne : l ≠ .null := by
        intro he
        rw [he] at hg hb1
        simp only [height_node, height_null] at hg hb1
        omega
      obtain ⟨ld, ll, lr, lh, rfl, hside⟩ := hshape hlne
      obtain ⟨havll, havlr, hlh, hlb1, hlb2⟩ := hav1
      have hll0 := height_nonneg ll havll
      have hlr0 := height_nonneg lr havlr
      simp only [height_node, height_null] at hg hb hside
      simp only []
      by_cases hx : x < ld.username
      · rw [if_pos hx]
        have hs : height ll = height lr + 1 := by
          rcases hside with hs | hs
          · exact hs.2
          · exact absurd hx (lt_asymm hs.1)
        refine ⟨_, rfl, ?_, ?_, ?_, ?_⟩
        · simp only [AVL_node, height_node]
          refine ⟨havll, ⟨havlr, havr, ?_, ?_, ?_⟩, ?_, ?_, ?_⟩ <;> omega
        · simp [inorderRec_node]
        · intro he
          rw [← he] at hg
          simp only [height_node, height_null] at hg
          omega
        · left
          simp only [height_node, height_null]
          omega
      · rw [if_neg hx]
        have hs : ld.username < x ∧ height lr = height ll + 1 := by
          rcases hside with hs | hs
          · exact absurd hs.1 hx
          · exact hs
        rw [if_pos (show x > ld.username from hs.1)]
        obtain ⟨lrd, lrl, lrr, lrh, rfl⟩ := height_pos_node havlr (by omega)
        obtain ⟨havlrl, havlrr, hlrh, hlrb1, hlrb2⟩ := havlr
        simp only [height_node, height_null] at hs hlh hlb1 hlb2 hlr0
        refine ⟨_, rfl, ?_, ?_, ?_, ?_⟩
        · simp only [AVL_node, height_node]
          refine ⟨⟨havll, havlrl, ?_, ?_, ?_⟩, ⟨havlrr, havr, ?_, ?_, ?_⟩, ?_, ?_, ?_⟩ <;> omega
        · simp [inorderRec_node]
        · intro he
          rw [← he] at hg
          simp only [height_node, height_null] at hg
          omega
        · left
          simp only [height_node, height_null]
          omega
  · rw [if_neg hb]
    have hnb : ¬ (height l1 - height r < -1) := by
      rcases hg with hg | ⟨hg, _⟩ <;> omega
    rw [if_neg hnb]
    refine ⟨_, rfl, ?_, rfl, ?_, ?_⟩
    · rw [AVL_node]
      refine ⟨hav1, havr, rfl, ?_, ?_⟩ <;> omega
    · intro he
      rw [he, hh]
    · simp only [height_node, height_null]
      rcases hg with hg | ⟨hg, _⟩
      · left; omega
      · by_cases hc : height l1 ≤ height r
        · left; omega
        · right
          refine ⟨by omega, by omega, ?_⟩
          congr 1
          omega

/-- The rebalancing step after an insertion into the right subtree. -/
theorem rebalance_right (d : UserInfo) (l r r1 : UserNode) (h : Int) (x : Str)
    (hav : AVL (.node d l r h)) (hav1 : AVL r1) (hg : Grew x r r1) :
    ∃ t1, rebalance d l r1 x = some t1 ∧ AVL t1 ∧
      inorderRec t1 = inorderRec l ++ d :: inorderRec r1 ∧
      (r1 = r → t1 = .node d l r h) ∧
      (height t1 = h ∨ (height t1 = h + 1 ∧ height r1 = height l + 1 ∧
        t1 = .node d l r1 (h + 1))) := by
  obtain ⟨havl, havr, hh, hb1, hb2⟩ := hav
  have hl0 := height_nonneg l havl
  have hr0 := height_nonneg r havr
  unfold rebalance
  simp only [getBalance_node]
  have hnb : ¬ (height l - height r1 > 1) := by
    rcases hg with hg | ⟨hg, _⟩ <;> omega
  rw [if_neg hnb]
  by_cases hb : height l - height r1 < -1
  · rw [if_pos hb]
    rcases hg with hg | ⟨hg, hshape⟩
    · omega
    · have hrne : r ≠ .null := by
        intro he
        rw [he] at hg hb2
        simp only [height_node, height_null] at hg hb2
        omega
      obtain ⟨rd, rl, rr, rh, rfl, hside⟩ := hshape hrne
      obtain ⟨havrl, havrr, hrh, hrb1, hrb2⟩ := hav1
      have hrl0 := height_nonneg rl havrl
      have hrr0 := height_nonneg rr havrr
      simp only [height_node, height_null] at hg hb hside
      simp only []
      by_cases hx : x > rd.username
      · rw [if_pos hx]
        have hs : height rr = height rl + 1 := by
          rcases hside with hs | hs
          · exact absurd hx (lt_asymm hs.1)
          · exact hs.2
        refine ⟨_, rfl, ?_, ?_, ?_, ?_⟩
        · simp only [AVL_node, height_node]
          refine ⟨⟨havl, havrl, ?_, ?_, ?_⟩, havrr, ?_, ?_, ?_⟩ <;> omega
        · simp [inorderRec_node]
        · intro he
          rw [← he] at hg
          simp only [height_node, height_null] at hg
          omega
        · left
          simp only [height_node, height_null]
          omega
      · rw [if_neg hx]
        have hs : x < rd.username ∧ height rl = height rr + 1 := by
          rcases hside with hs | hs
          · exact hs
          · exact absurd hs.1 hx
        rw [if_pos hs.1]
        obtain ⟨rld, rll, rlr, rlh, rfl⟩ := height_pos_node havrl (by omega)
        obtain ⟨havrll, havrlr, hrlh, hrlb1, hrlb2⟩ := havrl
        simp only [height_node, height_null] at hs hrh hrb1 hrb2 hrl0
        refine ⟨_, rfl, ?_, ?_, ?_, ?_⟩
        · simp only [AVL_node, height_node]
          refine ⟨⟨havl, havrll, ?_, ?_, ?_⟩, ⟨havrlr, havrr, ?_, ?_, ?_⟩, ?_, ?_, ?_⟩ <;> omega
        · simp [inorderRec_node]
        · intro he
          rw [← he] at hg
          simp only [height_node, height_null] at hg
          omega
        · left
          simp only [height_node, height_null]
          omega
  · rw [if_neg hb]
    refine ⟨_, rfl, ?_, rfl, ?_, ?_⟩
    · rw [AVL_node]
      refine ⟨havl, hav1, rfl, ?_, ?_⟩ <;> omega
    · intro he
      rw [he, hh]
    · simp only [height_node, height_null]
      rcases hg with hg | ⟨hg, _⟩
      · left; omega
      · by_cases hc : height r1 ≤ height l
        · left; omega
        · right
          refine ⟨by omega, by omega, ?_⟩
          congr 1
          omega

/-! ### Ordered lists of records -/

theorem listInsert_append_lt (x d : UserInfo) (R : List UserInfo) (hlt : x.username < d.username) :
    ∀ L : List UserInfo, listInsert x (L ++ d :: R) = listInsert x L ++ d :: R
  | [] => by simp [listInsert, hlt]
  | a :: L => by
    simp only [List.cons_append, listInsert]
    by_cases h1 : x.username < a.username
    · simp [h1]
    · by_cases h2 : a.username < x.username
      · simp [h1, h2, listInsert_append_lt x d R hlt L]
      · simp [h1, h2]

theorem listInsert_append_gt (x d : UserInfo) (R : List UserInfo) (hgt : d.username < x.username) :
    ∀ L : List UserInfo, (∀ a ∈ L, a.username < x.username) →
      listInsert x (L ++ d :: R) = L ++ d :: listInsert x R
  | [], _ => by simp [listInsert, hgt, lt_asymm hgt]
  | a :: L, hL => by
    have ha : a.username < x.username := hL a (List.mem_cons_self _ _)
    have ih := listInsert_append_gt x d R hgt L (fun b hb => hL b (List.mem_cons_of_mem _ hb))
    rw [List.cons_append, listInsert, if_neg (lt_asymm ha), if_pos ha, ih, List.cons_append]

theorem listInsert_append_eq (x d : UserInfo) (R : List UserInfo)
    (h1 : ¬ x.username < d.username) (h2 : ¬ d.username < x.username) :
    ∀ L : List UserInfo, (∀ a ∈ L, a.username < x.username) →
      listInsert x (L ++ d :: R) = L ++ d :: R
  | [], _ => by simp [listInsert, h1, h2]
  | a :: L, hL => by
    have ha : a.username < x.username := hL a (List.mem_cons_self _ _)
    have ih := listInsert_append_eq x d R h1 h2 L (fun b hb => hL b (List.mem_cons_of_mem _ hb))
    rw [List.cons_append, listInsert, if_neg (lt_asymm ha), if_pos ha, ih]

theorem mem_listInsert (x : UserInfo) :
    ∀ (l : List UserInfo) (b : UserInfo), b ∈ listInsert x l → b ∈ l ∨ b = x
  | [], b, h => by simp [listInsert] at h; exact Or.inr h
  | a :: l, b, h => by
    simp only [listInsert] at h
    split at h
    · rcases List.mem_cons.mp h with h1 | h1
      · exact Or.inr h1
      · exact Or.inl h1
    · split at h
      · rcases List.mem_cons.mp h with h1 | h1
        · exact Or.inl (h1 ▸ List.mem_cons_self _ _)
        · rcases mem_listInsert x l b h1 with h2 | h2
          · exact Or.inl (List.mem_cons_of_mem _ h2)
          · exact Or.inr h2
      · exact Or.inl h

theorem sorted_listInsert (x : UserInfo) :
    ∀ l : List UserInfo, SortedByName l → SortedByName (listInsert x l)
  | [], _ => by simp [listInsert, SortedByName]
  | a :: l, hs => by
    unfold SortedByName at hs ⊢
    rw [List.pairwise_cons] at hs
    simp only [listInsert]
    by_cases h1 : x.username < a.username
    · rw [if_pos h1, List.pairwise_cons, List.pairwise_cons]
      refine ⟨?_, hs.1, hs.2⟩
      intro b hb
      rcases List.mem_cons.mp hb with h2 | h2
      · rw [h2]; exact h1
      · exact lt_trans h1 (hs.1 b h2)
    · rw [if_neg h1]
      by_cases h2 : a.username < x.username
      · rw [if_pos h2, List.pairwise_cons]
        refine ⟨?_, sorted_listInsert x l hs.2⟩
        intro b hb
        rcases mem_listInsert x l b hb with h3 | h3
        · exact hs.1 b h3
        · rw [h3]; exact h2
      · rw [if_neg h2, List.pairwise_cons]
        exact hs

theorem names_listInsert (x : UserInfo) :
    ∀ (l : List UserInfo) (k : Str),
      k ∈ (listInsert x l).map (fun u => u.username) ↔
        k ∈ l.map (fun u => u.username) ∨ k = x.username
  | [], k => by simp [listInsert]
  | a :: l, k => by
    simp only [listInsert]
    by_cases h1 : x.username < a.username
    · rw [if_pos h1]
      simp only [List.map_cons, List.mem_cons]
      tauto
    · rw [if_neg h1]
      by_cases h2 : a.username < x.username
      · rw [if_pos h2]
        simp only [List.map_cons, List.mem_cons, names_listInsert x l k]
        tauto
      · rw [if_neg h2]
        have he : x.username = a.username := by
          rcases lt_trichotomy x.username a.username with h3 | h3 | h3
          · exact absurd h3 h1
          · exact h3
          · exact absurd h3 h2
        simp only [List.map_cons, List.mem_cons, he]
        tauto

theorem sorted_split {L R : List UserInfo} {d : UserInfo} (hs : SortedByName (L ++ d :: R)) :
    SortedByName L ∧ SortedByName R ∧ (∀ a ∈ L, a.username < d.username) ∧
      (∀ b ∈ R, d.username < b.username) := by
  unfold SortedByName at hs ⊢
  rw [List.pairwise_append, List.pairwise_cons] at hs
  exact ⟨hs.1, hs.2.1.2, fun a ha => hs.2.2 a ha d (List.mem_cons_self _ _), hs.2.1.1⟩

/-- `insertRec` on a balanced search tree: it returns, the result is balanced, its in-order
sequence is the ordered insertion of the record, and a record whose username is present leaves the
tree as it is. -/
theorem insertRec_spec (info : UserInfo) :
    ∀ t : UserNode, AVL t → SortedByName (inorderRec t) →
      ∃ t1, insertRec t info = some t1 ∧ AVL t1 ∧
        inorderRec t1 = listInsert info (inorderRec t) ∧
        (info.username ∈ (inorderRec t).map (fun u => u.username) → t1 = t) ∧
        Grew info.username t t1 := by
  intro t
  induction t with
  | null =>
    intro _ _
    refine ⟨_, rfl, ?_, rfl, ?_, ?_⟩
    · rw [AVL_node]
      simp [AVL, height_null]
    · intro h
      simp [inorderRec] at h
    · right
      exact ⟨by simp [height_node, height_null], fun h => absurd rfl h⟩
  | node d l r h ihl ihr =>
    intro hav hs
    rw [inorderRec_node] at hs
    obtain ⟨hsl, hsr, hlt, hgt⟩ := sorted_split hs
    have havn := hav
    obtain ⟨havl, havr, hh, hb1, hb2⟩ := hav
    by_cases hx : info.username < d.username
    · obtain ⟨l1, he, hav1, hin, hdup, hg⟩ := ihl havl hsl
      obtain ⟨t1, hr, havt, hint, hsame, hgrow⟩ := rebalance_left d l l1 r h info.username havn hav1 hg
      refine ⟨t1, ?_, havt, ?_, ?_, ?_⟩
      · simp only [insertRec, if_pos hx, he, Option.some_bind, hr]
      · rw [hint, hin, inorderRec_node, listInsert_append_lt info d _ hx]
      · intro hmem
        apply hsame
        apply hdup
        rw [inorderRec_node, List.map_append, List.mem_append, List.map_cons, List.mem_cons] at hmem
        rcases hmem with h1 | h1 | h1
        · exact h1
        · exact absurd (h1 ▸ hx) (lt_irrefl _)
        · obtain ⟨b, hb, hbe⟩ := List.mem_map.mp h1
          have := hgt b hb
          rw [hbe] at this
          exact absurd (lt_trans hx this) (lt_irrefl _)
      · rcases hgrow with hgw | ⟨hgw, hlr, ht⟩
        · left; rw [hgw, height_node]
        · right
          refine ⟨by rw [hgw, height_node], fun _ => ⟨d, l1, r, h + 1, ht, Or.inl ⟨hx, hlr⟩⟩⟩
    · by_cases hx2 : info.username > d.username
      · obtain ⟨r1, he, hav1, hin, hdup, hg⟩ := ihr havr hsr
        obtain ⟨t1, hr, havt, hint, hsame, hgrow⟩ :=
          rebalance_right d l r r1 h info.username havn hav1 hg
        refine ⟨t1, ?_, havt, ?_, ?_, ?_⟩
        · simp only [insertRec, if_neg hx, if_pos hx2, he, Option.some_bind, hr]
        · rw [hint, hin, inorderRec_node,
            listInsert_append_gt info d _ hx2 _ (fun a ha => lt_trans (hlt a ha) hx2)]
        · intro hmem
          apply hsame
          apply hdup
          rw [inorderRec_node, List.map_append, List.mem_append, List.map_cons, List.mem_cons]
            at hmem
          rcases hmem with h1 | h1 | h1
          · obtain ⟨a, ha, hae⟩ := List.mem_map.mp h1
            have := hlt a ha
            rw [hae] at this
            exact absurd (lt_trans this hx2) (lt_irrefl _)
          · exact absurd (h1 ▸ hx2) (lt_irrefl _)
          · exact h1
        · rcases hgrow with hgw | ⟨hgw, hlr, ht⟩
          · left; rw [hgw, height_node]
          · right
            refine ⟨by rw [hgw, height_node], fun _ => ⟨d, l, r1, h + 1, ht, Or.inr ⟨hx2, hlr⟩⟩⟩
      · refine ⟨.node d l r h, ?_, havn, ?_, fun _ => rfl, Or.inl rfl⟩
        · simp only [insertRec, if_neg hx, if_neg hx2]
        · have he : info.username = d.username := by
            rcases lt_trichotomy info.username d.username with h3 | h3 | h3
            · exact absurd h3 hx
            · exact h3
            · exact absurd h3 hx2
          rw [inorderRec_node, listInsert_append_eq info d _ hx hx2 _
            (fun a ha => he ▸ hlt a ha)]

/-- `searchRec` on a search tree finds the record of the in-order sequence with the username. -/
theorem searchRec_eq_findName :
    ∀ (t : UserNode), SortedByName (inorderRec t) → ∀ u : Str,
      searchRec t u = findName u (inorderRec t) := by
  intro t
  induction t with
  | null => intro _ u; rfl
  | node d l r h ihl ihr =>
    intro hs u
    rw [inorderRec_node] at hs
    obtain ⟨hsl, hsr, hlt, hgt⟩ := sorted_split hs
    have hnoneL : ∀ v : Str, d.username ≤ v → findName v (inorderRec l) = none := by
      intro v hv
      unfold findName
      rw [List.find?_eq_none]
      intro a ha hc
      have h1 := hlt a ha
      rw [of_decide_eq_true hc] at h1
      exact absurd (lt_of_lt_of_le h1 hv) (lt_irrefl _)
    have hnoneR : ∀ v : Str, v ≤ d.username → findName v (inorderRec r) = none := by
      intro v hv
      unfold findName
      rw [List.find?_eq_none]
      intro b hb hc
      have h1 := hgt b hb
      rw [of_decide_eq_true hc] at h1
      exact absurd (lt_of_le_of_lt hv h1) (lt_irrefl _)
    have hsplit : findName u (inorderRec l ++ d :: inorderRec r) =
        (findName u (inorderRec l)).or
          (if d.username = u then some d else findName u (inorderRec r)) := by
      unfold findName
      rw [List.find?_append, List.find?_cons]
      by_cases hd : d.username = u
      · simp [hd]
      · simp [hd]
    rw [inorderRec_node, hsplit]
    simp only [searchRec]
    by_cases hd : d.username = u
    · rw [if_pos hd, if_pos hd, hnoneL u (le_of_eq hd), Option.none_or]
    · rw [if_neg hd, if_neg hd]
      by_cases hu : u < d.username
      · rw [if_pos hu, ihl hsl u, hnoneR u (le_of_lt hu), Option.or_none]
      · rw [if_neg hu, ihr hsr u, hnoneL u (le_of_not_lt hu), Option.none_or]

theorem findName_listInsert (x : UserInfo) (u : Str) :
    ∀ l : List UserInfo, SortedByName l →
      findName u (listInsert x l) =
        (findName u l).or (if x.username = u then some x else none)
  | [], _ => by
    unfold findName
    simp only [listInsert, List.find?_cons, List.find?_nil, Option.none_or]
    by_cases h : x.username = u <;> simp [h]
  | a :: l, hs => by
    have hs2 := hs
    unfold SortedByName at hs2
    rw [List.pairwise_cons] at hs2
    have ih := findName_listInsert x u l hs2.2
    unfold findName at ih ⊢
    simp only [listInsert]
    by_cases h1 : x.username < a.username
    · rw [if_pos h1, List.find?_cons]
      by_cases hxu : x.username = u
      · have hnone : List.find? (fun i => decide (i.username = u)) (a :: l) = none := by
          rw [List.find?_eq_none]
          intro b hb hc
          have hbu := of_decide_eq_true hc
          rcases List.mem_cons.mp hb with h2 | h2
          · rw [h2, ← hxu] at hbu
            exact absurd (hbu ▸ h1) (lt_irrefl _)
          · have := lt_trans h1 (hs2.1 b h2)
            rw [hbu, hxu] at this
            exact absurd this (lt_irrefl _)
        rw [hnone]
        simp [hxu]
      · simp [hxu]
    · rw [if_neg h1]
      by_cases h2 : a.username < x.username
      · rw [if_pos h2, List.find?_cons, List.find?_cons, ih]
        by_cases hau : a.username = u
        · simp [hau]
        · simp [hau]
      · rw [if_neg h2]
        have he : x.username = a.username := by
          rcases lt_trichotomy x.username a.username with h3 | h3 | h3
          · exact absurd h3 h1
          · exact h3
          · exact absurd h3 h2
        by_cases hxu : x.username = u
        · rw [List.find?_cons]
          simp [← he, hxu]
        · simp [hxu]

/-- A sequence of inserts on a balanced search tree: it returns a balanced search tree whose
in-order sequence is the ordered insertion of the records, one after the other. -/
theorem insertAll_spec :
    ∀ (infos : List UserInfo) (t : UserAVLTree), AVL t.root → SortedByName (inorderRec t.root) →
      ∃ t1, t.insertAll infos = some t1 ∧ AVL t1.root ∧ SortedByName (inorderRec t1.root) ∧
        inorderRec t1.root = infos.foldl (fun l i => listInsert i l) (inorderRec t.root)
  | [], t, hav, hs => ⟨t, rfl, hav, hs, rfl⟩
  | info :: rest, t, hav, hs => by
    obtain ⟨r1, he, hav1, hin, _, _⟩ := insertRec_spec info t.root hav hs
    have hs1 : SortedByName (inorderRec r1) := by rw [hin]; exact sorted_listInsert info _ hs
    obtain ⟨t2, he2, hav2, hs2, hin2⟩ := insertAll_spec rest { root := r1 } hav1 hs1
    refine ⟨t2, ?_, hav2, hs2, ?_⟩
    · simp only [UserAVLTree.insertAll, UserAVLTree.insert, he, Option.map_some',
        Option.some_bind, he2]
    · rw [hin2, List.foldl_cons, hin]

theorem names_foldl_listInsert (k : Str) :
    ∀ (infos l : List UserInfo),
      k ∈ (infos.foldl (fun l i => listInsert i l) l).map (fun u => u.username) ↔
        k ∈ l.map (fun u => u.username) ∨ k ∈ infos.map (fun u => u.username)
  | [], l => by simp
  | info :: rest, l => by
    rw [List.foldl_cons, names_foldl_listInsert k rest, names_listInsert]
    simp only [List.map_cons, List.mem_cons]
    tauto

theorem sorted_foldl_listInsert :
    ∀ (infos l : List UserInfo), SortedByName l →
      SortedByName (infos.foldl (fun l i => listInsert i l) l)
  | [], _, hs => hs
  | info :: rest, l, hs => by
    rw [List.foldl_cons]
    exact sorted_foldl_listInsert rest _ (sorted_listInsert info l hs)

theorem findName_foldl_listInsert (u : Str) :
    ∀ (infos l : List UserInfo), SortedByName l →
      findName u (infos.foldl (fun l i => listInsert i l) l) =
        (findName u l).or (findName u infos)
  | [], l, _ => by simp [findName, Option.or_none]
  | info :: rest, l, hs => by
    rw [List.foldl_cons, findName_foldl_listInsert u rest _ (sorted_listInsert info l hs),
      findName_listInsert info u l hs, Option.or_assoc]
    congr 1
    unfold findName
    rw [List.find?_cons]
    by_cases h : info.username = u <;> simp [h]

/-- C8. For every sequence of `insert` calls from the empty tree the calls return, and
`getAllUsers()` lists the records in strictly increasing lexicographic order of username; the
usernames listed are exactly the usernames that were inserted, each once. -/
theorem C8_ordered_enumeration (infos : List UserInfo) :
    ∃ t, UserAVLTree.empty.insertAll infos = some t ∧
      (t.getAllUsers.map (fun u => u.username)).Pairwise (fun a b => a < b) ∧
      (∀ k, k ∈ t.getAllUsers.map (fun u => u.username) ↔
        k ∈ infos.map (fun u => u.username)) := by
  obtain ⟨t, he, _, hs, hin⟩ :=
    insertAll_spec infos UserAVLTree.empty trivial List.Pairwise.nil
  refine ⟨t, he, ?_, ?_⟩
  · rw [List.pairwise_map]
    exact hs
  · intro k
    unfold UserAVLTree.getAllUsers
    rw [hin, names_foldl_listInsert]
    simp [UserAVLTree.empty, inorderRec]

/-- C9. For every sequence of `insert` calls from the empty tree and every username `u`,
`search(u)` returns the record of the first insert whose username is `u` and nothing when no
insert had that username; an insert whose username is already in the tree returns the tree
unchanged. -/
theorem C9_map_semantics (infos : List UserInfo) (u : Str) :
    ∃ t, UserAVLTree.empty.insertAll infos = some t ∧
      t.search u = infos.find? (fun i => decide (i.username = u)) ∧
      (∀ info : UserInfo, info.username ∈ infos.map (fun i => i.username) →
        t.insert info = some t) := by
  obtain ⟨t, he, hav, hs, hin⟩ :=
    insertAll_spec infos UserAVLTree.empty trivial List.Pairwise.nil
  have hin2 : inorderRec t.root = infos.foldl (fun l i => listInsert i l) [] := hin
  refine ⟨t, he, ?_, ?_⟩
  · unfold UserAVLTree.search
    rw [searchRec_eq_findName _ hs, hin2, findName_foldl_listInsert u infos _ List.Pairwise.nil]
    simp [findName]
  · intro info hmem
    obtain ⟨t1, he1, _, _, hdup, _⟩ := insertRec_spec info t.root hav hs
    have hk : info.username ∈ (inorderRec t.root).map (fun u => u.username) := by
      rw [hin, names_foldl_listInsert]
      exact Or.inr hmem
    rw [hdup hk] at he1
    simp only [UserAVLTree.insert, he1, Option.map_some']

/-! ## Directory tree -/

theorem splitOn_cons_sep (sep : Char) (xs : Str) :
    List.splitOn sep (sep :: xs) = [] :: List.splitOn sep xs := by
  unfold List.splitOn
  rw [List.splitOnP_cons]
  simp

theorem splitOn_cons_ne (sep c : Char) (xs : Str) (h : c ≠ sep) :
    List.splitOn sep (c :: xs) = (List.splitOn sep xs).modifyHead (List.cons c) := by
  unfold List.splitOn
  rw [List.splitOnP_cons]
  simp [h]

theorem splitOn_ne_nil (sep : Char) (xs : Str) : List.splitOn sep xs ≠ [] :=
  List.splitOnP_ne_nil _ _

theorem splitOn_append (sep : Char) (b : Str) :
    ∀ a : Str, List.splitOn sep (a ++ sep :: b) = List.splitOn sep a ++ List.splitOn sep b
  | [] => by
    rw [List.nil_append, splitOn_cons_sep]
    rfl
  | c :: a => by
    by_cases h : c = sep
    · subst h
      rw [List.cons_append, splitOn_cons_sep, splitOn_cons_sep, splitOn_append c b a]
      rfl
    · rw [List.cons_append, splitOn_cons_ne _ _ _ h, splitOn_cons_ne _ _ _ h,
        splitOn_append sep b a]
      cases hs : List.splitOn sep a with
      | nil => exact absurd hs (splitOn_ne_nil sep a)
      | cons x xs => rfl

theorem splitOn_no_sep (sep : Char) :
    ∀ a : Str, (∀ x ∈ a, x ≠ sep) → List.splitOn sep a = [a]
  | [], _ => rfl
  | c :: a, h => by
    rw [splitOn_cons_ne _ _ _ (h c (List.mem_cons_self _ _)),
      splitOn_no_sep sep a (fun x hx => h x (List.mem_cons_of_mem _ hx))]
    rfl

theorem pathSegments_nil : pathSegments [] = [] := by decide

theorem pathSegments_append (a b : Str) :
    pathSegments (a ++ '/' :: b) = pathSegments a ++ pathSegments b := by
  unfold pathSegments
  rw [splitOn_append, List.filter_append]

theorem pathSegments_no_sep (a : Str) (h : ∀ x ∈ a, x ≠ '/') :
    pathSegments a = if a = [] then [] else [a] := by
  unfold pathSegments
  rw [splitOn_no_sep '/' a h]
  by_cases ha : a = []
  · simp [ha]
  · simp [ha]

/-- What `getline` reads: a segment free of `/`, and either the whole input was the segment or
the input is the segment, a `/`, and the characters left. -/
theorem getline_split :
    ∀ ss : Str, ∃ seg ss1,
      (ss.takeWhile (fun x => x != '/'), (ss.dropWhile (fun x => x != '/')).drop 1) = (seg, ss1) ∧
      (∀ x ∈ seg, x ≠ '/') ∧
      ((ss = seg ∧ ss1 = []) ∨ ss = seg ++ '/' :: ss1)
  | [] => ⟨[], [], rfl, fun _ h => absurd h (List.not_mem_nil _), Or.inl ⟨rfl, rfl⟩⟩
  | c :: rest => by
    by_cases hc : c = '/'
    · subst hc
      exact ⟨[], rest, rfl, fun _ h => absurd h (List.not_mem_nil _), Or.inr rfl⟩
    · obtain ⟨seg, ss1, he, hseg, hcase⟩ := getline_split rest
      have hb : (c != '/') = true := by simpa using hc
      simp only [Prod.mk.injEq] at he
      refine ⟨c :: seg, ss1, ?_, ?_, ?_⟩
      · rw [List.takeWhile_cons, List.dropWhile_cons, hb]
        simp only [if_true, he.1, he.2]
      · intro x hx
        rcases List.mem_cons.mp hx with h | h
        · rw [h]; exact hc
        · exact hseg x h
      · rcases hcase with ⟨h1, h2⟩ | h1
        · left; exact ⟨by rw [← h1], h2⟩
        · right; rw [h1]; rfl

theorem getline_spec (c : Char) (rest : Str) :
    ∃ seg ss1, getline '/' (c :: rest) = some (seg, ss1) ∧ ss1.length < (c :: rest).length ∧
      pathSegments (c :: rest) = if seg = [] then pathSegments ss1 else seg :: pathSegments ss1 := by
  obtain ⟨seg, ss1, he, hseg, hcase⟩ := getline_split (c :: rest)
  refine ⟨seg, ss1, by rw [getline, he], ?_, ?_⟩
  · rcases hcase with ⟨h1, h2⟩ | h1
    · rw [h2]; simp
    · rw [h1]; simp; omega
  · rcases hcase with ⟨h1, h2⟩ | h1
    · have hne : seg ≠ [] := by rw [← h1]; exact List.cons_ne_nil _ _
      rw [h1, h2, pathSegments_no_sep seg hseg, if_neg hne, if_neg hne, pathSegments_nil]
    · rw [h1, pathSegments_append, pathSegments_no_sep seg hseg]
      by_cases hne : seg = []
      · rw [if_pos hne, if_pos hne]; rfl
      · rw [if_neg hne, if_neg hne]; rfl

/-- The loop of `resolvePath` is the walk along the non-empty segments. -/
theorem resolveLoop_eq :
    ∀ (fuel : Nat) (current : FSNode) (ss : Str), ss.length < fuel →
      resolveLoop fuel current ss = walkSegments current (pathSegments ss)
  | 0, _, _, h => absurd h (Nat.not_lt_zero _)
  | fuel + 1, current, [], _ => by
    rw [pathSegments_nil]
    rfl
  | fuel + 1, current, c :: rest, h => by
    obtain ⟨seg, ss1, he, hlen, hseg⟩ := getline_spec c rest
    have hf : ss1.length < fuel := by omega
    rw [resolveLoop, he, hseg]
    simp only []
    by_cases hne : seg = []
    · rw [if_pos hne, if_pos hne]
      exact resolveLoop_eq fuel current ss1 hf
    · rw [if_neg hne, if_neg hne]
      simp only [findChild, walkSegments]
      cases hfind : current.children.find? (fun child => decide (child.metadata.name = seg)) with
      | none => rfl
      | some next => exact resolveLoop_eq fuel next ss1 hf

theorem resolvePath_eq_spec (t : FileSystemTree) (root : FSNode) (hroot : t.root = some root)
    (path : Str) (hpath : path ≠ []) : resolvePath t path = resolvePathSpec root path := by
  unfold resolvePath resolvePathSpec
  rw [hroot]
  simp only [if_neg hpath]
  by_cases hs : path = "/".toList
  · rw [if_pos hs, hs]
    rfl
  · rw [if_neg hs]
    exact resolveLoop_eq _ root path (Nat.lt_succ_self _)

theorem walkSegments_append :
    ∀ (segs1 segs2 : List Str) (current : FSNode),
      walkSegments current (segs1 ++ segs2) =
        (walkSegments current segs1).bind (fun n => walkSegments n segs2)
  | [], _, _ => rfl
  | seg :: segs1, segs2, current => by
    simp only [List.cons_append, walkSegments]
    cases current.children.find? (fun child => decide (child.metadata.name = seg)) with
    | none => rfl
    | some next => exact walkSegments_append segs1 segs2 next

/-- C10. For a tree with a root and a non-empty path, `resolvePath(path)` is the walk from the
root along the segments of the path split on `/`, the empty segments discarded: it is `none` as
soon as a segment has no matching child, it is the root when there is no non-empty segment
(`resolvePath("/")` is the root), and a path with a slash repeated, put in front or put at the end
resolves as the path without it. -/
theorem C10_resolvePath (t : FileSystemTree) (root : FSNode) (hroot : t.root = some root)
    (path : Str) (hpath : path ≠ []) :
    resolvePath t path = resolvePathSpec root path ∧
    (∀ (segs1 segs2 : List Str) (seg : Str) (n : FSNode),
      pathSegments path = segs1 ++ seg :: segs2 → walkSegments root segs1 = some n →
      findChild (some n) seg = none → resolvePath t path = none) ∧
    (pathSegments path = [] → resolvePath t path = some root) ∧
    resolvePath t "/".toList = some root ∧
    resolvePath t ("/".toList ++ path) = resolvePath t path ∧
    resolvePath t (path ++ "/".toList) = resolvePath t path ∧
    (∀ a b : Str, resolvePath t (a ++ "//".toList ++ b) = resolvePath t (a ++ "/".toList ++ b)) := by
  have hspec := resolvePath_eq_spec t root hroot
  refine ⟨hspec path hpath, ?_, ?_, ?_, ?_, ?_, ?_⟩
  · intro segs1 segs2 seg n hsegs hwalk hfind
    rw [hspec path hpath, resolvePathSpec, hsegs, walkSegments_append, hwalk, Option.some_bind]
    simp only [findChild] at hfind
    simp only [walkSegments, hfind]
  · intro hnil
    rw [hspec path hpath, resolvePathSpec, hnil]
    rfl
  · rw [hspec _ (by decide)]
    rfl
  · rw [hspec _ (by simp), hspec path hpath, resolvePathSpec, resolvePathSpec]
    show walkSegments root (pathSegments ([] ++ '/' :: path)) = _
    rw [pathSegments_append, pathSegments_nil, List.nil_append]
  · rw [hspec _ (by simp), hspec path hpath, resolvePathSpec, resolvePathSpec]
    show walkSegments root (pathSegments (path ++ '/' :: [])) = _
    rw [pathSegments_append, pathSegments_nil, List.append_nil]
  · intro a b
    rw [hspec _ (by simp), hspec _ (by simp), resolvePathSpec, resolvePathSpec]
    have e1 : a ++ "//".toList ++ b = a ++ '/' :: ([] ++ '/' :: b) := by simp
    have e2 : a ++ "/".toList ++ b = a ++ '/' :: b := by simp
    rw [e1, e2, pathSegments_append, pathSegments_append, pathSegments_append, pathSegments_nil,
      List.nil_append]

/-- Witness of `C10_resolvePath`: a root `/` with the child `home`, and the path `//home/`. -/
theorem C10_resolvePath_witness :
    resolvePath
        { root := some (.mk ⟨"/".toList, .DIRECTORY, 0, 493, "admin".toList, 0, 0, 2⟩
            [.mk ⟨"home".toList, .DIRECTORY, 0, 493, "admin".toList, 1, 0, 3⟩ []]),
          next_inode_counter := 2 } "//home/".toList =
      resolvePathSpec
        (.mk ⟨"/".toList, .DIRECTORY, 0, 493, "admin".toList, 0, 0, 2⟩
          [.mk ⟨"home".toList, .DIRECTORY, 0, 493, "admin".toList, 1, 0, 3⟩ []])
        "//home/".toList :=
  (C10_resolvePath
    { root := some (.mk ⟨"/".toList, .DIRECTORY, 0, 493, "admin".toList, 0, 0, 2⟩
        [.mk ⟨"home".toList, .DIRECTORY, 0, 493, "admin".toList, 1, 0, 3⟩ []]),
      next_inode_counter := 2 }
    (.mk ⟨"/".toList, .DIRECTORY, 0, 493, "admin".toList, 0, 0, 2⟩
      [.mk ⟨"home".toList, .DIRECTORY, 0, 493, "admin".toList, 1, 0, 3⟩ []])
    rfl "//home/".toList (by decide)).1

/-! ## Directory tree: pointers -/

theorem nodeAt_nil (n : FSNode) : nodeAt n [] = some n := by
  cases n; rfl

theorem nodeAt_cons (n : FSNode) (i : Nat) (rest : NodePtr) :
    nodeAt n (i :: rest) = (n.children[i]?).bind (fun c => nodeAt c rest) := by
  cases n with
  | mk m cs =>
    simp only [nodeAt, FSNode.children]
    cases cs[i]? <;> rfl

theorem nodeAt_append (p q : NodePtr) :
    ∀ n : FSNode, nodeAt n (p ++ q) = (nodeAt n p).bind (fun c => nodeAt c q) := by
  induction p with
  | nil => intro n; rw [List.nil_append, nodeAt_nil, Option.some_bind]
  | cons i rest ih =>
    intro n
    rw [List.cons_append, nodeAt_cons, nodeAt_cons]
    cases n.children[i]? with
    | none => rfl
    | some c => simp only [Option.some_bind, ih]

theorem findChildIdx_some {name : Str} :
    ∀ {cs : List FSNode} {i : Nat}, findChildIdx cs name = some i →
      ∃ c, cs[i]? = some c ∧ c.metadata.name = name ∧
        cs.find? (fun child => decide (child.metadata.name = name)) = some c ∧
        ∀ j c', j < i → cs[j]? = some c' → c'.metadata.name ≠ name
  | [], _, h => by simp [findChildIdx] at h
  | child :: rest, i, h => by
    simp only [findChildIdx] at h
    by_cases hn : child.metadata.name = name
    · rw [if_pos hn] at h
      cases h
      refine ⟨child, List.getElem?_cons_zero, hn, by simp [List.find?_cons, hn],
        fun j c' hj _ => absurd hj (Nat.not_lt_zero _)⟩
    · rw [if_neg hn] at h
      cases hr : findChildIdx rest name with
      | none => rw [hr] at h; cases h
      | some k =>
        rw [hr] at h
        simp only [Option.map_some', Option.some.injEq] at h
        subst h
        obtain ⟨c, hc, hcn, hf, hmin⟩ := findChildIdx_some hr
        refine ⟨c, by simpa using hc, hcn, by simp [List.find?_cons, hn, hf], ?_⟩
        intro j c' hj hj'
        cases j with
        | zero =>
          simp only [List.getElem?_cons_zero, Option.some.injEq] at hj'
          rw [← hj']; exact hn
        | succ j => exact hmin j c' (by omega) (by simpa using hj')

theorem findChildIdx_none {name : Str} :
    ∀ {cs : List FSNode}, findChildIdx cs name = none →
      cs.find? (fun child => decide (child.metadata.name = name)) = none ∧
      ∀ c ∈ cs, c.metadata.name ≠ name
  | [], _ => ⟨rfl, fun _ h => absurd h (List.not_mem_nil _)⟩
  | child :: rest, h => by
    simp only [findChildIdx] at h
    by_cases hn : child.metadata.name = name
    · rw [if_pos hn] at h; cases h
    · rw [if_neg hn] at h
      have hr : findChildIdx rest name = none := by
        cases hr : findChildIdx rest name with
        | none => rfl
        | some k => rw [hr] at h; cases h
      obtain ⟨hf, hall⟩ := findChildIdx_none hr
      refine ⟨by simp [List.find?_cons, hn, hf], ?_⟩
      intro c hc
      rcases List.mem_cons.mp hc with h1 | h1
      · rw [h1]; exact hn
      · exact hall c h1

/-- The pointer walk and the node walk agree: the pointer reached designates the node reached. -/
theorem walkSegmentsPtr_node (root : FSNode) :
    ∀ (segs : List Str) (current : FSNode) (ptr : NodePtr), nodeAt root ptr = some current →
      walkSegments current segs =
        (walkSegmentsPtr current ptr segs).bind (fun q => nodeAt root q)
  | [], current, ptr, h => by simp only [walkSegments, walkSegmentsPtr, Option.some_bind, h]
  | seg :: rest, current, ptr, h => by
    simp only [walkSegments, walkSegmentsPtr]
    cases hi : findChildIdx current.children seg with
    | none =>
      rw [(findChildIdx_none hi).1]
      rfl
    | some i =>
      obtain ⟨c, hc, _, hf, _⟩ := findChildIdx_some hi
      rw [hf]
      simp only [hc]
      apply walkSegmentsPtr_node root rest c (ptr ++ [i])
      rw [nodeAt_append, h, Option.some_bind, nodeAt_cons, hc, Option.some_bind, nodeAt_nil]

theorem resolveLoopPtr_eq :
    ∀ (fuel : Nat) (current : FSNode) (ptr : NodePtr) (ss : Str), ss.length < fuel →
      resolveLoopPtr fuel current ptr ss = walkSegmentsPtr current ptr (pathSegments ss)
  | 0, _, _, _, h => absurd h (Nat.not_lt_zero _)
  | fuel + 1, current, ptr, [], _ => by
    rw [pathSegments_nil]
    rfl
  | fuel + 1, current, ptr, c :: rest, h => by
    obtain ⟨seg, ss1, he, hlen, hseg⟩ := getline_spec c rest
    have hf : ss1.length < fuel := by omega
    rw [resolveLoopPtr, he, hseg]
    simp only []
    by_cases hne : seg = []
    · rw [if_pos hne, if_pos hne]
      exact resolveLoopPtr_eq fuel current ptr ss1 hf
    · rw [if_neg hne, if_neg hne]
      simp only [walkSegmentsPtr]
      cases findChildIdx current.children seg with
      | none => rfl
      | some i =>
        simp only []
        cases current.children[i]? with
        | none => rfl
        | some next => exact resolveLoopPtr_eq fuel next (ptr ++ [i]) ss1 hf

/-- `resolvePathPtr` is the pointer walk along the non-empty segments of the path. -/
theorem resolvePathPtr_eq (t : FileSystemTree) (root : FSNode) (hroot : t.root = some root)
    (path : Str) (hpath : path ≠ []) :
    resolvePathPtr t path = walkSegmentsPtr root [] (pathSegments path) := by
  unfold resolvePathPtr
  rw [hroot]
  simp only [if_neg hpath]
  by_cases hs : path = "/".toList
  · rw [if_pos hs, hs]
    rfl
  · rw [if_neg hs]
    exact resolveLoopPtr_eq _ root [] path (Nat.lt_succ_self _)

/-- The node `resolvePath` returns is the node its pointer designates. -/
theorem resolvePath_eq_node (t : FileSystemTree) (path : Str) :
    resolvePath t path = (resolvePathPtr t path).bind (fun q => t.node q) := by
  cases hroot : t.root with
  | none => simp [resolvePath, resolvePathPtr, hroot]
  | some root =>
    by_cases hpath : path = []
    · simp [resolvePath, resolvePathPtr, hroot, hpath]
    · rw [resolvePath_eq_spec t root hroot path hpath, resolvePathPtr_eq t root hroot path hpath,
        resolvePathSpec, walkSegmentsPtr_node root _ root [] (nodeAt_nil root)]
      simp only [FileSystemTree.node, hroot, Option.some_bind]

theorem list_set_self {α : Type} {l : List α} {i : Nat} {a : α} (h : l[i]? = some a) :
    l.set i a = l := by
  obtain ⟨hi, _⟩ := List.getElem?_eq_some_iff.mp h
  apply List.ext_getElem?
  intro j
  rw [List.getElem?_set]
  by_cases hij : i = j
  · subst hij; simp [hi, h]
  · simp [hij]

theorem modifyAt_nil (f : FSNode → FSNode) (n : FSNode) : modifyAt f [] n = f n := by
  cases n; rfl

theorem modifyAt_cons (f : FSNode → FSNode) (i : Nat) (rest : NodePtr) (m : FileEntry)
    (cs : List FSNode) (c : FSNode) (h : cs[i]? = some c) :
    modifyAt f (i :: rest) (.mk m cs) = .mk m (cs.set i (modifyAt f rest c)) := by
  simp only [modifyAt, h]

theorem FSNode.eta (n : FSNode) : FSNode.mk n.metadata n.children = n := by
  cases n; rfl

/-- The nodes of a tree after the node at `p` has been replaced by its image under `f`: above `p`
the node with the replacement below it, from `p` on the nodes of the image, elsewhere the node
there was. -/
theorem nodeAt_modifyAt (f : FSNode → FSNode) :
    ∀ (p : NodePtr) (root pn : FSNode), nodeAt root p = some pn → ∀ q : NodePtr,
      nodeAt (modifyAt f p root) q =
        if q <+: p then (nodeAt root q).map (modifyAt f (p.drop q.length))
        else if p <+: q then nodeAt (f pn) (q.drop p.length)
        else nodeAt root q := by
  intro p
  induction p with
  | nil =>
    intro root pn h q
    rw [nodeAt_nil] at h
    cases h
    rw [modifyAt_nil]
    by_cases hq : q <+: []
    · rw [if_pos hq]
      have : q = [] := List.prefix_nil.mp hq
      subst this
      simp [nodeAt_nil, modifyAt_nil]
    · rw [if_neg hq, if_pos (List.nil_prefix)]
      rfl
  | cons i p' ih =>
    intro root pn h q
    obtain ⟨m, cs⟩ := root
    rw [nodeAt_cons] at h
    simp only [FSNode.children] at h
    cases hc : cs[i]? with
    | none => rw [hc] at h; cases h
    | some c =>
      rw [hc, Option.some_bind] at h
      rw [modifyAt_cons f i p' m cs c hc]
      have hi : i < cs.length := (List.getElem?_eq_some_iff.mp hc).1
      cases q with
      | nil =>
        rw [if_pos List.nil_prefix, nodeAt_nil, nodeAt_nil]
        simp only [List.length_nil, List.drop_zero, Option.map_some']
        rw [modifyAt_cons f i p' m cs c hc]
      | cons j q' =>
        rw [nodeAt_cons, nodeAt_cons]
        simp only [FSNode.children]
        by_cases hj : j = i
        · subst hj
          rw [List.getElem?_set_self hi, hc, Option.some_bind, Option.some_bind, ih c pn h q']
          simp only [List.cons_prefix_cons, true_and, List.length_cons, List.drop_succ_cons]
        · rw [List.getElem?_set_ne (Ne.symm hj)]
          have h1 : ¬ (j :: q' <+: i :: p') := by
            rw [List.cons_prefix_cons]; exact fun hh => hj hh.1
          have h2 : ¬ (i :: p' <+: j :: q') := by
            rw [List.cons_prefix_cons]; exact fun hh => hj hh.1.symm
          rw [if_neg h1, if_neg h2]

theorem modifyAt_metadata (f : FSNode → FSNode) (hf : ∀ n, (f n).metadata = n.metadata) :
    ∀ (p : NodePtr) (n : FSNode), (modifyAt f p n).metadata = n.metadata
  | [], n => by rw [modifyAt_nil]; exact hf n
  | i :: rest, .mk m cs => by
    simp only [modifyAt]
    cases cs[i]? <;> rfl

/-- Replacing a node by itself leaves the tree as it is. -/
theorem modifyAt_id (f : FSNode → FSNode) :
    ∀ (p : NodePtr) (root pn : FSNode), nodeAt root p = some pn → f pn = pn →
      modifyAt f p root = root
  | [], root, pn, h, hf => by
    rw [nodeAt_nil] at h
    cases h
    rw [modifyAt_nil, hf]
  | i :: rest, .mk m cs, pn, h, hf => by
    rw [nodeAt_cons] at h
    simp only [FSNode.children] at h
    cases hc : cs[i]? with
    | none => rw [hc] at h; cases h
    | some c =>
      rw [hc, Option.some_bind] at h
      rw [modifyAt_cons f i rest m cs c hc, modifyAt_id f rest c pn h hf, list_set_self hc]

theorem children_mk (m : FileEntry) (cs : List FSNode) : (FSNode.mk m cs).children = cs := rfl

theorem metadata_mk (m : FileEntry) (cs : List FSNode) : (FSNode.mk m cs).metadata = m := rfl

theorem findChild_isSome (pn : FSNode) (name : Str) :
    (findChild (some pn) name).isSome = true ↔ ∃ c ∈ pn.children, c.metadata.name = name := by
  simp only [findChild, List.find?_isSome, decide_eq_true_eq]

/-- The nodes of the tree after a node `c` without children has been appended to the children of
the node at `p`. -/
theorem nodeAt_appendChild (root pn : FSNode) (p : NodePtr) (hp : nodeAt root p = some pn)
    (c : FileEntry) :
    let root1 := modifyAt (fun n => .mk n.metadata (n.children ++ [.mk c []])) p root
    nodeAt root1 p = some (.mk pn.metadata (pn.children ++ [.mk c []])) ∧
    nodeAt root1 (p ++ [pn.children.length]) = some (.mk c []) ∧
    nodeAt root (p ++ [pn.children.length]) = none ∧
    (∀ q n, nodeAt root q = some n →
      ∃ n1, nodeAt root1 q = some n1 ∧ n1.metadata = n.metadata ∧
        (q ≠ p → n1.children.length = n.children.length)) ∧
    (∀ q n1, nodeAt root1 q = some n1 →
      q = p ++ [pn.children.length] ∨ ∃ n, nodeAt root q = some n ∧ n.metadata = n1.metadata) := by
  intro root1
  have hgen := nodeAt_modifyAt (fun n => .mk n.metadata (n.children ++ [.mk c []])) p root pn hp
  have hmeta : ∀ (r : NodePtr) (n : FSNode),
      (modifyAt (fun n => FSNode.mk n.metadata (n.children ++ [.mk c []])) r n).metadata =
        n.metadata := modifyAt_metadata _ (fun _ => rfl)
  refine ⟨?_, ?_, ?_, ?_, ?_⟩
  · show nodeAt (modifyAt _ p root) p = _
    rw [hgen p, if_pos (List.prefix_refl p), hp]
    simp [modifyAt_nil]
  · show nodeAt (modifyAt _ p root) _ = _
    have h1 : ¬ (p ++ [pn.children.length] <+: p) := by
      intro h
      have := h.length_le
      simp at this
    rw [hgen, if_neg h1, if_pos (List.prefix_append _ _), List.drop_left, nodeAt_cons]
    simp [children_mk, nodeAt_nil]
  · rw [nodeAt_append, hp, Option.some_bind, nodeAt_cons]
    simp
  · intro q n hq
    show ∃ n1, nodeAt (modifyAt _ p root) q = some n1 ∧ _
    rw [hgen q]
    by_cases h1 : q <+: p
    · rw [if_pos h1, hq]
      refine ⟨_, rfl, hmeta _ _, ?_⟩
      intro hne
      obtain ⟨r, rfl⟩ := h1
      cases r with
      | nil => simp at hne
      | cons i r =>
        rw [List.drop_left]
        obtain ⟨m, cs⟩ := n
        simp only [modifyAt]
        cases cs[i]? with
        | none => rfl
        | some c' => simp [children_mk]
    · rw [if_neg h1]
      by_cases h2 : p <+: q
      · rw [if_pos h2]
        obtain ⟨r, rfl⟩ := h2
        rw [List.drop_left]
        cases r with
        | nil => exact absurd (by simp) h1
        | cons j r =>
          rw [nodeAt_append, hp, Option.some_bind, nodeAt_cons] at hq
          rw [nodeAt_cons]
          simp only [children_mk]
          cases hj : pn.children[j]? with
          | none => rw [hj] at hq; cases hq
          | some cj =>
            have hjl : j < pn.children.length := (List.getElem?_eq_some_iff.mp hj).1
            rw [List.getElem?_append_left hjl, hj]
            rw [hj] at hq
            exact ⟨n, hq, rfl, fun _ => rfl⟩
      · rw [if_neg h2]
        exact ⟨n, hq, rfl, fun _ => rfl⟩
  · intro q n1 hq
    have hq2 : nodeAt (modifyAt (fun n => FSNode.mk n.metadata (n.children ++ [.mk c []])) p root) q
        = some n1 := hq
    rw [hgen q] at hq2
    by_cases h1 : q <+: p
    · rw [if_pos h1] at hq2
      cases hn : nodeAt root q with
      | none => rw [hn] at hq2; cases hq2
      | some n =>
        rw [hn] at hq2
        simp only [Option.map_some', Option.some.injEq] at hq2
        exact Or.inr ⟨n, rfl, by rw [← hq2, hmeta]⟩
    · rw [if_neg h1] at hq2
      by_cases h2 : p <+: q
      · rw [if_pos h2] at hq2
        obtain ⟨r, rfl⟩ := h2
        rw [List.drop_left] at hq2
        cases r with
        | nil => exact absurd (by simp) h1
        | cons j r =>
          rw [nodeAt_cons] at hq2
          simp only [children_mk] at hq2
          by_cases hjl : j < pn.children.length
          · rw [List.getElem?_append_left hjl] at hq2
            right
            refine ⟨n1, ?_, rfl⟩
            rw [nodeAt_append, hp, Option.some_bind, nodeAt_cons]
            exact hq2
          · by_cases hje : j = pn.children.length
            · subst hje
              rw [List.getElem?_append_right (le_refl _)] at hq2
              simp only [Nat.sub_self, List.getElem?_cons_zero, Option.some_bind] at hq2
              cases r with
              | nil => exact Or.inl rfl
              | cons i r =>
                rw [nodeAt_cons] at hq2
                simp [children_mk] at hq2
            · rw [List.getElem?_eq_none (by simp; omega)] at hq2
              cases hq2
      · rw [if_neg h2] at hq2
        exact Or.inr ⟨n1, hq2, rfl⟩

/-- C11. `addChild(parent, entry)` on a node `parent` of the tree returns `nullptr` exactly when
`parent` has a child whose name is that of `entry`, and then the tree and the inode counter are
unchanged; otherwise one node is appended as the last child of `parent`, with the current counter
value as inode, the inode of `parent` as `parent_inode` and the other fields of `entry`, the
counter (which starts at 1) is incremented, every other node stays where it was with its
metadata, and no other node appears. -/
theorem C11_addChild (t : FileSystemTree) (root : FSNode) (hroot : t.root = some root)
    (p : NodePtr) (pn : FSNode) (hp : nodeAt root p = some pn) (entry : FileEntry) :
    FileSystemTree.new.next_inode_counter = 1 ∧
    ∃ r t1, addChild t (some p) entry = some (r, t1) ∧
      (r = none ↔ ∃ c ∈ pn.children, c.metadata.name = entry.name) ∧
      (r = none → t1 = t) ∧
      (r ≠ none →
        r = some (p ++ [pn.children.length]) ∧
        t1.next_inode_counter = (t.next_inode_counter + 1) % 2 ^ 32 ∧
        ∃ root1, t1.root = some root1 ∧
          nodeAt root1 p = some (.mk pn.metadata (pn.children ++
            [.mk { entry with inode := t.next_inode_counter,
                              parent_inode := pn.metadata.inode } []])) ∧
          nodeAt root1 (p ++ [pn.children.length]) =
            some (.mk { entry with inode := t.next_inode_counter,
                                   parent_inode := pn.metadata.inode } []) ∧
          nodeAt root (p ++ [pn.children.length]) = none ∧
          (∀ q n, nodeAt root q = some n →
            ∃ n1, nodeAt root1 q = some n1 ∧ n1.metadata = n.metadata ∧
              (q ≠ p → n1.children.length = n.children.length)) ∧
          (∀ q n1, nodeAt root1 q = some n1 →
            q = p ++ [pn.children.length] ∨
              ∃ n, nodeAt root q = some n ∧ n.metadata = n1.metadata)) := by
  refine ⟨rfl, ?_⟩
  have hnode : t.node p = some pn := by
    simp only [FileSystemTree.node, hroot, Option.some_bind, hp]
  by_cases hex : ∃ c ∈ pn.children, c.metadata.name = entry.name
  · refine ⟨none, t, ?_, ?_, fun _ => rfl, fun h => absurd rfl h⟩
    · simp only [addChild, hnode, (findChild_isSome pn entry.name).mpr hex, if_true]
    · simp [hex]
  · have hno : ¬ (findChild (some pn) entry.name).isSome = true := by
      rw [findChild_isSome]; exact hex
    refine ⟨some (p ++ [pn.children.length]),
      { root := t.root.map (modifyAt (fun n => .mk n.metadata (n.children ++
          [.mk { entry with inode := t.next_inode_counter,
                            parent_inode := pn.metadata.inode } []])) p)
        next_inode_counter := (t.next_inode_counter + 1) % 2 ^ 32 }, ?_, ?_, ?_, fun _ => ?_⟩
    · simp only [addChild, hnode, hno, if_false]
      rfl
    · simp [hex]
    · intro h; cases h
    · refine ⟨rfl, rfl, _, by rw [hroot]; rfl, ?_⟩
      exact nodeAt_appendChild root pn p hp _

/-- Witness of `C11_addChild`: the entry `home` is added below a root without children. -/
theorem C11_addChild_witness :
    FileSystemTree.new.next_inode_counter = 1 ∧
    ∃ r t1, addChild
        { root := some (.mk ⟨"/".toList, .DIRECTORY, 0, 493, "admin".toList, 0, 0, 2⟩ []),
          next_inode_counter := 1 } (some [])
        ⟨"home".toList, .DIRECTORY, 0, 493, "admin".toList, 0, 0, 3⟩ = some (r, t1) ∧
      (r = none ↔ ∃ c ∈ (FSNode.mk ⟨"/".toList, .DIRECTORY, 0, 493, "admin".toList, 0, 0, 2⟩
          []).children, c.metadata.name = "home".toList) ∧
      (r = none → t1 =
        { root := some (.mk ⟨"/".toList, .DIRECTORY, 0, 493, "admin".toList, 0, 0, 2⟩ []),
          next_inode_counter := 1 }) ∧
      (r ≠ none → r = some [0]) :=
  have h := C11_addChild
    { root := some (.mk ⟨"/".toList, .DIRECTORY, 0, 493, "admin".toList, 0, 0, 2⟩ []),
      next_inode_counter := 1 }
    (.mk ⟨"/".toList, .DIRECTORY, 0, 493, "admin".toList, 0, 0, 2⟩ []) rfl [] _ rfl
    ⟨"home".toList, .DIRECTORY, 0, 493, "admin".toList, 0, 0, 3⟩
  ⟨h.1, h.2.elim fun r hr => hr.elim fun t1 ht =>
    ⟨r, t1, ht.1, ht.2.1, ht.2.2.1, fun hne => (ht.2.2.2 hne).1⟩⟩

/-- The loop of `removeChild` decides on the first child with the name. -/
theorem removeLoop_spec (name : Str) :
    ∀ cs : List FSNode,
      (findChildIdx cs name = none ∧ removeLoop name cs = (false, cs)) ∨
      (∃ i c, findChildIdx cs name = some i ∧ cs[i]? = some c ∧
        ((c.metadata.type = EntryType.DIRECTORY ∧ c.children.isEmpty = false) →
          removeLoop name cs = (false, cs)) ∧
        (¬ (c.metadata.type = EntryType.DIRECTORY ∧ c.children.isEmpty = false) →
          removeLoop name cs = (true, cs.eraseIdx i)))
  | [] => Or.inl ⟨rfl, rfl⟩
  | child :: rest => by
    by_cases hn : child.metadata.name = name
    · right
      refine ⟨0, child, by simp [findChildIdx, hn], List.getElem?_cons_zero, ?_, ?_⟩
      · intro hd
        simp only [removeLoop, if_pos hn, if_pos hd]
      · intro hd
        simp only [removeLoop, if_pos hn, if_neg hd, List.eraseIdx_cons_zero]
    · rcases removeLoop_spec name rest with ⟨h1, h2⟩ | ⟨i, c, h1, h2, h3, h4⟩
      · left
        refine ⟨by simp [findChildIdx, hn, h1], ?_⟩
        simp only [removeLoop, if_neg hn, h2]
      · right
        refine ⟨i + 1, c, by simp [findChildIdx, hn, h1], by simpa using h2, ?_, ?_⟩
        · intro hd
          simp only [removeLoop, if_neg hn, h3 hd]
        · intro hd
          simp only [removeLoop, if_neg hn, h4 hd, List.eraseIdx_cons_succ]

theorem names_unique {cs : List FSNode}
    (hnodup : (cs.map (fun c => c.metadata.name)).Nodup) {a b : FSNode}
    (ha : a ∈ cs) (hb : b ∈ cs) (hab : a.metadata.name = b.metadata.name) : a = b :=
  List.inj_on_of_nodup_map hnodup ha hb hab

/-- C13. On a node `parent` of the tree whose children have pairwise different names,
`removeChild(parent, name)` returns `true` exactly when `parent` has a child named `name` that is
not a directory with at least one child; then the children of `parent` are the former children
without that node, in their order, and the nodes outside `parent` keep their metadata; in every
other case the result is `false` and the tree is unchanged. -/
theorem C13_removeChild (t : FileSystemTree) (root : FSNode) (hroot : t.root = some root)
    (p : NodePtr) (pn : FSNode) (hp : nodeAt root p = some pn) (name : Str)
    (hnodup : (pn.children.map (fun c => c.metadata.name)).Nodup) :
    ∃ b t1, removeChild t (some p) name = some (b, t1) ∧
      (b = true ↔ ∃ c ∈ pn.children, c.metadata.name = name ∧
        ¬ (c.metadata.type = EntryType.DIRECTORY ∧ c.children ≠ [])) ∧
      (b = true → ∃ i c, pn.children[i]? = some c ∧ c.metadata.name = name ∧
        t1.node p = some (.mk pn.metadata (pn.children.eraseIdx i)) ∧
        t1.next_inode_counter = t.next_inode_counter ∧
        ∀ q, ¬ p <+: q → (t1.node q).map (fun n => n.metadata) =
          (t.node q).map (fun n => n.metadata)) ∧
      (b = false → t1 = t) := by
  have hnode : t.node p = some pn := by
    simp only [FileSystemTree.node, hroot, Option.some_bind, hp]
  have hempty : ∀ c : FSNode, c.children.isEmpty = false ↔ c.children ≠ [] := by
    intro c
    cases c.children <;> simp
  refine ⟨(removeLoop name pn.children).1,
    { t with root :=
        t.root.map (modifyAt (fun n => .mk n.metadata (removeLoop name n.children).2) p) },
    by simp only [removeChild, hnode], ?_, ?_, ?_⟩
  · rcases removeLoop_spec name pn.children with ⟨h1, h2⟩ | ⟨i, c, h1, h2, h3, h4⟩
    · rw [h2]
      simp only [Bool.false_eq_true, false_iff, not_exists, not_and]
      intro c hc hcn
      exact absurd hcn ((findChildIdx_none h1).2 c hc)
    · obtain ⟨c', hc', hcn, _, _⟩ := findChildIdx_some h1
      rw [h2] at hc'
      cases hc'
      have hmem : c ∈ pn.children := List.mem_iff_getElem?.mpr ⟨i, h2⟩
      by_cases hd : c.metadata.type = EntryType.DIRECTORY ∧ c.children.isEmpty = false
      · rw [h3 hd]
        simp only [Bool.false_eq_true, false_iff]
        rintro ⟨c2, hc2, hcn2, hnd⟩
        have := names_unique hnodup hc2 hmem (hcn2.trans hcn.symm)
        subst this
        exact hnd ⟨hd.1, (hempty _).mp hd.2⟩
      · rw [h4 hd]
        simp only [true_iff]
        exact ⟨c, hmem, hcn, fun h => hd ⟨h.1, (hempty _).mpr h.2⟩⟩
  · intro hb
    rcases removeLoop_spec name pn.children with ⟨_, h2⟩ | ⟨i, c, h1, h2, h3, h4⟩
    · rw [h2] at hb; cases hb
    · obtain ⟨c', hc', hcn, _, _⟩ := findChildIdx_some h1
      rw [h2] at hc'
      cases hc'
      by_cases hd : c.metadata.type = EntryType.DIRECTORY ∧ c.children.isEmpty = false
      · rw [h3 hd] at hb; cases hb
      · refine ⟨i, c, h2, hcn, ?_, rfl, ?_⟩
        · simp only [FileSystemTree.node, hroot, Option.map_some', Option.some_bind]
          rw [nodeAt_modifyAt _ p root pn hp p, if_pos (List.prefix_refl p), hp]
          simp only [List.drop_length, Option.map_some', modifyAt_nil, h4 hd]
        · intro q hq
          simp only [FileSystemTree.node, hroot, Option.map_some', Option.some_bind]
          rw [nodeAt_modifyAt _ p root pn hp q]
          by_cases h1 : q <+: p
          · rw [if_pos h1]
            cases nodeAt root q with
            | none => rfl
            | some n =>
              simp only [Option.map_some']
              exact congrArg some (modifyAt_metadata
                (fun n => FSNode.mk n.metadata (removeLoop name n.children).2) (fun _ => rfl) _ n)
          · rw [if_neg h1, if_neg hq]
  · intro hb
    have hsame : (removeLoop name pn.children).2 = pn.children := by
      rcases removeLoop_spec name pn.children with ⟨_, h2⟩ | ⟨i, c, _, _, h3, h4⟩
      · rw [h2]
      · by_cases hd : c.metadata.type = EntryType.DIRECTORY ∧ c.children.isEmpty = false
        · rw [h3 hd]
        · rw [h4 hd] at hb; cases hb
    have hid : modifyAt (fun n => FSNode.mk n.metadata (removeLoop name n.children).2) p root =
        root := modifyAt_id _ p root pn hp (by simp only [hsame]; exact FSNode.eta pn)
    cases t with
    | mk r cnt =>
      simp only at hroot
      subst hroot
      simp only [Option.map_some', hid]

/-- Witness of `C13_removeChild`: the file `note.txt` is removed from below `alice`. -/
theorem C13_removeChild_witness :
    ∃ b t1, removeChild
        { root := some (.mk ⟨"alice".toList, .DIRECTORY, 0, 448, "alice".toList, 2, 1, 4⟩
            [.mk ⟨"note.txt".toList, .FILE, 5, 384, "alice".toList, 3, 2, 5⟩ []]),
          next_inode_counter := 4 } (some []) "note.txt".toList = some (b, t1) ∧
      (b = true ↔ ∃ c ∈ (FSNode.mk ⟨"alice".toList, .DIRECTORY, 0, 448, "alice".toList, 2, 1, 4⟩
          [.mk ⟨"note.txt".toList, .FILE, 5, 384, "alice".toList, 3, 2, 5⟩ []]).children,
        c.metadata.name = "note.txt".toList ∧
        ¬ (c.metadata.type = EntryType.DIRECTORY ∧ c.children ≠ [])) :=
  have h := C13_removeChild
    { root := some (.mk ⟨"alice".toList, .DIRECTORY, 0, 448, "alice".toList, 2, 1, 4⟩
        [.mk ⟨"note.txt".toList, .FILE, 5, 384, "alice".toList, 3, 2, 5⟩ []]),
      next_inode_counter := 4 }
    (.mk ⟨"alice".toList, .DIRECTORY, 0, 448, "alice".toList, 2, 1, 4⟩
      [.mk ⟨"note.txt".toList, .FILE, 5, 384, "alice".toList, 3, 2, 5⟩ []]) rfl [] _ rfl
    "note.txt".toList (by decide)
  h.elim fun b hb => hb.elim fun t1 ht => ⟨b, t1, ht.1, ht.2.1⟩

/-! ## Directory tree: invariants -/

theorem nodes_mk (m : FileEntry) (cs : List FSNode) :
    (FSNode.mk m cs).nodes = FSNode.mk m cs :: nodesL cs := by
  simp only [FSNode.nodes]

theorem nodes_eq (n : FSNode) : n.nodes = n :: nodesL n.children := by
  cases n with
  | mk m cs => rw [nodes_mk, children_mk]

theorem nodesL_nil : nodesL [] = [] := by
  simp only [nodesL]

theorem nodesL_cons (c : FSNode) (cs : List FSNode) : nodesL (c :: cs) = c.nodes ++ nodesL cs := by
  simp only [nodesL]

theorem nodesL_append (l1 l2 : List FSNode) : nodesL (l1 ++ l2) = nodesL l1 ++ nodesL l2 := by
  induction l1 with
  | nil => simp only [List.nil_append, nodesL_nil]
  | cons c cs ih => simp only [List.cons_append, nodesL_cons, ih, List.append_assoc]

theorem mem_nodesL {x : FSNode} {cs : List FSNode} :
    x ∈ nodesL cs ↔ ∃ c ∈ cs, x ∈ c.nodes := by
  induction cs with
  | nil => simp only [nodesL_nil, List.not_mem_nil, false_and, exists_false]
  | cons c cs ih =>
    simp only [nodesL_cons, List.mem_append, ih, List.mem_cons, exists_eq_or_imp]

theorem self_mem_nodes (n : FSNode) : n ∈ n.nodes := by
  rw [nodes_eq]
  exact List.mem_cons_self _ _

theorem nodes_of_nodeAt : ∀ (p : NodePtr) (root pn : FSNode), nodeAt root p = some pn →
    ∀ x ∈ pn.nodes, x ∈ root.nodes
  | [], root, pn, h, x, hx => by
    rw [nodeAt_nil] at h
    cases h
    exact hx
  | i :: rest, root, pn, h, x, hx => by
    rw [nodeAt_cons] at h
    cases hc : root.children[i]? with
    | none => rw [hc] at h; cases h
    | some c =>
      rw [hc, Option.some_bind] at h
      have h1 := nodes_of_nodeAt rest c pn h x hx
      rw [nodes_eq]
      exact List.mem_cons_of_mem _ (mem_nodesL.mpr ⟨c, List.mem_iff_getElem?.mpr ⟨i, hc⟩, h1⟩)

theorem nodesL_set : ∀ (cs : List FSNode) (i : Nat) (c c1 : FSNode), cs[i]? = some c →
    ∃ l1 l2, nodesL cs = l1 ++ c.nodes ++ l2 ∧ nodesL (cs.set i c1) = l1 ++ c1.nodes ++ l2 ∧
      (∀ x ∈ l1 ++ l2, x ∈ nodesL cs)
  | [], i, c, c1, h => by simp at h
  | d :: cs, 0, c, c1, h => by
    simp only [List.getElem?_cons_zero, Option.some.injEq] at h
    subst h
    refine ⟨[], nodesL cs, ?_, ?_, ?_⟩
    · simp only [nodesL_cons, List.nil_append]
    · simp only [List.set_cons_zero, nodesL_cons, List.nil_append]
    · intro x hx
      simp only [List.nil_append] at hx
      simp only [nodesL_cons, List.mem_append]
      exact Or.inr hx
  | d :: cs, i + 1, c, c1, h => by
    simp only [List.getElem?_cons_succ] at h
    obtain ⟨l1, l2, h1, h2, h3⟩ := nodesL_set cs i c c1 h
    refine ⟨d.nodes ++ l1, l2, ?_, ?_, ?_⟩
    · simp only [nodesL_cons, h1, List.append_assoc]
    · simp only [List.set_cons_succ, nodesL_cons, h2, List.append_assoc]
    · intro x hx
      simp only [List.append_assoc, List.mem_append] at hx
      simp only [nodesL_cons, List.mem_append]
      rcases hx with hx | hx
      · exact Or.inl hx
      · exact Or.inr (h3 x (List.mem_append.mpr hx))

/-- The entries of a tree before and after a change below one node differ only in the part
that belongs to that node. -/
theorem entries_modifyAt (f : FSNode → FSNode) (hf : ∀ n, (f n).metadata = n.metadata) :
    ∀ (p : NodePtr) (root pn : FSNode), nodeAt root p = some pn →
      ∃ l1 l2 : List FileEntry,
        (modifyAt f p root).nodes.map (fun n => n.metadata)
          = l1 ++ (f pn).nodes.map (fun n => n.metadata) ++ l2 ∧
        root.nodes.map (fun n => n.metadata)
          = l1 ++ pn.nodes.map (fun n => n.metadata) ++ l2
  | [], root, pn, h => by
    rw [nodeAt_nil] at h
    cases h
    exact ⟨[], [], by simp only [modifyAt_nil, List.nil_append, List.append_nil],
      by simp only [List.nil_append, List.append_nil]⟩
  | i :: rest, .mk m cs, pn, h => by
    rw [nodeAt_cons, children_mk] at h
    cases hc : cs[i]? with
    | none => rw [hc] at h; cases h
    | some c =>
      rw [hc, Option.some_bind] at h
      obtain ⟨l1, l2, h1, h2⟩ := entries_modifyAt f hf rest c pn h
      obtain ⟨k1, k2, h3, h4, _⟩ := nodesL_set cs i c (modifyAt f rest c) hc
      refine ⟨m :: (k1.map (fun n => n.metadata) ++ l1), l2 ++ k2.map (fun n => n.metadata),
        ?_, ?_⟩
      · rw [modifyAt_cons f i rest m cs c hc]
        simp only [nodes_mk, h4, List.map_cons, List.map_append, metadata_mk, h1,
          List.append_assoc, List.cons_append]
      · simp only [nodes_mk, h3, List.map_cons, List.map_append, metadata_mk, h2,
          List.append_assoc, List.cons_append]

/-- A node of the changed tree lies below the changed node, or has the entry and the children
entries of a node of the old tree. -/
theorem mem_nodes_modifyAt (f : FSNode → FSNode) (hf : ∀ n, (f n).metadata = n.metadata) :
    ∀ (p : NodePtr) (root pn : FSNode), nodeAt root p = some pn →
      ∀ x ∈ (modifyAt f p root).nodes, x ∈ (f pn).nodes ∨
        ∃ y ∈ root.nodes, x.metadata = y.metadata ∧
          x.children.map (fun c => c.metadata) = y.children.map (fun c => c.metadata)
  | [], root, pn, h, x, hx => by
    rw [nodeAt_nil] at h
    cases h
    rw [modifyAt_nil] at hx
    exact Or.inl hx
  | i :: rest, .mk m cs, pn, h, x, hx => by
    rw [nodeAt_cons, children_mk] at h
    cases hc : cs[i]? with
    | none => rw [hc] at h; cases h
    | some c =>
      rw [hc, Option.some_bind] at h
      rw [modifyAt_cons f i rest m cs c hc] at hx
      simp only [nodes_mk, List.mem_cons] at hx
      rcases hx with hx | hx
      · refine Or.inr ⟨.mk m cs, self_mem_nodes _, ?_, ?_⟩
        · rw [hx]; rfl
        · rw [hx, children_mk, children_mk, List.map_set,
            modifyAt_metadata f hf rest c]
          exact list_set_self (by rw [List.getElem?_map, hc]; rfl)
      · obtain ⟨k1, k2, h3, h4, h5⟩ := nodesL_set cs i c (modifyAt f rest c) hc
        rw [h4, List.append_assoc, List.mem_append, List.mem_append] at hx
        rcases hx with hx | hx | hx
        · exact Or.inr ⟨x, by
            rw [nodes_mk]
            exact List.mem_cons_of_mem _ (h5 x (List.mem_append.mpr (Or.inl hx))), rfl, rfl⟩
        · rcases mem_nodes_modifyAt f hf rest c pn h x hx with h6 | ⟨y, hy, h6⟩
          · exact Or.inl h6
          · refine Or.inr ⟨y, ?_, h6⟩
            rw [nodes_mk]
            exact List.mem_cons_of_mem _
              (mem_nodesL.mpr ⟨c, List.mem_iff_getElem?.mpr ⟨i, hc⟩, hy⟩)
        · exact Or.inr ⟨x, by
            rw [nodes_mk]
            exact List.mem_cons_of_mem _ (h5 x (List.mem_append.mpr (Or.inr hx))), rfl, rfl⟩

theorem removeLoop_sublist (name : Str) : ∀ cs : List FSNode, (removeLoop name cs).2.Sublist cs
  | [] => List.Sublist.refl _
  | child :: rest => by
    simp only [removeLoop]
    split
    · split
      · exact List.Sublist.refl _
      · exact List.sublist_cons_self _ _
    · exact (removeLoop_sublist name rest).cons₂ _

theorem nodesL_sublist {l1 l2 : List FSNode} (h : l1.Sublist l2) :
    (nodesL l1).Sublist (nodesL l2) := by
  induction h with
  | slnil => exact List.Sublist.refl _
  | cons a _ ih =>
    rw [nodesL_cons]
    exact ih.trans (List.sublist_append_right _ _)
  | cons₂ a _ ih =>
    rw [nodesL_cons, nodesL_cons]
    exact List.Sublist.append (List.Sublist.refl _) ih

/-- What a call of `addChild` that returns a node has done. -/
theorem addChild_added {t t1 : FileSystemTree} {parent : Option NodePtr} {entry : FileEntry}
    {p : NodePtr} (h : addChild t parent entry = some (some p, t1)) :
    ∃ pp root pn, t.root = some root ∧ nodeAt root pp = some pn ∧
      (∀ c ∈ pn.children, c.metadata.name ≠ entry.name) ∧
      t1 = { root := some (modifyAt (fun n => .mk n.metadata (n.children ++
              [FSNode.mk { entry with inode := t.next_inode_counter,
                                      parent_inode := pn.metadata.inode } []])) pp root)
             next_inode_counter := (t.next_inode_counter + 1) % 2 ^ 32 } := by
  cases parent with
  | none => simp only [addChild] at h; cases h
  | some pp =>
    cases hr : t.root with
    | none => simp [addChild, FileSystemTree.node, hr] at h
    | some root =>
      cases hn : nodeAt root pp with
      | none => simp [addChild, FileSystemTree.node, hr, hn] at h
      | some pn =>
        have hnode : t.node pp = some pn := by
          simp only [FileSystemTree.node, hr, Option.some_bind, hn]
        by_cases hf : (findChild (some pn) entry.name).isSome = true
        · simp [addChild, hnode, hf] at h
        · simp only [addChild, hnode, hf, Bool.false_eq_true, if_false, Option.some.injEq,
            Prod.mk.injEq] at h
          refine ⟨pp, root, pn, rfl, hn, ?_, ?_⟩
          · intro c hc hcn
            exact hf ((findChild_isSome pn entry.name).mpr ⟨c, hc, hcn⟩)
          · rw [← h.2, hr]
            rfl

theorem addChild_refused {t t1 : FileSystemTree} {parent : Option NodePtr} {entry : FileEntry}
    (h : addChild t parent entry = some (none, t1)) : t1 = t := by
  cases parent with
  | none => simp only [addChild, Option.some.injEq, Prod.mk.injEq, true_and] at h; exact h.symm
  | some pp =>
    cases hnode : t.node pp with
    | none => simp [addChild, hnode] at h
    | some pn =>
      by_cases hf : (findChild (some pn) entry.name).isSome = true
      · simp only [addChild, hnode, hf, if_true, Option.some.injEq, Prod.mk.injEq, true_and] at h
        exact h.symm
      · simp [addChild, hnode, hf] at h

/-- What a call of `removeChild` has done. -/
theorem removeChild_done {t t1 : FileSystemTree} {parent : Option NodePtr} {name : Str}
    {b : Bool} (h : removeChild t parent name = some (b, t1)) :
    t1 = t ∨ ∃ pp root pn, t.root = some root ∧ nodeAt root pp = some pn ∧
      t1 = { t with root := some (modifyAt
              (fun n => .mk n.metadata (removeLoop name n.children).2) pp root) } := by
  cases parent with
  | none =>
    simp only [removeChild, Option.some.injEq, Prod.mk.injEq] at h
    exact Or.inl h.2.symm
  | some pp =>
    cases hr : t.root with
    | none => simp [removeChild, FileSystemTree.node, hr] at h
    | some root =>
      cases hn : nodeAt root pp with
      | none => simp [removeChild, FileSystemTree.node, hr, hn] at h
      | some pn =>
        have hnode : t.node pp = some pn := by
          simp only [FileSystemTree.node, hr, Option.some_bind, hn]
        simp only [removeChild, hnode, Option.some.injEq, Prod.mk.injEq] at h
        refine Or.inr ⟨pp, root, pn, rfl, hn, ?_⟩
        rw [← h.2, hr]
        rfl

/-- A property of a node that speaks of its entry and the entries of its children only holds in
the changed tree when it holds in the old tree and below the changed node. -/
theorem forall_nodes_modifyAt (P : FileEntry → List FileEntry → Prop) (f : FSNode → FSNode)
    (hf : ∀ n, (f n).metadata = n.metadata) (p : NodePtr) (root pn : FSNode)
    (hp : nodeAt root p = some pn)
    (hold : ∀ y ∈ root.nodes, P y.metadata (y.children.map (fun c => c.metadata)))
    (hnew : ∀ x ∈ (f pn).nodes, P x.metadata (x.children.map (fun c => c.metadata))) :
    ∀ x ∈ (modifyAt f p root).nodes, P x.metadata (x.children.map (fun c => c.metadata)) := by
  intro x hx
  rcases mem_nodes_modifyAt f hf p root pn hp x hx with h1 | ⟨y, hy, h1, h2⟩
  · exact hnew x h1
  · rw [h1, h2]
    exact hold y hy

theorem names_parents_iff (t : FileSystemTree) :
    (NamesUnique t ∧ ParentInodes t) ↔
      ∀ n ∈ t.nodes, ((n.children.map (fun c => c.metadata)).map (fun e => e.name)).Nodup ∧
        ∀ e ∈ n.children.map (fun c => c.metadata), e.parent_inode = n.metadata.inode := by
  simp only [NamesUnique, ParentInodes, List.map_map, List.mem_map, forall_exists_index, and_imp,
    forall_apply_eq_imp_iff₂]
  constructor
  · intro h n hn
    exact ⟨h.1 n hn, h.2 n hn⟩
  · intro h
    exact ⟨fun n hn => (h n hn).1, fun n hn => (h n hn).2⟩

theorem map_inode (l : List FSNode) :
    l.map (fun n => n.metadata.inode) = (l.map (fun n => n.metadata)).map (fun e => e.inode) := by
  rw [List.map_map]
  rfl

theorem nodes_of_root {t : FileSystemTree} {root : FSNode} (h : t.root = some root) :
    t.nodes = root.nodes := by
  simp only [FileSystemTree.nodes, h]

/-- The invariant of reachable trees: the counter is one more than the number of nodes handed
out (modulo `2 ^ 32`), sibling names differ, children record their parent, and until the counter
wraps the inodes differ and are at most the number of nodes handed out. -/
theorem tree_inv {a : Nat} {t : FileSystemTree} (h : TreeReachable a t) :
    t.next_inode_counter = (1 + a) % 2 ^ 32 ∧ (NamesUnique t ∧ ParentInodes t) ∧
      (a ≤ 2 ^ 32 - 1 → InodesUnique t ∧ ∀ x ∈ t.nodes.map (fun n => n.metadata.inode), x ≤ a) := by
  induction h with
  | root e he =>
    refine ⟨rfl, ⟨?_, ?_⟩, fun _ => ⟨?_, ?_⟩⟩
    · intro n hn
      simp only [FileSystemTree.nodes, setRoot, nodes_mk, nodesL_nil, List.mem_singleton] at hn
      rw [hn, children_mk]
      exact List.nodup_nil
    · intro n hn c hc
      simp only [FileSystemTree.nodes, setRoot, nodes_mk, nodesL_nil, List.mem_singleton] at hn
      rw [hn, children_mk] at hc
      cases hc
    · simp only [InodesUnique, FileSystemTree.nodes, setRoot, nodes_mk, nodesL_nil,
        List.map_cons, List.map_nil]
      exact List.nodup_singleton _
    · intro x hx
      simp only [FileSystemTree.nodes, setRoot, nodes_mk, nodesL_nil, List.map_cons,
        List.map_nil, List.mem_singleton, metadata_mk] at hx
      omega
  | @added a t parent entry p t1 _ hadd ih =>
    obtain ⟨pp, root, pn, hr, hn, hnames, ht1⟩ := addChild_added hadd
    obtain ⟨hc, hnp, hin⟩ := ih
    have hf : ∀ n : FSNode, (FSNode.mk n.metadata (n.children ++
        [FSNode.mk { entry with inode := t.next_inode_counter,
                                parent_inode := pn.metadata.inode } []])).metadata
        = n.metadata := fun _ => rfl
    have hnodes1 : t1.nodes = (modifyAt (fun n => FSNode.mk n.metadata (n.children ++
        [FSNode.mk { entry with inode := t.next_inode_counter,
                                parent_inode := pn.metadata.inode } []])) pp root).nodes := by
      rw [ht1]
      rfl
    have hpn : ∀ x ∈ pn.nodes, x ∈ t.nodes := by
      rw [nodes_of_root hr]
      exact nodes_of_nodeAt pp root pn hn
    have hfpn : (FSNode.mk pn.metadata (pn.children ++
        [FSNode.mk { entry with inode := t.next_inode_counter,
                                parent_inode := pn.metadata.inode } []])).nodes
        = FSNode.mk pn.metadata (pn.children ++
            [FSNode.mk { entry with inode := t.next_inode_counter,
                                    parent_inode := pn.metadata.inode } []])
          :: (nodesL pn.children ++
            [FSNode.mk { entry with inode := t.next_inode_counter,
                                    parent_inode := pn.metadata.inode } []]) := by
      rw [nodes_mk, nodesL_append, nodesL_cons, nodesL_nil, nodes_mk, nodesL_nil]
      rfl
    refine ⟨?_, ?_, ?_⟩
    · rw [ht1]
      show (t.next_inode_counter + 1) % 2 ^ 32 = (1 + (a + 1)) % 2 ^ 32
      rw [hc]
      omega
    · rw [names_parents_iff] at hnp ⊢
      rw [hnodes1]
      refine forall_nodes_modifyAt (fun m l => (l.map (fun e => e.name)).Nodup ∧
          ∀ e ∈ l, e.parent_inode = m.inode) _ hf pp root pn hn ?_ ?_
      · rw [← nodes_of_root hr]
        exact hnp
      · intro x hx
        rw [hfpn] at hx
        simp only [List.mem_cons, List.mem_append, List.mem_singleton, List.not_mem_nil,
          or_false] at hx
        rcases hx with hx | hx | hx
        · have h1 := hnp pn (hpn pn (self_mem_nodes pn))
          rw [hx, children_mk, metadata_mk]
          simp only [List.map_append, List.map_cons, List.map_nil, metadata_mk]
          refine ⟨?_, ?_⟩
          · rw [List.nodup_append]
            refine ⟨h1.1, List.nodup_singleton _, ?_⟩
            intro nm h2 h3
            simp only [List.mem_singleton] at h3
            simp only [List.map_map, List.mem_map, Function.comp_apply] at h2
            obtain ⟨c, hc1, hc2⟩ := h2
            exact hnames c hc1 (hc2.trans h3)
          · intro e he
            simp only [List.mem_append, List.mem_singleton] at he
            rcases he with he | he
            · exact h1.2 e he
            · rw [he]
        · exact hnp x (hpn x (by
            rw [nodes_eq]
            exact List.mem_cons_of_mem _ hx))
        · rw [hx, children_mk]
          exact ⟨List.nodup_nil, fun e he => by cases he⟩
    · intro ha
      obtain ⟨hu, hb⟩ := hin (by omega)
      obtain ⟨l1, l2, h1, h2⟩ := entries_modifyAt _ hf pp root pn hn
      rw [hfpn] at h1
      have hY : pn.nodes.map (fun n => n.metadata)
          = pn.metadata :: (nodesL pn.children).map (fun n => n.metadata) := by
        rw [nodes_eq]
        rfl
      have hperm : ((modifyAt (fun n => FSNode.mk n.metadata (n.children ++
          [FSNode.mk { entry with inode := t.next_inode_counter,
                                  parent_inode := pn.metadata.inode } []])) pp root).nodes.map
            (fun n => n.metadata)).Perm
          ({ entry with inode := t.next_inode_counter, parent_inode := pn.metadata.inode }
            :: root.nodes.map (fun n => n.metadata)) := by
        rw [h1, h2, hY]
        simp only [List.map_cons, List.map_append, List.map_nil, metadata_mk, List.append_assoc,
          List.cons_append, List.nil_append]
        have := @List.perm_middle _
          ({ entry with inode := t.next_inode_counter, parent_inode := pn.metadata.inode })
          (l1 ++ pn.metadata :: (nodesL pn.children).map (fun n => n.metadata)) l2
        simpa only [List.append_assoc, List.cons_append] using this
      have hperm2 := hperm.map (fun e => e.inode)
      rw [← map_inode, List.map_cons, ← map_inode, ← hnodes1, ← nodes_of_root hr] at hperm2
      have hcnt : t.next_inode_counter = 1 + a := by
        rw [hc]
        omega
      refine ⟨?_, ?_⟩
      · show (t1.nodes.map (fun n => n.metadata.inode)).Nodup
        rw [hperm2.nodup_iff, List.nodup_cons]
        refine ⟨?_, hu⟩
        intro hmem
        have := hb _ hmem
        simp only [hcnt] at this
        omega
      · intro x hx
        have hx1 := hperm2.mem_iff.mp hx
        simp only [List.mem_cons] at hx1
        rcases hx1 with hx1 | hx1
        · rw [hx1]
          show t.next_inode_counter ≤ a + 1
          omega
        · have := hb x hx1
          omega
  | refused parent entry t1 _ hadd ih =>
    rw [addChild_refused hadd]
    exact ih
  | @removed a t parent name b t1 _ hrem ih =>
    rcases removeChild_done hrem with h1 | ⟨pp, root, pn, hr, hn, ht1⟩
    · rw [h1]
      exact ih
    · obtain ⟨hc, hnp, hin⟩ := ih
      have hf : ∀ n : FSNode,
          (FSNode.mk n.metadata (removeLoop name n.children).2).metadata = n.metadata :=
        fun _ => rfl
      have hnodes1 : t1.nodes = (modifyAt
          (fun n => FSNode.mk n.metadata (removeLoop name n.children).2) pp root).nodes := by
        rw [ht1]
        rfl
      have hpn : ∀ x ∈ pn.nodes, x ∈ t.nodes := by
        rw [nodes_of_root hr]
        exact nodes_of_nodeAt pp root pn hn
      have hsub := removeLoop_sublist name pn.children
      refine ⟨?_, ?_, ?_⟩
      · rw [ht1]
        exact hc
      · rw [names_parents_iff] at hnp ⊢
        rw [hnodes1]
        refine forall_nodes_modifyAt (fun m l => (l.map (fun e => e.name)).Nodup ∧
          ∀ e ∈ l, e.parent_inode = m.inode) _ hf pp root pn hn ?_ ?_
        · rw [← nodes_of_root hr]
          exact hnp
        · intro x hx
          rw [nodes_mk, List.mem_cons] at hx
          rcases hx with hx | hx
          · have h1 := hnp pn (hpn pn (self_mem_nodes pn))
            rw [hx, children_mk, metadata_mk]
            have hs2 := hsub.map (fun c : FSNode => c.metadata)
            exact ⟨(hs2.map (fun e => e.name)).nodup h1.1, fun e he => h1.2 e (hs2.subset he)⟩
          · exact hnp x (hpn x (by
              rw [nodes_eq]
              exact List.mem_cons_of_mem _ ((nodesL_sublist hsub).subset hx)))
      · intro ha
        obtain ⟨hu, hb⟩ := hin ha
        obtain ⟨l1, l2, h1, h2⟩ := entries_modifyAt _ hf pp root pn hn
        have hsl : ((modifyAt (fun n => FSNode.mk n.metadata (removeLoop name n.children).2)
            pp root).nodes.map (fun n => n.metadata)).Sublist
            (root.nodes.map (fun n => n.metadata)) := by
          rw [h1, h2]
          refine List.Sublist.append (List.Sublist.append (List.Sublist.refl _) ?_)
            (List.Sublist.refl _)
          rw [nodes_mk, nodes_eq pn, List.map_cons, List.map_cons]
          exact ((nodesL_sublist hsub).map _).cons₂ _
        have hsl2 := hsl.map (fun e => e.inode)
        rw [← map_inode, ← map_inode, ← hnodes1, ← nodes_of_root hr] at hsl2
        exact ⟨hsl2.nodup hu, fun x hx => hb x (hsl2.subset hx)⟩

theorem addChild_rootOnly (c : Nat) :
    addChild (rootOnly c) (some []) probeEntry
      = some (some [0], rootWithProbe c ((c + 1) % 2 ^ 32)) := rfl

theorem removeChild_rootWithProbe (i c : Nat) :
    removeChild (rootWithProbe i c) (some []) ['a'] = some (true, rootOnly c) := by
  simp only [removeChild, rootWithProbe, FileSystemTree.node, Option.some_bind, nodeAt_nil,
    children_mk, removeLoop, metadata_mk, probeEntry, if_true, Option.map_some', modifyAt_nil,
    rootOnly]
  simp

/-- Adding and removing a file over and over reaches the tree with the root alone at every
value of the counter. -/
theorem rootOnly_reachable : ∀ k : Nat, TreeReachable k (rootOnly ((1 + k) % 2 ^ 32))
  | 0 => TreeReachable.root rootDirEntry rfl
  | k + 1 => by
    have h1 := TreeReachable.added (some []) probeEntry [0] _ (rootOnly_reachable k)
      (addChild_rootOnly _)
    have h2 := TreeReachable.removed (some []) ['a'] true _ h1 (removeChild_rootWithProbe _ _)
    have he : ((1 + k) % 2 ^ 32 + 1) % 2 ^ 32 = (1 + (k + 1)) % 2 ^ 32 := by omega
    rw [he] at h2
    exact h2

/-- C12, the behaviour of the code. The counter `next_inode_counter` is a `uint32_t` that
`getNextInode` increments without a check (declared with the comment "To assign unique inodes
to new files", `ofs_structures.hpp`, line 75): after `2 ^ 32 - 1` files have been added and
removed the counter has wrapped to 0, and the next file added receives inode 0, the inode of the
root. The tree is reachable from `setRoot` by calls of `addChild` and `removeChild`, and two of
its nodes share an inode. -/
theorem C12_inode_wrap :
    TreeReachable (2 ^ 32 - 1 + 1) (rootWithProbe 0 1) ∧ ¬ InodesUnique (rootWithProbe 0 1) := by
  refine ⟨?_, ?_⟩
  · have h := TreeReachable.added (some []) probeEntry [0] _ (rootOnly_reachable (2 ^ 32 - 1))
      (addChild_rootOnly _)
    have e1 : (1 + (2 ^ 32 - 1)) % 2 ^ 32 = 0 := by norm_num
    rw [e1] at h
    exact h
  · simp only [InodesUnique, FileSystemTree.nodes, rootWithProbe, nodes_mk, nodesL_cons,
      nodesL_nil, List.map_cons, List.map_nil, metadata_mk, rootDirEntry, List.cons_append,
      List.nil_append, List.append_nil]
    decide

/-- What the code keeps of the invariants of the tree: in every tree reachable from `setRoot`
(root entry with inode 0) by calls of `addChild` and `removeChild`, no two children of the same
node share a name and every node below the root records the inode of its parent node in
`parent_inode`; no two nodes of the tree share an inode before the counter wraps, that is, as
long as at most `2 ^ 32 - 1` calls of `addChild` have returned a node. -/
theorem tree_invariants_before_wrap (a : Nat) (t : FileSystemTree) (h : TreeReachable a t) :
    NamesUnique t ∧ ParentInodes t ∧ (a ≤ 2 ^ 32 - 1 → InodesUnique t) :=
  ⟨(tree_inv h).2.1.1, (tree_inv h).2.1.2, fun ha => ((tree_inv h).2.2 ha).1⟩

theorem tree_invariants_before_wrap_example :
    TreeReachable 1 (rootWithProbe 1 2) ∧
      (NamesUnique (rootWithProbe 1 2) ∧ ParentInodes (rootWithProbe 1 2) ∧
        (1 ≤ 2 ^ 32 - 1 → InodesUnique (rootWithProbe 1 2))) :=
  ⟨TreeReachable.added (some []) probeEntry [0] _ (TreeReachable.root rootDirEntry rfl) rfl,
   tree_invariants_before_wrap 1 (rootWithProbe 1 2)
    (TreeReachable.added (some []) probeEntry [0] _ (TreeReachable.root rootDirEntry rfl) rfl)⟩

/-! ## The server -/

theorem Disk.write_apply (d : Disk) (off : Nat) (bytes : List Char) (a : Nat) :
    d.write off bytes a =
      if off ≤ a ∧ a < off + bytes.length then bytes.getD (a - off) NUL else d a := rfl

theorem Disk.read_length (d : Disk) (off n : Nat) : (d.read off n).length = n := by
  simp only [Disk.read, List.length_map, List.length_range]

theorem Disk.read_getElem? (d : Disk) (off n i : Nat) (h : i < n) :
    (d.read off n)[i]? = some (d (off + i)) := by
  simp only [Disk.read, List.getElem?_map, List.getElem?_range h, Option.map_some']

/-- Bytes read where they have just been written. -/
theorem Disk.read_write_same (d : Disk) (off : Nat) (bytes : List Char) :
    (d.write off bytes).read off bytes.length = bytes := by
  apply List.ext_getElem?
  intro i
  by_cases h : i < bytes.length
  · rw [Disk.read_getElem? _ _ _ _ h, Disk.write_apply, if_pos ⟨by omega, by omega⟩]
    rw [List.getD_eq_getElem?_getD, Nat.add_sub_cancel_left, List.getElem?_eq_getElem h]
    rfl
  · rw [List.getElem?_eq_none (by rw [Disk.read_length]; omega),
      List.getElem?_eq_none (by omega)]

/-- A write leaves the bytes of a region it does not meet. -/
theorem Disk.read_write_disjoint (d : Disk) (off : Nat) (bytes : List Char) (o n : Nat)
    (h : o + n ≤ off ∨ off + bytes.length ≤ o) :
    (d.write off bytes).read o n = d.read o n := by
  apply List.ext_getElem?
  intro i
  by_cases hi : i < n
  · rw [Disk.read_getElem? _ _ _ _ hi, Disk.read_getElem? _ _ _ _ hi, Disk.write_apply,
      if_neg (by omega)]
  · rw [List.getElem?_eq_none (by rw [Disk.read_length]; omega),
      List.getElem?_eq_none (by rw [Disk.read_length]; omega)]

theorem Disk.read_head? (d : Disk) (off n : Nat) (h : 0 < n) :
    (d.read off n).head? = some (d off) := by
  rw [List.head?_eq_getElem?, Disk.read_getElem? _ _ _ _ h]
  rfl

/-- A string without a zero byte, closed by a zero byte, is read back whole. -/
theorem cstr_append_nul (content : Str) (h : NUL ∉ content) : cstr (content ++ [NUL]) = content := by
  unfold cstr
  induction content with
  | nil => simp [List.takeWhile]
  | cons c rest ih =>
    have hc : c ≠ NUL := fun e => h (e ▸ List.mem_cons_self _ _)
    have hr : NUL ∉ rest := fun e => h (List.mem_cons_of_mem _ e)
    simp only [List.cons_append, List.takeWhile_cons, bne_iff_ne, ne_eq, hc, not_false_eq_true,
      if_true, ih hr]

theorem findLastOf_none {c : Char} : ∀ {b : Str}, c ∉ b → findLastOf b c = none
  | [], _ => rfl
  | x :: rest, h => by
    have hx : x ≠ c := fun e => h (e ▸ List.mem_cons_self _ _)
    have hr : c ∉ rest := fun e => h (List.mem_cons_of_mem _ e)
    simp only [findLastOf, findLastOf_none hr, if_neg hx]

/-- The last `c` of `a ++ c :: b`, when `b` holds none, is at position `a.length`. -/
theorem findLastOf_append (c : Char) (b : Str) (hb : c ∉ b) :
    ∀ a : Str, findLastOf (a ++ c :: b) c = some a.length
  | [] => by simp only [List.nil_append, findLastOf, findLastOf_none hb, if_true, List.length_nil]
  | x :: rest => by
    have ih := findLastOf_append c b hb rest
    show findLastOf (x :: (rest ++ c :: b)) c = some (rest.length + 1)
    simp only [findLastOf, ih]

/-! ### The dispatch on the operation -/

theorem processRequest_user_login (L : Layout) (now : Nat) (s : ServerState) (req : Request)
    (h : req.operation = "user_login".toList) :
    processRequest L now s req = userLogin now s req.request_id req.username req.password := by
  simp only [processRequest, h, if_false, if_true]

theorem processRequest_user_create (L : Layout) (now : Nat) (s : ServerState) (req : Request)
    (h : req.operation = "user_create".toList) :
    processRequest L now s req = userCreate L now s req.request_id req.username req.password := by
  simp only [processRequest, h,
    show ¬ ("user_create".toList = "user_login".toList) from by decide,
    if_false, if_true]

theorem processRequest_user_delete (L : Layout) (now : Nat) (s : ServerState) (req : Request)
    (h : req.operation = "user_delete".toList) :
    processRequest L now s req = userDelete L s req.username := by
  simp only [processRequest, h,
    show ¬ ("user_delete".toList = "user_login".toList) from by decide,
    show ¬ ("user_delete".toList = "user_create".toList) from by decide,
    show ¬ ("user_delete".toList = "user_list".toList) from by decide,
    if_false, if_true]

theorem processRequest_file_read (L : Layout) (now : Nat) (s : ServerState) (req : Request)
    (h : req.operation = "file_read".toList) :
    processRequest L now s req =
      if translatePath s.active_sessions req.path req.session_id = [] then
        some (respDenied req.request_id, s)
      else fileRead s (translatePath s.active_sessions req.path req.session_id) := by
  simp only [processRequest, h,
    show ¬ ("file_read".toList = "user_login".toList) from by decide,
    show ¬ ("file_read".toList = "user_create".toList) from by decide,
    show ¬ ("file_read".toList = "user_list".toList) from by decide,
    show ¬ ("file_read".toList = "user_delete".toList) from by decide,
    show ¬ ("file_read".toList = "get_stats".toList) from by decide,
    show ¬ ("file_read".toList = "dir_list".toList) from by decide,
    if_false, if_true]

theorem processRequest_file_delete (L : Layout) (now : Nat) (s : ServerState) (req : Request)
    (h : req.operation = "file_delete".toList) :
    processRequest L now s req =
      if translatePath s.active_sessions req.path req.session_id = [] then
        some (respDenied req.request_id, s)
      else fileDelete L s (translatePath s.active_sessions req.path req.session_id) := by
  simp only [processRequest, h,
    show ¬ ("file_delete".toList = "user_login".toList) from by decide,
    show ¬ ("file_delete".toList = "user_create".toList) from by decide,
    show ¬ ("file_delete".toList = "user_list".toList) from by decide,
    show ¬ ("file_delete".toList = "user_delete".toList) from by decide,
    show ¬ ("file_delete".toList = "get_stats".toList) from by decide,
    show ¬ ("file_delete".toList = "dir_list".toList) from by decide,
    show ¬ ("file_delete".toList = "file_read".toList) from by decide,
    if_false, if_true]

theorem processRequest_dir_delete (L : Layout) (now : Nat) (s : ServerState) (req : Request)
    (h : req.operation = "dir_delete".toList) :
    processRequest L now s req =
      if translatePath s.active_sessions req.path req.session_id = [] then
        some (respDenied req.request_id, s)
      else dirDelete L s (translatePath s.active_sessions req.path req.session_id) := by
  simp only [processRequest, h,
    show ¬ ("dir_delete".toList = "user_login".toList) from by decide,
    show ¬ ("dir_delete".toList = "user_create".toList) from by decide,
    show ¬ ("dir_delete".toList = "user_list".toList) from by decide,
    show ¬ ("dir_delete".toList = "user_delete".toList) from by decide,
    show ¬ ("dir_delete".toList = "get_stats".toList) from by decide,
    show ¬ ("dir_delete".toList = "dir_list".toList) from by decide,
    show ¬ ("dir_delete".toList = "file_read".toList) from by decide,
    show ¬ ("dir_delete".toList = "file_delete".toList) from by decide,
    if_false, if_true]

theorem processRequest_file_create (L : Layout) (now : Nat) (s : ServerState) (req : Request)
    (h : req.operation = "file_create".toList) :
    processRequest L now s req =
      if translatePath s.active_sessions req.path req.session_id = [] then
        some (respDenied req.request_id, s)
      else fileCreate L s req.request_id req.session_id
        (translatePath s.active_sessions req.path req.session_id) req.data req.type := by
  simp only [processRequest, h,
    show ¬ ("file_create".toList = "user_login".toList) from by decide,
    show ¬ ("file_create".toList = "user_create".toList) from by decide,
    show ¬ ("file_create".toList = "user_list".toList) from by decide,
    show ¬ ("file_create".toList = "user_delete".toList) from by decide,
    show ¬ ("file_create".toList = "get_stats".toList) from by decide,
    show ¬ ("file_create".toList = "dir_list".toList) from by decide,
    show ¬ ("file_create".toList = "file_read".toList) from by decide,
    show ¬ ("file_create".toList = "file_delete".toList) from by decide,
    show ¬ ("file_create".toList = "dir_delete".toList) from by decide,
    if_false, if_true]

/-! ### Success and error responses differ -/

theorem respError_ne_respCreated (m rid : Str) : respError m ≠ respCreated rid := by
  simp [respError, respCreated]

theorem respDenied_ne_respCreated (rid rid1 : Str) : respDenied rid ≠ respCreated rid1 := by
  simp [respDenied, respCreated]

theorem respUserExists_ne_respUserCreated (rid rid1 : Str) :
    respUserExists rid ≠ respUserCreated rid1 := by
  simp [respUserExists, respUserCreated]

theorem respTableFull_ne_respUserCreated (rid : Str) : respTableFull ≠ respUserCreated rid := by
  simp [respTableFull, respUserCreated]

theorem respInvalidTarget_ne_respUserDeleted : respInvalidTarget ≠ respUserDeleted := by
  decide

theorem respInvalidCredentials_ne_respLoginOk (rid rid1 sid : Str) :
    respInvalidCredentials rid ≠ respLoginOk rid1 sid := by
  simp [respInvalidCredentials, respLoginOk]

theorem respError_ne_respDeleted (m : Str) : respError m ≠ respDeleted := by
  simp [respError, respDeleted]

/-! ### Walks in the tree -/

/-- The pointer a walk returns is the pointer it starts with, followed by the steps taken. -/
theorem walkSegmentsPtr_rel :
    ∀ (segs : List Str) (current : FSNode) (ptr : NodePtr),
      walkSegmentsPtr current ptr segs =
        (walkSegmentsPtr current [] segs).map (fun rel => ptr ++ rel)
  | [], _, ptr => by simp only [walkSegmentsPtr, Option.map_some', List.append_nil]
  | seg :: rest, current, ptr => by
    simp only [walkSegmentsPtr]
    cases findChildIdx current.children seg with
    | none => rfl
    | some i =>
      simp only []
      cases current.children[i]? with
      | none => rfl
      | some next =>
        simp only []
        rw [walkSegmentsPtr_rel rest next (ptr ++ [i]), walkSegmentsPtr_rel rest next ([] ++ [i]),
          Option.map_map]
        congr 1
        funext rel
        simp only [Function.comp_apply, List.nil_append, List.append_assoc]

/-- One step of a walk from the pointer `[]`. -/
theorem walkSegmentsPtr_cons {seg : Str} {rest : List Str} {current : FSNode} {rel : NodePtr}
    (h : walkSegmentsPtr current [] (seg :: rest) = some rel) :
    ∃ i next rel1, findChildIdx current.children seg = some i ∧
      current.children[i]? = some next ∧ next.metadata.name = seg ∧
      walkSegmentsPtr next [] rest = some rel1 ∧ rel = i :: rel1 := by
  simp only [walkSegmentsPtr] at h
  cases hi : findChildIdx current.children seg with
  | none => rw [hi] at h; cases h
  | some i =>
    rw [hi] at h
    simp only [] at h
    obtain ⟨c, hc, hname, _, _⟩ := findChildIdx_some hi
    rw [hc] at h
    simp only [] at h
    rw [walkSegmentsPtr_rel] at h
    cases hw : walkSegmentsPtr c [] rest with
    | none => rw [hw] at h; cases h
    | some rel1 =>
      rw [hw] at h
      simp only [Option.map_some', Option.some.injEq, List.nil_append, List.singleton_append] at h
      exact ⟨i, c, rel1, rfl, hc, hname, hw, h.symm⟩

/-- The pointer a walk returns designates a node. -/
theorem walkSegmentsPtr_valid :
    ∀ (segs : List Str) (current : FSNode) (rel : NodePtr),
      walkSegmentsPtr current [] segs = some rel → ∃ n, nodeAt current rel = some n
  | [], current, rel, h => by
    simp only [walkSegmentsPtr, Option.some.injEq] at h
    rw [← h]
    exact ⟨current, nodeAt_nil _⟩
  | seg :: rest, current, rel, h => by
    obtain ⟨i, next, rel1, _, hc, _, hw, hrel⟩ := walkSegmentsPtr_cons h
    obtain ⟨n, hn⟩ := walkSegmentsPtr_valid rest next rel1 hw
    refine ⟨n, ?_⟩
    rw [hrel, nodeAt_cons, hc, Option.some_bind, hn]

/-- The last step of a walk: the node reached is the first child of its parent with its name. -/
theorem walkSegmentsPtr_last :
    ∀ (segs : List Str) (current : FSNode) (rel : NodePtr),
      walkSegmentsPtr current [] segs = some rel →
      rel = [] ∨ ∃ pp i parent child, rel = pp ++ [i] ∧ nodeAt current pp = some parent ∧
        parent.children[i]? = some child ∧
        findChildIdx parent.children child.metadata.name = some i
  | [], current, rel, h => by
    simp only [walkSegmentsPtr, Option.some.injEq] at h
    exact Or.inl h.symm
  | seg :: rest, current, rel, h => by
    obtain ⟨i, next, rel1, hi, hc, hname, hw, hrel⟩ := walkSegmentsPtr_cons h
    right
    rcases walkSegmentsPtr_last rest next rel1 hw with h1 | ⟨pp, j, parent, child, h1, h2, h3, h4⟩
    · refine ⟨[], i, current, next, ?_, nodeAt_nil _, hc, ?_⟩
      · rw [hrel, h1]
        rfl
      · rw [hname]
        exact hi
    · refine ⟨i :: pp, j, parent, child, ?_, ?_, h3, h4⟩
      · rw [hrel, h1]
        rfl
      · rw [nodeAt_cons, hc, Option.some_bind, h2]

/-- The position `findChildIdx` returns depends on the names of the children only. -/
theorem findChildIdx_congr (name : Str) :
    ∀ (cs cs1 : List FSNode),
      cs.map (fun c => c.metadata.name) = cs1.map (fun c => c.metadata.name) →
      findChildIdx cs name = findChildIdx cs1 name
  | [], [], _ => rfl
  | [], _ :: _, h => by simp at h
  | _ :: _, [], h => by simp at h
  | c :: cs, c1 :: cs1, h => by
    simp only [List.map_cons, List.cons.injEq] at h
    simp only [findChildIdx, h.1, findChildIdx_congr name cs cs1 h.2]

theorem findChildIdx_append_new (name : Str) (new : FSNode) (hnew : new.metadata.name = name) :
    ∀ cs : List FSNode, (∀ x ∈ cs, x.metadata.name ≠ name) →
      findChildIdx (cs ++ [new]) name = some cs.length
  | [], _ => by simp only [List.nil_append, findChildIdx, hnew, if_true, List.length_nil]
  | c :: cs, h => by
    have hc : c.metadata.name ≠ name := h c (List.mem_cons_self _ _)
    have ih := findChildIdx_append_new name new hnew cs
      (fun x hx => h x (List.mem_cons_of_mem _ hx))
    show findChildIdx (c :: (cs ++ [new])) name = some (cs.length + 1)
    simp only [findChildIdx, if_neg hc, ih, Option.map_some']

/-- After a node named `name` has been appended to the children of the node a walk reaches, the
same walk followed by `name` reaches the new node. -/
theorem walkSegmentsPtr_appended (name : Str) (c : FileEntry) (hc : c.name = name) :
    ∀ (segs : List Str) (current pn : FSNode) (rel : NodePtr),
      walkSegmentsPtr current [] segs = some rel → nodeAt current rel = some pn →
      (∀ x ∈ pn.children, x.metadata.name ≠ name) →
      walkSegmentsPtr
          (modifyAt (fun n => .mk n.metadata (n.children ++ [.mk c []])) rel current) []
          (segs ++ [name]) = some (rel ++ [pn.children.length])
  | [], current, pn, rel, h, hn, hfree => by
    simp only [walkSegmentsPtr, Option.some.injEq] at h
    subst h
    rw [nodeAt_nil, Option.some.injEq] at hn
    subst hn
    rw [modifyAt_nil]
    simp only [List.nil_append, walkSegmentsPtr, children_mk]
    rw [findChildIdx_append_new name (.mk c []) hc _ hfree]
    simp only [List.getElem?_concat_length]
  | seg :: rest, .mk m cs, pn, rel, h, hn, hfree => by
    obtain ⟨i, next, rel1, hi, hci, _, hw, hrel⟩ := walkSegmentsPtr_cons h
    rw [children_mk] at hi hci
    subst hrel
    rw [nodeAt_cons, children_mk, hci, Option.some_bind] at hn
    have ih := walkSegmentsPtr_appended name c hc rest next pn rel1 hw hn hfree
    rw [modifyAt_cons _ i rel1 m cs next hci]
    simp only [List.cons_append, walkSegmentsPtr, children_mk]
    have hnames : (cs.set i (modifyAt (fun n => FSNode.mk n.metadata (n.children ++ [.mk c []]))
        rel1 next)).map (fun c => c.metadata.name) = cs.map (fun c => c.metadata.name) := by
      have hmd := modifyAt_metadata
        (fun n => FSNode.mk n.metadata (n.children ++ [FSNode.mk c []])) (fun _ => rfl) rel1 next
      rw [List.map_set, hmd]
      exact list_set_self (by rw [List.getElem?_map, hci]; rfl)
    rw [findChildIdx_congr seg _ cs hnames, hi]
    simp only []
    have hlt : i < cs.length := by
      rcases Nat.lt_or_ge i cs.length with h1 | h1
      · exact h1
      · rw [List.getElem?_eq_none h1] at hci
        cases hci
    rw [List.getElem?_set_self hlt]
    simp only []
    rw [walkSegmentsPtr_rel, List.nil_append]
    have ih2 : walkSegmentsPtr
        (modifyAt (fun n => FSNode.mk n.metadata (n.children ++ [FSNode.mk c []])) rel1 next) []
        (rest.append [name]) = some (rel1 ++ [pn.children.length]) := ih
    rw [ih2]
    rfl

/-! ### `file_create` -/

theorem parentPath_append (dir name : Str) (h : '/' ∉ name) :
    parentPath (dir ++ '/' :: name) = dir := by
  simp only [parentPath, findLastOf_append '/' name h dir, List.take_left']

theorem fileName_append (dir name : Str) (h : '/' ∉ name) :
    fileName (dir ++ '/' :: name) = name := by
  simp only [fileName, findLastOf_append '/' name h dir]
  rw [List.drop_append_eq_append_drop]
  simp

/-- What a `file_create` that answers `Created` has done. -/
theorem fileCreate_created {L : Layout} {s s1 : ServerState}
    {rid sid r_path content type_str : Str}
    (h : fileCreate L s rid sid r_path content type_str = some (respCreated rid, s1)) :
    ∃ pp parent sb bm1 p t1,
      resolvePathPtr s.fileTree (parentPath r_path) = some pp ∧
      s.fileTree.node pp = some parent ∧
      allocateBlocks s.blockManager (toInt32 (content.length / 4096 + 1)) = some (sb, bm1) ∧
      sb ≠ -1 ∧
      addChild s.fileTree (some pp)
        (createEntry L s sid (fileName r_path) content type_str parent (sb % 2 ^ 32).toNat)
        = some (some p, t1) ∧
      s1 = { s with
        blockManager := bm1
        disk := createDisk L s content type_str parent
          (createEntry L s sid (fileName r_path) content type_str parent (sb % 2 ^ 32).toNat)
        fileTree := t1 } := by
  unfold fileCreate at h
  cases hpp : resolvePathPtr s.fileTree (parentPath r_path) with
  | none =>
    rw [hpp] at h
    simp only [Option.some.injEq, Prod.mk.injEq] at h
    exact absurd h.1 (respError_ne_respCreated _ _)
  | some pp =>
    rw [hpp] at h
    simp only [] at h
    cases hpar : s.fileTree.node pp with
    | none => rw [hpar] at h; cases h
    | some parent =>
      rw [hpar] at h
      simp only [] at h
      cases hal : allocateBlocks s.blockManager (toInt32 (content.length / 4096 + 1)) with
      | none => rw [hal] at h; cases h
      | some r =>
        obtain ⟨sb, bm1⟩ := r
        rw [hal] at h
        simp only [] at h
        by_cases hsb : sb = -1
        · rw [if_pos hsb] at h
          simp only [Option.some.injEq, Prod.mk.injEq] at h
          exact absurd h.1 (respError_ne_respCreated _ _)
        · rw [if_neg hsb] at h
          cases hadd : addChild s.fileTree (some pp)
              (createEntry L s sid (fileName r_path) content type_str parent (sb % 2 ^ 32).toNat) with
          | none => rw [hadd] at h; cases h
          | some r2 =>
            obtain ⟨r3, t1⟩ := r2
            rw [hadd] at h
            cases r3 with
            | none =>
              simp only [Option.some.injEq, Prod.mk.injEq] at h
              exact absurd h.1 (respError_ne_respCreated _ _)
            | some p =>
              simp only [Option.some.injEq, Prod.mk.injEq, true_and] at h
              exact ⟨pp, parent, sb, bm1, p, t1, rfl, hpar, rfl, hsb, hadd, h.symm⟩

/-- What a call of `addChild` on the pointer `pp` that returns a node has done. -/
theorem addChild_at {t t1 : FileSystemTree} {pp p : NodePtr} {entry : FileEntry}
    (h : addChild t (some pp) entry = some (some p, t1)) :
    ∃ root pn, t.root = some root ∧ nodeAt root pp = some pn ∧
      (∀ c ∈ pn.children, c.metadata.name ≠ entry.name) ∧
      p = pp ++ [pn.children.length] ∧
      t1 = { root := some (modifyAt (fun n => .mk n.metadata (n.children ++
              [FSNode.mk { entry with inode := t.next_inode_counter,
                                      parent_inode := pn.metadata.inode } []])) pp root)
             next_inode_counter := (t.next_inode_counter + 1) % 2 ^ 32 } := by
  cases hr : t.root with
  | none => simp [addChild, FileSystemTree.node, hr] at h
  | some root =>
    cases hn : nodeAt root pp with
    | none => simp [addChild, FileSystemTree.node, hr, hn] at h
    | some pn =>
      have hnode : t.node pp = some pn := by
        simp only [FileSystemTree.node, hr, Option.some_bind, hn]
      by_cases hf : (findChild (some pn) entry.name).isSome = true
      · simp [addChild, hnode, hf] at h
      · simp only [addChild, hnode, hf, Bool.false_eq_true, if_false, Option.some.injEq,
          Prod.mk.injEq] at h
        refine ⟨root, pn, rfl, hn, ?_, h.1.symm, ?_⟩
        · intro c hc hcn
          exact hf ((findChild_isSome pn entry.name).mpr ⟨c, hc, hcn⟩)
        · rw [← h.2, hr]
          rfl

/-- The slot `findFreeSlot` returns: one of the slots it visits, and its entry has
`name[0] == '\0'`. -/
theorem findFreeSlot_some (L : Layout) (d : Disk) (base : Nat) :
    ∀ (n k off : Nat), findFreeSlot L d base n k = some off →
      ∃ i, k ≤ i ∧ i < k + n ∧ off = base + i * L.sizeofFileEntry ∧
        (L.entryOfBytes (d.read off L.sizeofFileEntry)).name = []
  | 0, _, _, h => by simp [findFreeSlot] at h
  | n + 1, k, off, h => by
    simp only [findFreeSlot] at h
    split at h
    · rename_i hfree
      simp only [Option.some.injEq] at h
      subst h
      exact ⟨k, le_refl _, by omega, rfl, hfree⟩
    · obtain ⟨i, h1, h2, h3, h4⟩ := findFreeSlot_some L d base n (k + 1) off h
      exact ⟨i, by omega, by omega, h3, h4⟩

theorem toInt32_toNat_le (n : Nat) : (toInt32 n).toNat ≤ n := by
  unfold toInt32
  have := Nat.mod_le n (2 ^ 32)
  split <;> omega

/-- A slot of a directory block lies inside the block. -/
theorem slot_in_block (L : Layout) (s : ServerState) (i : Nat) (hi : i < maxEntries L s) :
    i * L.sizeofFileEntry + L.sizeofFileEntry ≤ s.header.block_size := by
  have h1 : i + 1 ≤ s.header.block_size / L.sizeofFileEntry :=
    Nat.lt_of_lt_of_le hi (toInt32_toNat_le _)
  have h2 := Nat.mul_le_mul_right L.sizeofFileEntry h1
  have h3 := Nat.div_mul_le_self s.header.block_size L.sizeofFileEntry
  have h4 : (i + 1) * L.sizeofFileEntry = i * L.sizeofFileEntry + L.sizeofFileEntry :=
    Nat.succ_mul _ _
  omega

/-- The writes of `file_create` leave the content where it was written: the slot chosen for the
entry starts with a zero byte, the content has none, and a slot does not leave its block. -/
theorem createDisk_read (L : Layout) (hL : L.Lawful) (s : ServerState) (content type_str : Str)
    (parent : FSNode) (nf : FileEntry) (htype : type_str ≠ "dir".toList)
    (hnul : NUL ∉ content) :
    (createDisk L s content type_str parent nf).read (nf.start_block * s.header.block_size)
      content.length = content := by
  unfold createDisk
  simp only [htype, ne_eq, not_false_eq_true, if_true]
  cases hslot : findFreeSlot L (s.disk.write (nf.start_block * s.header.block_size) content)
      (parent.metadata.start_block * s.header.block_size) (maxEntries L s) 0 with
  | none => exact Disk.read_write_same _ _ _
  | some off =>
    simp only []
    obtain ⟨i, _, hi, hoff, hfree⟩ := findFreeSlot_some L _ _ _ _ _ hslot
    have hhead := (hL.name_first _ (Disk.read_length _ _ _)).mp hfree
    rw [Disk.read_head? _ _ _ hL.entry_pos] at hhead
    have hbyte := Option.some.inj hhead
    have hout : ¬ (nf.start_block * s.header.block_size ≤ off ∧
        off < nf.start_block * s.header.block_size + content.length) := by
      intro hin
      rw [Disk.write_apply, if_pos hin] at hbyte
      have hlt : off - nf.start_block * s.header.block_size < content.length := by omega
      rw [List.getD_eq_getElem?_getD, List.getElem?_eq_getElem hlt] at hbyte
      exact hnul (hbyte ▸ List.getElem_mem hlt)
    have hslot2 := slot_in_block L s i (by omega)
    rw [Disk.read_write_disjoint, Disk.read_write_same]
    rw [hL.entry_len]
    by_cases h1 : nf.start_block * s.header.block_size + content.length ≤ off
    · exact Or.inl h1
    · right
      have h2 : off < nf.start_block * s.header.block_size := by omega
      have h3 : parent.metadata.start_block < nf.start_block := by
        by_contra hge
        have := Nat.mul_le_mul_right s.header.block_size (Nat.le_of_not_lt hge)
        omega
      have h4 := Nat.mul_le_mul_right s.header.block_size (Nat.succ_le_of_lt h3)
      rw [Nat.succ_mul] at h4
      omega

/-- After `addChild` has put an entry named `name` below the node `dir` resolves to, the path
`dir/name` resolves to the new node. -/
theorem resolve_created {t t1 : FileSystemTree} {pp p : NodePtr} {entry : FileEntry}
    {dir name : Str} (hdir : resolvePathPtr t dir = some pp)
    (hadd : addChild t (some pp) entry = some (some p, t1))
    (hen : entry.name = name) (hname : name ≠ []) (hslash : '/' ∉ name) :
    resolvePathPtr t1 (dir ++ '/' :: name) = some p ∧
    ∃ pn, t.node pp = some pn ∧ t.node p = none ∧
      t1.node p = some (.mk { entry with inode := t.next_inode_counter,
                                          parent_inode := pn.metadata.inode } []) := by
  obtain ⟨root, pn, hr, hn, hfree, hp, ht1⟩ := addChild_at hadd
  have hdne : dir ≠ [] := by
    intro e
    rw [e] at hdir
    simp [resolvePathPtr, hr] at hdir
  rw [resolvePathPtr_eq t root hr dir hdne] at hdir
  have hr1 : t1.root = some (modifyAt (fun n => .mk n.metadata (n.children ++
      [FSNode.mk { entry with inode := t.next_inode_counter,
                              parent_inode := pn.metadata.inode } []])) pp root) := by
    rw [ht1]
  have happ := nodeAt_appendChild root pn pp hn
    { entry with inode := t.next_inode_counter, parent_inode := pn.metadata.inode }
  simp only [] at happ
  refine ⟨?_, pn, ?_, ?_, ?_⟩
  · rw [resolvePathPtr_eq t1 _ hr1 _ (by simp), pathSegments_append,
      pathSegments_no_sep name (fun x hx e => hslash (e ▸ hx)), if_neg hname, hp]
    exact walkSegmentsPtr_appended name
      { entry with inode := t.next_inode_counter, parent_inode := pn.metadata.inode } hen _ root
      pn pp hdir hn (by rw [← hen]; exact hfree)
  · simp only [FileSystemTree.node, hr, Option.some_bind, hn]
  · simp only [FileSystemTree.node, hr, Option.some_bind, hp]
    exact happ.2.2.1
  · simp only [FileSystemTree.node, hr1, Option.some_bind, hp]
    exact happ.2.1

/-- C14 (amended). For every state of the server, session, content without a zero byte and
virtual path whose translation is `dir/name` with `name` not empty, free of `/` and held whole
by the name field of a directory entry (at most `nameCap` characters, none a zero byte): if
`file_create` with this path, the content as `data` and the type `file` answers `Created`, a
`file_read` of the same path with the same session that follows at once answers with exactly the
content and leaves the state as it is. -/
theorem C14_create_read (L : Layout) (hL : L.Lawful) (s s1 : ServerState) (now1 now2 : Nat)
    (req1 req2 : Request) (dir name : Str)
    (hop1 : req1.operation = "file_create".toList) (htype : req1.type = "file".toList)
    (hop2 : req2.operation = "file_read".toList)
    (hpath : req2.path = req1.path) (hsid : req2.session_id = req1.session_id)
    (hnul : NUL ∉ req1.data)
    (hshape : translatePath s.active_sessions req1.path req1.session_id = dir ++ '/' :: name)
    (hname : name ≠ []) (hslash : '/' ∉ name) (hfit : FitsName L.nameCap name)
    (hc : processRequest L now1 s req1 = some (respCreated req1.request_id, s1)) :
    processRequest L now2 s1 req2 = some (respContent req1.data, s1) := by
  have hne : dir ++ '/' :: name ≠ [] := by simp
  rw [processRequest_file_create L now1 s req1 hop1, hshape, if_neg hne] at hc
  obtain ⟨pp, parent, sb, bm1, p, t1, hpp, hpar, _, _, hadd, hs1⟩ := fileCreate_created hc
  rw [parentPath_append dir name hslash] at hpp
  rw [fileName_append dir name hslash] at hadd hs1
  have hty : req1.type ≠ "dir".toList := by rw [htype]; decide
  have hen : (createEntry L s req1.session_id name req1.data req1.type parent
      (sb % 2 ^ 32).toNat).name = name := storedName_of_fits hfit
  obtain ⟨hres, pn, hpn, _, hnode⟩ := resolve_created hpp hadd hen hname hslash
  have hsess : s1.active_sessions = s.active_sessions := by rw [hs1]
  have htree : s1.fileTree = t1 := by rw [hs1]
  have hhead : s1.header = s.header := by rw [hs1]
  have hdisk : s1.disk = createDisk L s req1.data req1.type parent
      (createEntry L s req1.session_id name req1.data req1.type parent (sb % 2 ^ 32).toNat) := by
    rw [hs1]
  rw [processRequest_file_read L now2 s1 req2 hop2, hpath, hsid, hsess, hshape, if_neg hne]
  unfold fileRead
  rw [resolvePath_eq_node, htree, hres, Option.some_bind, hnode]
  simp only [metadata_mk, createEntry, if_neg hty, hhead, hdisk]
  rw [if_neg (by decide)]
  have hread := createDisk_read L hL s req1.data req1.type parent
    (createEntry L s req1.session_id name req1.data req1.type parent (sb % 2 ^ 32).toNat) hty hnul
  simp only [createEntry, if_neg hty] at hread
  rw [hread, cstr_append_nul _ hnul]

/-! ### The invariant of the server -/

theorem AllocInv_allocate {bm bm1 : BlockManager} {count r : Int} (h : AllocInv bm)
    (hint : count ≤ INT_MAX) (he : allocateBlocks bm count = some (r, bm1)) : AllocInv bm1 := by
  have hw := allocateBlocks_WF h.1 he
  refine ⟨hw.1, hw.2.trans h.2.1, ?_⟩
  by_cases hc : count ≤ 0
  · simp only [allocateBlocks, if_pos hc, Option.some.injEq, Prod.mk.injEq] at he
    rw [← he.2]
    exact h.2.2
  · obtain ⟨c, rfl⟩ := Int.eq_ofNat_of_zero_le (show 0 ≤ count by omega)
    have hc1 : 1 ≤ c := by omega
    rcases allocateBlocks_spec bm h.1.len c hc1 with ⟨h1, _⟩ | ⟨s, hrun, hmin, _⟩
    · rw [h1] at he
      simp only [Option.some.injEq, Prod.mk.injEq] at he
      rw [← he.2]
      exact h.2.2
    · rw [allocateBlocks_run h.1 hc1 hint hrun hmin] at he
      simp only [Option.some.injEq, Prod.mk.injEq] at he
      rw [← he.2]
      intro j hj
      exact setBits_true_keeps (h.2.2 j hj) _ _ _

theorem AllocInv_free {bm bm1 : BlockManager} {sb : Nat} {count : Int} (h : AllocInv bm)
    (h3 : sb > 3) (hr : sb < 2 ^ 32) (he : freeBlocks bm (toInt32 sb) count = some bm1) :
    AllocInv bm1 := by
  have hlim : toInt32 bm.total_blocks = 25600 := by
    rw [h.2.1]
    exact toInt32_small (by decide)
  by_cases hsmall : sb < 2 ^ 31
  · rw [toInt32_small hsmall] at he
    have hw := freeBlocks_WF h.1 (by omega) he
    refine ⟨hw.1, hw.2.trans h.2.1, ?_⟩
    have hs := freeBlocksLoop_some sb count.toNat 0 bm bm1 h.1 (by simpa [freeBlocks] using he)
    rw [hs]
    intro j hj
    simp only [ofBitmap, getElem?_setBits]
    rw [if_neg (by omega)]
    exact h.2.2 j hj
  · have hneg := toInt32_big (Nat.le_of_not_lt hsmall) hr
    have := freeBlocks_neg hneg (by omega) he
    rw [this]
    exact h

/-- What a call of `allocateBlocks` that returns a start has done: the start is the first fit
`s0`, at least 4 and inside the volume, and the blocks of the run are marked. -/
theorem alloc_result {bm bm1 : BlockManager} {count sb : Int} (h : AllocInv bm)
    (hint : count ≤ INT_MAX) (he : allocateBlocks bm count = some (sb, bm1)) (hsb : sb ≠ -1) :
    ∃ s0 c : Nat, count = (c : Int) ∧ 1 ≤ c ∧ sb = (s0 : Int) ∧ FreeRun bm.bitmap s0 c ∧
      4 ≤ s0 ∧ s0 + c ≤ 25600 ∧
      bm1 = ofBitmap bm (setBits true (toInt32 bm.total_blocks) bm.bitmap s0 c) := by
  by_cases hc : count ≤ 0
  · simp only [allocateBlocks, if_pos hc, Option.some.injEq, Prod.mk.injEq] at he
    exact absurd he.1.symm hsb
  · obtain ⟨c, rfl⟩ := Int.eq_ofNat_of_zero_le (show 0 ≤ count by omega)
    have hc1 : 1 ≤ c := by omega
    rcases allocateBlocks_spec bm h.1.len c hc1 with ⟨h1, _⟩ | ⟨s, hrun, hmin, _⟩
    · rw [h1] at he
      simp only [Option.some.injEq, Prod.mk.injEq] at he
      exact absurd he.1.symm hsb
    · rw [allocateBlocks_run h.1 hc1 hint hrun hmin] at he
      simp only [Option.some.injEq, Prod.mk.injEq] at he
      refine ⟨s, c, rfl, hc1, he.1.symm, hrun, ?_, ?_, he.2.symm⟩
      · by_contra hlt
        have h2 := hrun.2 s (le_refl _) (by omega)
        rw [h.2.2 s (by omega)] at h2
        cases h2
      · have := hrun.1
        rw [h.1.len, h.2.1] at this
        exact this

/-- `allocateBlocks` returns a start when the bitmap has a free run of the length asked for. -/
theorem alloc_succeeds {bm : BlockManager} (h : AllocInv bm) {c s : Nat} (hc : 1 ≤ c)
    (hrun : FreeRun bm.bitmap s c) :
    ∃ (sb : Int) (bm1 : BlockManager), allocateBlocks bm (c : Int) = some (sb, bm1) ∧ sb ≠ -1 := by
  have hint : (c : Int) ≤ INT_MAX := by
    have := hrun.1
    rw [h.1.len, h.2.1] at this
    unfold INT_MAX
    omega
  rcases allocateBlocks_spec bm h.1.len c hc with ⟨_, h1⟩ | ⟨s0, hrun0, hmin, _⟩
  · exact absurd hrun (h1 s)
  · exact ⟨(s0 : Int), _, allocateBlocks_run h.1 hc hint hrun0 hmin, by omega⟩

/-- A property of the entries of all nodes holds after `addChild` when it holds before and for
the entry added, whatever inode it is given. -/
theorem addChild_forall (Q : FileEntry → Prop) {t t1 : FileSystemTree}
    {parent : Option NodePtr} {entry : FileEntry} {r : Option NodePtr}
    (hQ : ∀ i j, Q { entry with inode := i, parent_inode := j })
    (hold : ∀ n ∈ t.nodes, Q n.metadata) (h : addChild t parent entry = some (r, t1)) :
    ∀ n ∈ t1.nodes, Q n.metadata := by
  cases r with
  | none =>
    rw [addChild_refused h]
    exact hold
  | some p =>
    obtain ⟨pp, root, pn, hr, hn, _, ht1⟩ := addChild_added h
    have hnodes1 : t1.nodes = (modifyAt (fun n => FSNode.mk n.metadata (n.children ++
        [FSNode.mk { entry with inode := t.next_inode_counter,
                                parent_inode := pn.metadata.inode } []])) pp root).nodes := by
      rw [ht1]
      rfl
    rw [nodes_of_root hr] at hold
    rw [hnodes1]
    refine forall_nodes_modifyAt (fun m _ => Q m) (fun n => FSNode.mk n.metadata (n.children ++
        [FSNode.mk { entry with inode := t.next_inode_counter,
                                parent_inode := pn.metadata.inode } []]))
      (fun _ => rfl) pp root pn hn hold ?_
    intro x hx
    rw [nodes_mk, nodesL_append, nodesL_cons, nodesL_nil, nodes_mk, nodesL_nil] at hx
    simp only [List.mem_cons, List.mem_append, List.mem_singleton, List.not_mem_nil,
      or_false, List.append_nil] at hx
    rcases hx with hx | hx | hx
    · rw [hx, metadata_mk]
      exact hold pn (nodes_of_nodeAt pp root pn hn pn (self_mem_nodes pn))
    · exact hold x (nodes_of_nodeAt pp root pn hn x (by
        rw [nodes_eq]
        exact List.mem_cons_of_mem _ hx))
    · rw [hx, metadata_mk]
      exact hQ _ _

/-- A property of the entries of all nodes holds after `removeChild` when it holds before. -/
theorem removeChild_forall (Q : FileEntry → Prop) {t t1 : FileSystemTree}
    {parent : Option NodePtr} {name : Str} {b : Bool}
    (hold : ∀ n ∈ t.nodes, Q n.metadata) (h : removeChild t parent name = some (b, t1)) :
    ∀ n ∈ t1.nodes, Q n.metadata := by
  rcases removeChild_done h with h1 | ⟨pp, root, pn, hr, hn, ht1⟩
  · rw [h1]
    exact hold
  · have hnodes1 : t1.nodes = (modifyAt
        (fun n => FSNode.mk n.metadata (removeLoop name n.children).2) pp root).nodes := by
      rw [ht1]
      rfl
    rw [nodes_of_root hr] at hold
    rw [hnodes1]
    refine forall_nodes_modifyAt (fun m _ => Q m)
      (fun n => FSNode.mk n.metadata (removeLoop name n.children).2)
      (fun _ => rfl) pp root pn hn hold ?_
    intro x hx
    rw [nodes_mk, List.mem_cons] at hx
    rcases hx with hx | hx
    · rw [hx, metadata_mk]
      exact hold pn (nodes_of_nodeAt pp root pn hn pn (self_mem_nodes pn))
    · exact hold x (nodes_of_nodeAt pp root pn hn x (by
        rw [nodes_eq]
        exact List.mem_cons_of_mem _
          ((nodesL_sublist (removeLoop_sublist name pn.children)).subset hx)))

theorem height_setInactiveRec (u : Str) : ∀ t : UserNode, height (setInactiveRec t u) = height t
  | .null => rfl
  | .node d l r h => by
    simp only [setInactiveRec]
    split
    · rfl
    · split <;> rfl

theorem AVL_setInactiveRec (u : Str) : ∀ t : UserNode, AVL t → AVL (setInactiveRec t u)
  | .null, h => h
  | .node d l r h, hav => by
    rw [AVL_node] at hav
    simp only [setInactiveRec]
    split
    · rw [AVL_node]
      exact hav
    · split
      · rw [AVL_node, height_setInactiveRec]
        exact ⟨AVL_setInactiveRec u l hav.1, hav.2⟩
      · rw [AVL_node, height_setInactiveRec]
        exact ⟨hav.1, AVL_setInactiveRec u r hav.2.1, hav.2.2⟩

theorem names_setInactiveRec (u : Str) :
    ∀ t : UserNode, (inorderRec (setInactiveRec t u)).map (fun i => i.username)
      = (inorderRec t).map (fun i => i.username)
  | .null => rfl
  | .node d l r h => by
    simp only [setInactiveRec]
    split
    · simp only [inorderRec_node, List.map_append, List.map_cons]
    · split
      · simp only [inorderRec_node, List.map_append, List.map_cons, names_setInactiveRec u l]
      · simp only [inorderRec_node, List.map_append, List.map_cons, names_setInactiveRec u r]

theorem sorted_iff_names (l : List UserInfo) :
    SortedByName l ↔ List.Pairwise (fun a b : Str => a < b) (l.map (fun i => i.username)) := by
  unfold SortedByName
  rw [List.pairwise_map]

/-- The record `search` finds after `u->is_active = 0` is the record found before with its flag
cleared, for the name `u` itself. -/
theorem searchRec_setInactiveRec (u : Str) :
    ∀ t : UserNode, searchRec (setInactiveRec t u) u
      = (searchRec t u).map (fun d => { d with is_active := 0 })
  | .null => rfl
  | .node d l r h => by
    by_cases h1 : d.username = u
    · simp only [setInactiveRec, searchRec, h1, if_true, Option.map_some']
    · by_cases h2 : u < d.username
      · simp only [setInactiveRec, searchRec, h1, h2, if_true, if_false]
        exact searchRec_setInactiveRec u l
      · simp only [setInactiveRec, searchRec, h1, h2, if_false]
        exact searchRec_setInactiveRec u r

theorem node_mem_nodes {t : FileSystemTree} {p : NodePtr} {n : FSNode}
    (h : t.node p = some n) : n ∈ t.nodes := by
  cases hr : t.root with
  | none => simp [FileSystemTree.node, hr] at h
  | some root =>
    simp only [FileSystemTree.node, hr, Option.some_bind] at h
    rw [nodes_of_root hr]
    exact nodes_of_nodeAt p root n h n (self_mem_nodes n)

theorem same_inv {s s1 : ServerState} (h : ServerInv s) (e : (r, s) = (r1, s1)) :
    ServerInv s1 := by
  cases e
  exact h

theorem userLogin_inv {now : Nat} {s s1 : ServerState} {rid u p resp : Str}
    (h : ServerInv s) (he : userLogin now s rid u p = some (resp, s1)) : ServerInv s1 := by
  unfold userLogin at he
  split at he
  · split at he
    · simp only [Option.some.injEq, Prod.mk.injEq] at he
      rw [← he.2]
      exact ⟨h.alloc, h.avl, h.sorted, h.blocks, h.block_size⟩
    · simp only [Option.some.injEq, Prod.mk.injEq] at he
      rw [← he.2]
      exact h
  · simp only [Option.some.injEq, Prod.mk.injEq] at he
    rw [← he.2]
    exact h

theorem provisionHome_inv {L : Layout} {s s1 : ServerState} {u : Str}
    (h : ServerInv s) (he : provisionHome L s u = some s1) : ServerInv s1 := by
  unfold provisionHome at he
  cases hres : resolvePathPtr s.fileTree "/home".toList with
  | none =>
    rw [hres] at he
    simp only [Option.some.injEq] at he
    rw [← he]
    exact h
  | some hp =>
    rw [hres] at he
    simp only [] at he
    cases hnode : s.fileTree.node hp with
    | none => rw [hnode] at he; cases he
    | some homeNode =>
      rw [hnode] at he
      simp only [] at he
      cases hal : allocateBlocks s.blockManager 1 with
      | none => rw [hal] at he; cases he
      | some r =>
        obtain ⟨db, bm1⟩ := r
        rw [hal] at he
        simp only [] at he
        have hbm := AllocInv_allocate h.alloc (by decide) hal
        by_cases hdb : db = -1
        · rw [if_pos hdb] at he
          simp only [Option.some.injEq] at he
          rw [← he]
          exact ⟨hbm, h.avl, h.sorted, h.blocks, h.block_size⟩
        · rw [if_neg hdb] at he
          obtain ⟨s0, c, _, _, hs0, _, _, hle, _⟩ := alloc_result h.alloc (by decide) hal hdb
          have hblk : (db % 2 ^ 32).toNat < 25600 := by
            rw [hs0]
            omega
          cases hadd : addChild s.fileTree (some hp)
              { name := storedName L.nameCap u, type := EntryType.DIRECTORY, size := 0,
                permissions := 0o700, owner := storedName L.ownerCap u, inode := 0, parent_inode := homeNode.metadata.inode,
                start_block := (db % 2 ^ 32).toNat } with
          | none => rw [hadd] at he; cases he
          | some r2 =>
            obtain ⟨r3, t1⟩ := r2
            rw [hadd] at he
            have htree := addChild_forall (fun m => m.start_block < 25600) (fun _ _ => hblk)
              h.blocks hadd
            cases r3 with
            | none =>
              simp only [Option.some.injEq] at he
              rw [← he]
              exact ⟨hbm, h.avl, h.sorted, htree, h.block_size⟩
            | some p =>
              simp only [Option.some.injEq] at he
              rw [← he]
              exact ⟨hbm, h.avl, h.sorted, htree, h.block_size⟩

theorem userCreate_inv {L : Layout} {now : Nat} {s s1 : ServerState} {rid u p resp : Str}
    (h : ServerInv s) (he : userCreate L now s rid u p = some (resp, s1)) : ServerInv s1 := by
  unfold userCreate at he
  cases hsearch : s.userTree.search u with
  | some _ =>
    rw [hsearch] at he
    simp only [Option.some.injEq, Prod.mk.injEq] at he
    rw [← he.2]
    exact h
  | none =>
    rw [hsearch] at he
    simp only [] at he
    cases hslot : findUserSlot L s.disk s.header.block_size s.header.max_users 0 with
    | none =>
      rw [hslot] at he
      simp only [Option.some.injEq, Prod.mk.injEq] at he
      rw [← he.2]
      exact h
    | some off =>
      rw [hslot] at he
      simp only [] at he
      obtain ⟨t1, ht1, hav, hin, _, _⟩ := insertRec_spec
        { username := storedName L.usernameCap u, password_hash := simpleHash p,
          role := UserRole.NORMAL,
          created_time := now, is_active := 1 } s.userTree.root h.avl h.sorted
      simp only [UserAVLTree.insert, ht1, Option.map_some', Option.map_eq_some',
        Prod.mk.injEq] at he
      obtain ⟨s2, hprov, _, hs2⟩ := he
      rw [← hs2]
      refine provisionHome_inv ?_ hprov
      refine ⟨h.alloc, hav, ?_, h.blocks, h.block_size⟩
      show SortedByName (inorderRec t1)
      rw [hin]
      exact sorted_listInsert _ _ h.sorted

theorem userDelete_inv {L : Layout} {s s1 : ServerState} {target resp : Str}
    (h : ServerInv s) (he : userDelete L s target = some (resp, s1)) : ServerInv s1 := by
  unfold userDelete at he
  split at he
  · simp only [Option.some.injEq, Prod.mk.injEq] at he
    rw [← he.2]
    exact h
  · split at he
    · simp only [Option.some.injEq, Prod.mk.injEq] at he
      rw [← he.2]
      exact h
    · simp only [Option.some.injEq, Prod.mk.injEq] at he
      rw [← he.2]
      refine ⟨h.alloc, AVL_setInactiveRec _ _ h.avl, ?_, h.blocks, h.block_size⟩
      show SortedByName (inorderRec (setInactiveRec s.userTree.root target))
      rw [sorted_iff_names, names_setInactiveRec, ← sorted_iff_names]
      exact h.sorted

/-- What `file_delete` has done when its execution is defined. -/
theorem fileDelete_done {L : Layout} {s s1 : ServerState} {r_path resp : Str}
    (he : fileDelete L s r_path = some (resp, s1)) :
    (resolvePathPtr s.fileTree r_path = none ∧ resp = respError "Not Found".toList ∧ s1 = s) ∨
    ∃ p node bm1 disk1 b t1, resolvePathPtr s.fileTree r_path = some p ∧
      s.fileTree.node p = some node ∧
      (if node.metadata.start_block > 3 then
          freeBlocks s.blockManager (toInt32 node.metadata.start_block)
            (toInt32 (node.metadata.size / 4096 + 1))
        else some s.blockManager) = some bm1 ∧
      clearSlot L s p node = some disk1 ∧
      removeChild s.fileTree (parentPtr p) node.metadata.name = some (b, t1) ∧
      resp = respDeleted ∧
      s1 = { s with blockManager := bm1, disk := disk1, fileTree := t1 } := by
  unfold fileDelete at he
  cases hres : resolvePathPtr s.fileTree r_path with
  | none =>
    rw [hres] at he
    simp only [Option.some.injEq, Prod.mk.injEq] at he
    exact Or.inl ⟨rfl, he.1.symm, he.2.symm⟩
  | some p =>
    rw [hres] at he
    simp only [] at he
    cases hnode : s.fileTree.node p with
    | none => rw [hnode] at he; cases he
    | some node =>
      rw [hnode] at he
      simp only [] at he
      right
      cases hbm : (if node.metadata.start_block > 3 then
          freeBlocks s.blockManager (toInt32 node.metadata.start_block)
            (toInt32 (node.metadata.size / 4096 + 1))
        else some s.blockManager) with
      | none => rw [hbm] at he; cases he
      | some bm1 =>
        rw [hbm] at he
        cases hcl : clearSlot L s p node with
        | none => rw [hcl] at he; cases he
        | some disk1 =>
          rw [hcl] at he
          cases hrm : removeChild s.fileTree (parentPtr p) node.metadata.name with
          | none => rw [hrm] at he; cases he
          | some r =>
            obtain ⟨b, t1⟩ := r
            rw [hrm] at he
            simp only [Option.some.injEq, Prod.mk.injEq] at he
            exact ⟨p, node, bm1, disk1, b, t1, rfl, hnode, hbm, hcl, hrm, he.1.symm, he.2.symm⟩

/-- What `dir_delete` has done when its execution is defined. -/
theorem dirDelete_done {L : Layout} {s s1 : ServerState} {r_path resp : Str}
    (he : dirDelete L s r_path = some (resp, s1)) :
    (s1 = s ∧ resp ≠ respDeleted) ∨
    ∃ p node bm1 disk1 b t1, resolvePathPtr s.fileTree r_path = some p ∧
      s.fileTree.node p = some node ∧ node.metadata.type = EntryType.DIRECTORY ∧
      node.children = [] ∧
      (if node.metadata.start_block > 3 then
          freeBlocks s.blockManager (toInt32 node.metadata.start_block) 1
        else some s.blockManager) = some bm1 ∧
      clearSlot L s p node = some disk1 ∧
      removeChild s.fileTree (parentPtr p) node.metadata.name = some (b, t1) ∧
      resp = respDeleted ∧
      s1 = { s with blockManager := bm1, disk := disk1, fileTree := t1 } := by
  unfold dirDelete at he
  cases hres : resolvePathPtr s.fileTree r_path with
  | none =>
    rw [hres] at he
    simp only [Option.some.injEq, Prod.mk.injEq] at he
    exact Or.inl ⟨he.2.symm, he.1 ▸ respError_ne_respDeleted _⟩
  | some p =>
    rw [hres] at he
    simp only [] at he
    cases hnode : s.fileTree.node p with
    | none => rw [hnode] at he; cases he
    | some node =>
      rw [hnode] at he
      simp only [] at he
      by_cases hty : node.metadata.type ≠ EntryType.DIRECTORY
      · rw [if_pos hty] at he
        simp only [Option.some.injEq, Prod.mk.injEq] at he
        exact Or.inl ⟨he.2.symm, he.1 ▸ respError_ne_respDeleted _⟩
      · rw [if_neg hty] at he
        by_cases hch : node.children.isEmpty = false
        · rw [if_pos hch] at he
          simp only [Option.some.injEq, Prod.mk.injEq] at he
          exact Or.inl ⟨he.2.symm, he.1 ▸ respError_ne_respDeleted _⟩
        · rw [if_neg hch] at he
          right
          cases hbm : (if node.metadata.start_block > 3 then
              freeBlocks s.blockManager (toInt32 node.metadata.start_block) 1
            else some s.blockManager) with
          | none => rw [hbm] at he; cases he
          | some bm1 =>
            rw [hbm] at he
            cases hcl : clearSlot L s p node with
            | none => rw [hcl] at he; cases he
            | some disk1 =>
              rw [hcl] at he
              cases hrm : removeChild s.fileTree (parentPtr p) node.metadata.name with
              | none => rw [hrm] at he; cases he
              | some r =>
                obtain ⟨b, t1⟩ := r
                rw [hrm] at he
                simp only [Option.some.injEq, Prod.mk.injEq] at he
                refine ⟨p, node, bm1, disk1, b, t1, rfl, hnode, ?_, ?_, hbm, hcl, hrm,
                  he.1.symm, he.2.symm⟩
                · exact not_not.mp hty
                · cases hc : node.children with
                  | nil => rfl
                  | cons a l => rw [hc] at hch; simp at hch

theorem free_step_inv {s : ServerState} (h : ServerInv s) {p : NodePtr} {node : FSNode}
    (hnode : s.fileTree.node p = some node) {count : Int} {bm1 : BlockManager}
    (he : (if node.metadata.start_block > 3 then
        freeBlocks s.blockManager (toInt32 node.metadata.start_block) count
      else some s.blockManager) = some bm1) : AllocInv bm1 := by
  have hlt := h.blocks node (node_mem_nodes hnode)
  by_cases h3 : node.metadata.start_block > 3
  · rw [if_pos h3] at he
    exact AllocInv_free h.alloc h3 (by omega) he
  · rw [if_neg h3, Option.some.injEq] at he
    rw [← he]
    exact h.alloc

theorem fileDelete_inv {L : Layout} {s s1 : ServerState} {r_path resp : Str}
    (h : ServerInv s) (he : fileDelete L s r_path = some (resp, s1)) : ServerInv s1 := by
  rcases fileDelete_done he with ⟨_, _, h1⟩ | ⟨p, node, bm1, disk1, b, t1, _, hnode, hbm, _, hrm,
    _, hs1⟩
  · rw [h1]
    exact h
  · rw [hs1]
    exact ⟨free_step_inv h hnode hbm, h.avl, h.sorted,
      removeChild_forall (fun m => m.start_block < 25600) h.blocks hrm, h.block_size⟩

theorem dirDelete_inv {L : Layout} {s s1 : ServerState} {r_path resp : Str}
    (h : ServerInv s) (he : dirDelete L s r_path = some (resp, s1)) : ServerInv s1 := by
  rcases dirDelete_done he with ⟨h1, _⟩ | ⟨p, node, bm1, disk1, b, t1, _, hnode, _, _, hbm, _,
    hrm, _, hs1⟩
  · rw [h1]
    exact h
  · rw [hs1]
    exact ⟨free_step_inv h hnode hbm, h.avl, h.sorted,
      removeChild_forall (fun m => m.start_block < 25600) h.blocks hrm, h.block_size⟩

theorem fileCreate_inv {L : Layout} {s s1 : ServerState} {rid sid r_path content type_str : Str}
    {resp : Str} (h : ServerInv s)
    (he : fileCreate L s rid sid r_path content type_str = some (resp, s1)) : ServerInv s1 := by
  unfold fileCreate at he
  cases hpp : resolvePathPtr s.fileTree (parentPath r_path) with
  | none =>
    rw [hpp] at he
    simp only [Option.some.injEq, Prod.mk.injEq] at he
    rw [← he.2]
    exact h
  | some pp =>
    rw [hpp] at he
    simp only [] at he
    cases hpar : s.fileTree.node pp with
    | none => rw [hpar] at he; cases he
    | some parent =>
      rw [hpar] at he
      simp only [] at he
      cases hal : allocateBlocks s.blockManager (toInt32 (content.length / 4096 + 1)) with
      | none => rw [hal] at he; cases he
      | some r =>
        obtain ⟨sb, bm1⟩ := r
        rw [hal] at he
        simp only [] at he
        have hbm := AllocInv_allocate h.alloc (toInt32_le_max _) hal
        by_cases hsb : sb = -1
        · rw [if_pos hsb] at he
          simp only [Option.some.injEq, Prod.mk.injEq] at he
          rw [← he.2]
          exact ⟨hbm, h.avl, h.sorted, h.blocks, h.block_size⟩
        · rw [if_neg hsb] at he
          obtain ⟨s0, c, _, _, hs0, _, _, hle, _⟩ :=
            alloc_result h.alloc (toInt32_le_max _) hal hsb
          have hblk : (sb % 2 ^ 32).toNat < 25600 := by
            rw [hs0]
            omega
          cases hadd : addChild s.fileTree (some pp)
              (createEntry L s sid (fileName r_path) content type_str parent (sb % 2 ^ 32).toNat) with
          | none => rw [hadd] at he; cases he
          | some r2 =>
            obtain ⟨r3, t1⟩ := r2
            rw [hadd] at he
            have htree := addChild_forall (fun m => m.start_block < 25600) (fun _ _ => hblk)
              h.blocks hadd
            cases r3 with
            | none =>
              simp only [Option.some.injEq, Prod.mk.injEq] at he
              rw [← he.2]
              exact ⟨hbm, h.avl, h.sorted, htree, h.block_size⟩
            | some p =>
              simp only [Option.some.injEq, Prod.mk.injEq] at he
              rw [← he.2]
              exact ⟨hbm, h.avl, h.sorted, htree, h.block_size⟩

theorem fileRead_state {s s1 : ServerState} {r_path resp : Str}
    (he : fileRead s r_path = some (resp, s1)) : s1 = s := by
  unfold fileRead at he
  split at he
  · simp only [Option.some.injEq, Prod.mk.injEq] at he
    exact he.2.symm
  · split at he
    · simp only [Option.some.injEq, Prod.mk.injEq] at he
      exact he.2.symm
    · simp only [Option.some.injEq, Prod.mk.injEq] at he
      exact he.2.symm

/-- A request for an operation that changes nothing leaves the state as it is. -/
theorem processRequest_other (L : Layout) (now : Nat) (s : ServerState) (req : Request)
    (h1 : req.operation ≠ "user_login".toList) (h2 : req.operation ≠ "user_create".toList)
    (h3 : req.operation ≠ "user_delete".toList) (h4 : req.operation ≠ "file_read".toList)
    (h5 : req.operation ≠ "file_delete".toList) (h6 : req.operation ≠ "dir_delete".toList)
    (h7 : req.operation ≠ "file_create".toList) :
    ∃ r, processRequest L now s req = some (r, s) := by
  unfold processRequest
  simp only [h1, h2, h3, h4, h5, h6, h7, if_false]
  split_ifs <;> exact ⟨_, rfl⟩

/-- Every request keeps the invariant of the server. -/
theorem processRequest_inv {L : Layout} {now : Nat} {s s1 : ServerState} {req : Request}
    {resp : Str} (h : ServerInv s) (he : processRequest L now s req = some (resp, s1)) :
    ServerInv s1 := by
  by_cases h1 : req.operation = "user_login".toList
  · rw [processRequest_user_login L now s req h1] at he
    exact userLogin_inv h he
  by_cases h2 : req.operation = "user_create".toList
  · rw [processRequest_user_create L now s req h2] at he
    exact userCreate_inv h he
  by_cases h3 : req.operation = "user_delete".toList
  · rw [processRequest_user_delete L now s req h3] at he
    exact userDelete_inv h he
  by_cases h4 : req.operation = "file_read".toList
  · rw [processRequest_file_read L now s req h4] at he
    split at he
    · exact same_inv h (Option.some.inj he)
    · rw [fileRead_state he]
      exact h
  by_cases h5 : req.operation = "file_delete".toList
  · rw [processRequest_file_delete L now s req h5] at he
    split at he
    · exact same_inv h (Option.some.inj he)
    · exact fileDelete_inv h he
  by_cases h6 : req.operation = "dir_delete".toList
  · rw [processRequest_dir_delete L now s req h6] at he
    split at he
    · exact same_inv h (Option.some.inj he)
    · exact dirDelete_inv h he
  by_cases h7 : req.operation = "file_create".toList
  · rw [processRequest_file_create L now s req h7] at he
    split at he
    · exact same_inv h (Option.some.inj he)
    · exact fileCreate_inv h he
  obtain ⟨r, hr⟩ := processRequest_other L now s req h1 h2 h3 h4 h5 h6 h7
  rw [hr] at he
  exact same_inv h (Option.some.inj he)

/-! ### The freshly formatted volume -/

theorem formatVolume_eq (L : Layout) (now : Nat) :
    formatVolume L now = some (freshState L now) := by
  have h1 : UserAVLTree.empty.insert (adminInfo now)
      = some { root := .node (adminInfo now) .null .null 1 } := rfl
  have h2 : addChild (setRoot FileSystemTree.new rootDirEntry) (some []) homeDirEntry
      = some (some [0],
          { root := some (.mk rootDirEntry [.mk { homeDirEntry with inode := 1 } []])
            next_inode_counter := 2 }) := rfl
  unfold formatVolume
  rw [h1, h2, format_state]
  rfl

theorem AllocInv_format :
    AllocInv { bitmap := [true, true, true, true] ++ List.replicate 25596 false,
               total_blocks := 25600, used_blocks_count := 4 } :=
  ServerReachable_inv (ServerReachable.format format_state)

theorem freshState_inv (L : Layout) (now : Nat) : ServerInv (freshState L now) := by
  refine ⟨AllocInv_format, ?_, ?_, ?_, rfl⟩
  · show AVL (.node (adminInfo now) .null .null 1)
    rw [AVL_node]
    exact ⟨trivial, trivial, by decide, by decide, by decide⟩
  · show SortedByName (inorderRec (.node (adminInfo now) .null .null 1))
    simp [SortedByName, inorderRec]
  · intro n hn
    simp only [freshState, FileSystemTree.nodes, nodes_mk, nodesL_cons, nodesL_nil,
      List.append_nil, List.mem_cons, List.mem_singleton, List.not_mem_nil, or_false] at hn
    rcases hn with hn | hn
    · rw [hn]
      decide
    · rw [hn]
      decide

/-- Every reachable state of the server satisfies the invariant. -/
theorem Reach_inv {L : Layout} {s : ServerState} (h : Reach L s) : ServerInv s := by
  induction h with
  | format now he =>
    rw [formatVolume_eq, Option.some.injEq] at he
    rw [← he]
    exact freshState_inv L now
  | step now req resp _ he ih => exact processRequest_inv ih he

/-! ### The examples -/

theorem padTo_length (n : Nat) (s : Str) : (padTo n s).length = n := by
  simp [padTo]

theorem demoLayout_lawful : demoLayout.Lawful := by
  refine ⟨by decide, fun e => padTo_length 16 e.name, ?_⟩
  intro bs hbs
  show cstr (bs.take 16) = [] ↔ bs.head? = some NUL
  cases bs with
  | nil => simp [demoLayout] at hbs
  | cons c rest =>
    simp only [List.take_succ_cons, cstr, List.takeWhile_cons, List.head?_cons,
      Option.some.injEq]
    by_cases hc : c = NUL
    · simp [hc]
    · simp [hc]

theorem freshState_reach (L : Layout) (now : Nat) : Reach L (freshState L now) :=
  Reach.format now (formatVolume_eq L now)

theorem adminLogin_step (L : Layout) (now now1 : Nat) :
    processRequest L now1 (freshState L now) adminLogin
      = some (respLoginOk "0".toList (adminSid now1), adminState L now now1) := by
  rw [processRequest_user_login L now1 _ adminLogin rfl]
  rfl

theorem adminState_reach (L : Layout) (now now1 : Nat) : Reach L (adminState L now now1) :=
  Reach.step now1 adminLogin _ (freshState_reach L now) (adminLogin_step L now now1)

theorem translatePath_admin (L : Layout) (now now1 : Nat) (path : Str) :
    translatePath (adminState L now now1).active_sessions path (adminSid now1) = path := by
  simp [translatePath, adminState, List.lookup]

/-- `addChild` below a node that has no child of the entry's name returns the new node. -/
theorem addChild_ok {t : FileSystemTree} {pp : NodePtr} {parent : FSNode} (entry : FileEntry)
    (hpar : t.node pp = some parent)
    (hfree : ∀ x ∈ parent.children, x.metadata.name ≠ entry.name) :
    ∃ t1, addChild t (some pp) entry = some (some (pp ++ [parent.children.length]), t1) := by
  have hf : (findChild (some parent) entry.name).isSome = false := by
    cases h : (findChild (some parent) entry.name).isSome with
    | false => rfl
    | true =>
      obtain ⟨c, hc, hn⟩ := (findChild_isSome parent entry.name).mp h
      exact absurd hn (hfree c hc)
  simp only [addChild, hpar, hf, Bool.false_eq_true, if_false]
  exact ⟨_, rfl⟩

/-- `file_create` answers `Created` when the parent resolves, has no child of the new name, and
the bitmap has a free run of the length needed. -/
theorem fileCreate_ok (L : Layout) (s : ServerState) (rid sid r_path content type_str : Str)
    {pp : NodePtr} {parent : FSNode} {s0 : Nat} (hinv : AllocInv s.blockManager)
    (hpp : resolvePathPtr s.fileTree (parentPath r_path) = some pp)
    (hpar : s.fileTree.node pp = some parent)
    (hfree : ∀ x ∈ parent.children, x.metadata.name ≠ storedName L.nameCap (fileName r_path))
    (hrun : FreeRun s.blockManager.bitmap s0 (content.length / 4096 + 1)) :
    ∃ s1, fileCreate L s rid sid r_path content type_str = some (respCreated rid, s1) := by
  have hlen := hrun.1
  rw [hinv.1.len, hinv.2.1] at hlen
  have hc : toInt32 (content.length / 4096 + 1) = ((content.length / 4096 + 1 : Nat) : Int) :=
    toInt32_small (by omega)
  obtain ⟨sb, bm1, hal, hsb⟩ := alloc_succeeds hinv (Nat.le_add_left 1 _) hrun
  obtain ⟨t1, hadd⟩ := addChild_ok
    (createEntry L s sid (fileName r_path) content type_str parent (sb % 2 ^ 32).toNat) hpar hfree
  unfold fileCreate
  rw [hpp]
  simp only [hpar, hc, hal, if_neg hsb, hadd]
  exact ⟨_, rfl⟩

theorem translatePath_adminRequest (L : Layout) (now now1 : Nat) (op path data type : Str) :
    translatePath (adminState L now now1).active_sessions
      (adminRequest now1 op path data type).path
      (adminRequest now1 op path data type).session_id = path :=
  translatePath_admin L now now1 path

theorem fresh_free_run :
    FreeRun ([true, true, true, true] ++ List.replicate 25596 false) 4 1 := by
  refine ⟨?_, ?_⟩
  · rw [List.length_append, List.length_replicate]
    decide
  · intro j h1 h2
    have hj : j = 4 := by omega
    subst hj
    rw [List.getElem?_append_right (by decide), List.getElem?_replicate]
    rfl

/-- On the volume with `admin` logged in, `file_create` of a short content below `/home` answers
`Created`. -/
theorem adminCreate_ok (L : Layout) (now now1 now2 : Nat) (name content type_str : Str)
    (hslash : '/' ∉ name) (hlen : content.length < 4096) :
    ∃ s1, processRequest L now2 (adminState L now now1)
        (adminRequest now1 "file_create".toList ("/home".toList ++ '/' :: name) content type_str)
      = some (respCreated "1".toList, s1) := by
  rw [processRequest_file_create L now2 _ _ rfl]
  rw [translatePath_adminRequest, if_neg (by simp)]
  have hdiv : content.length / 4096 + 1 = 1 := by
    rw [Nat.div_eq_of_lt hlen]
  exact fileCreate_ok L (adminState L now now1) _ _ _ content type_str AllocInv_format
    (by rw [parentPath_append _ _ hslash]; rfl)
    (show (adminState L now now1).fileTree.node [0]
      = some (.mk { homeDirEntry with inode := 1 } []) from rfl)
    (fun x hx => by cases hx)
    (by rw [hdiv]; exact fresh_free_run)

/-- A walk that ends at the node that is changed ends there in the changed tree as well, when
the change keeps the entry of the node. -/
theorem walkSegmentsPtr_modified (f : FSNode → FSNode)
    (hf : ∀ n, (f n).metadata = n.metadata) :
    ∀ (segs : List Str) (current : FSNode) (rel : NodePtr),
      walkSegmentsPtr current [] segs = some rel →
      walkSegmentsPtr (modifyAt f rel current) [] segs = some rel
  | [], current, rel, h => by
    simp only [walkSegmentsPtr, Option.some.injEq] at h ⊢
    exact h
  | seg :: rest, .mk m cs, rel, h => by
    obtain ⟨i, next, rel1, hi, hci, _, hw, hrel⟩ := walkSegmentsPtr_cons h
    rw [children_mk] at hi hci
    subst hrel
    have ih := walkSegmentsPtr_modified f hf rest next rel1 hw
    rw [modifyAt_cons _ i rel1 m cs next hci]
    simp only [walkSegmentsPtr, children_mk]
    have hnames : (cs.set i (modifyAt f rel1 next)).map (fun c => c.metadata.name)
        = cs.map (fun c => c.metadata.name) := by
      rw [List.map_set, modifyAt_metadata f hf rel1 next]
      exact list_set_self (by rw [List.getElem?_map, hci]; rfl)
    rw [findChildIdx_congr seg _ cs hnames, hi]
    simp only []
    have hlt : i < cs.length := by
      rcases Nat.lt_or_ge i cs.length with h1 | h1
      · exact h1
      · rw [List.getElem?_eq_none h1] at hci
        cases hci
    rw [List.getElem?_set_self hlt]
    simp only []
    rw [walkSegmentsPtr_rel, List.nil_append, ih]
    rfl

/-- A `file_read` right after a `file_create` that answered `Created` for a path `dir/` whose
`dir` is a directory: the path resolves to that directory and the answer is `File not found`. -/
theorem read_after_create_slash {L : Layout} {s s1 : ServerState}
    {rid sid dir content type_str : Str}
    (hc : fileCreate L s rid sid (dir ++ ['/']) content type_str = some (respCreated rid, s1))
    (hdir : ∀ pp parent, resolvePathPtr s.fileTree dir = some pp →
      s.fileTree.node pp = some parent → parent.metadata.type = EntryType.DIRECTORY) :
    fileRead s1 (dir ++ ['/']) = some (respError "File not found".toList, s1) := by
  obtain ⟨pp, parent, sb, bm1, p, t1, hpp, hpar, _, _, hadd, hs1⟩ := fileCreate_created hc
  rw [parentPath_append dir [] (by simp)] at hpp
  have hty := hdir pp parent hpp hpar
  obtain ⟨root, pn, hr, hn, _, _, ht1⟩ := addChild_at hadd
  have hpn : pn = parent := by
    simp only [FileSystemTree.node, hr, Option.some_bind, hn, Option.some.injEq] at hpar
    exact hpar
  subst hpn
  have hdne : dir ≠ [] := by
    intro e
    rw [e] at hpp
    simp [resolvePathPtr, hr] at hpp
  rw [resolvePathPtr_eq _ root hr dir hdne] at hpp
  have htree : s1.fileTree = t1 := by rw [hs1]
  have happ := nodeAt_appendChild root pn pp hn
    { createEntry L s sid (fileName (dir ++ ['/'])) content type_str pn (sb % 2 ^ 32).toNat with
      inode := s.fileTree.next_inode_counter, parent_inode := pn.metadata.inode }
  simp only [] at happ
  have hwalk : ∀ e1 : FileEntry, walkSegmentsPtr (modifyAt
      (fun n => FSNode.mk n.metadata (n.children ++ [FSNode.mk e1 []])) pp root) []
      (pathSegments dir) = some pp := fun e1 =>
    walkSegmentsPtr_modified (fun n => FSNode.mk n.metadata (n.children ++ [FSNode.mk e1 []]))
      (fun _ => rfl) _ root pp hpp
  unfold fileRead
  rw [resolvePath_eq_node, htree, ht1, resolvePathPtr_eq _ _ rfl _ (by simp),
    pathSegments_append, pathSegments_nil, List.append_nil, hwalk, Option.some_bind]
  simp only [FileSystemTree.node, Option.some_bind, happ.1, metadata_mk, hty, if_true]

/-- A path that ends in `/`. On the formatted volume with `admin` logged in, the parent `/home`
of `/home/` exists and has no child with the new (empty) name, and `file_create` of `/home/`
with the content `hello` answers `Created`; the `file_read` of `/home/` that follows resolves to
the directory `/home` and answers `File not found`. -/
theorem create_slash_read :
    Reach demoLayout (adminState demoLayout 0 1) ∧
    (adminState demoLayout 0 1).active_sessions.lookup (adminSid 1) = some "admin".toList ∧
    NUL ∉ "hello".toList ∧
    (∃ parent, resolvePath (adminState demoLayout 0 1).fileTree (parentPath "/home/".toList)
        = some parent ∧
      ∀ c ∈ parent.children, c.metadata.name ≠ fileName "/home/".toList) ∧
    ∃ s1, processRequest demoLayout 2 (adminState demoLayout 0 1)
        (adminRequest 1 "file_create".toList "/home/".toList "hello".toList "file".toList)
        = some (respCreated "1".toList, s1) ∧
      processRequest demoLayout 3 s1
        (adminRequest 1 "file_read".toList "/home/".toList [] [])
        = some (respError "File not found".toList, s1) ∧
      respError "File not found".toList ≠ respContent "hello".toList := by
  refine ⟨adminState_reach demoLayout 0 1, ?_, by decide, ?_, ?_⟩
  · simp [adminState, List.lookup]
  · exact ⟨.mk { homeDirEntry with inode := 1 } [], rfl, fun c hc => by cases hc⟩
  · obtain ⟨s1, h1⟩ := adminCreate_ok demoLayout 0 1 2 [] "hello".toList "file".toList
      (by decide) (by decide)
    refine ⟨s1, h1, ?_, by simp [respError, respContent]⟩
    have h2 := h1
    rw [processRequest_file_create demoLayout 2 _ _ rfl, translatePath_adminRequest,
      if_neg (by decide)] at h2
    have hsess : s1.active_sessions = (adminState demoLayout 0 1).active_sessions := by
      obtain ⟨_, _, _, _, _, _, _, _, _, _, _, hs1⟩ := fileCreate_created h2
      rw [hs1]
    rw [processRequest_file_read demoLayout 3 s1 _ rfl, hsess, translatePath_adminRequest,
      if_neg (by decide)]
    refine read_after_create_slash h2 ?_
    intro pp parent hpp hpar
    have hpp2 : pp = [0] := Option.some.inj (hpp.symm.trans rfl)
    subst hpp2
    have hparent : parent = .mk { homeDirEntry with inode := 1 } [] :=
      (Option.some.inj hpar).symm
    rw [hparent]
    rfl

/-- Witness of `C14_create_read`: on the formatted volume of the layout of the examples, `admin`
creates `/home/note.txt` with the content `hello` and reads it back. -/
theorem C14_create_read_witness :
    ∃ s1, processRequest demoLayout 2 (adminState demoLayout 0 1)
        (adminRequest 1 "file_create".toList "/home/note.txt".toList "hello".toList
          "file".toList) = some (respCreated "1".toList, s1) ∧
      processRequest demoLayout 3 s1
        (adminRequest 1 "file_read".toList "/home/note.txt".toList [] [])
        = some (respContent "hello".toList, s1) := by
  obtain ⟨s1, h1⟩ := adminCreate_ok demoLayout 0 1 2 "note.txt".toList "hello".toList
    "file".toList (by decide) (by decide)
  exact ⟨s1, h1, C14_create_read demoLayout demoLayout_lawful (adminState demoLayout 0 1) s1 2 3
    (adminRequest 1 "file_create".toList "/home/note.txt".toList "hello".toList "file".toList)
    (adminRequest 1 "file_read".toList "/home/note.txt".toList [] [])
    "/home".toList "note.txt".toList rfl rfl rfl rfl rfl (by decide)
    (translatePath_admin demoLayout 0 1 _) (by decide) (by decide)
    ⟨by decide, by decide⟩ h1⟩

/-! ### `file_create` followed by `file_delete` -/

theorem parentPtr_append (pp : NodePtr) (i : Nat) : parentPtr (pp ++ [i]) = some pp := by
  cases pp with
  | nil => rfl
  | cons a rest =>
    simp only [List.cons_append, parentPtr, List.dropLast_concat, Option.some.injEq]
    rw [← List.cons_append, List.dropLast_concat]

/-- The pointer `resolvePath` returns designates a node of the tree. -/
theorem resolvePathPtr_valid {t : FileSystemTree} {path : Str} {p : NodePtr}
    (h : resolvePathPtr t path = some p) : ∃ n, t.node p = some n := by
  cases hr : t.root with
  | none => simp [resolvePathPtr, hr] at h
  | some root =>
    have hne : path ≠ [] := by
      intro e
      rw [e] at h
      simp [resolvePathPtr, hr] at h
    rw [resolvePathPtr_eq t root hr path hne] at h
    obtain ⟨n, hn⟩ := walkSegmentsPtr_valid _ root p h
    exact ⟨n, by simp only [FileSystemTree.node, hr, Option.some_bind, hn]⟩

/-- What a request `file_create` that answers `Created` has done in a state that satisfies the
invariant: the blocks of the first fit `s0` are marked, and a node with the entry built from the
request is the new last child of the node the parent path resolves to. -/
theorem create_facts {L : Layout} {now : Nat} {s s1 : ServerState} {req : Request}
    (hinv : ServerInv s) (hop : req.operation = "file_create".toList)
    (hlen : req.data.length < 8192)
    (hc : processRequest L now s req = some (respCreated req.request_id, s1)) :
    ∃ (pp : NodePtr) (root parent : FSNode) (s0 : Nat),
      resolvePathPtr s.fileTree
        (parentPath (translatePath s.active_sessions req.path req.session_id)) = some pp ∧
      s.fileTree.root = some root ∧ nodeAt root pp = some parent ∧
      (∀ c ∈ parent.children, c.metadata.name ≠ storedName L.nameCap
        (fileName (translatePath s.active_sessions req.path req.session_id))) ∧
      FreeRun s.blockManager.bitmap s0 (req.data.length / 4096 + 1) ∧ 4 ≤ s0 ∧
      s0 + (req.data.length / 4096 + 1) ≤ 25600 ∧
      s1 = { s with
        blockManager := ofBitmap s.blockManager
          (setBits true (toInt32 s.blockManager.total_blocks) s.blockManager.bitmap s0
            (req.data.length / 4096 + 1))
        disk := createDisk L s req.data req.type parent
          (createEntry L s req.session_id
            (fileName (translatePath s.active_sessions req.path req.session_id))
            req.data req.type parent s0)
        fileTree :=
          { root := some (modifyAt (fun n => .mk n.metadata (n.children ++
              [FSNode.mk { createEntry L s req.session_id
                  (fileName (translatePath s.active_sessions req.path req.session_id))
                  req.data req.type parent s0 with
                inode := s.fileTree.next_inode_counter
                parent_inode := parent.metadata.inode } []])) pp root)
            next_inode_counter := (s.fileTree.next_inode_counter + 1) % 2 ^ 32 } } := by
  rw [processRequest_file_create L now s req hop] at hc
  by_cases hden : translatePath s.active_sessions req.path req.session_id = []
  · rw [if_pos hden, Option.some.injEq, Prod.mk.injEq] at hc
    exact absurd hc.1 (respDenied_ne_respCreated _ _)
  · rw [if_neg hden] at hc
    obtain ⟨pp, parent, sb, bm1, p, t1, hpp, hpar, hal, hsb, hadd, hs1⟩ := fileCreate_created hc
    obtain ⟨s0, c, hcount, _, hs0, hrun, h4, hle, hbm1⟩ :=
      alloc_result hinv.alloc (toInt32_le_max _) hal hsb
    have hc2 : c = req.data.length / 4096 + 1 := by
      rw [toInt32_small (by omega)] at hcount
      omega
    subst hc2
    have hsb2 : (sb % 2 ^ 32).toNat = s0 := by
      rw [hs0]
      omega
    rw [hsb2] at hadd hs1
    obtain ⟨root, pn, hr, hn, hfree, _, ht1⟩ := addChild_at hadd
    have hpn : pn = parent := by
      simp only [FileSystemTree.node, hr, Option.some_bind, hn, Option.some.injEq] at hpar
      exact hpar
    subst hpn
    refine ⟨pp, root, pn, s0, hpp, hr, hn, hfree, hrun, h4, hle, ?_⟩
    rw [hs1, hbm1, ht1]

/-- The slot `clearSlot` finds reads as zero bytes afterwards. -/
theorem clearSlot_zero {L : Layout} {s : ServerState} {p pp : NodePtr} {node parent : FSNode}
    {disk1 : Disk} {off : Nat} (hcl : clearSlot L s p node = some disk1)
    (hpp : parentPtr p = some pp) (hpar : s.fileTree.node pp = some parent)
    (hoff : findNamedSlot L s.disk (parent.metadata.start_block * s.header.block_size)
      node.metadata.name (maxEntries L s) 0 = some off) :
    disk1.read off L.sizeofFileEntry = List.replicate L.sizeofFileEntry NUL := by
  simp only [clearSlot, hpp, hpar, hoff, Option.some.injEq] at hcl
  rw [← hcl]
  have h := Disk.read_write_same s.disk off (List.replicate L.sizeofFileEntry NUL)
  rw [List.length_replicate] at h
  exact h

/-- `clearSlot` is defined for a node that has a parent in the tree, and for the root. -/
theorem clearSlot_some (L : Layout) (s : ServerState) (p : NodePtr) (node : FSNode)
    (h : ∀ pp, parentPtr p = some pp → ∃ parent, s.fileTree.node pp = some parent) :
    ∃ disk1, clearSlot L s p node = some disk1 := by
  unfold clearSlot
  cases hpp : parentPtr p with
  | none => exact ⟨_, rfl⟩
  | some pp =>
    obtain ⟨parent, hpar⟩ := h pp hpp
    simp only [hpar]
    split <;> exact ⟨_, rfl⟩

/-! ### `dir_delete` -/

/-- The node `resolvePath` returns, when it is not the root, is the first child of its parent
with its name. -/
theorem resolvePathPtr_last {t : FileSystemTree} {path : Str} {p : NodePtr}
    (h : resolvePathPtr t path = some p) (hp : p ≠ []) :
    ∃ pp i root parent child, p = pp ++ [i] ∧ t.root = some root ∧
      nodeAt root pp = some parent ∧ parent.children[i]? = some child ∧
      t.node p = some child ∧
      findChildIdx parent.children child.metadata.name = some i := by
  cases hr : t.root with
  | none => simp [resolvePathPtr, hr] at h
  | some root =>
    have hne : path ≠ [] := by
      intro e
      rw [e] at h
      simp [resolvePathPtr, hr] at h
    rw [resolvePathPtr_eq t root hr path hne] at h
    rcases walkSegmentsPtr_last _ root p h with h1 | ⟨pp, i, parent, child, h1, h2, h3, h4⟩
    · exact absurd h1 hp
    · refine ⟨pp, i, root, parent, child, h1, rfl, h2, h3, ?_, h4⟩
      simp only [FileSystemTree.node, hr, Option.some_bind, h1]
      rw [nodeAt_append, h2, Option.some_bind, nodeAt_cons, h3, Option.some_bind, nodeAt_nil]

theorem setBits_one (v : Bool) (lim : Int) (l : List Bool) (s : Nat) (h : (s : Int) < lim) :
    setBits v lim l s 1 = l.set s v := by
  simp only [setBits, if_pos h]

/-- `dir_delete` of a directory with a child: the error and the state as it was. -/
theorem dirDelete_not_empty (L : Layout) (s : ServerState) (r_path : Str) {p : NodePtr}
    {node : FSNode} (hres : resolvePathPtr s.fileTree r_path = some p)
    (hnode : s.fileTree.node p = some node)
    (hdir : node.metadata.type = EntryType.DIRECTORY) (hch : node.children ≠ []) :
    dirDelete L s r_path = some (respError "Directory not empty".toList, s) := by
  unfold dirDelete
  rw [hres]
  simp only [hnode, hdir, ne_eq, not_true_eq_false, if_false]
  have : node.children.isEmpty = false := by
    cases hc : node.children with
    | nil => exact absurd hc hch
    | cons a l => rfl
  rw [if_pos this]

/-- `dir_delete` of a directory without children that is not the root: the node is taken out of
the children of its parent, and its start block, when greater than 3, is marked free. -/
theorem dirDelete_child (L : Layout) (s : ServerState) (hinv : ServerInv s) (r_path : Str)
    {p : NodePtr} {node : FSNode} (hres : resolvePathPtr s.fileTree r_path = some p)
    (hnode : s.fileTree.node p = some node)
    (hdir : node.metadata.type = EntryType.DIRECTORY) (hch : node.children = [])
    (hp : p ≠ []) :
    ∃ s1 pp i parent, dirDelete L s r_path = some (respDeleted, s1) ∧
      p = pp ++ [i] ∧ s.fileTree.node pp = some parent ∧ parent.children[i]? = some node ∧
      s1.fileTree.node pp = some (.mk parent.metadata (parent.children.eraseIdx i)) ∧
      s1.fileTree.next_inode_counter = s.fileTree.next_inode_counter ∧
      (∀ q, ¬ pp <+: q →
        (s1.fileTree.node q).map (fun n => n.metadata)
          = (s.fileTree.node q).map (fun n => n.metadata)) ∧
      s1.blockManager = (if node.metadata.start_block > 3 then
          ofBitmap s.blockManager (s.blockManager.bitmap.set node.metadata.start_block false)
        else s.blockManager) ∧
      s1.active_sessions = s.active_sessions ∧ s1.userTree = s.userTree ∧
      s1.header = s.header := by
  obtain ⟨pp, i, root, parent, child, hpi, hr, hpar, hci, hchild, hidx⟩ :=
    resolvePathPtr_last hres hp
  rw [hnode, Option.some.injEq] at hchild
  subst hchild
  have hparent : s.fileTree.node pp = some parent := by
    simp only [FileSystemTree.node, hr, Option.some_bind, hpar]
  have hpp : parentPtr p = some pp := by rw [hpi, parentPtr_append]
  obtain ⟨disk1, hcl⟩ := clearSlot_some L s p node (fun q hq => by
    rw [hpp, Option.some.injEq] at hq
    subst hq
    exact ⟨parent, hparent⟩)
  have hlt := hinv.blocks node (node_mem_nodes hnode)
  have hlim : toInt32 s.blockManager.total_blocks = 25600 := by
    rw [hinv.alloc.2.1]
    exact toInt32_small (by decide)
  have hbm : (if node.metadata.start_block > 3 then
        freeBlocks s.blockManager (toInt32 node.metadata.start_block) 1
      else some s.blockManager)
      = some (if node.metadata.start_block > 3 then
          ofBitmap s.blockManager (s.blockManager.bitmap.set node.metadata.start_block false)
        else s.blockManager) := by
    by_cases h3 : node.metadata.start_block > 3
    · rw [if_pos h3, if_pos h3, toInt32_small (by omega)]
      have := freeBlocks_eq hinv.alloc.1 node.metadata.start_block 1 (by omega)
      rw [show ((1 : Nat) : Int) = 1 from rfl] at this
      rw [this, setBits_one _ _ _ _ (by rw [hlim]; omega)]
    · rw [if_neg h3, if_neg h3]
  have hrl : removeLoop node.metadata.name parent.children
      = (true, parent.children.eraseIdx i) := by
    rcases removeLoop_spec node.metadata.name parent.children with ⟨h1, _⟩ |
      ⟨j, c, h1, h2, _, h4⟩
    · rw [hidx] at h1
      cases h1
    · rw [hidx, Option.some.injEq] at h1
      subst h1
      rw [hci, Option.some.injEq] at h2
      subst h2
      exact h4 (fun hd => by
        rw [hch] at hd
        exact absurd hd.2 (by decide))
  refine ⟨{ s with
      blockManager := (if node.metadata.start_block > 3 then
          ofBitmap s.blockManager (s.blockManager.bitmap.set node.metadata.start_block false)
        else s.blockManager)
      disk := disk1
      fileTree := { s.fileTree with root := s.fileTree.root.map (modifyAt
        (fun n => .mk n.metadata (removeLoop node.metadata.name n.children).2) pp) } },
    pp, i, parent, ?_, hpi, hparent, hci, ?_, rfl, ?_, rfl, rfl, rfl, rfl⟩
  · unfold dirDelete
    rw [hres]
    simp only [hnode, hdir, ne_eq, not_true_eq_false, if_false, hch, List.isEmpty_nil,
      Bool.true_eq_false, hbm, hcl, hpp, removeChild, hparent]
  · simp only [FileSystemTree.node, hr, Option.map_some', Option.some_bind]
    rw [nodeAt_modifyAt _ pp root parent hpar pp, if_pos (List.prefix_refl pp), hpar]
    simp only [List.drop_length, Option.map_some', modifyAt_nil, hrl]
  · intro q hq
    simp only [FileSystemTree.node, hr, Option.map_some', Option.some_bind]
    rw [nodeAt_modifyAt _ pp root parent hpar q]
    by_cases h1 : q <+: pp
    · rw [if_pos h1]
      cases nodeAt root q with
      | none => rfl
      | some n =>
        simp only [Option.map_some']
        exact congrArg some (modifyAt_metadata
          (fun n => FSNode.mk n.metadata (removeLoop node.metadata.name n.children).2)
          (fun _ => rfl) _ n)
    · rw [if_neg h1, if_neg hq]

/-- `dir_delete` of a root without children whose start block is not above 3: the answer is
`Deleted` and the state is as it was, the root included. -/
theorem dirDelete_root (L : Layout) (s : ServerState) (r_path : Str) {node : FSNode}
    (hres : resolvePathPtr s.fileTree r_path = some [])
    (hnode : s.fileTree.node [] = some node)
    (hdir : node.metadata.type = EntryType.DIRECTORY) (hch : node.children = [])
    (hblk : ¬ node.metadata.start_block > 3) :
    dirDelete L s r_path = some (respDeleted, s) := by
  unfold dirDelete
  rw [hres]
  simp only [hnode, hdir, ne_eq, not_true_eq_false, if_false, hch, List.isEmpty_nil,
    Bool.true_eq_false, if_neg hblk, clearSlot, parentPtr, removeChild]

/-- C16 (amended). In every reachable state of the server, on a path that resolves to a
directory: when the directory has a child, `dir_delete` answers `Directory not empty` and leaves
the state (tree, bitmap, volume bytes) as it is; when it has no child and is not the root,
`dir_delete` answers `Deleted`, the node is taken out of the children of its parent, every node
that is not below the parent keeps its entry, and the bitmap is the former one with the bit of the
start block cleared when that block is greater than 3. -/
theorem C16_dir_delete (L : Layout) (s : ServerState) (hreach : Reach L s) (now : Nat)
    (req : Request) (p : NodePtr) (node : FSNode)
    (hop : req.operation = "dir_delete".toList)
    (hres : resolvePathPtr s.fileTree
      (translatePath s.active_sessions req.path req.session_id) = some p)
    (hnode : s.fileTree.node p = some node)
    (hdir : node.metadata.type = EntryType.DIRECTORY) :
    (node.children ≠ [] →
      processRequest L now s req = some (respError "Directory not empty".toList, s)) ∧
    (node.children = [] → p ≠ [] →
      ∃ s1 pp i parent, processRequest L now s req = some (respDeleted, s1) ∧
        p = pp ++ [i] ∧ s.fileTree.node pp = some parent ∧ parent.children[i]? = some node ∧
        s1.fileTree.node pp = some (.mk parent.metadata (parent.children.eraseIdx i)) ∧
        (∀ q, ¬ pp <+: q →
          (s1.fileTree.node q).map (fun n => n.metadata)
            = (s.fileTree.node q).map (fun n => n.metadata)) ∧
        s1.blockManager.bitmap = (if node.metadata.start_block > 3 then
            s.blockManager.bitmap.set node.metadata.start_block false
          else s.blockManager.bitmap) ∧
        s1.blockManager.total_blocks = s.blockManager.total_blocks) := by
  have hne : translatePath s.active_sessions req.path req.session_id ≠ [] := by
    intro e
    rw [e] at hres
    cases hrt : s.fileTree.root with
    | none => simp [resolvePathPtr, hrt] at hres
    | some r => simp [resolvePathPtr, hrt] at hres
  rw [processRequest_dir_delete L now s req hop, if_neg hne]
  refine ⟨fun hch => dirDelete_not_empty L s _ hres hnode hdir hch, fun hch hp => ?_⟩
  obtain ⟨s1, pp, i, parent, h1, h2, h3, h4, h5, _, h6, h7, _⟩ :=
    dirDelete_child L s (Reach_inv hreach) _ hres hnode hdir hch hp
  refine ⟨s1, pp, i, parent, h1, h2, h3, h4, h5, h6, ?_, ?_⟩
  · rw [h7]
    split <;> rfl
  · rw [h7]
    split <;> rfl

/-- Witness of `C16_dir_delete`: on the formatted volume with `admin` logged in, `dir_delete` of
`/` (which has the child `home`) and of `/home` (which has no child). -/
theorem C16_dir_delete_witness :
    processRequest demoLayout 2 (adminState demoLayout 0 1)
        (adminRequest 1 "dir_delete".toList "/".toList [] [])
      = some (respError "Directory not empty".toList, adminState demoLayout 0 1) ∧
    ∃ s1 pp i parent, processRequest demoLayout 2 (adminState demoLayout 0 1)
        (adminRequest 1 "dir_delete".toList "/home".toList [] []) = some (respDeleted, s1) ∧
      [0] = pp ++ [i] ∧ (adminState demoLayout 0 1).fileTree.node pp = some parent ∧
      parent.children[i]? = some (.mk { homeDirEntry with inode := 1 } []) ∧
      s1.fileTree.node pp = some (.mk parent.metadata (parent.children.eraseIdx i)) ∧
      (∀ q, ¬ pp <+: q →
        (s1.fileTree.node q).map (fun n => n.metadata)
          = ((adminState demoLayout 0 1).fileTree.node q).map (fun n => n.metadata)) ∧
      s1.blockManager.bitmap
        = (if (FSNode.mk { homeDirEntry with inode := 1 } []).metadata.start_block > 3 then
            (adminState demoLayout 0 1).blockManager.bitmap.set
              (FSNode.mk { homeDirEntry with inode := 1 } []).metadata.start_block false
          else (adminState demoLayout 0 1).blockManager.bitmap) ∧
      s1.blockManager.total_blocks = (adminState demoLayout 0 1).blockManager.total_blocks :=
  ⟨(C16_dir_delete demoLayout (adminState demoLayout 0 1) (adminState_reach demoLayout 0 1) 2
      (adminRequest 1 "dir_delete".toList "/".toList [] []) []
      (.mk rootDirEntry [.mk { homeDirEntry with inode := 1 } []]) rfl
      (by rw [translatePath_adminRequest]; rfl) rfl rfl).1
      (fun h => List.cons_ne_nil _ _ h),
   (C16_dir_delete demoLayout (adminState demoLayout 0 1) (adminState_reach demoLayout 0 1) 2
      (adminRequest 1 "dir_delete".toList "/home".toList [] []) [0]
      (.mk { homeDirEntry with inode := 1 } []) rfl
      (by rw [translatePath_adminRequest]; rfl) rfl rfl).2 rfl (by simp)⟩

/-- C16, as stated, fails for the root: after `admin` has deleted `/home` on the formatted
volume, `/` resolves to a directory without children, `dir_delete` of `/` answers `Deleted`, and
the root is in the tree as before. -/
theorem C16_counterexample :
    ∃ s s1 node, Reach demoLayout s ∧
      resolvePathPtr s.fileTree
        (translatePath s.active_sessions "/".toList (adminSid 1)) = some [] ∧
      s.fileTree.node [] = some node ∧ node.metadata.type = EntryType.DIRECTORY ∧
      node.children = [] ∧
      processRequest demoLayout 3 s (adminRequest 1 "dir_delete".toList "/".toList [] [])
        = some (respDeleted, s1) ∧
      s1.fileTree.node [] = some node := by
  obtain ⟨s1, pp, i, parent, h1, h2, h3, h4, h5, _, _, _, hsess, _, _⟩ :=
    dirDelete_child demoLayout (adminState demoLayout 0 1)
      (Reach_inv (adminState_reach demoLayout 0 1)) "/home".toList
      (show resolvePathPtr (adminState demoLayout 0 1).fileTree "/home".toList = some [0]
        from rfl)
      (show (adminState demoLayout 0 1).fileTree.node [0]
        = some (.mk { homeDirEntry with inode := 1 } []) from rfl) rfl rfl (by simp)
  have hpp : pp = [] ∧ i = 0 := by
    cases pp with
    | nil =>
      simp only [List.nil_append, List.cons.injEq, and_true] at h2
      exact ⟨rfl, h2.symm⟩
    | cons a rest =>
      simp only [List.cons_append, List.cons.injEq] at h2
      exact absurd h2.2 (by simp)
  obtain ⟨rfl, rfl⟩ := hpp
  have hparent : parent = .mk rootDirEntry [.mk { homeDirEntry with inode := 1 } []] :=
    (Option.some.inj h3).symm
  subst hparent
  have hroot : s1.fileTree.node [] = some (.mk rootDirEntry []) := h5
  have hstep : processRequest demoLayout 2 (adminState demoLayout 0 1)
      (adminRequest 1 "dir_delete".toList "/home".toList [] []) = some (respDeleted, s1) := by
    rw [processRequest_dir_delete demoLayout 2 _ _ rfl, translatePath_adminRequest,
      if_neg (by decide)]
    exact h1
  have hreach : Reach demoLayout s1 :=
    Reach.step 2 _ _ (adminState_reach demoLayout 0 1) hstep
  have htr : translatePath s1.active_sessions "/".toList (adminSid 1) = "/".toList := by
    rw [hsess]
    exact translatePath_admin demoLayout 0 1 _
  have hres : resolvePathPtr s1.fileTree "/".toList = some [] := by
    cases hr : s1.fileTree.root with
    | none => simp [FileSystemTree.node, hr] at hroot
    | some r => simp [resolvePathPtr, hr]
  refine ⟨s1, s1, .mk rootDirEntry [], hreach, by rw [htr]; exact hres, hroot, rfl, rfl, ?_,
    hroot⟩
  rw [processRequest_dir_delete demoLayout 3 s1 _ rfl]
  have htr2 : translatePath s1.active_sessions
      (adminRequest 1 "dir_delete".toList "/".toList [] []).path
      (adminRequest 1 "dir_delete".toList "/".toList [] []).session_id = "/".toList := htr
  rw [htr2, if_neg (by decide)]
  exact dirDelete_root demoLayout s1 _ hres hroot rfl rfl (by decide)

/-! ### `user_create`, `user_login`, `user_delete` -/

theorem lookup_sessionStore (m : SessionTable) (k v : Str) :
    (sessionStore m k v).lookup k = some v := by
  simp [sessionStore, List.lookup]

/-- Home provisioning leaves the user index and the session table as they are. -/
theorem provisionHome_frame {L : Layout} {s s1 : ServerState} {u : Str}
    (he : provisionHome L s u = some s1) :
    s1.userTree = s.userTree ∧ s1.active_sessions = s.active_sessions := by
  unfold provisionHome at he
  cases hres : resolvePathPtr s.fileTree "/home".toList with
  | none =>
    rw [hres] at he
    simp only [Option.some.injEq] at he
    rw [← he]
    exact ⟨rfl, rfl⟩
  | some hp =>
    rw [hres] at he
    simp only [] at he
    cases hnode : s.fileTree.node hp with
    | none => rw [hnode] at he; cases he
    | some homeNode =>
      rw [hnode] at he
      simp only [] at he
      cases hal : allocateBlocks s.blockManager 1 with
      | none => rw [hal] at he; cases he
      | some r =>
        obtain ⟨db, bm1⟩ := r
        rw [hal] at he
        simp only [] at he
        by_cases hdb : db = -1
        · rw [if_pos hdb] at he
          simp only [Option.some.injEq] at he
          rw [← he]
          exact ⟨rfl, rfl⟩
        · rw [if_neg hdb] at he
          cases hadd : addChild s.fileTree (some hp)
              { name := storedName L.nameCap u, type := EntryType.DIRECTORY, size := 0,
                permissions := 0o700, owner := storedName L.ownerCap u, inode := 0, parent_inode := homeNode.metadata.inode,
                start_block := (db % 2 ^ 32).toNat } with
          | none => rw [hadd] at he; cases he
          | some r2 =>
            obtain ⟨r3, t1⟩ := r2
            rw [hadd] at he
            cases r3 with
            | none =>
              simp only [Option.some.injEq] at he
              rw [← he]
              exact ⟨rfl, rfl⟩
            | some p =>
              simp only [Option.some.injEq] at he
              rw [← he]
              exact ⟨rfl, rfl⟩

/-- What a `user_create` that answers with success has done to the user index: the name was not
in it, and the record of the request has been inserted. -/
theorem userCreate_created {L : Layout} {now : Nat} {s s1 : ServerState} {rid u p : Str}
    (he : userCreate L now s rid u p = some (respUserCreated rid, s1)) :
    s.userTree.search u = none ∧
    s.userTree.insert { username := storedName L.usernameCap u, password_hash := simpleHash p,
                        role := UserRole.NORMAL,
                        created_time := now, is_active := 1 } = some s1.userTree ∧
    s1.active_sessions = s.active_sessions := by
  unfold userCreate at he
  cases hsearch : s.userTree.search u with
  | some _ =>
    rw [hsearch] at he
    simp only [Option.some.injEq, Prod.mk.injEq] at he
    exact absurd he.1 (respUserExists_ne_respUserCreated _ _)
  | none =>
    rw [hsearch] at he
    simp only [] at he
    cases hslot : findUserSlot L s.disk s.header.block_size s.header.max_users 0 with
    | none =>
      rw [hslot] at he
      simp only [Option.some.injEq, Prod.mk.injEq] at he
      exact absurd he.1 (respTableFull_ne_respUserCreated _)
    | some off =>
      rw [hslot] at he
      simp only [] at he
      cases hins : s.userTree.insert
          (UserInfo.mk (storedName L.usernameCap u) (simpleHash p) UserRole.NORMAL now 1) with
      | none => rw [hins] at he; cases he
      | some ut1 =>
        rw [hins] at he
        simp only [Option.map_eq_some', Prod.mk.injEq, true_and] at he
        obtain ⟨s2, hprov, hs2⟩ := he
        subst hs2
        obtain ⟨h1, h2⟩ := provisionHome_frame hprov
        exact ⟨rfl, by rw [h1], h2⟩

/-- The record inserted under a name that was not in the index is the record found. -/
theorem search_insert {t t1 : UserAVLTree} {info : UserInfo} (hav : AVL t.root)
    (hs : SortedByName (inorderRec t.root)) (hnone : t.search info.username = none)
    (hins : t.insert info = some t1) : t1.search info.username = some info := by
  obtain ⟨r1, hr1, _, hin, _, _⟩ := insertRec_spec info t.root hav hs
  simp only [UserAVLTree.insert, hr1, Option.map_some', Option.some.injEq] at hins
  have hs1 : SortedByName (inorderRec r1) := by
    rw [hin]
    exact sorted_listInsert _ _ hs
  unfold UserAVLTree.search at hnone ⊢
  rw [← hins]
  show searchRec r1 info.username = some info
  rw [searchRec_eq_findName r1 hs1, hin, findName_listInsert info _ _ hs,
    ← searchRec_eq_findName t.root hs, hnone]
  simp

theorem userLogin_ok {now : Nat} {s : ServerState} {rid u p : Str} {user : UserInfo}
    (hs : s.userTree.search u = some user) (hh : user.password_hash = simpleHash p) :
    userLogin now s rid u p = some (respLoginOk rid (mintSid u now),
      { s with active_sessions := sessionStore s.active_sessions (mintSid u now) u }) := by
  simp only [userLogin, hs, hh, if_true, mintSid]

theorem userLogin_bad {now : Nat} {s : ServerState} {rid u p : Str} {user : UserInfo}
    (hs : s.userTree.search u = some user) (hh : user.password_hash ≠ simpleHash p) :
    userLogin now s rid u p = some (respInvalidCredentials rid, s) := by
  simp only [userLogin, hs, hh, if_false]

/-- `allocateBlocks` is defined on the states of the allocator of the server. -/
theorem alloc_defined {bm : BlockManager} (h : AllocInv bm) (count : Int)
    (hint : count ≤ INT_MAX) : ∃ r, allocateBlocks bm count = some r := by
  by_cases hc : count ≤ 0
  · exact ⟨(-1, bm), by simp only [allocateBlocks, if_pos hc]⟩
  · obtain ⟨c, rfl⟩ := Int.eq_ofNat_of_zero_le (show 0 ≤ count by omega)
    have hc1 : 1 ≤ c := by omega
    rcases allocateBlocks_spec bm h.1.len c hc1 with ⟨h1, _⟩ | ⟨s, hrun, hmin, _⟩
    · exact ⟨_, h1⟩
    · exact ⟨_, allocateBlocks_run h.1 hc1 hint hrun hmin⟩

/-- `addChild` is defined on a pointer that designates a node. -/
theorem addChild_defined {t : FileSystemTree} {pp : NodePtr} {parent : FSNode}
    (entry : FileEntry) (hpar : t.node pp = some parent) :
    ∃ r, addChild t (some pp) entry = some r := by
  simp only [addChild, hpar]
  split <;> exact ⟨_, rfl⟩

/-- Home provisioning is defined on a state whose allocator satisfies its invariant. -/
theorem provisionHome_defined (L : Layout) (s : ServerState) (u : Str)
    (hinv : AllocInv s.blockManager) : ∃ s1, provisionHome L s u = some s1 := by
  unfold provisionHome
  cases hres : resolvePathPtr s.fileTree "/home".toList with
  | none => exact ⟨_, rfl⟩
  | some hp =>
    obtain ⟨homeNode, hnode⟩ := resolvePathPtr_valid hres
    obtain ⟨r, hal⟩ := alloc_defined hinv 1 (by decide)
    obtain ⟨db, bm1⟩ := r
    simp only [hnode, hal]
    by_cases hdb : db = -1
    · rw [if_pos hdb]
      exact ⟨_, rfl⟩
    · rw [if_neg hdb]
      obtain ⟨r2, hadd⟩ := addChild_defined
        { name := storedName L.nameCap u, type := EntryType.DIRECTORY, size := 0,
          permissions := 0o700, owner := storedName L.ownerCap u, inode := 0, parent_inode := homeNode.metadata.inode,
          start_block := (db % 2 ^ 32).toNat } hnode
      obtain ⟨r3, t1⟩ := r2
      rw [hadd]
      cases r3 with
      | none => exact ⟨_, rfl⟩
      | some p => exact ⟨_, rfl⟩

/-- `user_create` answers with success for a name that is not in the index when the user table
has a free slot. -/
theorem userCreate_ok (L : Layout) (now : Nat) (s : ServerState) (rid u p : Str)
    (hinv : ServerInv s) (hnone : s.userTree.search u = none) {off : Nat}
    (hslot : findUserSlot L s.disk s.header.block_size s.header.max_users 0 = some off) :
    ∃ s1, userCreate L now s rid u p = some (respUserCreated rid, s1) := by
  obtain ⟨t1, ht1, _⟩ := insertRec_spec
    { username := storedName L.usernameCap u, password_hash := simpleHash p,
      role := UserRole.NORMAL,
      created_time := now, is_active := 1 } s.userTree.root hinv.avl hinv.sorted
  obtain ⟨s1, hs1⟩ := provisionHome_defined L
    { s with
      disk := s.disk.write off (L.userBytes
        { username := storedName L.usernameCap u, password_hash := simpleHash p,
          role := UserRole.NORMAL,
          created_time := now, is_active := 1 })
      userTree := { root := t1 } } u hinv.alloc
  refine ⟨s1, ?_⟩
  simp only [userCreate, hnone, hslot, UserAVLTree.insert, ht1, Option.map_some', hs1]

theorem demo_user_slot (now : Nat) :
    findUserSlot demoLayout (formatDisk demoLayout now) 4096 50 0 = some 4113 := by
  have h0 : (demoLayout.userOfBytes ((formatDisk demoLayout now).read 4096 17)).username
      = "admin".toList := rfl
  have h1 : (demoLayout.userOfBytes ((formatDisk demoLayout now).read 4096 17)).is_active
      = 1 := rfl
  have h2 : (demoLayout.userOfBytes ((formatDisk demoLayout now).read 4113 17)).username
      = [] := rfl
  show findUserSlot demoLayout (formatDisk demoLayout now) 4096 (48 + 1 + 1) 0 = some 4113
  simp only [findUserSlot, demoLayout, Nat.zero_mul, Nat.add_zero, Nat.one_mul, Nat.zero_add]
    at h0 h1 h2 ⊢
  simp only [h0, h1, h2, true_or, if_true]
  simp

/-- On the formatted volume of the layout of the examples `user_create` of `bob` answers with
success. -/
theorem bobCreate_ok (now now1 : Nat) (p : Str) :
    ∃ s1, processRequest demoLayout now1 (freshState demoLayout now)
        (accountRequest "user_create".toList "1".toList "bob".toList p)
      = some (respUserCreated "1".toList, s1) := by
  rw [processRequest_user_create demoLayout now1 _ _ rfl]
  exact userCreate_ok demoLayout now1 (freshState demoLayout now) _ _ p
    (freshState_inv demoLayout now) rfl
    (demo_user_slot now)

/-- C18 (amended). In every reachable state of the server, when `user_create` with a username
`u` that the username field of a user record holds whole (at most `usernameCap` characters, none
a zero byte) and the password `p` answers with success, a `user_login` with `u` and `p` that
follows at once answers with success and the session id `sess_u_<time>`, and the session table
maps this id to `u` afterwards. -/
theorem C18_login_after_create (L : Layout) (s s1 : ServerState) (hreach : Reach L s)
    (now1 now2 : Nat) (req1 req2 : Request)
    (hop1 : req1.operation = "user_create".toList) (hop2 : req2.operation = "user_login".toList)
    (hu : req2.username = req1.username) (hp : req2.password = req1.password)
    (hfit : FitsName L.usernameCap req1.username)
    (hc : processRequest L now1 s req1 = some (respUserCreated req1.request_id, s1)) :
    ∃ s2, processRequest L now2 s1 req2
        = some (respLoginOk req2.request_id (mintSid req1.username now2), s2) ∧
      s2.active_sessions.lookup (mintSid req1.username now2) = some req1.username := by
  have hinv := Reach_inv hreach
  rw [processRequest_user_create L now1 s req1 hop1] at hc
  obtain ⟨hnone, hins, _⟩ := userCreate_created hc
  rw [storedName_of_fits hfit] at hins
  have hfound := search_insert hinv.avl hinv.sorted hnone hins
  rw [processRequest_user_login L now2 s1 req2 hop2, hu, hp, userLogin_ok hfound rfl]
  exact ⟨_, rfl, lookup_sessionStore _ _ _⟩

/-- Witness of `C18_login_after_create`: on the formatted volume of the layout of the examples,
`bob` is created with the password `secret` and logs in. -/
theorem C18_login_after_create_witness :
    ∃ s1, processRequest demoLayout 1 (freshState demoLayout 0)
        (accountRequest "user_create".toList "1".toList "bob".toList "secret".toList)
        = some (respUserCreated "1".toList, s1) ∧
      ∃ s2, processRequest demoLayout 2 s1
          (accountRequest "user_login".toList "2".toList "bob".toList "secret".toList)
          = some (respLoginOk "2".toList (mintSid "bob".toList 2), s2) ∧
        s2.active_sessions.lookup (mintSid "bob".toList 2) = some "bob".toList := by
  obtain ⟨s1, h1⟩ := bobCreate_ok 0 1 "secret".toList
  exact ⟨s1, h1, C18_login_after_create demoLayout (freshState demoLayout 0) s1
    (freshState_reach demoLayout 0) 1 2
    (accountRequest "user_create".toList "1".toList "bob".toList "secret".toList)
    (accountRequest "user_login".toList "2".toList "bob".toList "secret".toList)
    rfl rfl rfl rfl ⟨by decide, by decide⟩ h1⟩

/-! ### The password hash of a record of the index -/

/-- The write `u->is_active = 0` changes no password hash of the index. -/
theorem hash_setInactiveRec (v u : Str) :
    ∀ t : UserNode, (searchRec (setInactiveRec t v) u).map (fun d => d.password_hash)
      = (searchRec t u).map (fun d => d.password_hash)
  | .null => rfl
  | .node d l r h => by
    by_cases h1 : d.username = v
    · simp only [setInactiveRec, h1, if_true, searchRec]
      by_cases h2 : v = u
      · simp only [h2, if_true, Option.map_some']
      · simp only [h2, if_false]
    · by_cases h2 : v < d.username
      · simp only [setInactiveRec, h1, h2, if_true, if_false, searchRec]
        by_cases h3 : d.username = u
        · simp only [h3, if_true]
        · simp only [h3, if_false]
          by_cases h4 : u < d.username
          · simp only [h4, if_true]
            exact hash_setInactiveRec v u l
          · simp only [h4, if_false]
      · simp only [setInactiveRec, h1, h2, if_false, searchRec]
        by_cases h3 : d.username = u
        · simp only [h3, if_true]
        · simp only [h3, if_false]
          by_cases h4 : u < d.username
          · simp only [h4, if_true]
          · simp only [h4, if_false]
            exact hash_setInactiveRec v u r

/-- An insertion keeps every record the index holds. -/
theorem search_insert_other {t t1 : UserAVLTree} {info found : UserInfo} {u : Str}
    (hav : AVL t.root) (hs : SortedByName (inorderRec t.root))
    (hfound : t.search u = some found) (hins : t.insert info = some t1) :
    t1.search u = some found := by
  obtain ⟨r1, hr1, _, hin, _, _⟩ := insertRec_spec info t.root hav hs
  simp only [UserAVLTree.insert, hr1, Option.map_some', Option.some.injEq] at hins
  have hs1 : SortedByName (inorderRec r1) := by
    rw [hin]
    exact sorted_listInsert _ _ hs
  unfold UserAVLTree.search at hfound ⊢
  rw [← hins]
  show searchRec r1 u = some found
  rw [searchRec_eq_findName r1 hs1, hin, findName_listInsert info _ _ hs,
    ← searchRec_eq_findName t.root hs, hfound]
  rfl

/-- What `user_create` does to the user index, whatever it answers. -/
theorem userCreate_users {L : Layout} {now : Nat} {s s1 : ServerState} {rid u p resp : Str}
    (he : userCreate L now s rid u p = some (resp, s1)) :
    s1.userTree = s.userTree ∨
    s.userTree.insert { username := storedName L.usernameCap u, password_hash := simpleHash p,
                        role := UserRole.NORMAL,
                        created_time := now, is_active := 1 } = some s1.userTree := by
  unfold userCreate at he
  cases hsearch : s.userTree.search u with
  | some _ =>
    rw [hsearch] at he
    simp only [Option.some.injEq, Prod.mk.injEq] at he
    rw [← he.2]
    exact Or.inl rfl
  | none =>
    rw [hsearch] at he
    simp only [] at he
    cases hslot : findUserSlot L s.disk s.header.block_size s.header.max_users 0 with
    | none =>
      rw [hslot] at he
      simp only [Option.some.injEq, Prod.mk.injEq] at he
      rw [← he.2]
      exact Or.inl rfl
    | some off =>
      rw [hslot] at he
      simp only [] at he
      cases hins : s.userTree.insert
          (UserInfo.mk (storedName L.usernameCap u) (simpleHash p) UserRole.NORMAL now 1) with
      | none => rw [hins] at he; cases he
      | some ut1 =>
        rw [hins] at he
        simp only [Option.map_eq_some', Prod.mk.injEq] at he
        obtain ⟨s2, hprov, _, hs2⟩ := he
        subst hs2
        obtain ⟨h1, _⟩ := provisionHome_frame hprov
        exact Or.inr (by rw [h1])

/-- What `user_delete` does to the user index, whatever it answers. -/
theorem userDelete_users {L : Layout} {s s1 : ServerState} {target resp : Str}
    (he : userDelete L s target = some (resp, s1)) :
    s1.userTree = s.userTree ∨
    (resp = respUserDeleted ∧
      s1.userTree = { root := setInactiveRec s.userTree.root target }) := by
  unfold userDelete at he
  split at he
  · simp only [Option.some.injEq, Prod.mk.injEq] at he
    rw [← he.2]
    exact Or.inl rfl
  · split at he
    · simp only [Option.some.injEq, Prod.mk.injEq] at he
      rw [← he.2]
      exact Or.inl rfl
    · simp only [Option.some.injEq, Prod.mk.injEq] at he
      rw [← he.2]
      exact Or.inr ⟨he.1.symm, rfl⟩

/-- A `user_delete` that answers with success has cleared the flag of the record in the index. -/
theorem userDelete_deleted {L : Layout} {s s1 : ServerState} {target : Str}
    (he : userDelete L s target = some (respUserDeleted, s1)) :
    s1.userTree = { root := setInactiveRec s.userTree.root target } := by
  unfold userDelete at he
  split at he
  · simp only [Option.some.injEq, Prod.mk.injEq] at he
    exact absurd he.1 (respInvalidTarget_ne_respUserDeleted)
  · split at he
    · simp only [Option.some.injEq, Prod.mk.injEq] at he
      exact absurd he.1 (respInvalidTarget_ne_respUserDeleted)
    · simp only [Option.some.injEq, Prod.mk.injEq] at he
      rw [← he.2]

/-- `user_delete` answers with success for a user of the index whose name is not `admin`. -/
theorem userDelete_ok (L : Layout) (s : ServerState) {target : Str} {u : UserInfo}
    (hs : s.userTree.search target = some u) (hn : u.username ≠ "admin".toList) :
    ∃ s1, userDelete L s target = some (respUserDeleted, s1) := by
  simp only [userDelete, hs, hn, if_false]
  exact ⟨_, rfl⟩

/-- The operation `file_create` leaves the user index as it is. -/
theorem fileCreate_users {L : Layout} {s s1 : ServerState}
    {rid sid r_path content type_str resp : Str}
    (he : fileCreate L s rid sid r_path content type_str = some (resp, s1)) :
    s1.userTree = s.userTree := by
  unfold fileCreate at he
  cases hpp : resolvePathPtr s.fileTree (parentPath r_path) with
  | none =>
    rw [hpp] at he
    simp only [Option.some.injEq, Prod.mk.injEq] at he
    rw [← he.2]
  | some pp =>
    rw [hpp] at he
    simp only [] at he
    cases hpar : s.fileTree.node pp with
    | none => rw [hpar] at he; cases he
    | some parent =>
      rw [hpar] at he
      simp only [] at he
      cases hal : allocateBlocks s.blockManager (toInt32 (content.length / 4096 + 1)) with
      | none => rw [hal] at he; cases he
      | some r =>
        obtain ⟨sb, bm1⟩ := r
        rw [hal] at he
        simp only [] at he
        by_cases hsb : sb = -1
        · rw [if_pos hsb] at he
          simp only [Option.some.injEq, Prod.mk.injEq] at he
          rw [← he.2]
        · rw [if_neg hsb] at he
          cases hadd : addChild s.fileTree (some pp)
              (createEntry L s sid (fileName r_path) content type_str parent (sb % 2 ^ 32).toNat) with
          | none => rw [hadd] at he; cases he
          | some r2 =>
            obtain ⟨r3, t1⟩ := r2
            rw [hadd] at he
            cases r3 with
            | none =>
              simp only [Option.some.injEq, Prod.mk.injEq] at he
              rw [← he.2]
            | some p =>
              simp only [Option.some.injEq, Prod.mk.injEq] at he
              rw [← he.2]

/-- A request that is neither `user_create` nor `user_delete` leaves the user index as it is. -/
theorem processRequest_users {L : Layout} {now : Nat} {s s1 : ServerState} {req : Request}
    {resp : Str} (h2 : req.operation ≠ "user_create".toList)
    (h3 : req.operation ≠ "user_delete".toList)
    (he : processRequest L now s req = some (resp, s1)) : s1.userTree = s.userTree := by
  by_cases h1 : req.operation = "user_login".toList
  · rw [processRequest_user_login L now s req h1] at he
    unfold userLogin at he
    split at he
    · split at he
      · simp only [Option.some.injEq, Prod.mk.injEq] at he
        rw [← he.2]
      · simp only [Option.some.injEq, Prod.mk.injEq] at he
        rw [← he.2]
    · simp only [Option.some.injEq, Prod.mk.injEq] at he
      rw [← he.2]
  by_cases h4 : req.operation = "file_read".toList
  · rw [processRequest_file_read L now s req h4] at he
    split at he
    · simp only [Option.some.injEq, Prod.mk.injEq] at he
      rw [← he.2]
    · rw [fileRead_state he]
  by_cases h5 : req.operation = "file_delete".toList
  · rw [processRequest_file_delete L now s req h5] at he
    split at he
    · simp only [Option.some.injEq, Prod.mk.injEq] at he
      rw [← he.2]
    · rcases fileDelete_done he with ⟨_, _, hs⟩ | ⟨_, _, _, _, _, _, _, _, _, _, _, _, hs⟩
      · rw [hs]
      · rw [hs]
  by_cases h6 : req.operation = "dir_delete".toList
  · rw [processRequest_dir_delete L now s req h6] at he
    split at he
    · simp only [Option.some.injEq, Prod.mk.injEq] at he
      rw [← he.2]
    · rcases dirDelete_done he with ⟨hs, _⟩ | ⟨_, _, _, _, _, _, _, _, _, _, _, _, _, _, hs⟩
      · rw [hs]
      · rw [hs]
  by_cases h7 : req.operation = "file_create".toList
  · rw [processRequest_file_create L now s req h7] at he
    split at he
    · simp only [Option.some.injEq, Prod.mk.injEq] at he
      rw [← he.2]
    · exact fileCreate_users he
  obtain ⟨r, hr⟩ := processRequest_other L now s req h1 h2 h3 h4 h5 h6 h7
  rw [hr] at he
  simp only [Option.some.injEq, Prod.mk.injEq] at he
  rw [← he.2]

/-- No request changes the password hash of a record of the index. -/
theorem processRequest_hash {L : Layout} {now : Nat} {s s1 : ServerState} {req : Request}
    {resp : Str} (hinv : ServerInv s) (he : processRequest L now s req = some (resp, s1))
    {u : Str} {info : UserInfo} (hs : s.userTree.search u = some info) :
    ∃ info1, s1.userTree.search u = some info1 ∧ info1.password_hash = info.password_hash := by
  by_cases h2 : req.operation = "user_create".toList
  · rw [processRequest_user_create L now s req h2] at he
    rcases userCreate_users he with h | h
    · rw [h]
      exact ⟨info, hs, rfl⟩
    · exact ⟨info, search_insert_other hinv.avl hinv.sorted hs h, rfl⟩
  by_cases h3 : req.operation = "user_delete".toList
  · rw [processRequest_user_delete L now s req h3] at he
    rcases userDelete_users he with h | ⟨_, h⟩
    · rw [h]
      exact ⟨info, hs, rfl⟩
    · have hh := hash_setInactiveRec req.username u s.userTree.root
      rw [h]
      unfold UserAVLTree.search at hs ⊢
      rw [hs] at hh
      cases hs1 : searchRec (setInactiveRec s.userTree.root req.username) u with
      | none => rw [hs1] at hh; cases hh
      | some info1 =>
        rw [hs1] at hh
        simp only [Option.map_some', Option.some.injEq] at hh
        exact ⟨info1, rfl, hh⟩
  rw [processRequest_users h2 h3 he]
  exact ⟨info, hs, rfl⟩

/-- The invariant of the server and the password hash of a record are kept along requests. -/
theorem Steps_hash {L : Layout} {s s1 : ServerState} (hsteps : Steps L s s1)
    (hinv : ServerInv s) {u : Str} {info : UserInfo} (hs : s.userTree.search u = some info) :
    ServerInv s1 ∧
    ∃ info1, s1.userTree.search u = some info1 ∧ info1.password_hash = info.password_hash := by
  induction hsteps with
  | refl => exact ⟨hinv, info, hs, rfl⟩
  | step now req resp _ he ih =>
    obtain ⟨hinv1, info1, hs1, hh1⟩ := ih hinv hs
    obtain ⟨info2, hs2, hh2⟩ := processRequest_hash hinv1 he hs1
    exact ⟨processRequest_inv hinv1 he, info2, hs2, hh2.trans hh1⟩

/-- An insertion into the index adds no name but the name of the record. -/
theorem search_insert_none {t t1 : UserAVLTree} {info : UserInfo} {u : Str}
    (hav : AVL t.root) (hs : SortedByName (inorderRec t.root))
    (hnone : t.search u = none) (hne : info.username ≠ u) (hins : t.insert info = some t1) :
    t1.search u = none := by
  obtain ⟨r1, hr1, _, hin, _, _⟩ := insertRec_spec info t.root hav hs
  simp only [UserAVLTree.insert, hr1, Option.map_some', Option.some.injEq] at hins
  have hs1 : SortedByName (inorderRec r1) := by
    rw [hin]
    exact sorted_listInsert _ _ hs
  unfold UserAVLTree.search at hnone ⊢
  rw [← hins]
  show searchRec r1 u = none
  rw [searchRec_eq_findName r1 hs1, hin, findName_listInsert info _ _ hs,
    ← searchRec_eq_findName t.root hs, hnone, if_neg hne]
  rfl

/-- No request adds to the index a name that the username field of a user record does not hold
whole. -/
theorem processRequest_unfit {L : Layout} {now : Nat} {s s1 : ServerState} {req : Request}
    {resp : Str} (hinv : ServerInv s) (he : processRequest L now s req = some (resp, s1))
    {u : Str} (hu : ¬ FitsName L.usernameCap u) (hs : s.userTree.search u = none) :
    s1.userTree.search u = none := by
  by_cases h2 : req.operation = "user_create".toList
  · rw [processRequest_user_create L now s req h2] at he
    rcases userCreate_users he with h | h
    · rw [h]
      exact hs
    · exact search_insert_none hinv.avl hinv.sorted hs
        (fun e => hu (e ▸ storedName_fits _ _)) h
  by_cases h3 : req.operation = "user_delete".toList
  · rw [processRequest_user_delete L now s req h3] at he
    rcases userDelete_users he with h | ⟨_, h⟩
    · rw [h]
      exact hs
    · have hh := hash_setInactiveRec req.username u s.userTree.root
      rw [h]
      unfold UserAVLTree.search at hs ⊢
      rw [hs] at hh
      cases hs1 : searchRec (setInactiveRec s.userTree.root req.username) u with
      | none => rfl
      | some info1 =>
        rw [hs1] at hh
        cases hh
  rw [processRequest_users h2 h3 he]
  exact hs

/-- The index of a reachable state holds no name that the username field of a user record does
not hold whole. -/
theorem Reach_unfit {L : Layout} {s : ServerState} (h : Reach L s) {u : Str}
    (hu : ¬ FitsName L.usernameCap u) : s.userTree.search u = none := by
  induction h with
  | format now hf =>
    rw [formatVolume_eq, Option.some.injEq] at hf
    subst hf
    have hne : "admin".toList ≠ u := by
      intro e
      apply hu
      rw [← e]
      exact ⟨L.admin_fits, by decide⟩
    show searchRec (.node (adminInfo now) .null .null 1) u = none
    have hne2 : (adminInfo now).username ≠ u := hne
    simp only [searchRec, hne2, if_false, ite_self]
  | step now req resp hprev he ih => exact processRequest_unfit (Reach_inv hprev) he hu ih

/-- A name that the username field does not hold whole stays out of the index along requests. -/
theorem Steps_unfit {L : Layout} {s s1 : ServerState} (hsteps : Steps L s s1)
    (hinv : ServerInv s) {u : Str} (hu : ¬ FitsName L.usernameCap u)
    (hs : s.userTree.search u = none) : ServerInv s1 ∧ s1.userTree.search u = none := by
  induction hsteps with
  | refl => exact ⟨hinv, hs⟩
  | step now req resp _ he ih =>
    obtain ⟨hinv1, hs1⟩ := ih hinv hs
    exact ⟨processRequest_inv hinv1 he, processRequest_unfit hinv1 he hu hs1⟩

/-- After a `user_create` of a username the field holds whole that answers with success, the
index holds the record of the request. -/
theorem created_record {L : Layout} {now : Nat} {s s1 : ServerState} {req : Request}
    (hinv : ServerInv s) (hop : req.operation = "user_create".toList)
    (hfit : FitsName L.usernameCap req.username)
    (hc : processRequest L now s req = some (respUserCreated req.request_id, s1)) :
    s1.userTree.search req.username
      = some { username := req.username, password_hash := simpleHash req.password,
               role := UserRole.NORMAL, created_time := now, is_active := 1 } ∧
    s1.active_sessions = s.active_sessions := by
  rw [processRequest_user_create L now s req hop] at hc
  obtain ⟨hnone, hins, hsess⟩ := userCreate_created hc
  rw [storedName_of_fits hfit] at hins
  exact ⟨search_insert hinv.avl hinv.sorted hnone hins, hsess⟩

/-- A `user_login` with a password whose hash is the hash stored for the user answers with
success and stores the session. -/
theorem login_same_hash (L : Layout) (now : Nat) (s : ServerState) (req : Request)
    {info : UserInfo} (hop : req.operation = "user_login".toList)
    (hs : s.userTree.search req.username = some info)
    (hh : info.password_hash = simpleHash req.password) :
    ∃ s1, processRequest L now s req
        = some (respLoginOk req.request_id (mintSid req.username now), s1) ∧
      s1.active_sessions.lookup (mintSid req.username now) = some req.username := by
  rw [processRequest_user_login L now s req hop, userLogin_ok hs hh]
  exact ⟨_, rfl, lookup_sessionStore _ _ _⟩

/-! ### Claim C19 -/

/-- Counterexample to C19 as stated: on the formatted volume of the layout of the examples, `bob`
is created with the password `secret`; the session table is empty; a `user_login` of `bob` with
the different password `wrong` answers with success and stores a session for `bob`. Both
passwords have the hash `password123`. -/
theorem C19_counterexample :
    ∃ s1 s2,
      processRequest demoLayout 1 (freshState demoLayout 0)
        (accountRequest "user_create".toList "1".toList "bob".toList "secret".toList)
        = some (respUserCreated "1".toList, s1) ∧
      "wrong".toList ≠ "secret".toList ∧
      s1.active_sessions = [] ∧
      processRequest demoLayout 2 s1
        (accountRequest "user_login".toList "2".toList "bob".toList "wrong".toList)
        = some (respLoginOk "2".toList (mintSid "bob".toList 2), s2) ∧
      s2.active_sessions.lookup (mintSid "bob".toList 2) = some "bob".toList := by
  obtain ⟨s1, h1⟩ := bobCreate_ok 0 1 "secret".toList
  obtain ⟨hrec, hsess⟩ := created_record (freshState_inv demoLayout 0) rfl
    ⟨by decide, by decide⟩ h1
  obtain ⟨s2, h2, h3⟩ := login_same_hash demoLayout 2 s1
    (accountRequest "user_login".toList "2".toList "bob".toList "wrong".toList) rfl hrec rfl
  exact ⟨s1, s2, h1, by decide, hsess, h2, h3⟩

/-- C19, amended. For a user `u` created by a `user_create` with the password `p` that answers
with success in a reachable state, in every state the server reaches afterwards a `user_login` of
`u` with a password `q` whose hash differs from the hash of `p` answers with the error
`Invalid credentials` and leaves the state, and with it the session table, as it is. -/
theorem C19_wrong_password (L : Layout) (s s1 s2 : ServerState) (hreach : Reach L s)
    (now1 now2 : Nat) (req1 req2 : Request)
    (hop1 : req1.operation = "user_create".toList) (hop2 : req2.operation = "user_login".toList)
    (hu : req2.username = req1.username)
    (hq : simpleHash req2.password ≠ simpleHash req1.password)
    (hc : processRequest L now1 s req1 = some (respUserCreated req1.request_id, s1))
    (hsteps : Steps L s1 s2) :
    processRequest L now2 s2 req2 = some (respInvalidCredentials req2.request_id, s2) := by
  have hinv := Reach_inv hreach
  by_cases hfit : FitsName L.usernameCap req1.username
  · obtain ⟨hrec, _⟩ := created_record hinv hop1 hfit hc
    obtain ⟨_, info1, hs1, hh1⟩ := Steps_hash hsteps (processRequest_inv hinv hc) hrec
    rw [processRequest_user_login L now2 s2 req2 hop2, hu]
    apply userLogin_bad hs1
    rw [hh1]
    exact fun h => hq h.symm
  · have h1 : s1.userTree.search req1.username = none :=
      Reach_unfit (Reach.step now1 req1 _ hreach hc) hfit
    obtain ⟨_, h2⟩ := Steps_unfit hsteps (processRequest_inv hinv hc) hfit h1
    rw [processRequest_user_login L now2 s2 req2 hop2, hu]
    simp only [userLogin, h2]

/-- Witness of `C19_wrong_password`: `bob` is created with the password `secret`, and a login
with `admin123`, whose hash differs, is refused. -/
theorem C19_wrong_password_witness :
    ∃ s1, processRequest demoLayout 1 (freshState demoLayout 0)
        (accountRequest "user_create".toList "1".toList "bob".toList "secret".toList)
        = some (respUserCreated "1".toList, s1) ∧
      simpleHash "admin123".toList ≠ simpleHash "secret".toList ∧
      processRequest demoLayout 2 s1
        (accountRequest "user_login".toList "2".toList "bob".toList "admin123".toList)
        = some (respInvalidCredentials "2".toList, s1) := by
  obtain ⟨s1, h1⟩ := bobCreate_ok 0 1 "secret".toList
  exact ⟨s1, h1, by decide, C19_wrong_password demoLayout (freshState demoLayout 0) s1 s1
    (freshState_reach demoLayout 0) 1 2
    (accountRequest "user_create".toList "1".toList "bob".toList "secret".toList)
    (accountRequest "user_login".toList "2".toList "bob".toList "admin123".toList)
    rfl rfl rfl (by decide) h1 (Steps.refl s1)⟩

/-! ### Claim C20 -/

/-- C20, the behaviour of the code. In every reachable state, after a `user_create` of `u` with
the password `p` that answers with success and a `user_delete` of `u` that answers with success,
the record of `u` in the index has the active flag 0, and yet a `user_login` of `u` with `p`
answers with success and stores a session for `u`: the login never reads the flag. -/
theorem C20_deleted_user_logs_in (L : Layout) (s s1 s2 : ServerState) (hreach : Reach L s)
    (now1 now2 now3 : Nat) (req1 req2 req3 : Request)
    (hop1 : req1.operation = "user_create".toList)
    (hop2 : req2.operation = "user_delete".toList)
    (hop3 : req3.operation = "user_login".toList)
    (hu2 : req2.username = req1.username) (hu3 : req3.username = req1.username)
    (hp : req3.password = req1.password)
    (hc : processRequest L now1 s req1 = some (respUserCreated req1.request_id, s1))
    (hd : processRequest L now2 s1 req2 = some (respUserDeleted, s2)) :
    (s2.userTree.search req1.username).map (fun d => d.is_active) = some 0 ∧
    ∃ s3, processRequest L now3 s2 req3
        = some (respLoginOk req3.request_id (mintSid req1.username now3), s3) ∧
      s3.active_sessions.lookup (mintSid req1.username now3) = some req1.username := by
  have hinv := Reach_inv hreach
  rw [processRequest_user_delete L now2 s1 req2 hop2, hu2] at hd
  have hfit : FitsName L.usernameCap req1.username := by
    by_contra hfit
    have h1 : s1.userTree.search req1.username = none :=
      Reach_unfit (Reach.step now1 req1 _ hreach hc) hfit
    simp only [userDelete, h1, Option.some.injEq, Prod.mk.injEq] at hd
    exact respInvalidTarget_ne_respUserDeleted hd.1
  obtain ⟨hrec, _⟩ := created_record hinv hop1 hfit hc
  have ht := userDelete_deleted hd
  have hs2 : s2.userTree.search req1.username
      = some { username := req1.username, password_hash := simpleHash req1.password,
               role := UserRole.NORMAL, created_time := now1, is_active := 0 } := by
    rw [ht]
    unfold UserAVLTree.search at hrec ⊢
    show searchRec (setInactiveRec s1.userTree.root req1.username) req1.username = _
    rw [searchRec_setInactiveRec, hrec]
    rfl
  refine ⟨by rw [hs2]; rfl, ?_⟩
  rw [← hu3] at hs2 ⊢
  exact login_same_hash L now3 s2 req3 hop3 hs2 (by rw [hp])

/-- Witness of `C20_deleted_user_logs_in`: on the formatted volume of the layout of the examples
`bob` is created with the password `secret`, deleted, and logs in. -/
theorem C20_deleted_user_logs_in_witness :
    ∃ s1 s2,
      processRequest demoLayout 1 (freshState demoLayout 0)
        (accountRequest "user_create".toList "1".toList "bob".toList "secret".toList)
        = some (respUserCreated "1".toList, s1) ∧
      processRequest demoLayout 2 s1
        (accountRequest "user_delete".toList "2".toList "bob".toList [])
        = some (respUserDeleted, s2) ∧
      (s2.userTree.search "bob".toList).map (fun d => d.is_active) = some 0 ∧
      ∃ s3, processRequest demoLayout 3 s2
          (accountRequest "user_login".toList "3".toList "bob".toList "secret".toList)
          = some (respLoginOk "3".toList (mintSid "bob".toList 3), s3) ∧
        s3.active_sessions.lookup (mintSid "bob".toList 3) = some "bob".toList := by
  obtain ⟨s1, h1⟩ := bobCreate_ok 0 1 "secret".toList
  obtain ⟨hrec, _⟩ := created_record (freshState_inv demoLayout 0) rfl
    ⟨by decide, by decide⟩ h1
  obtain ⟨s2, h2⟩ := userDelete_ok demoLayout s1 hrec (by decide)
  have h2p : processRequest demoLayout 2 s1
      (accountRequest "user_delete".toList "2".toList "bob".toList [])
      = some (respUserDeleted, s2) := by
    rw [processRequest_user_delete demoLayout 2 s1 _ rfl]
    exact h2
  exact ⟨s1, s2, h1, h2p, C20_deleted_user_logs_in demoLayout (freshState demoLayout 0) s1 s2
    (freshState_reach demoLayout 0) 1 2 3
    (accountRequest "user_create".toList "1".toList "bob".toList "secret".toList)
    (accountRequest "user_delete".toList "2".toList "bob".toList [])
    (accountRequest "user_login".toList "3".toList "bob".toList "secret".toList)
    rfl rfl rfl rfl rfl rfl h1 h2p⟩

/-! ### Claim C17: the directory blocks and the tree -/

theorem mem_slotNames {L : Layout} {s : ServerState} {n : FSNode} {name : Str} :
    name ∈ slotNames L s n ↔
      name ≠ [] ∧ ∃ k, k < maxEntries L s ∧
        (L.entryOfBytes (s.disk.read
          (n.metadata.start_block * s.header.block_size + k * L.sizeofFileEntry)
          L.sizeofFileEntry)).name = name := by
  simp only [slotNames, List.mem_filter, List.mem_map, List.mem_range, decide_eq_true_eq]
  exact and_comm

/-- The entry read from a slot of zero bytes has the empty name. -/
theorem zero_slot_name {L : Layout} (hL : L.Lawful) :
    (L.entryOfBytes (List.replicate L.sizeofFileEntry NUL)).name = [] := by
  rw [hL.name_first _ (List.length_replicate _ _)]
  obtain ⟨n, hn⟩ := Nat.exists_eq_succ_of_ne_zero (Nat.pos_iff_ne_zero.mp hL.entry_pos)
  rw [hn]
  rfl

theorem findNamedSlot_none (L : Layout) (d : Disk) (base : Nat) (name : Str) :
    ∀ (n k : Nat), findNamedSlot L d base name n k = none →
      ∀ i, k ≤ i → i < k + n →
        (L.entryOfBytes (d.read (base + i * L.sizeofFileEntry) L.sizeofFileEntry)).name ≠ name
  | 0, _, _, i, h1, h2 => by omega
  | n + 1, k, h, i, h1, h2 => by
    simp only [findNamedSlot] at h
    split at h
    · cases h
    · rename_i hne
      by_cases hik : i = k
      · rw [hik]
        exact hne
      · exact findNamedSlot_none L d base name n (k + 1) h i (by omega) (by omega)

theorem findNamedSlot_some (L : Layout) (d : Disk) (base : Nat) (name : Str) :
    ∀ (n k off : Nat), findNamedSlot L d base name n k = some off →
      ∃ i, k ≤ i ∧ i < k + n ∧ off = base + i * L.sizeofFileEntry ∧
        (L.entryOfBytes (d.read off L.sizeofFileEntry)).name = name
  | 0, _, _, h => by simp [findNamedSlot] at h
  | n + 1, k, off, h => by
    simp only [findNamedSlot] at h
    split at h
    · rename_i hname
      simp only [Option.some.injEq] at h
      subst h
      exact ⟨k, le_refl _, by omega, rfl, hname⟩
    · obtain ⟨i, h1, h2, h3, h4⟩ := findNamedSlot_some L d base name n (k + 1) off h
      exact ⟨i, by omega, by omega, h3, h4⟩

theorem getD_replicate_NUL (n j : Nat) : (List.replicate n NUL).getD j NUL = NUL := by
  rw [List.getD_eq_getElem?_getD, List.getElem?_replicate]
  split <;> rfl

/-- On the formatted volume every slot of the block of the root but the first holds zero
bytes. -/
theorem formatDisk_root_slot (L : Layout) (now k : Nat) (h1 : 1 ≤ k)
    (h2 : k * L.sizeofFileEntry + L.sizeofFileEntry ≤ 4096) :
    (formatDisk L now).read (8192 + k * L.sizeofFileEntry) L.sizeofFileEntry
      = List.replicate L.sizeofFileEntry NUL := by
  apply List.ext_getElem?
  intro i
  by_cases hi : i < L.sizeofFileEntry
  · rw [Disk.read_getElem? _ _ _ _ hi, List.getElem?_replicate, if_pos hi]
    have hk : L.sizeofFileEntry ≤ k * L.sizeofFileEntry := Nat.le_mul_of_pos_left _ h1
    have e1 : formatHeader.total_size - 1 = 104857599 := rfl
    have e2 : formatHeader.block_size * 3 = 12288 := rfl
    have e3 : formatHeader.block_size * 2 = 8192 := rfl
    unfold formatDisk
    simp only [e1, e2, e3]
    rw [Disk.write_apply, if_neg (by omega), Disk.write_apply, if_neg (by omega),
      Disk.write_apply, if_pos (by rw [List.length_replicate]; omega), getD_replicate_NUL]
  · rw [List.getElem?_eq_none (by rw [Disk.read_length]; omega),
      List.getElem?_eq_none (by rw [List.length_replicate]; omega)]

/-- The writes of `file_create` leave the bytes below the block of the file and the block of the
parent as they are. -/
theorem createDisk_frame (L : Layout) (s : ServerState) (content type_str : Str)
    (parent : FSNode) (nf : FileEntry) (o n : Nat)
    (h1 : o + n ≤ nf.start_block * s.header.block_size)
    (h2 : o + n ≤ parent.metadata.start_block * s.header.block_size) :
    (createDisk L s content type_str parent nf).read o n = s.disk.read o n := by
  unfold createDisk
  have hd1 : (if type_str ≠ "dir".toList then
        s.disk.write (nf.start_block * s.header.block_size) content
      else s.disk.write (nf.start_block * s.header.block_size) (List.replicate 4096 NUL)).read o n
      = s.disk.read o n := by
    split
    · exact Disk.read_write_disjoint _ _ _ _ _ (Or.inl h1)
    · exact Disk.read_write_disjoint _ _ _ _ _ (Or.inl h1)
  simp only []
  split
  · exact hd1
  · rename_i off hoff
    obtain ⟨i, _, _, hi, _⟩ := findFreeSlot_some L _ _ _ _ _ hoff
    rw [Disk.read_write_disjoint _ _ _ _ _ (Or.inl (by rw [hi]; omega))]
    exact hd1

/-- The state after `admin` has created the file `/home/f` on the formatted volume: the tree has
the new node below `home`, and the writes went to a block from 4 on and to the block of
`home`. -/
theorem adminCreate_state {L : Layout} {now now1 now2 : Nat} {s1 : ServerState}
    (hc : processRequest L now2 (adminState L now now1)
        (adminRequest now1 "file_create".toList "/home/f".toList "hello".toList "file".toList)
      = some (respCreated "1".toList, s1)) :
    ∃ (newNode : FSNode) (nf : FileEntry), 4 ≤ nf.start_block ∧
      s1.header = formatHeader ∧
      s1.active_sessions = (adminState L now now1).active_sessions ∧
      s1.disk = createDisk L (adminState L now now1) "hello".toList "file".toList
        (.mk { homeDirEntry with inode := 1 } []) nf ∧
      s1.fileTree.root
        = some (.mk rootDirEntry [.mk { homeDirEntry with inode := 1 } [newNode]]) := by
  have hinv := Reach_inv (adminState_reach L now now1)
  obtain ⟨pp, root, parent, s0, hpp, hr, hn, _, _, h4, _, hs1⟩ :=
    create_facts hinv rfl (show "hello".toList.length < 8192 by decide) hc
  rw [translatePath_adminRequest] at hpp hs1
  have hpar : parentPath "/home/f".toList = "/home".toList :=
    parentPath_append "/home".toList "f".toList (by decide)
  rw [hpar] at hpp
  have hpp0 : resolvePathPtr (adminState L now now1).fileTree "/home".toList = some [0] := rfl
  rw [hpp0, Option.some.injEq] at hpp
  subst hpp
  have hroot : root = .mk rootDirEntry [.mk { homeDirEntry with inode := 1 } []] :=
    (Option.some.inj hr).symm
  subst hroot
  have hparent : parent = .mk { homeDirEntry with inode := 1 } [] :=
    (Option.some.inj hn).symm
  subst hparent
  refine ⟨FSNode.mk
      { createEntry L (adminState L now now1) (adminSid now1) (fileName "/home/f".toList)
          "hello".toList "file".toList (.mk { homeDirEntry with inode := 1 } []) s0 with
        inode := 2
        parent_inode := 1 } [],
    createEntry L (adminState L now now1) (adminSid now1) (fileName "/home/f".toList)
      "hello".toList "file".toList (.mk { homeDirEntry with inode := 1 } []) s0,
    h4, ?_, ?_, ?_, ?_⟩
  · rw [hs1]
    rfl
  · rw [hs1]
  · rw [hs1]
    rfl
  · rw [hs1]
    show some (modifyAt _ [0] (FSNode.mk rootDirEntry [.mk { homeDirEntry with inode := 1 } []]))
      = _
    rw [modifyAt_cons _ 0 [] rootDirEntry _ (.mk { homeDirEntry with inode := 1 } []) rfl,
      modifyAt_nil]
    rfl

/-- A `file_delete` of `/home` by `admin` in a state whose tree has a node below `home`: the
answer is `Deleted`, the tree is as it was, and no slot of the block of the root holds the name
`home` afterwards. -/
theorem deleteHome_state (L : Layout) (hL : L.Lawful) (now now1 now3 : Nat) (s1 : ServerState)
    (newNode : FSNode)
    (hhead : s1.header = formatHeader)
    (hsess : s1.active_sessions = (adminState L now now1).active_sessions)
    (hdisk : ∀ k, 1 ≤ k → k < maxEntries L s1 →
      s1.disk.read (8192 + k * L.sizeofFileEntry) L.sizeofFileEntry
        = List.replicate L.sizeofFileEntry NUL)
    (htree : s1.fileTree.root
      = some (.mk rootDirEntry [.mk { homeDirEntry with inode := 1 } [newNode]])) :
    ∃ s2, processRequest L now3 s1 (adminRequest now1 "file_delete".toList "/home".toList [] [])
        = some (respDeleted, s2) ∧
      s2.fileTree.root
        = some (.mk rootDirEntry [.mk { homeDirEntry with inode := 1 } [newNode]]) ∧
      "home".toList ∉ slotNames L s2
        (.mk rootDirEntry [.mk { homeDirEntry with inode := 1 } [newNode]]) := by
  have hbs : s1.header.block_size = 4096 := by rw [hhead]; rfl
  have htr : translatePath s1.active_sessions
      (adminRequest now1 "file_delete".toList "/home".toList [] []).path
      (adminRequest now1 "file_delete".toList "/home".toList [] []).session_id
      = "/home".toList := by
    rw [hsess]
    exact translatePath_admin L now now1 _
  have hres : resolvePathPtr s1.fileTree "/home".toList = some [0] := by
    unfold resolvePathPtr
    rw [htree]
    rfl
  have hnode : s1.fileTree.node [0]
      = some (.mk { homeDirEntry with inode := 1 } [newNode]) := by
    unfold FileSystemTree.node
    rw [htree]
    rfl
  have hrootn : s1.fileTree.node []
      = some (.mk rootDirEntry [.mk { homeDirEntry with inode := 1 } [newNode]]) := by
    unfold FileSystemTree.node
    rw [htree]
    rfl
  have hrm : removeChild s1.fileTree (parentPtr [0])
      (FSNode.mk { homeDirEntry with inode := 1 } [newNode]).metadata.name
      = some (false, s1.fileTree) := by
    show removeChild s1.fileTree (some []) "home".toList = _
    have hft : s1.fileTree
        = { root := some (.mk rootDirEntry [.mk { homeDirEntry with inode := 1 } [newNode]])
            next_inode_counter := s1.fileTree.next_inode_counter } := by
      rw [← htree]
    unfold removeChild
    simp only [hrootn, htree, Option.map_some', modifyAt_nil]
    conv_rhs => rw [hft]
    rfl
  obtain ⟨disk1, hcl⟩ := clearSlot_some L s1 [0]
    (.mk { homeDirEntry with inode := 1 } [newNode]) (fun pp hpp => by
      have : pp = [] := (Option.some.inj hpp).symm
      subst this
      exact ⟨_, hrootn⟩)
  have hslots : ∀ k, k < maxEntries L s1 →
      (L.entryOfBytes (disk1.read (8192 + k * L.sizeofFileEntry) L.sizeofFileEntry)).name
        ≠ "home".toList := by
    have hz : ([] : Str) ≠ "home".toList := by decide
    have hcl2 := hcl
    unfold clearSlot at hcl2
    simp only [show parentPtr [0] = some [] from rfl, hrootn] at hcl2
    have hpo : (FSNode.mk rootDirEntry
        [FSNode.mk { homeDirEntry with inode := 1 } [newNode]]).metadata.start_block
        * s1.header.block_size = 8192 := by
      rw [hbs, show (FSNode.mk rootDirEntry
        [FSNode.mk { homeDirEntry with inode := 1 } [newNode]]).metadata.start_block = 2
        from rfl]
    rw [hpo] at hcl2
    have hnm : (FSNode.mk { homeDirEntry with inode := 1 } [newNode]).metadata.name
        = "home".toList := rfl
    rw [hnm] at hcl2
    cases hfind : findNamedSlot L s1.disk 8192 "home".toList (maxEntries L s1) 0 with
    | none =>
      rw [hfind] at hcl2
      simp only [Option.some.injEq] at hcl2
      rw [← hcl2]
      intro k hk
      exact findNamedSlot_none L s1.disk 8192 _ _ _ hfind k (Nat.zero_le _) (by omega)
    | some off =>
      rw [hfind] at hcl2
      simp only [Option.some.injEq] at hcl2
      obtain ⟨i, _, hi, hoff, hname⟩ := findNamedSlot_some L s1.disk 8192 _ _ _ _ hfind
      have hi0 : i = 0 := by
        by_contra hne
        rw [hoff, hdisk i (by omega) (by omega), zero_slot_name hL] at hname
        exact hz hname
      subst hi0
      simp only [Nat.zero_mul, Nat.add_zero] at hoff
      subst hoff
      rw [← hcl2]
      intro k hk
      by_cases hk0 : k = 0
      · subst hk0
        simp only [Nat.zero_mul, Nat.add_zero]
        have h := Disk.read_write_same s1.disk 8192 (List.replicate L.sizeofFileEntry NUL)
        rw [List.length_replicate] at h
        rw [h, zero_slot_name hL]
        exact hz
      · have hle : L.sizeofFileEntry ≤ k * L.sizeofFileEntry :=
          Nat.le_mul_of_pos_left _ (by omega)
        rw [Disk.read_write_disjoint _ _ _ _ _
          (Or.inr (by rw [List.length_replicate]; omega)),
          hdisk k (by omega) hk, zero_slot_name hL]
        exact hz
  refine ⟨{ s1 with blockManager := s1.blockManager, disk := disk1, fileTree := s1.fileTree },
    ?_, htree, ?_⟩
  · rw [processRequest_file_delete L now3 s1 _ rfl, htr, if_neg (by decide)]
    unfold fileDelete
    simp only [hres, hnode, hcl, hrm]
    rfl
  · rw [mem_slotNames]
    rintro ⟨_, k, hk, hname⟩
    have hpo : (FSNode.mk rootDirEntry
        [FSNode.mk { homeDirEntry with inode := 1 } [newNode]]).metadata.start_block
        * s1.header.block_size = 8192 := by
      rw [hbs, show (FSNode.mk rootDirEntry
        [FSNode.mk { homeDirEntry with inode := 1 } [newNode]]).metadata.start_block = 2
        from rfl]
    exact hslots k hk (by rw [← hpo]; exact hname)

/-- C17, the behaviour of the code. For every lawful layout: on the formatted volume with `admin`
logged in, `file_create` of the file `/home/f` answers `Created`, and the `file_delete` of the
directory `/home` that follows answers `Deleted`; the state reached does not satisfy tree/disk
agreement: the root of the tree still has the child `home`, and no occupied slot of the block of
the root holds the name `home`. -/
theorem C17_delete_nonempty_directory (L : Layout) (hL : L.Lawful) (now now1 now2 now3 : Nat) :
    ∃ s1 s2 root,
      processRequest L now2 (adminState L now now1)
        (adminRequest now1 "file_create".toList "/home/f".toList "hello".toList "file".toList)
        = some (respCreated "1".toList, s1) ∧
      processRequest L now3 s1 (adminRequest now1 "file_delete".toList "/home".toList [] [])
        = some (respDeleted, s2) ∧
      Reach L s2 ∧
      s2.fileTree.root = some root ∧ root.metadata.type = EntryType.DIRECTORY ∧
      "home".toList ∈ root.children.map (fun c => c.metadata.name) ∧
      "home".toList ∉ slotNames L s2 root ∧
      ¬ TreeDiskAgree L s2 := by
  obtain ⟨s1, hc⟩ := adminCreate_ok L now now1 now2 "f".toList "hello".toList "file".toList
    (by decide) (by decide)
  have hc1 : processRequest L now2 (adminState L now now1)
      (adminRequest now1 "file_create".toList "/home/f".toList "hello".toList "file".toList)
      = some (respCreated "1".toList, s1) := hc
  obtain ⟨newNode, nf, h4, hhead, hsess, hdisk, htree⟩ := adminCreate_state hc1
  have hbs : s1.header.block_size = 4096 := by rw [hhead]; rfl
  have hslots : ∀ k, 1 ≤ k → k < maxEntries L s1 →
      s1.disk.read (8192 + k * L.sizeofFileEntry) L.sizeofFileEntry
        = List.replicate L.sizeofFileEntry NUL := by
    intro k hk1 hk
    have hin := slot_in_block L s1 k hk
    rw [hbs] at hin
    rw [hdisk, createDisk_frame L _ _ _ _ _ _ _
      (by
        show _ ≤ nf.start_block * 4096
        omega)
      (by
        show _ ≤ 3 * 4096
        omega)]
    exact formatDisk_root_slot L now k hk1 hin
  obtain ⟨s2, hd, htree2, hnot⟩ := deleteHome_state L hL now now1 now3 s1 newNode hhead hsess
    hslots htree
  have hreach : Reach L s2 :=
    Reach.step now3 _ _ (Reach.step now2 _ _ (adminState_reach L now now1) hc1) hd
  have hmem : "home".toList ∈ (FSNode.mk rootDirEntry
      [FSNode.mk { homeDirEntry with inode := 1 } [newNode]]).children.map
        (fun c => c.metadata.name) := by
    simp only [children_mk, List.map_cons, List.map_nil, metadata_mk, List.mem_singleton]
    rfl
  refine ⟨s1, s2, _, hc1, hd, hreach, htree2, rfl, hmem, hnot, ?_⟩
  intro hagree
  have hroot : FSNode.mk rootDirEntry [FSNode.mk { homeDirEntry with inode := 1 } [newNode]]
      ∈ s2.fileTree.nodes :=
    node_mem_nodes (p := [])
      (show s2.fileTree.node [] = _ by
        unfold FileSystemTree.node
        rw [htree2]
        rfl)
  exact hnot ((hagree _ hroot rfl).2 _ hmem)

/-- Witness of `C17_delete_nonempty_directory` on the layout of the examples. -/
theorem C17_delete_nonempty_directory_witness :
    demoLayout.Lawful ∧
    ∃ s1 s2 root,
      processRequest demoLayout 2 (adminState demoLayout 0 1)
        (adminRequest 1 "file_create".toList "/home/f".toList "hello".toList "file".toList)
        = some (respCreated "1".toList, s1) ∧
      processRequest demoLayout 3 s1
        (adminRequest 1 "file_delete".toList "/home".toList [] [])
        = some (respDeleted, s2) ∧
      Reach demoLayout s2 ∧
      s2.fileTree.root = some root ∧ root.metadata.type = EntryType.DIRECTORY ∧
      "home".toList ∈ root.children.map (fun c => c.metadata.name) ∧
      "home".toList ∉ slotNames demoLayout s2 root ∧
      ¬ TreeDiskAgree demoLayout s2 :=
  ⟨demoLayout_lawful, C17_delete_nonempty_directory demoLayout demoLayout_lawful 0 1 2 3⟩

/-! ### Dispatch of `get_stats` and `dir_list` -/

theorem processRequest_get_stats (L : Layout) (now : Nat) (s : ServerState) (req : Request)
    (h : req.operation = "get_stats".toList) :
    processRequest L now s req = some (getStats s, s) := by
  simp only [processRequest, h,
    show ¬ ("get_stats".toList = "user_login".toList) from by decide,
    show ¬ ("get_stats".toList = "user_create".toList) from by decide,
    show ¬ ("get_stats".toList = "user_list".toList) from by decide,
    show ¬ ("get_stats".toList = "user_delete".toList) from by decide,
    if_false, if_true]

theorem processRequest_dir_list (L : Layout) (now : Nat) (s : ServerState) (req : Request)
    (h : req.operation = "dir_list".toList) :
    processRequest L now s req =
      if translatePath s.active_sessions req.path req.session_id = [] then
        some (respDenied req.request_id, s)
      else some (dirList s req.request_id
        (translatePath s.active_sessions req.path req.session_id), s) := by
  simp only [processRequest, h,
    show ¬ ("dir_list".toList = "user_login".toList) from by decide,
    show ¬ ("dir_list".toList = "user_create".toList) from by decide,
    show ¬ ("dir_list".toList = "user_list".toList) from by decide,
    show ¬ ("dir_list".toList = "user_delete".toList) from by decide,
    show ¬ ("dir_list".toList = "get_stats".toList) from by decide,
    if_false, if_true]

/-! ### Claim C25: the statistics of the fresh volume -/

theorem countEntries_fresh :
    countEntries (.mk rootDirEntry [.mk { homeDirEntry with inode := 1 } []]) (0, 0) = (0, 1) := by
  simp [countEntries, countEntriesL, rootDirEntry, homeDirEntry]

theorem getStats_fresh (L : Layout) (now : Nat) :
    getStats (freshState L now)
      = respStats "104857600".toList "16384".toList "104841216".toList "0".toList
          "1".toList := by
  have hfree : getFreeBlocksCount (freshState L now).blockManager = 25596 := by
    show (25600 + 2 ^ 32 - 4) % 2 ^ 32 = 25596
    norm_num
  have htot : getTotalBlocks (freshState L now).blockManager = 25600 := rfl
  have hbs : (freshState L now).header.block_size = 4096 := rfl
  have hts : (freshState L now).header.total_size = 104857600 := rfl
  have hroot : (freshState L now).fileTree.root
      = some (.mk rootDirEntry [.mk { homeDirEntry with inode := 1 } []]) := rfl
  have e1 : 25596 * 4096 % 2 ^ 64 = 104841216 := by norm_num
  have e2 : (25600 + 2 ^ 32 - 25596) % 2 ^ 32 * 4096 % 2 ^ 64 = 16384 := by norm_num
  unfold getStats
  simp only [hfree, htot, hbs, hts, hroot, countEntries_fresh, e1, e2]
  rfl

/-- C25. The state `init` leaves when it formats a new volume is defined, and in it `get_stats`
reports `total_size` 104857600, `used_space` 16384, `free_space` 104857600 - 16384 = 104841216,
`total_files` 0 and `total_directories` 1, and leaves the state as it is. -/
theorem C25_fresh_stats (L : Layout) (now0 now : Nat) (s : ServerState) (req : Request)
    (hfmt : formatVolume L now0 = some s) (hop : req.operation = "get_stats".toList) :
    processRequest L now s req
      = some (respStats "104857600".toList "16384".toList "104841216".toList "0".toList
          "1".toList, s) ∧
    104857600 - 16384 = 104841216 := by
  rw [formatVolume_eq, Option.some.injEq] at hfmt
  subst hfmt
  rw [processRequest_get_stats L now _ req hop, getStats_fresh]
  exact ⟨rfl, rfl⟩

/-- Witness of `C25_fresh_stats`: the volume formatted at the time 0 on the layout of the
examples, and a `get_stats` request at the time 1. -/
theorem C25_fresh_stats_witness :
    formatVolume demoLayout 0 = some (freshState demoLayout 0) ∧
    processRequest demoLayout 1 (freshState demoLayout 0)
        (accountRequest "get_stats".toList "1".toList [] [])
      = some (respStats "104857600".toList "16384".toList "104841216".toList "0".toList
          "1".toList, freshState demoLayout 0) ∧
    104857600 - 16384 = 104841216 :=
  ⟨formatVolume_eq demoLayout 0,
    C25_fresh_stats demoLayout 0 1 (freshState demoLayout 0)
      (accountRequest "get_stats".toList "1".toList [] []) (formatVolume_eq demoLayout 0) rfl⟩

/-! ### Claim C29: session ids -/

theorem digitsValue_append (l : List Char) (c : Char) :
    digitsValue (l ++ [c]) = digitsValue l * 10 + (c.toNat - 48) := by
  simp [digitsValue, List.foldl_append]

theorem digitChar_value (k : Nat) (h : k < 10) :
    (Nat.digitChar k).toNat - 48 = k ∧ Nat.digitChar k ≠ '_' := by
  interval_cases k <;> exact ⟨by decide, by decide⟩

/-- The digits `toDigitsCore` puts before its accumulator: their value is the number, and none
is an underscore. -/
theorem toDigitsCore_spec :
    ∀ (fuel n : Nat), n < fuel →
      ∃ D : List Char, (∀ ds, Nat.toDigitsCore 10 fuel n ds = D ++ ds) ∧
        digitsValue D = n ∧ '_' ∉ D
  | 0, n, h => by omega
  | fuel + 1, n, h => by
    obtain ⟨hv, hne⟩ := digitChar_value (n % 10) (Nat.mod_lt _ (by decide))
    by_cases h0 : n / 10 = 0
    · refine ⟨[Nat.digitChar (n % 10)], ?_, ?_, ?_⟩
      · intro ds
        simp only [Nat.toDigitsCore, h0, if_true, List.singleton_append]
      · have := digitsValue_append [] (Nat.digitChar (n % 10))
        simp only [List.nil_append] at this
        rw [this, hv]
        show 0 * 10 + n % 10 = n
        omega
      · simp only [List.mem_singleton]
        exact fun h => hne h.symm
    · obtain ⟨D, hD, hval, hnot⟩ := toDigitsCore_spec fuel (n / 10) (by omega)
      refine ⟨D ++ [Nat.digitChar (n % 10)], ?_, ?_, ?_⟩
      · intro ds
        simp only [Nat.toDigitsCore, h0, if_false, hD, List.append_assoc, List.singleton_append]
      · rw [digitsValue_append, hval, hv]
        omega
      · simp only [List.mem_append, List.mem_singleton, not_or]
        exact ⟨hnot, fun h => hne h.symm⟩

theorem to_string_spec (n : Nat) : digitsValue (to_string n) = n ∧ '_' ∉ to_string n := by
  obtain ⟨D, hD, hval, hnot⟩ := toDigitsCore_spec (n + 1) n (Nat.lt_succ_self n)
  have h : to_string n = D := by
    show Nat.toDigitsCore 10 (n + 1) n [] = D
    rw [hD, List.append_nil]
  rw [h]
  exact ⟨hval, hnot⟩

/-- Two strings cut at their last underscore agree in both parts. -/
theorem split_last_underscore {l1 l2 r1 r2 : List Char} (h1 : '_' ∉ r1) (h2 : '_' ∉ r2)
    (h : l1 ++ '_' :: r1 = l2 ++ '_' :: r2) : l1 = l2 ∧ r1 = r2 := by
  rcases List.append_eq_append_iff.mp h with ⟨a, ha, hb⟩ | ⟨a, ha, hb⟩
  · cases a with
    | nil =>
      simp only [List.append_nil, List.nil_append, List.cons.injEq, true_and] at ha hb
      exact ⟨ha.symm, hb⟩
    | cons c a1 =>
      simp only [List.cons_append, List.cons.injEq] at hb
      exact absurd (hb.2 ▸ List.mem_append_right a1 (List.mem_cons_self _ _)) h1
  · cases a with
    | nil =>
      simp only [List.append_nil, List.nil_append, List.cons.injEq, true_and] at ha hb
      exact ⟨ha, hb.symm⟩
    | cons c a1 =>
      simp only [List.cons_append, List.cons.injEq] at hb
      exact absurd (hb.2 ▸ List.mem_append_right a1 (List.mem_cons_self _ _)) h2

/-- The session id determines the username and the clock value it was minted from. -/
theorem mintSid_inj {u1 u2 : Str} {n1 n2 : Nat} (h : mintSid u1 n1 = mintSid u2 n2) :
    u1 = u2 ∧ n1 = n2 := by
  unfold mintSid at h
  have h1 : u1 ++ '_' :: to_string n1 = u2 ++ '_' :: to_string n2 := by
    have e : ∀ (u : Str) (n : Nat), "sess_".toList ++ u ++ "_".toList ++ to_string n
        = "sess_".toList ++ (u ++ '_' :: to_string n) := by
      intro u n
      simp [List.append_assoc]
    rw [e, e] at h
    exact List.append_cancel_left h
  obtain ⟨hu, hn⟩ := split_last_underscore (to_string_spec n1).2 (to_string_spec n2).2 h1
  refine ⟨hu, ?_⟩
  rw [← (to_string_spec n1).1, ← (to_string_spec n2).1, hn]

theorem respLoginOk_inj {rid a b : Str} (h : respLoginOk rid a = respLoginOk rid b) : a = b := by
  unfold respLoginOk at h
  simp only [List.append_assoc] at h
  exact List.append_cancel_right (List.append_cancel_left (List.append_cancel_left
    (List.append_cancel_left h)))

/-- A `user_login` that is answered with success is answered with the id minted from its
username and the clock value. -/
theorem login_sid {L : Layout} {now : Nat} {s s1 : ServerState} {req : Request} {sid : Str}
    (hop : req.operation = "user_login".toList)
    (h : processRequest L now s req = some (respLoginOk req.request_id sid, s1)) :
    sid = mintSid req.username now := by
  rw [processRequest_user_login L now s req hop] at h
  unfold userLogin at h
  split at h
  · split at h
    · simp only [Option.some.injEq, Prod.mk.injEq] at h
      exact (respLoginOk_inj h.1).symm
    · simp only [Option.some.injEq, Prod.mk.injEq] at h
      exact absurd h.1 (respInvalidCredentials_ne_respLoginOk _ _ _)
  · simp only [Option.some.injEq, Prod.mk.injEq] at h
    exact absurd h.1 (respInvalidCredentials_ne_respLoginOk _ _ _)

/-- Counterexample to C29 as stated: on the formatted volume `admin` logs in twice while the
clock reads 1; the two requests differ (request ids 1 and 2), both are answered with success,
and both with the same session id. -/
theorem C29_counterexample :
    accountRequest "user_login".toList "1".toList "admin".toList "admin123".toList
      ≠ accountRequest "user_login".toList "2".toList "admin".toList "admin123".toList ∧
    processRequest demoLayout 1 (freshState demoLayout 0)
      (accountRequest "user_login".toList "1".toList "admin".toList "admin123".toList)
      = some (respLoginOk "1".toList (mintSid "admin".toList 1), adminState demoLayout 0 1) ∧
    processRequest demoLayout 1 (adminState demoLayout 0 1)
      (accountRequest "user_login".toList "2".toList "admin".toList "admin123".toList)
      = some (respLoginOk "2".toList (mintSid "admin".toList 1), adminState demoLayout 0 1) := by
  refine ⟨by decide, ?_, ?_⟩
  · rw [processRequest_user_login demoLayout 1 _ _ rfl]
    rfl
  · rw [processRequest_user_login demoLayout 1 _ _ rfl]
    have hs : (adminState demoLayout 0 1).userTree.search "admin".toList
        = some (adminInfo 0) := rfl
    rw [show (accountRequest "user_login".toList "2".toList "admin".toList
        "admin123".toList).username = "admin".toList from rfl,
      show (accountRequest "user_login".toList "2".toList "admin".toList
        "admin123".toList).password = "admin123".toList from rfl,
      userLogin_ok (p := "admin123".toList) hs rfl]
    have hst : sessionStore (adminState demoLayout 0 1).active_sessions
        (mintSid "admin".toList 1) "admin".toList
        = (adminState demoLayout 0 1).active_sessions := by
      show sessionStore [(mintSid "admin".toList 1, "admin".toList)]
        (mintSid "admin".toList 1) "admin".toList = [(mintSid "admin".toList 1, "admin".toList)]
      simp [sessionStore]
    rw [hst]
    rfl

/-- C29, amended. Two `user_login` requests, in any two states of the server, that are answered
with success and differ in the username or in the clock value read at the login, are answered
with different session ids. -/
theorem C29_session_ids (L : Layout) (s s' s1 s1' : ServerState) (now now' : Nat)
    (req req' : Request) (sid sid' : Str)
    (hop : req.operation = "user_login".toList) (hop' : req'.operation = "user_login".toList)
    (h : processRequest L now s req = some (respLoginOk req.request_id sid, s1))
    (h' : processRequest L now' s' req' = some (respLoginOk req'.request_id sid', s1'))
    (hdiff : req.username ≠ req'.username ∨ now ≠ now') : sid ≠ sid' := by
  rw [login_sid hop h, login_sid hop' h']
  intro heq
  obtain ⟨hu, hn⟩ := mintSid_inj heq
  rcases hdiff with hd | hd
  · exact hd hu
  · exact hd hn

/-- Witness of `C29_session_ids`: `admin` logs in on the formatted volume while the clock reads
1, and again, in the state this leaves, while it reads 2. -/
theorem C29_session_ids_witness :
    processRequest demoLayout 1 (freshState demoLayout 0)
      (accountRequest "user_login".toList "1".toList "admin".toList "admin123".toList)
      = some (respLoginOk "1".toList (mintSid "admin".toList 1), adminState demoLayout 0 1) ∧
    processRequest demoLayout 2 (adminState demoLayout 0 1)
      (accountRequest "user_login".toList "2".toList "admin".toList "admin123".toList)
      = some (respLoginOk "2".toList (mintSid "admin".toList 2),
          { adminState demoLayout 0 1 with
            active_sessions := sessionStore (adminState demoLayout 0 1).active_sessions
              (mintSid "admin".toList 2) "admin".toList }) ∧
    mintSid "admin".toList 1 ≠ mintSid "admin".toList 2 := by
  have h1 : processRequest demoLayout 1 (freshState demoLayout 0)
      (accountRequest "user_login".toList "1".toList "admin".toList "admin123".toList)
      = some (respLoginOk "1".toList (mintSid "admin".toList 1), adminState demoLayout 0 1) := by
    rw [processRequest_user_login demoLayout 1 _ _ rfl]
    rfl
  have hs : (adminState demoLayout 0 1).userTree.search "admin".toList
      = some (adminInfo 0) := rfl
  have h2 : processRequest demoLayout 2 (adminState demoLayout 0 1)
      (accountRequest "user_login".toList "2".toList "admin".toList "admin123".toList)
      = some (respLoginOk "2".toList (mintSid "admin".toList 2),
          { adminState demoLayout 0 1 with
            active_sessions := sessionStore (adminState demoLayout 0 1).active_sessions
              (mintSid "admin".toList 2) "admin".toList }) := by
    rw [processRequest_user_login demoLayout 2 _ _ rfl]
    exact userLogin_ok hs rfl
  exact ⟨h1, h2, C29_session_ids demoLayout (freshState demoLayout 0) (adminState demoLayout 0 1)
    (adminState demoLayout 0 1)
    { adminState demoLayout 0 1 with
      active_sessions := sessionStore (adminState demoLayout 0 1).active_sessions
        (mintSid "admin".toList 2) "admin".toList } 1 2
    (accountRequest "user_login".toList "1".toList "admin".toList "admin123".toList)
    (accountRequest "user_login".toList "2".toList "admin".toList "admin123".toList)
    (mintSid "admin".toList 1) (mintSid "admin".toList 2) rfl rfl h1 h2 (Or.inr (by decide))⟩

/-! ### Claim C30: the order of the queue -/

/-- In every interleaving the requests pushed are the requests dispatched, the request the
worker holds, and the requests in the queue, in this order. -/
theorem RunReach_inv {st : RunState} (h : RunReach st) :
    st.enqueued = st.dispatched ++ st.req.toList ++ st.requestQueue := by
  induction h with
  | start => rfl
  | @push r st _ ih =>
    show st.enqueued ++ [r] = st.dispatched ++ st.req.toList ++ (st.requestQueue ++ [r])
    rw [ih, List.append_assoc, List.append_assoc]
  | @take st _ hnone ih =>
    unfold RunState.take
    cases hq : st.requestQueue with
    | nil => simp only [hq] at ih ⊢; exact ih
    | cons r rest =>
      simp only [hq, hnone, Option.toList, List.append_nil] at ih ⊢
      rw [ih]
      simp
  | @process st _ ih =>
    unfold RunState.process
    cases hr : st.req with
    | none => simp only [hr] at ih ⊢; exact ih
    | some r =>
      simp only [hr, Option.toList] at ih ⊢
      rw [ih]
      simp

/-- C30. In every interleaving of the accept thread and the worker thread, the requests
dispatched so far are, in the order of their dispatch, the first requests that were pushed, in
the order of their push: the `i`-th `processRequest` call is for the `i`-th request pushed. -/
theorem C30_fifo (st : RunState) (h : RunReach st) :
    st.dispatched <+: st.enqueued ∧
    ∀ (i : Nat) (r : ClientRequest), st.dispatched[i]? = some r → st.enqueued[i]? = some r := by
  have hinv := RunReach_inv h
  have hpre : st.dispatched <+: st.enqueued :=
    ⟨st.req.toList ++ st.requestQueue, by rw [hinv, List.append_assoc]⟩
  refine ⟨hpre, ?_⟩
  intro i r hi
  obtain ⟨rest, hrest⟩ := hpre
  have hlt : i < st.dispatched.length := by
    by_contra hge
    rw [List.getElem?_eq_none (by omega)] at hi
    cases hi
  rw [← hrest, List.getElem?_append_left hlt]
  exact hi

/-- Witness of `C30_fifo`: two requests are pushed, the worker takes the first and dispatches
it while the second waits. -/
theorem C30_fifo_witness :
    (((RunState.start.push ⟨4, "a".toList⟩).push ⟨5, "b".toList⟩).take.process).dispatched
        = [⟨4, "a".toList⟩] ∧
    (((RunState.start.push ⟨4, "a".toList⟩).push ⟨5, "b".toList⟩).take.process).enqueued
        = [⟨4, "a".toList⟩, ⟨5, "b".toList⟩] ∧
    (((RunState.start.push ⟨4, "a".toList⟩).push ⟨5, "b".toList⟩).take.process).dispatched
      <+: (((RunState.start.push ⟨4, "a".toList⟩).push ⟨5, "b".toList⟩).take.process).enqueued :=
  ⟨rfl, rfl, (C30_fifo _ (RunReach.process (RunReach.take
    (RunReach.push ⟨5, "b".toList⟩ (RunReach.push ⟨4, "a".toList⟩ RunReach.start)) rfl))).1⟩

/-! ### Claim C28: the reservation that is not returned -/

/-- A successful `allocateBlocks(c)` on the allocator of the server lowers the number of free
blocks by `c`. -/
theorem alloc_count {bm bm1 : BlockManager} {c : Nat} {sb : Int} (h : AllocInv bm)
    (hint : (c : Int) ≤ INT_MAX)
    (he : allocateBlocks bm (c : Int) = some (sb, bm1)) (hsb : sb ≠ -1) :
    getFreeBlocksCount bm1 + c = getFreeBlocksCount bm := by
  obtain ⟨s0, c1, hc, _, _, hrun, _, _, hbm1⟩ := alloc_result h hint he hsb
  have hcc : c1 = c := by omega
  subst hcc
  have hwf := h.1
  have hwf1 := (AllocInv_allocate h hint he).1
  have hlim : toInt32 bm.total_blocks = (bm.bitmap.length : Int) := by
    rw [hwf.len, h.2.1]
    exact toInt32_small (by decide)
  have hcount : bm1.bitmap.count true = bm.bitmap.count true + c1 := by
    rw [hbm1]
    show (setBits true _ _ _ _).count true = _
    rw [hlim]
    exact count_setBits_true _ _ _ hrun
  have htot : bm1.total_blocks = bm.total_blocks := by rw [hbm1]; rfl
  have hfree := getFreeBlocksCount_eq hwf
  have hfree1 := getFreeBlocksCount_eq hwf1
  omega

theorem parentPath_nil : parentPath [] = [] := rfl

/-! ### What the operations do to the state, case by case -/

/-- The cases of home provisioning. -/
theorem provisionHome_done {L : Layout} {s s1 : ServerState} {u : Str}
    (he : provisionHome L s u = some s1) :
    (resolvePathPtr s.fileTree "/home".toList = none ∧ s1 = s) ∨
    ∃ hp homeNode db bm1, resolvePathPtr s.fileTree "/home".toList = some hp ∧
      s.fileTree.node hp = some homeNode ∧
      allocateBlocks s.blockManager 1 = some (db, bm1) ∧
      ((db = -1 ∧ s1 = { s with blockManager := bm1 }) ∨
       (db ≠ -1 ∧ ∃ r t1,
          addChild s.fileTree (some hp) (userHomeEntry L u homeNode (db % 2 ^ 32).toNat)
            = some (r, t1) ∧
          ((r = none ∧ s1 = { s with
              blockManager := bm1
              disk := s.disk.write ((db % 2 ^ 32).toNat * s.header.block_size)
                (List.replicate 4096 NUL)
              fileTree := t1 }) ∨
           (∃ p, r = some p ∧ s1 = { s with
              blockManager := bm1
              disk :=
                (match findFreeSlot L
                    (s.disk.write ((db % 2 ^ 32).toNat * s.header.block_size)
                      (List.replicate 4096 NUL))
                    (homeNode.metadata.start_block * s.header.block_size)
                    (maxEntries L s) 0 with
                | none => s.disk.write ((db % 2 ^ 32).toNat * s.header.block_size)
                    (List.replicate 4096 NUL)
                | some off =>
                  (s.disk.write ((db % 2 ^ 32).toNat * s.header.block_size)
                    (List.replicate 4096 NUL)).write off
                    (L.entryBytes (userHomeEntry L u homeNode (db % 2 ^ 32).toNat)))
              fileTree := t1 })))) := by
  unfold provisionHome at he
  cases hres : resolvePathPtr s.fileTree "/home".toList with
  | none =>
    rw [hres] at he
    simp only [Option.some.injEq] at he
    exact Or.inl ⟨rfl, he.symm⟩
  | some hp =>
    rw [hres] at he
    simp only [] at he
    cases hnode : s.fileTree.node hp with
    | none => rw [hnode] at he; cases he
    | some homeNode =>
      rw [hnode] at he
      simp only [] at he
      cases hal : allocateBlocks s.blockManager 1 with
      | none => rw [hal] at he; cases he
      | some r =>
        obtain ⟨db, bm1⟩ := r
        rw [hal] at he
        simp only [] at he
        refine Or.inr ⟨hp, homeNode, db, bm1, rfl, hnode, rfl, ?_⟩
        by_cases hdb : db = -1
        · rw [if_pos hdb] at he
          simp only [Option.some.injEq] at he
          exact Or.inl ⟨hdb, he.symm⟩
        · rw [if_neg hdb] at he
          refine Or.inr ⟨hdb, ?_⟩
          cases hadd : addChild s.fileTree (some hp)
              (userHomeEntry L u homeNode (db % 2 ^ 32).toNat) with
          | none =>
            unfold userHomeEntry at hadd
            rw [hadd] at he
            cases he
          | some r2 =>
            obtain ⟨r3, t1⟩ := r2
            have hadd2 := hadd
            unfold userHomeEntry at hadd2
            rw [hadd2] at he
            refine ⟨r3, t1, rfl, ?_⟩
            cases r3 with
            | none =>
              simp only [Option.some.injEq] at he
              exact Or.inl ⟨rfl, he.symm⟩
            | some p =>
              simp only [Option.some.injEq] at he
              exact Or.inr ⟨p, rfl, he.symm⟩

/-- The cases of `user_create`. -/
theorem userCreate_done {L : Layout} {now : Nat} {s s1 : ServerState} {rid u p resp : Str}
    (he : userCreate L now s rid u p = some (resp, s1)) :
    (s1 = s ∧ resp ≠ respUserCreated rid) ∨
    ∃ off ut1, s.userTree.search u = none ∧
      findUserSlot L s.disk s.header.block_size s.header.max_users 0 = some off ∧
      s.userTree.insert { username := storedName L.usernameCap u, password_hash := simpleHash p,
                          role := UserRole.NORMAL,
                          created_time := now, is_active := 1 } = some ut1 ∧
      provisionHome L
        { s with
          disk := s.disk.write off (L.userBytes
            { username := storedName L.usernameCap u, password_hash := simpleHash p,
              role := UserRole.NORMAL,
              created_time := now, is_active := 1 })
          userTree := ut1 } u = some s1 ∧
      resp = respUserCreated rid := by
  unfold userCreate at he
  cases hsearch : s.userTree.search u with
  | some _ =>
    rw [hsearch] at he
    simp only [Option.some.injEq, Prod.mk.injEq] at he
    exact Or.inl ⟨he.2.symm, he.1 ▸ respUserExists_ne_respUserCreated _ _⟩
  | none =>
    rw [hsearch] at he
    simp only [] at he
    cases hslot : findUserSlot L s.disk s.header.block_size s.header.max_users 0 with
    | none =>
      rw [hslot] at he
      simp only [Option.some.injEq, Prod.mk.injEq] at he
      exact Or.inl ⟨he.2.symm, he.1 ▸ respTableFull_ne_respUserCreated _⟩
    | some off =>
      rw [hslot] at he
      simp only [] at he
      cases hins : s.userTree.insert
          (UserInfo.mk (storedName L.usernameCap u) (simpleHash p) UserRole.NORMAL now 1) with
      | none => rw [hins] at he; cases he
      | some ut1 =>
        rw [hins] at he
        simp only [Option.map_eq_some', Prod.mk.injEq] at he
        obtain ⟨s2, hprov, hresp, hs2⟩ := he
        subst hs2
        exact Or.inr ⟨off, ut1, rfl, rfl, rfl, hprov, hresp.symm⟩

/-- The cases of `file_create`. -/
theorem fileCreate_done {L : Layout} {s s1 : ServerState}
    {rid sid r_path content type_str resp : Str}
    (he : fileCreate L s rid sid r_path content type_str = some (resp, s1)) :
    (resolvePathPtr s.fileTree (parentPath r_path) = none ∧ s1 = s) ∨
    ∃ pp parent sb bm1, resolvePathPtr s.fileTree (parentPath r_path) = some pp ∧
      s.fileTree.node pp = some parent ∧
      allocateBlocks s.blockManager (toInt32 (content.length / 4096 + 1)) = some (sb, bm1) ∧
      ((sb = -1 ∧ s1 = { s with blockManager := bm1 }) ∨
       (sb ≠ -1 ∧ ∃ r t1,
          addChild s.fileTree (some pp)
            (createEntry L s sid (fileName r_path) content type_str parent (sb % 2 ^ 32).toNat)
            = some (r, t1) ∧
          ((r = none ∧ resp = respError "Exists".toList ∧
              s1 = { s with blockManager := bm1, fileTree := t1 }) ∨
           (∃ p, r = some p ∧ resp = respCreated rid ∧ s1 = { s with
              blockManager := bm1
              disk := createDisk L s content type_str parent
                (createEntry L s sid (fileName r_path) content type_str parent
                  (sb % 2 ^ 32).toNat)
              fileTree := t1 })))) := by
  unfold fileCreate at he
  cases hpp : resolvePathPtr s.fileTree (parentPath r_path) with
  | none =>
    rw [hpp] at he
    simp only [Option.some.injEq, Prod.mk.injEq] at he
    exact Or.inl ⟨rfl, he.2.symm⟩
  | some pp =>
    rw [hpp] at he
    simp only [] at he
    cases hpar : s.fileTree.node pp with
    | none => rw [hpar] at he; cases he
    | some parent =>
      rw [hpar] at he
      simp only [] at he
      cases hal : allocateBlocks s.blockManager (toInt32 (content.length / 4096 + 1)) with
      | none => rw [hal] at he; cases he
      | some r =>
        obtain ⟨sb, bm1⟩ := r
        rw [hal] at he
        simp only [] at he
        refine Or.inr ⟨pp, parent, sb, bm1, rfl, hpar, rfl, ?_⟩
        by_cases hsb : sb = -1
        · rw [if_pos hsb] at he
          simp only [Option.some.injEq, Prod.mk.injEq] at he
          exact Or.inl ⟨hsb, he.2.symm⟩
        · rw [if_neg hsb] at he
          refine Or.inr ⟨hsb, ?_⟩
          cases hadd : addChild s.fileTree (some pp)
              (createEntry L s sid (fileName r_path) content type_str parent (sb % 2 ^ 32).toNat) with
          | none => rw [hadd] at he; cases he
          | some r2 =>
            obtain ⟨r3, t1⟩ := r2
            rw [hadd] at he
            refine ⟨r3, t1, rfl, ?_⟩
            cases r3 with
            | none =>
              simp only [Option.some.injEq, Prod.mk.injEq] at he
              exact Or.inl ⟨rfl, he.1.symm, he.2.symm⟩
            | some p =>
              simp only [Option.some.injEq, Prod.mk.injEq] at he
              exact Or.inr ⟨p, rfl, he.1.symm, he.2.symm⟩

/-- What a request does to the directory tree: nothing, or one `addChild` that returns a node,
with an entry whose start block is a block from 4 on, or the `removeChild` of a delete. -/
theorem processRequest_tree {L : Layout} {now : Nat} {s s1 : ServerState} {req : Request}
    {resp : Str} (hinv : ServerInv s) (he : processRequest L now s req = some (resp, s1)) :
    s1.fileTree = s.fileTree ∨
    (∃ pp entry p, addChild s.fileTree (some pp) entry = some (some p, s1.fileTree) ∧
      4 ≤ entry.start_block ∧ entry.start_block < 25600 ∧ FitsName L.nameCap entry.name) ∨
    (∃ p node b,
      (req.operation = "file_delete".toList ∨ req.operation = "dir_delete".toList) ∧
      resolvePathPtr s.fileTree (translatePath s.active_sessions req.path req.session_id)
        = some p ∧
      s.fileTree.node p = some node ∧
      removeChild s.fileTree (parentPtr p) node.metadata.name = some (b, s1.fileTree)) := by
  by_cases h1 : req.operation = "user_login".toList
  · rw [processRequest_user_login L now s req h1] at he
    unfold userLogin at he
    left
    split at he
    · split at he
      · simp only [Option.some.injEq, Prod.mk.injEq] at he
        rw [← he.2]
      · simp only [Option.some.injEq, Prod.mk.injEq] at he
        rw [← he.2]
    · simp only [Option.some.injEq, Prod.mk.injEq] at he
      rw [← he.2]
  by_cases h2 : req.operation = "user_create".toList
  · rw [processRequest_user_create L now s req h2] at he
    rcases userCreate_done he with ⟨hs, _⟩ | ⟨off, ut1, _, _, _, hprov, _⟩
    · left
      rw [hs]
    · rcases provisionHome_done hprov with ⟨_, hs⟩ |
        ⟨hp, homeNode, db, bm1, _, _, hal, ⟨_, hs⟩ | ⟨hdb, r, t1, hadd, ⟨_, hs⟩ | ⟨p, hr, hs⟩⟩⟩
      · left
        rw [hs]
      · left
        rw [hs]
      · left
        subst r
        rw [hs]
        exact addChild_refused hadd
      · right
        left
        subst hr
        obtain ⟨s0, c, _, _, hs0, _, h4, hle, _⟩ :=
          alloc_result hinv.alloc (by decide) hal hdb
        have hblk : (db % 2 ^ 32).toNat = s0 := by
          rw [hs0]
          omega
        refine ⟨hp, userHomeEntry L req.username homeNode (db % 2 ^ 32).toNat, p, ?_, ?_, ?_,
          storedName_fits _ _⟩
        · rw [hs]
          exact hadd
        · show 4 ≤ (db % 2 ^ 32).toNat
          omega
        · show (db % 2 ^ 32).toNat < 25600
          omega
  by_cases h3 : req.operation = "user_delete".toList
  · rw [processRequest_user_delete L now s req h3] at he
    left
    unfold userDelete at he
    split at he
    · simp only [Option.some.injEq, Prod.mk.injEq] at he
      rw [← he.2]
    · split at he
      · simp only [Option.some.injEq, Prod.mk.injEq] at he
        rw [← he.2]
      · simp only [Option.some.injEq, Prod.mk.injEq] at he
        rw [← he.2]
  by_cases h4 : req.operation = "file_read".toList
  · rw [processRequest_file_read L now s req h4] at he
    left
    split at he
    · simp only [Option.some.injEq, Prod.mk.injEq] at he
      rw [← he.2]
    · rw [fileRead_state he]
  by_cases h5 : req.operation = "file_delete".toList
  · rw [processRequest_file_delete L now s req h5] at he
    split at he
    · left
      simp only [Option.some.injEq, Prod.mk.injEq] at he
      rw [← he.2]
    · rcases fileDelete_done he with ⟨_, _, hs⟩ |
        ⟨p, node, bm1, disk1, b, t1, hres, hnode, _, _, hrm, _, hs⟩
      · left
        rw [hs]
      · right
        right
        refine ⟨p, node, b, Or.inl h5, hres, hnode, ?_⟩
        rw [hs]
        exact hrm
  by_cases h6 : req.operation = "dir_delete".toList
  · rw [processRequest_dir_delete L now s req h6] at he
    split at he
    · left
      simp only [Option.some.injEq, Prod.mk.injEq] at he
      rw [← he.2]
    · rcases dirDelete_done he with ⟨hs, _⟩ |
        ⟨p, node, bm1, disk1, b, t1, hres, hnode, _, _, _, _, hrm, _, hs⟩
      · left
        rw [hs]
      · right
        right
        refine ⟨p, node, b, Or.inr h6, hres, hnode, ?_⟩
        rw [hs]
        exact hrm
  by_cases h7 : req.operation = "file_create".toList
  · rw [processRequest_file_create L now s req h7] at he
    split at he
    · left
      simp only [Option.some.injEq, Prod.mk.injEq] at he
      rw [← he.2]
    · rcases fileCreate_done he with ⟨_, hs⟩ |
        ⟨pp, parent, sb, bm1, _, _, hal, ⟨_, hs⟩ |
          ⟨hsb, r, t1, hadd, ⟨_, _, hs⟩ | ⟨p, hr, _, hs⟩⟩⟩
      · left
        rw [hs]
      · left
        rw [hs]
      · left
        subst r
        rw [hs]
        exact addChild_refused hadd
      · right
        left
        subst hr
        obtain ⟨s0, c, _, _, hs0, _, h4, hle, _⟩ :=
          alloc_result hinv.alloc (toInt32_le_max _) hal hsb
        refine ⟨pp, createEntry L s req.session_id
          (fileName (translatePath s.active_sessions req.path req.session_id)) req.data
          req.type parent (sb % 2 ^ 32).toNat, p, ?_, ?_, ?_, storedName_fits _ _⟩
        · rw [hs]
          exact hadd
        · show 4 ≤ (sb % 2 ^ 32).toNat
          omega
        · show (sb % 2 ^ 32).toNat < 25600
          omega
  obtain ⟨r, hr⟩ := processRequest_other L now s req h1 h2 h3 h4 h5 h6 h7
  rw [hr] at he
  simp only [Option.some.injEq, Prod.mk.injEq] at he
  left
  rw [← he.2]

/-- A child of a node of the tree is a node of the tree. -/
theorem child_mem_nodes {t : FileSystemTree} {p : NodePtr} {n c : FSNode}
    (h : t.node p = some n) (hc : c ∈ n.children) : c ∈ t.nodes := by
  cases hr : t.root with
  | none => simp [FileSystemTree.node, hr] at h
  | some root =>
    simp only [FileSystemTree.node, hr, Option.some_bind] at h
    rw [nodes_of_root hr]
    refine nodes_of_nodeAt p root n h c ?_
    rw [nodes_eq]
    exact List.mem_cons_of_mem _ (mem_nodesL.mpr ⟨c, hc, self_mem_nodes c⟩)

/-- In every reachable state of the server the name of every node of the tree is a name that the
name field of a directory entry holds whole. -/
theorem Reach_names {L : Layout} {s : ServerState} (h : Reach L s) :
    ∀ n ∈ s.fileTree.nodes, FitsName L.nameCap n.metadata.name := by
  induction h with
  | format now hf =>
    rw [formatVolume_eq, Option.some.injEq] at hf
    subst hf
    intro n hn
    have h4 := L.home_fits
    simp only [freshState, FileSystemTree.nodes, nodes_mk, nodesL_cons, nodesL_nil,
      List.append_nil, List.mem_cons, List.mem_singleton, List.not_mem_nil, or_false] at hn
    rcases hn with hn | hn
    · rw [hn]
      exact ⟨by show 1 ≤ L.nameCap; omega, by decide⟩
    · rw [hn]
      exact ⟨by show 4 ≤ L.nameCap; omega, by decide⟩
  | step now req resp hprev he ih =>
    rcases processRequest_tree (Reach_inv hprev) he with hsame | ⟨pp, entry, p, hadd, _, _, hf⟩ |
      ⟨p, node, b, _, _, _, hrm⟩
    · rw [hsame]
      exact ih
    · exact addChild_forall (fun m => FitsName L.nameCap m.name) (fun _ _ => hf) ih hadd
    · exact removeChild_forall (fun m => FitsName L.nameCap m.name) ih hrm

/-- C28. In every reachable state of the server, when `file_create` names a child that the node
its parent path resolves to already has, and a run of `floor(len(data) / 4096) + 1` free blocks
exists, the request answers with the error `Exists`, the directory tree and the bytes of the
volume are as before, and `free_blocks` is lower by exactly `floor(len(data) / 4096) + 1`. -/
theorem C28_reservation_leak (L : Layout) (s : ServerState) (hreach : Reach L s) (now : Nat)
    (req : Request) (pp : NodePtr) (parent : FSNode) (j : Nat)
    (hop : req.operation = "file_create".toList)
    (hpp : resolvePathPtr s.fileTree
      (parentPath (translatePath s.active_sessions req.path req.session_id)) = some pp)
    (hpar : s.fileTree.node pp = some parent)
    (hex : ∃ c ∈ parent.children,
      c.metadata.name = fileName (translatePath s.active_sessions req.path req.session_id))
    (hrun : FreeRun s.blockManager.bitmap j (req.data.length / 4096 + 1)) :
    ∃ s1, processRequest L now s req = some (respError "Exists".toList, s1) ∧
      s1.fileTree = s.fileTree ∧ s1.disk = s.disk ∧
      getFreeBlocksCount s1.blockManager + (req.data.length / 4096 + 1)
        = getFreeBlocksCount s.blockManager := by
  have hinv := Reach_inv hreach
  have hne : translatePath s.active_sessions req.path req.session_id ≠ [] := by
    intro h
    rw [h, parentPath_nil] at hpp
    unfold resolvePathPtr at hpp
    split at hpp
    · cases hpp
    · simp at hpp
  have hc25600 : req.data.length / 4096 + 1 ≤ 25600 := by
    have := hrun.1
    rw [hinv.alloc.1.len, hinv.alloc.2.1] at this
    omega
  have hti : toInt32 (req.data.length / 4096 + 1) = ((req.data.length / 4096 + 1 : Nat) : Int) :=
    toInt32_small (by omega)
  have hint : ((req.data.length / 4096 + 1 : Nat) : Int) ≤ INT_MAX := by
    unfold INT_MAX
    omega
  obtain ⟨sb, bm1, hal, hsb⟩ := alloc_succeeds hinv.alloc (Nat.succ_le_succ (Nat.zero_le _)) hrun
  have hfit : FitsName L.nameCap
      (fileName (translatePath s.active_sessions req.path req.session_id)) := by
    obtain ⟨c, hc, hn⟩ := hex
    rw [← hn]
    exact Reach_names hreach c (child_mem_nodes hpar hc)
  have hfind : (findChild (some parent)
      (createEntry L s req.session_id
        (fileName (translatePath s.active_sessions req.path req.session_id))
        req.data req.type parent (sb % 2 ^ 32).toNat).name).isSome = true := by
    show (findChild (some parent) (storedName L.nameCap
      (fileName (translatePath s.active_sessions req.path req.session_id)))).isSome = true
    rw [storedName_of_fits hfit]
    exact (findChild_isSome _ _).mpr hex
  refine ⟨{ s with blockManager := bm1, fileTree := s.fileTree }, ?_, rfl, rfl,
    alloc_count hinv.alloc hint hal hsb⟩
  rw [processRequest_file_create L now s req hop, if_neg hne]
  unfold fileCreate
  simp only [hpp, hpar, hti, hal, if_neg hsb, addChild, hfind, if_true]

/-- Witness of `C28_reservation_leak`: with `admin` logged in on the formatted volume,
`file_create` of `//home` names the child `home` of the root, which exists. -/
theorem C28_reservation_leak_witness :
    resolvePathPtr (adminState demoLayout 0 1).fileTree
      (parentPath (translatePath (adminState demoLayout 0 1).active_sessions
        "//home".toList (adminSid 1))) = some [] ∧
    FreeRun (adminState demoLayout 0 1).blockManager.bitmap 4 ("hello".toList.length / 4096 + 1) ∧
    ∃ s1, processRequest demoLayout 2 (adminState demoLayout 0 1)
        (adminRequest 1 "file_create".toList "//home".toList "hello".toList "file".toList)
        = some (respError "Exists".toList, s1) ∧
      s1.fileTree = (adminState demoLayout 0 1).fileTree ∧
      s1.disk = (adminState demoLayout 0 1).disk ∧
      getFreeBlocksCount s1.blockManager + ("hello".toList.length / 4096 + 1)
        = getFreeBlocksCount (adminState demoLayout 0 1).blockManager := by
  have htr : translatePath (adminState demoLayout 0 1).active_sessions
      "//home".toList (adminSid 1) = "//home".toList := translatePath_admin demoLayout 0 1 _
  have hpar : parentPath "//home".toList = "/".toList :=
    parentPath_append "/".toList "home".toList (by decide)
  have hfn : fileName "//home".toList = "home".toList :=
    fileName_append "/".toList "home".toList (by decide)
  have hpp : resolvePathPtr (adminState demoLayout 0 1).fileTree
      (parentPath (translatePath (adminState demoLayout 0 1).active_sessions
        "//home".toList (adminSid 1))) = some [] := by
    rw [htr, hpar]
    rfl
  refine ⟨hpp, fresh_free_run, ?_⟩
  exact C28_reservation_leak demoLayout (adminState demoLayout 0 1)
    (adminState_reach demoLayout 0 1) 2
    (adminRequest 1 "file_create".toList "//home".toList "hello".toList "file".toList)
    [] (.mk rootDirEntry [.mk { homeDirEntry with inode := 1 } []]) 4 rfl hpp rfl
    ⟨.mk { homeDirEntry with inode := 1 } [], List.mem_singleton.mpr rfl, by
      show "home".toList = fileName (translatePath (adminState demoLayout 0 1).active_sessions
        "//home".toList (adminSid 1))
      rw [htr, hfn]⟩
    fresh_free_run

/-! ### Claim C27: the directory `home` -/

/-- A change below the root leaves the entries of the children of the root as they are. -/
theorem rootChildren_modifyAt (f : FSNode → FSNode) (hf : ∀ n, (f n).metadata = n.metadata)
    (i : Nat) (rest : NodePtr) :
    ∀ root : FSNode, (modifyAt f (i :: rest) root).children.map (fun c => c.metadata)
      = root.children.map (fun c => c.metadata)
  | .mk m cs => by
    cases hc : cs[i]? with
    | none => simp only [modifyAt, hc]
    | some c =>
      rw [modifyAt_cons f i rest m cs c hc, children_mk, children_mk, List.map_set,
        modifyAt_metadata f hf rest c]
      exact list_set_self (by rw [List.getElem?_map, hc]; rfl)

/-- The loop of `removeChild` keeps every child whose name is not the name it looks for. -/
theorem removeLoop_keeps (name : Str) :
    ∀ (cs : List FSNode) (c : FSNode), c ∈ cs → c.metadata.name ≠ name →
      c ∈ (removeLoop name cs).2
  | [], _, h, _ => by cases h
  | child :: rest, c, h, hn => by
    simp only [removeLoop]
    split
    · rename_i hname
      split
      · exact h
      · rcases List.mem_cons.mp h with h1 | h1
        · rw [h1] at hn
          exact absurd hname hn
        · exact h1
    · rcases List.mem_cons.mp h with h1 | h1
      · rw [h1]
        exact List.mem_cons_self _ _
      · exact List.mem_cons_of_mem _ (removeLoop_keeps name rest c h1 hn)

/-- A child of the root with a given entry is still there, with the same entry, after a change
of the tree by `f` at `p`, when `f` keeps the entry of a node and, where it is applied to the
root, keeps the child. -/
theorem rootChild_modifyAt (f : FSNode → FSNode) (hf : ∀ n, (f n).metadata = n.metadata)
    (Q : FileEntry → Prop) (p : NodePtr) (root : FSNode)
    (hroot : p = [] → ∀ c ∈ root.children, Q c.metadata → ∃ c1 ∈ (f root).children, Q c1.metadata)
    (h : ∃ c ∈ root.children, Q c.metadata) :
    ∃ c ∈ (modifyAt f p root).children, Q c.metadata := by
  cases p with
  | nil =>
    obtain ⟨c, hc, hq⟩ := h
    rw [modifyAt_nil]
    exact hroot rfl c hc hq
  | cons i rest =>
    obtain ⟨c, hc, hq⟩ := h
    have hmem : c.metadata ∈ (modifyAt f (i :: rest) root).children.map (fun c => c.metadata) := by
      rw [rootChildren_modifyAt f hf i rest root]
      exact List.mem_map.mpr ⟨c, hc, rfl⟩
    obtain ⟨c1, hc1, he⟩ := List.mem_map.mp hmem
    exact ⟨c1, hc1, by rw [he]; exact hq⟩

theorem parentPtr_eq_nil {p : NodePtr} (h : parentPtr p = some []) : ∃ i, p = [i] := by
  cases p with
  | nil => cases h
  | cons i rest =>
    cases rest with
    | nil => exact ⟨i, rfl⟩
    | cons j rest1 =>
      simp only [parentPtr, Option.some.injEq] at h
      cases h

/-- A child of a list other than the child at the index `i` is still in the list when the child
at `i` is taken out. -/
theorem mem_eraseIdx_of_ne {cs : List FSNode} {i : Nat} {c node : FSNode}
    (hc : c ∈ cs) (hi : cs[i]? = some node) (hne : c ≠ node) : c ∈ cs.eraseIdx i := by
  obtain ⟨j, hj⟩ := List.mem_iff_getElem?.mp hc
  rw [List.mem_eraseIdx_iff_getElem?]
  refine ⟨j, ?_, hj⟩
  intro e
  rw [e, hi, Option.some.injEq] at hj
  exact hne hj.symm

/-- A request that is not a delete of the empty directory `home` keeps the directory `home`. -/
theorem processRequest_home {L : Layout} {now : Nat} {s s1 : ServerState} {req : Request}
    {resp : Str} (hinv : ServerInv s) (hhome : HasHome s) (hno : ¬ DeletesHome s req)
    (he : processRequest L now s req = some (resp, s1)) : HasHome s1 := by
  obtain ⟨root, hr, hchild⟩ := hhome
  rcases processRequest_tree hinv he with hsame | ⟨pp, entry, p, hadd, _, _⟩ |
    ⟨p, node, b, hop, hres, hnode, hrm⟩
  · exact ⟨root, by rw [hsame]; exact hr, hchild⟩
  · obtain ⟨root0, pn, hr0, _, _, _, ht1⟩ := addChild_at hadd
    rw [hr, Option.some.injEq] at hr0
    subst hr0
    refine ⟨_, by rw [ht1], ?_⟩
    exact rootChild_modifyAt
      (fun n => FSNode.mk n.metadata (n.children ++
        [FSNode.mk { entry with inode := s.fileTree.next_inode_counter,
                                parent_inode := pn.metadata.inode } []]))
      (fun _ => rfl)
      (fun m => m.name = "home".toList ∧ m.type = EntryType.DIRECTORY ∧ m.start_block = 3)
      pp root
      (fun _ c hc hq => ⟨c, by rw [children_mk]; exact List.mem_append_left _ hc, hq⟩)
      hchild
  · cases hq : parentPtr p with
    | none =>
      rw [hq] at hrm
      simp only [removeChild, Option.some.injEq, Prod.mk.injEq] at hrm
      exact ⟨root, by rw [← hrm.2]; exact hr, hchild⟩
    | some q =>
      rw [hq] at hrm
      cases hqn : s.fileTree.node q with
      | none =>
        simp only [removeChild, hqn] at hrm
        cases hrm
      | some qn =>
        simp only [removeChild, hqn, Option.some.injEq, Prod.mk.injEq] at hrm
        refine ⟨modifyAt (fun n => FSNode.mk n.metadata
          (removeLoop node.metadata.name n.children).2) q root, by rw [← hrm.2, hr]; rfl, ?_⟩
        refine rootChild_modifyAt
          (fun n => FSNode.mk n.metadata (removeLoop node.metadata.name n.children).2)
          (fun _ => rfl)
          (fun m => m.name = "home".toList ∧ m.type = EntryType.DIRECTORY ∧ m.start_block = 3)
          q root ?_ hchild
        intro hq0 c hc hQ
        subst hq0
        obtain ⟨i, hi⟩ := parentPtr_eq_nil hq
        subst hi
        rw [children_mk]
        by_cases hname : node.metadata.name = "home".toList
        · obtain ⟨pp, i1, root1, parent, child, hp1, hr1, hpar1, hci, hchild1, hidx⟩ :=
            resolvePathPtr_last hres (by simp)
          have hpp : pp = [] ∧ i1 = i := by
            cases pp with
            | nil =>
              simp only [List.nil_append, List.cons.injEq, and_true] at hp1
              exact ⟨rfl, hp1.symm⟩
            | cons a rest =>
              simp only [List.cons_append, List.cons.injEq] at hp1
              exact absurd hp1.2 (by simp)
          obtain ⟨rfl, rfl⟩ := hpp
          rw [hr, Option.some.injEq] at hr1
          subst hr1
          rw [nodeAt_nil, Option.some.injEq] at hpar1
          subst hpar1
          rw [hnode, Option.some.injEq] at hchild1
          subst hchild1
          rcases removeLoop_spec node.metadata.name root.children with ⟨_, h2⟩ |
            ⟨i2, c2, h1, h2, h3, h4⟩
          · rw [h2]
            exact ⟨c, hc, hQ⟩
          · rw [hidx, Option.some.injEq] at h1
            subst h1
            rw [hci, Option.some.injEq] at h2
            subst h2
            by_cases hd : node.metadata.type = EntryType.DIRECTORY ∧ node.children.isEmpty = false
            · rw [h3 hd]
              exact ⟨c, hc, hQ⟩
            · rw [h4 hd]
              have hnd : node.metadata.type ≠ EntryType.DIRECTORY := by
                intro ht
                cases hch : node.children with
                | nil => exact hno ⟨hop, i1, node, hres, hnode, hname, ht, hch⟩
                | cons a l =>
                  apply hd
                  rw [hch]
                  exact ⟨ht, rfl⟩
              refine ⟨c, mem_eraseIdx_of_ne hc hci ?_, hQ⟩
              intro e
              rw [e] at hQ
              exact hnd hQ.2.1
        · exact ⟨c, removeLoop_keeps _ _ c hc (by rw [hQ.1]; exact fun h => hname h.symm), hQ⟩

theorem ReachKeepingHome_reach {L : Layout} {s : ServerState} (h : ReachKeepingHome L s) :
    Reach L s := by
  induction h with
  | format now hf => exact Reach.format now hf
  | step now req resp _ _ he ih => exact Reach.step now req resp ih he

/-- The state in which `admin` has removed the directory `home` from the fresh volume. -/
theorem home_removed :
    ∃ s1, processRequest demoLayout 2 (adminState demoLayout 0 1)
        (adminRequest 1 "dir_delete".toList "/home".toList [] []) = some (respDeleted, s1) ∧
      s1.fileTree.root = some (.mk rootDirEntry []) ∧
      s1.userTree = (adminState demoLayout 0 1).userTree ∧
      s1.active_sessions = (adminState demoLayout 0 1).active_sessions ∧
      s1.header = (adminState demoLayout 0 1).header := by
  obtain ⟨s1, pp, i, parent, h1, h2, h3, h4, h5, _, _, _, hsess, husers, hhead⟩ :=
    dirDelete_child demoLayout (adminState demoLayout 0 1)
      (Reach_inv (adminState_reach demoLayout 0 1)) "/home".toList
      (show resolvePathPtr (adminState demoLayout 0 1).fileTree "/home".toList = some [0]
        from rfl)
      (show (adminState demoLayout 0 1).fileTree.node [0]
        = some (.mk { homeDirEntry with inode := 1 } []) from rfl) rfl rfl (by simp)
  have hpp : pp = [] ∧ i = 0 := by
    cases pp with
    | nil =>
      simp only [List.nil_append, List.cons.injEq, and_true] at h2
      exact ⟨rfl, h2.symm⟩
    | cons a rest =>
      simp only [List.cons_append, List.cons.injEq] at h2
      exact absurd h2.2 (by simp)
  obtain ⟨rfl, rfl⟩ := hpp
  have hparent : parent = .mk rootDirEntry [.mk { homeDirEntry with inode := 1 } []] :=
    (Option.some.inj h3).symm
  subst hparent
  have hroot : s1.fileTree.node [] = some (.mk rootDirEntry []) := h5
  refine ⟨s1, ?_, ?_, husers, hsess, hhead⟩
  · rw [processRequest_dir_delete demoLayout 2 _ _ rfl, translatePath_adminRequest,
      if_neg (by decide)]
    exact h1
  · cases hr : s1.fileTree.root with
    | none => simp [FileSystemTree.node, hr] at hroot
    | some r =>
      simp only [FileSystemTree.node, hr, Option.some_bind, nodeAt_nil, Option.some.injEq]
        at hroot
      rw [hroot]

/-- The state in which `admin` has removed the directory `home` from the fresh volume by a
`file_delete`. -/
theorem home_removed_file :
    ∃ s1, processRequest demoLayout 2 (adminState demoLayout 0 1)
        (adminRequest 1 "file_delete".toList "/home".toList [] []) = some (respDeleted, s1) ∧
      s1.fileTree.root = some (.mk rootDirEntry []) := by
  have hres : resolvePathPtr (adminState demoLayout 0 1).fileTree "/home".toList = some [0] :=
    rfl
  have hnode : (adminState demoLayout 0 1).fileTree.node [0]
      = some (.mk { homeDirEntry with inode := 1 } []) := rfl
  obtain ⟨disk1, hcl⟩ := clearSlot_some demoLayout (adminState demoLayout 0 1) [0]
    (.mk { homeDirEntry with inode := 1 } [])
    (fun pp hpp => by
      have e : pp = [] := (Option.some.inj hpp).symm
      subst e
      exact ⟨_, rfl⟩)
  have hrm : removeChild (adminState demoLayout 0 1).fileTree (parentPtr [0]) "home".toList
      = some (true, { root := some (.mk rootDirEntry []), next_inode_counter := 2 }) := rfl
  refine ⟨{ (adminState demoLayout 0 1) with
    disk := disk1
    fileTree := { root := some (.mk rootDirEntry []), next_inode_counter := 2 } }, ?_, rfl⟩
  rw [processRequest_file_delete demoLayout 2 _ _ rfl, translatePath_adminRequest,
    if_neg (by decide)]
  unfold fileDelete
  rw [hres]
  simp only [hnode, metadata_mk, hcl]
  have e1 : homeDirEntry.start_block = 3 := rfl
  have e2 : homeDirEntry.name = "home".toList := rfl
  rw [e1, e2, hrm, if_neg (by decide)]

/-- Counterexample to C27 as stated: on the formatted volume `admin` logs in and sends
`dir_delete` of `/home`, which has no children; the request answers `Deleted` and the state it
leaves, which is reachable, has a root without children, so without a directory `home`. The
same holds when the request is `file_delete` of `/home`. -/
theorem C27_counterexample :
    (∃ s1, processRequest demoLayout 2 (adminState demoLayout 0 1)
        (adminRequest 1 "dir_delete".toList "/home".toList [] []) = some (respDeleted, s1) ∧
      Reach demoLayout s1 ∧ s1.fileTree.root = some (.mk rootDirEntry []) ∧ ¬ HasHome s1) ∧
    ∃ s1, processRequest demoLayout 2 (adminState demoLayout 0 1)
        (adminRequest 1 "file_delete".toList "/home".toList [] []) = some (respDeleted, s1) ∧
      Reach demoLayout s1 ∧ s1.fileTree.root = some (.mk rootDirEntry []) ∧ ¬ HasHome s1 := by
  have hno : ∀ s1 : ServerState, s1.fileTree.root = some (.mk rootDirEntry []) →
      ¬ HasHome s1 := by
    rintro s1 hroot ⟨root, hr, c, hc, _⟩
    rw [hroot, Option.some.injEq] at hr
    subst hr
    cases hc
  refine ⟨?_, ?_⟩
  · obtain ⟨s1, h1, hroot, _⟩ := home_removed
    exact ⟨s1, h1, Reach.step 2 _ _ (adminState_reach demoLayout 0 1) h1, hroot, hno s1 hroot⟩
  · obtain ⟨s1, h1, hroot⟩ := home_removed_file
    exact ⟨s1, h1, Reach.step 2 _ _ (adminState_reach demoLayout 0 1) h1, hroot, hno s1 hroot⟩

/-- C27, amended. In every state of the server reachable from a freshly formatted volume by
requests none of which is a `file_delete` or `dir_delete` whose path resolves to the directory
`home` of the root at a time when it has no children, the root has a child that is a directory
named `home` whose start block is 3. A delete of `home` while it has a child is among the
requests: it removes nothing. -/
theorem C27_home_exists (L : Layout) (s : ServerState) (h : ReachKeepingHome L s) :
    HasHome s := by
  induction h with
  | format now hf =>
    rw [formatVolume_eq, Option.some.injEq] at hf
    subst hf
    exact ⟨_, rfl, .mk { homeDirEntry with inode := 1 } [], List.mem_singleton.mpr rfl, rfl, rfl,
      rfl⟩
  | step now req resp hprev hno he ih =>
    exact processRequest_home (Reach_inv (ReachKeepingHome_reach hprev)) ih hno he

/-- Witness of `C27_home_exists`: the volume after `admin` has logged in, created the file
`/home/f` and sent a `dir_delete` of `/home`, which has a child then and is answered with
`Directory not empty`. -/
theorem C27_home_exists_witness :
    ∃ s1, processRequest demoLayout 2 (adminState demoLayout 0 1)
        (adminRequest 1 "file_create".toList "/home/f".toList "hello".toList "file".toList)
        = some (respCreated "1".toList, s1) ∧
      processRequest demoLayout 3 s1 (adminRequest 1 "dir_delete".toList "/home".toList [] [])
        = some (respError "Directory not empty".toList, s1) ∧
      ReachKeepingHome demoLayout s1 ∧ HasHome s1 := by
  obtain ⟨s1, hc⟩ := adminCreate_ok demoLayout 0 1 2 "f".toList "hello".toList "file".toList
    (by decide) (by decide)
  obtain ⟨newNode, nf, _, _, hsess, _, hroot⟩ := adminCreate_state hc
  have hk0 : ReachKeepingHome demoLayout (freshState demoLayout 0) :=
    ReachKeepingHome.format 0 (formatVolume_eq demoLayout 0)
  have hk1 : ReachKeepingHome demoLayout (adminState demoLayout 0 1) :=
    ReachKeepingHome.step 1 adminLogin _ hk0
      (fun h => by
        rcases h.1 with h1 | h1
        · exact absurd h1 (by decide)
        · exact absurd h1 (by decide))
      (adminLogin_step demoLayout 0 1)
  have hk2 : ReachKeepingHome demoLayout s1 :=
    ReachKeepingHome.step 2 _ _ hk1
      (fun h => by
        rcases h.1 with h1 | h1
        · exact absurd h1 (by decide)
        · exact absurd h1 (by decide))
      hc
  have htr : translatePath s1.active_sessions
      (adminRequest 1 "dir_delete".toList "/home".toList [] []).path
      (adminRequest 1 "dir_delete".toList "/home".toList [] []).session_id = "/home".toList := by
    rw [hsess]
    exact translatePath_admin demoLayout 0 1 _
  have hres : resolvePathPtr s1.fileTree "/home".toList = some [0] := by
    rw [resolvePathPtr_eq s1.fileTree _ hroot _ (by decide)]
    rfl
  have hnode : s1.fileTree.node [0] = some (.mk { homeDirEntry with inode := 1 } [newNode]) := by
    simp only [FileSystemTree.node, hroot, Option.some_bind]
    rfl
  have hdel : processRequest demoLayout 3 s1
      (adminRequest 1 "dir_delete".toList "/home".toList [] [])
      = some (respError "Directory not empty".toList, s1) := by
    rw [processRequest_dir_delete demoLayout 3 s1 _ rfl, htr, if_neg (by decide)]
    exact dirDelete_not_empty demoLayout s1 _ hres hnode rfl (List.cons_ne_nil _ _)
  have hk3 : ReachKeepingHome demoLayout s1 :=
    ReachKeepingHome.step 3 _ _ hk2
      (fun h => by
        obtain ⟨_, i, node, h1, h2, _, _, h5⟩ := h
        rw [htr, hres, Option.some.injEq] at h1
        rw [← List.cons.inj h1 |>.1, hnode, Option.some.injEq] at h2
        rw [← h2] at h5
        cases h5)
      hdel
  exact ⟨s1, hc, hdel, hk3, C27_home_exists demoLayout s1 hk3⟩

/-! ### Claim C21: the home directory of a new user -/

/-- The record `search` returns has the name that was looked for. -/
theorem search_name {t : UserAVLTree} {u : Str} {info : UserInfo}
    (hs : SortedByName (inorderRec t.root)) (h : t.search u = some info) : info.username = u := by
  unfold UserAVLTree.search at h
  rw [searchRec_eq_findName t.root hs] at h
  have := List.find?_some h
  simpa using this

/-- The index of every reachable state holds a record for `admin`. -/
theorem Reach_admin {L : Layout} {s : ServerState} (h : Reach L s) :
    ∃ info, s.userTree.search "admin".toList = some info := by
  induction h with
  | format now hf =>
    rw [formatVolume_eq, Option.some.injEq] at hf
    subst hf
    exact ⟨adminInfo now, rfl⟩
  | step now req resp hprev he ih =>
    obtain ⟨info, hi⟩ := ih
    obtain ⟨info1, h1, _⟩ := processRequest_hash (Reach_inv hprev) he hi
    exact ⟨info1, h1⟩

/-- The translation of `/` under a session of a user other than `admin` is the home of the
user. -/
theorem translatePath_user_root {m : SessionTable} {sid u : Str}
    (hl : m.lookup sid = some u) (hu : u ≠ "admin".toList) :
    translatePath m "/".toList sid = "/home".toList ++ '/' :: u := by
  have h1 : (strFind "/".toList "..".toList).isSome = false := rfl
  simp only [translatePath, hl, hu, if_false, h1, Bool.false_eq_true, true_or, if_true]
  rfl

/-- A path that resolves to the node `addChild` hangs the new node under resolves to it
afterwards as well. -/
theorem resolve_kept {t t1 : FileSystemTree} {pp p : NodePtr} {entry : FileEntry} {dir : Str}
    (hdir : resolvePathPtr t dir = some pp)
    (hadd : addChild t (some pp) entry = some (some p, t1)) :
    resolvePathPtr t1 dir = some pp := by
  obtain ⟨root, pn, hr, hn, _, _, ht1⟩ := addChild_at hadd
  have hne : dir ≠ [] := by
    intro h
    rw [h] at hdir
    simp only [resolvePathPtr, hr, if_true] at hdir
    cases hdir
  rw [resolvePathPtr_eq t root hr dir hne] at hdir
  have hr1 : t1.root = some (modifyAt (fun n => FSNode.mk n.metadata (n.children ++
      [FSNode.mk { entry with inode := t.next_inode_counter,
                              parent_inode := pn.metadata.inode } []])) pp root) := by
    rw [ht1]
  rw [resolvePathPtr_eq t1 _ hr1 dir hne]
  exact walkSegmentsPtr_modified
    (fun n => FSNode.mk n.metadata (n.children ++
      [FSNode.mk { entry with inode := t.next_inode_counter,
                              parent_inode := pn.metadata.inode } []]))
    (fun _ => rfl) _ root pp hdir

/-- What a `user_create` that answers with success has done when `/home` resolves to a node
without a child of the name of the user and a block is free: the home directory is the new last
child of that node, on the first free block. -/
theorem userCreate_facts {L : Layout} {now : Nat} {s s1 : ServerState} {req : Request}
    {hp : NodePtr} {homeNode : FSNode} {j : Nat}
    (hinv : ServerInv s) (hop : req.operation = "user_create".toList)
    (hhome : resolvePathPtr s.fileTree "/home".toList = some hp)
    (hnode : s.fileTree.node hp = some homeNode)
    (hfresh : ∀ c ∈ homeNode.children, c.metadata.name ≠ storedName L.nameCap req.username)
    (hfree : FreeRun s.blockManager.bitmap j 1)
    (hc : processRequest L now s req = some (respUserCreated req.request_id, s1)) :
    ∃ (b : Nat) (bm1 : BlockManager) (p : NodePtr) (t1 : FileSystemTree) (off : Nat)
        (ut1 : UserAVLTree),
      4 ≤ b ∧ b < 25600 ∧ s.blockManager.bitmap[b]? = some false ∧
      allocateBlocks s.blockManager 1 = some ((b : Int), bm1) ∧
      addChild s.fileTree (some hp) (userHomeEntry L req.username homeNode b) = some (some p, t1) ∧
      s.userTree.search req.username = none ∧
      findUserSlot L s.disk s.header.block_size s.header.max_users 0 = some off ∧
      s.userTree.insert { username := storedName L.usernameCap req.username,
                          password_hash := simpleHash req.password,
                          role := UserRole.NORMAL, created_time := now, is_active := 1 }
        = some ut1 ∧
      s1.fileTree = t1 ∧ s1.blockManager = bm1 ∧ s1.userTree = ut1 ∧
      s1.active_sessions = s.active_sessions ∧ s1.header = s.header := by
  rw [processRequest_user_create L now s req hop] at hc
  rcases userCreate_done hc with ⟨_, hne⟩ | ⟨off, ut1, hnone, hslot, hins, hprov, _⟩
  · exact absurd rfl hne
  rcases provisionHome_done hprov with ⟨hres, _⟩ |
    ⟨hp1, homeNode1, db, bm1, hres, hn1, hal, ⟨hdb, _⟩ | ⟨hdb, r, t1, hadd, ⟨hr, _⟩ | ⟨p, hr, hs⟩⟩⟩
  · have : resolvePathPtr s.fileTree "/home".toList = none := hres
    rw [hhome] at this
    cases this
  · have hal1 : allocateBlocks s.blockManager ((1 : Nat) : Int) = some (db, bm1) := hal
    obtain ⟨sb, bm2, h2, hsb⟩ := alloc_succeeds hinv.alloc (le_refl 1) hfree
    rw [hal1, Option.some.injEq, Prod.mk.injEq] at h2
    exact absurd (h2.1 ▸ hdb) hsb
  · have hres1 : resolvePathPtr s.fileTree "/home".toList = some hp1 := hres
    rw [hhome, Option.some.injEq] at hres1
    subst hres1
    have hn2 : s.fileTree.node hp = some homeNode1 := hn1
    rw [hnode, Option.some.injEq] at hn2
    subst hn2
    subst hr
    have hadd1 : addChild s.fileTree (some hp)
        (userHomeEntry L req.username homeNode (db % 2 ^ 32).toNat) = some (none, t1) := hadd
    obtain ⟨t2, h2⟩ := addChild_ok (userHomeEntry L req.username homeNode (db % 2 ^ 32).toNat)
      hnode hfresh
    rw [hadd1] at h2
    cases h2
  · have hres1 : resolvePathPtr s.fileTree "/home".toList = some hp1 := hres
    rw [hhome, Option.some.injEq] at hres1
    subst hres1
    have hn2 : s.fileTree.node hp = some homeNode1 := hn1
    rw [hnode, Option.some.injEq] at hn2
    subst hn2
    subst hr
    have hal1 : allocateBlocks s.blockManager 1 = some (db, bm1) := hal
    obtain ⟨s0, c, hcc, _, hs0, hrun, h4, hle, _⟩ :=
      alloc_result hinv.alloc (by decide) hal1 hdb
    have hc1 : c = 1 := by omega
    subst hc1
    have hblk : (db % 2 ^ 32).toNat = s0 := by
      rw [hs0]
      omega
    have hadd1 : addChild s.fileTree (some hp)
        (userHomeEntry L req.username homeNode (db % 2 ^ 32).toNat) = some (some p, t1) := hadd
    rw [hblk] at hadd1
    refine ⟨s0, bm1, p, t1, off, ut1, h4, by omega, hrun.2 s0 (le_refl _) (by omega),
      by rw [← hs0]; exact hal1, hadd1, hnone, hslot, hins, ?_, ?_, ?_, ?_, ?_⟩
    all_goals rw [hs]

/-! ### The bytes below block 2 -/

/-- In every reachable state the start block of every node is a block from 2 on. -/
theorem Reach_blocks_low {L : Layout} {s : ServerState} (h : Reach L s) :
    ∀ n ∈ s.fileTree.nodes, 2 ≤ n.metadata.start_block := by
  induction h with
  | format now hf =>
    rw [formatVolume_eq, Option.some.injEq] at hf
    subst hf
    intro n hn
    have hnodes : (freshState L now).fileTree.nodes
        = [.mk rootDirEntry [.mk { homeDirEntry with inode := 1 } []],
           .mk { homeDirEntry with inode := 1 } []] := by
      have hroot : (freshState L now).fileTree.root
          = some (.mk rootDirEntry [.mk { homeDirEntry with inode := 1 } []]) := rfl
      rw [nodes_of_root hroot, nodes_mk, nodesL_cons, nodes_mk, nodesL_nil]
      rfl
    rw [hnodes] at hn
    simp only [List.mem_cons, List.mem_singleton, List.not_mem_nil, or_false] at hn
    rcases hn with h1 | h1
    · rw [h1]
      exact le_refl 2
    · rw [h1]
      exact Nat.le_succ 2
  | step now req resp hprev he ih =>
    rcases processRequest_tree (Reach_inv hprev) he with hsame | ⟨pp, entry, p, hadd, h4, _⟩ |
      ⟨p, node, b, _, _, _, hrm⟩
    · rw [hsame]
      exact ih
    · exact addChild_forall (fun m => 2 ≤ m.start_block)
        (fun _ _ => show 2 ≤ entry.start_block by omega) ih hadd
    · exact removeChild_forall (fun m => 2 ≤ m.start_block) ih hrm

/-- The write of `clearSlot` lies in the block of the parent. -/
theorem clearSlot_frame {L : Layout} {s : ServerState} {p : NodePtr} {node : FSNode}
    {disk1 : Disk} (hcl : clearSlot L s p node = some disk1)
    (hlow : ∀ n ∈ s.fileTree.nodes, 2 ≤ n.metadata.start_block)
    (hbs : s.header.block_size = 4096) (o n : Nat) (hon : o + n ≤ 8192) :
    disk1.read o n = s.disk.read o n := by
  unfold clearSlot at hcl
  cases hpp : parentPtr p with
  | none =>
    simp only [hpp, Option.some.injEq] at hcl
    rw [← hcl]
  | some pp =>
    cases hpar : s.fileTree.node pp with
    | none =>
      simp only [hpp, hpar] at hcl
      cases hcl
    | some parent =>
      have h2 := hlow parent (node_mem_nodes hpar)
      simp only [hpp, hpar] at hcl
      cases hfind : findNamedSlot L s.disk (parent.metadata.start_block * s.header.block_size)
          node.metadata.name (maxEntries L s) 0 with
      | none =>
        rw [hfind, Option.some.injEq] at hcl
        rw [← hcl]
      | some off =>
        rw [hfind, Option.some.injEq] at hcl
        obtain ⟨i, _, _, hoff, _⟩ := findNamedSlot_some L _ _ _ _ _ _ hfind
        rw [← hcl]
        apply Disk.read_write_disjoint
        left
        rw [hoff, hbs]
        have : 2 * 4096 ≤ parent.metadata.start_block * 4096 := Nat.mul_le_mul_right _ h2
        omega

/-- The writes of home provisioning lie in blocks from 2 on. -/
theorem provisionHome_frame_low {L : Layout} {s s1 : ServerState} {u : Str}
    (hprov : provisionHome L s u = some s1) (halloc : AllocInv s.blockManager)
    (hlow : ∀ n ∈ s.fileTree.nodes, 2 ≤ n.metadata.start_block)
    (hbs : s.header.block_size = 4096) (o n : Nat) (hon : o + n ≤ 8192) :
    s1.disk.read o n = s.disk.read o n := by
  rcases provisionHome_done hprov with ⟨_, hs⟩ |
    ⟨hp, homeNode, db, bm1, _, hnode, hal, ⟨_, hs⟩ | ⟨hdb, r, t1, _, ⟨_, hs⟩ | ⟨p, _, hs⟩⟩⟩
  · rw [hs]
  · rw [hs]
  · obtain ⟨s0, c, _, _, hs0, _, h4, _, _⟩ := alloc_result halloc (by decide) hal hdb
    have hblk : (db % 2 ^ 32).toNat = s0 := by
      rw [hs0]
      omega
    rw [hs]
    show (s.disk.write _ _).read o n = _
    apply Disk.read_write_disjoint
    left
    rw [hblk, hbs]
    have : 4 * 4096 ≤ s0 * 4096 := Nat.mul_le_mul_right _ h4
    omega
  · obtain ⟨s0, c, _, _, hs0, _, h4, _, _⟩ := alloc_result halloc (by decide) hal hdb
    have hblk : (db % 2 ^ 32).toNat = s0 := by
      rw [hs0]
      omega
    have h2 := hlow homeNode (node_mem_nodes hnode)
    have h44 : 4 * 4096 ≤ s0 * 4096 := Nat.mul_le_mul_right _ h4
    have h24 : 2 * 4096 ≤ homeNode.metadata.start_block * 4096 := Nat.mul_le_mul_right _ h2
    have hd1 : (s.disk.write ((db % 2 ^ 32).toNat * s.header.block_size)
        (List.replicate 4096 NUL)).read o n = s.disk.read o n := by
      apply Disk.read_write_disjoint
      left
      rw [hblk, hbs]
      omega
    rw [hs]
    show Disk.read (match findFreeSlot L _ _ _ _ with
      | none => _
      | some off => _) o n = _
    split
    · exact hd1
    · rename_i off hoff
      obtain ⟨i, _, _, hi, _⟩ := findFreeSlot_some L _ _ _ _ _ hoff
      rw [Disk.read_write_disjoint _ _ _ _ _ (Or.inl (by rw [hi, hbs]; omega))]
      exact hd1

/-- A request other than `user_create` and `user_delete` leaves the bytes below block 2 as they
are. -/
theorem processRequest_disk_low {L : Layout} {now : Nat} {s s1 : ServerState} {req : Request}
    {resp : Str} (hinv : ServerInv s)
    (hlow : ∀ n ∈ s.fileTree.nodes, 2 ≤ n.metadata.start_block)
    (h2 : req.operation ≠ "user_create".toList) (h3 : req.operation ≠ "user_delete".toList)
    (he : processRequest L now s req = some (resp, s1)) (o n : Nat) (hon : o + n ≤ 8192) :
    s1.disk.read o n = s.disk.read o n := by
  by_cases h1 : req.operation = "user_login".toList
  · rw [processRequest_user_login L now s req h1] at he
    unfold userLogin at he
    split at he
    · split at he
      · simp only [Option.some.injEq, Prod.mk.injEq] at he
        rw [← he.2]
      · simp only [Option.some.injEq, Prod.mk.injEq] at he
        rw [← he.2]
    · simp only [Option.some.injEq, Prod.mk.injEq] at he
      rw [← he.2]
  by_cases h4 : req.operation = "file_read".toList
  · rw [processRequest_file_read L now s req h4] at he
    split at he
    · simp only [Option.some.injEq, Prod.mk.injEq] at he
      rw [← he.2]
    · rw [fileRead_state he]
  by_cases h5 : req.operation = "file_delete".toList
  · rw [processRequest_file_delete L now s req h5] at he
    split at he
    · simp only [Option.some.injEq, Prod.mk.injEq] at he
      rw [← he.2]
    · rcases fileDelete_done he with ⟨_, _, hs⟩ |
        ⟨p, node, bm1, disk1, b, t1, _, _, _, hcl, _, _, hs⟩
      · rw [hs]
      · rw [hs]
        exact clearSlot_frame hcl hlow hinv.block_size o n hon
  by_cases h6 : req.operation = "dir_delete".toList
  · rw [processRequest_dir_delete L now s req h6] at he
    split at he
    · simp only [Option.some.injEq, Prod.mk.injEq] at he
      rw [← he.2]
    · rcases dirDelete_done he with ⟨hs, _⟩ |
        ⟨p, node, bm1, disk1, b, t1, _, _, _, _, _, hcl, _, _, hs⟩
      · rw [hs]
      · rw [hs]
        exact clearSlot_frame hcl hlow hinv.block_size o n hon
  by_cases h7 : req.operation = "file_create".toList
  · rw [processRequest_file_create L now s req h7] at he
    split at he
    · simp only [Option.some.injEq, Prod.mk.injEq] at he
      rw [← he.2]
    · rcases fileCreate_done he with ⟨_, hs⟩ |
        ⟨pp, parent, sb, bm1, _, hpar, hal, ⟨_, hs⟩ |
          ⟨hsb, r, t1, _, ⟨_, _, hs⟩ | ⟨p, _, _, hs⟩⟩⟩
      · rw [hs]
      · rw [hs]
      · rw [hs]
      · obtain ⟨s0, c, _, _, hs0, _, h44, _, _⟩ :=
          alloc_result hinv.alloc (toInt32_le_max _) hal hsb
        have hblk : (sb % 2 ^ 32).toNat = s0 := by
          rw [hs0]
          omega
        have hp2 := hlow parent (node_mem_nodes hpar)
        rw [hs]
        apply createDisk_frame
        · show o + n ≤ (sb % 2 ^ 32).toNat * s.header.block_size
          rw [hblk, hinv.block_size]
          have : 4 * 4096 ≤ s0 * 4096 := Nat.mul_le_mul_right _ h44
          omega
        · rw [hinv.block_size]
          have : 2 * 4096 ≤ parent.metadata.start_block * 4096 := Nat.mul_le_mul_right _ hp2
          omega
  obtain ⟨r, hr⟩ := processRequest_other L now s req h1 h2 h3 h4 h5 h6 h7
  rw [hr] at he
  simp only [Option.some.injEq, Prod.mk.injEq] at he
  rw [← he.2]

/-- The slot scan of `user_create` reads the slots of the user table only. -/
theorem findUserSlot_congr (L : Layout) (d d1 : Disk) (u_start : Nat) :
    ∀ (n k : Nat),
      (∀ i, k ≤ i → i < k + n →
        d1.read (u_start + i * L.sizeofUserInfo) L.sizeofUserInfo
          = d.read (u_start + i * L.sizeofUserInfo) L.sizeofUserInfo) →
      findUserSlot L d1 u_start n k = findUserSlot L d u_start n k
  | 0, _, _ => rfl
  | n + 1, k, h => by
    simp only [findUserSlot]
    rw [h k (le_refl _) (by omega), findUserSlot_congr L d d1 u_start n (k + 1)
      (fun i h1 h2 => h i (by omega) (by omega))]

/-- Without a node `/home`, `user_create` leaves the directory tree as it is. -/
theorem userCreate_no_home {L : Layout} {now : Nat} {s s1 : ServerState} {rid u p resp : Str}
    (hres : resolvePathPtr s.fileTree "/home".toList = none)
    (he : userCreate L now s rid u p = some (resp, s1)) : s1.fileTree = s.fileTree := by
  rcases userCreate_done he with ⟨hs, _⟩ | ⟨off, ut1, _, _, _, hprov, _⟩
  · rw [hs]
  · rcases provisionHome_done hprov with ⟨_, hs⟩ | ⟨hp, homeNode, db, bm1, hres1, _⟩
    · rw [hs]
    · have : resolvePathPtr s.fileTree "/home".toList = some hp := hres1
      rw [hres] at this
      cases this

/-- A `user_create` without `/home`: `admin` removes the directory `home` from the formatted
volume; in the state this leaves, which is reachable, `user_create` of `bob` answers with
success, and afterwards the root has no children, so there is no node `/home` and no home
directory of `bob`. -/
theorem create_without_home :
    ∃ s1 s2, Reach demoLayout s1 ∧
      processRequest demoLayout 3 s1
        (accountRequest "user_create".toList "1".toList "bob".toList "secret".toList)
        = some (respUserCreated "1".toList, s2) ∧
      s2.fileTree.root = some (.mk rootDirEntry []) ∧
      resolvePathPtr s2.fileTree "/home".toList = none := by
  obtain ⟨s1, h1, hroot, husers, _, hhead⟩ := home_removed
  have hreach0 := adminState_reach demoLayout 0 1
  have hreach : Reach demoLayout s1 := Reach.step 2 _ _ hreach0 h1
  have hinv := Reach_inv hreach
  have hres : resolvePathPtr s1.fileTree "/home".toList = none := by
    unfold resolvePathPtr
    rw [hroot]
    rfl
  have hnone : s1.userTree.search "bob".toList = none := by
    rw [husers]
    rfl
  have hslot : findUserSlot demoLayout s1.disk s1.header.block_size s1.header.max_users 0
      = some 4113 := by
    rw [hhead]
    show findUserSlot demoLayout s1.disk 4096 50 0 = some 4113
    rw [findUserSlot_congr demoLayout (formatDisk demoLayout 0) s1.disk 4096 50 0
      (fun i _ hi => processRequest_disk_low (Reach_inv hreach0) (Reach_blocks_low hreach0)
        (by decide) (by decide) h1 _ _ (by
          show 4096 + i * 17 + 17 ≤ 8192
          omega))]
    exact demo_user_slot 0
  obtain ⟨s2, h2⟩ := userCreate_ok demoLayout 3 s1 "1".toList "bob".toList "secret".toList
    hinv hnone hslot
  have htree := userCreate_no_home hres h2
  refine ⟨s1, s2, hreach, ?_, by rw [htree]; exact hroot, by rw [htree]; exact hres⟩
  rw [processRequest_user_create demoLayout 3 s1 _ rfl]
  exact h2

/-- C21, amended. In every reachable state of the server in which `/home` resolves to a node
that has no child named `u` and a block is free, for a username `u` that the name field of a
directory entry holds whole (at most `nameCap` characters, none a zero byte): when `user_create`
of `u` answers with success, afterwards `/home` resolves to the same node, this node has one more child, a directory named
`u` without children whose start block is a block from 4 on that was free before the call,
and `free_blocks` is lower by exactly 1; and when `u` is not empty and contains no `/`, a
`dir_list` of `/` under a session of `u`, in any state with this tree, answers with the empty
list. -/
theorem C21_home_provisioning (L : Layout) (s s1 : ServerState) (hreach : Reach L s) (now : Nat)
    (req : Request) (hp : NodePtr) (homeNode : FSNode) (j : Nat)
    (hop : req.operation = "user_create".toList)
    (hhome : resolvePathPtr s.fileTree "/home".toList = some hp)
    (hnode : s.fileTree.node hp = some homeNode)
    (hfresh : ∀ c ∈ homeNode.children, c.metadata.name ≠ req.username)
    (hfree : s.blockManager.bitmap[j]? = some false)
    (hfit : FitsName L.nameCap req.username)
    (hc : processRequest L now s req = some (respUserCreated req.request_id, s1)) :
    ∃ (b : Nat) (child : FSNode),
      4 ≤ b ∧ s.blockManager.bitmap[b]? = some false ∧
      resolvePathPtr s1.fileTree "/home".toList = some hp ∧
      s1.fileTree.node hp = some (.mk homeNode.metadata (homeNode.children ++ [child])) ∧
      child.metadata.name = req.username ∧ child.metadata.type = EntryType.DIRECTORY ∧
      child.metadata.start_block = b ∧ child.children = [] ∧
      getFreeBlocksCount s1.blockManager + 1 = getFreeBlocksCount s.blockManager ∧
      (req.username ≠ [] → '/' ∉ req.username →
        ∀ (s2 : ServerState) (now2 : Nat) (req2 : Request),
          s2.fileTree = s1.fileTree →
          s2.active_sessions.lookup req2.session_id = some req.username →
          req2.operation = "dir_list".toList → req2.path = "/".toList →
          processRequest L now2 s2 req2
            = some (respDirList req2.request_id "[]".toList, s2)) := by
  have hinv := Reach_inv hreach
  have hrun : FreeRun s.blockManager.bitmap j 1 := by
    obtain ⟨hj, _⟩ := List.getElem?_eq_some_iff.mp hfree
    refine ⟨by omega, ?_⟩
    intro k hk1 hk2
    have : k = j := by omega
    rw [this]
    exact hfree
  have hst : storedName L.nameCap req.username = req.username := storedName_of_fits hfit
  obtain ⟨b, bm1, p, t1, off, ut1, h4, _, hb, hal, hadd, hnone, _, _, htree, hbm, _, _, _⟩ :=
    userCreate_facts hinv hop hhome hnode (by rw [hst]; exact hfresh) hrun hc
  obtain ⟨root, pn, hr, hn, _, hpeq, ht1⟩ := addChild_at hadd
  have hpn : pn = homeNode := by
    simp only [FileSystemTree.node, hr, Option.some_bind, hn, Option.some.injEq] at hnode
    exact hnode
  subst hpn
  have happ := nodeAt_appendChild root pn hp hn
    { userHomeEntry L req.username pn b with
      inode := s.fileTree.next_inode_counter, parent_inode := pn.metadata.inode }
  simp only [] at happ
  have hroot1 : s1.fileTree.root = some (modifyAt (fun n => FSNode.mk n.metadata (n.children ++
      [FSNode.mk { userHomeEntry L req.username pn b with
        inode := s.fileTree.next_inode_counter
        parent_inode := pn.metadata.inode } []])) hp root) := by
    rw [htree, ht1]
  refine ⟨b, FSNode.mk { userHomeEntry L req.username pn b with
      inode := s.fileTree.next_inode_counter, parent_inode := pn.metadata.inode } [],
    h4, hb, ?_, ?_, hst, rfl, rfl, rfl, ?_, ?_⟩
  · rw [htree]
    exact resolve_kept hhome hadd
  · simp only [FileSystemTree.node, hroot1, Option.some_bind]
    exact happ.1
  · rw [hbm]
    exact alloc_count hinv.alloc (by decide) hal (by omega)
  · intro hne hslash s2 now2 req2 ht2 hl hop2 hpath
    obtain ⟨info, hinfo⟩ := Reach_admin hreach
    have hu : req.username ≠ "admin".toList := by
      intro h
      rw [h, hinfo] at hnone
      cases hnone
    obtain ⟨hres, _, _, _, hnew⟩ := resolve_created hhome hadd
      (show (userHomeEntry L req.username pn b).name = req.username from hst) hne hslash
    rw [processRequest_dir_list L now2 s2 req2 hop2, hpath, translatePath_user_root hl hu,
      if_neg (by simp)]
    unfold dirList listDirectory
    rw [resolvePath_eq_node, ht2, htree, hres, Option.some_bind, hnew]
    rfl

/-- Witness of `C21_home_provisioning`: `bob` is created on the formatted volume. -/
theorem C21_home_provisioning_witness :
    ∃ s1, processRequest demoLayout 1 (freshState demoLayout 0)
        (accountRequest "user_create".toList "1".toList "bob".toList "secret".toList)
        = some (respUserCreated "1".toList, s1) ∧
      ∃ (b : Nat) (child : FSNode), 4 ≤ b ∧
        (freshState demoLayout 0).blockManager.bitmap[b]? = some false ∧
        resolvePathPtr s1.fileTree "/home".toList = some [0] ∧
        s1.fileTree.node [0] = some (.mk { homeDirEntry with inode := 1 } [child]) ∧
        child.metadata.name = "bob".toList ∧ child.metadata.type = EntryType.DIRECTORY ∧
        child.metadata.start_block = b ∧
        getFreeBlocksCount s1.blockManager + 1
          = getFreeBlocksCount (freshState demoLayout 0).blockManager := by
  obtain ⟨s1, h1⟩ := bobCreate_ok 0 1 "secret".toList
  obtain ⟨b, child, h4, hb, hres, hnode, hname, hty, hblk, _, hcount, _⟩ :=
    C21_home_provisioning demoLayout (freshState demoLayout 0) s1 (freshState_reach demoLayout 0)
      1 (accountRequest "user_create".toList "1".toList "bob".toList "secret".toList)
      [0] (.mk { homeDirEntry with inode := 1 } []) 4 rfl rfl rfl
      (fun c hc => by cases hc) (fresh_free_run.2 4 (le_refl _) (by decide))
      ⟨by decide, by decide⟩ h1
  exact ⟨s1, h1, b, child, h4, hb, hres, hnode, hname, hty, hblk, hcount⟩

/-! ### Claim C23: a user without a name -/

/-- On the formatted volume of the layout of the examples `user_create` answers with success for
every name the index does not hold. -/
theorem freshCreate_ok (now now1 : Nat) (rid u p : Str)
    (hu : (freshState demoLayout now).userTree.search u = none) :
    ∃ s1, processRequest demoLayout now1 (freshState demoLayout now)
        (accountRequest "user_create".toList rid u p) = some (respUserCreated rid, s1) := by
  rw [processRequest_user_create demoLayout now1 _ _ rfl]
  exact userCreate_ok demoLayout now1 (freshState demoLayout now) rid u p
    (freshState_inv demoLayout now) hu (demo_user_slot now)

/-- A record `search` returns is one of the records `getAllUsers` returns. -/
theorem search_mem {t : UserAVLTree} {u : Str} {info : UserInfo}
    (hs : SortedByName (inorderRec t.root)) (h : t.search u = some info) :
    info ∈ t.getAllUsers := by
  unfold UserAVLTree.search at h
  rw [searchRec_eq_findName t.root hs] at h
  exact List.mem_of_find?_eq_some h

/-- The bytes of the slot `user_create` has chosen hold the record afterwards, when the slot
lies below block 2. -/
theorem userCreate_slot {L : Layout} {now : Nat} {s s1 : ServerState} {rid u p : Str}
    (hinv : ServerInv s) (hlow : ∀ n ∈ s.fileTree.nodes, 2 ≤ n.metadata.start_block)
    (he : userCreate L now s rid u p = some (respUserCreated rid, s1)) :
    ∃ off, findUserSlot L s.disk s.header.block_size s.header.max_users 0 = some off ∧
      ∀ o n, o + n ≤ 8192 →
        s1.disk.read o n = (s.disk.write off (L.userBytes
          { username := storedName L.usernameCap u, password_hash := simpleHash p,
            role := UserRole.NORMAL,
            created_time := now, is_active := 1 })).read o n := by
  rcases userCreate_done he with ⟨_, hne⟩ | ⟨off, ut1, _, hslot, _, hprov, _⟩
  · exact absurd rfl hne
  · exact ⟨off, hslot, fun o n hon =>
      provisionHome_frame_low hprov hinv.alloc hlow hinv.block_size o n hon⟩

/-- C23, the behaviour of the code. On the formatted volume (layout of the examples) a
`user_create` with the empty username answers with success; the state it leaves is reachable,
its index holds a record with the empty username, which `getAllUsers` returns, and the slot at
offset 4113 of the user table, all zero before, holds the bytes of this record. -/
theorem C23_empty_username :
    ∃ s1, processRequest demoLayout 1 (freshState demoLayout 0)
        (accountRequest "user_create".toList "1".toList [] "secret".toList)
        = some (respUserCreated "1".toList, s1) ∧
      Reach demoLayout s1 ∧
      s1.userTree.search [] = some
        { username := [], password_hash := simpleHash "secret".toList, role := UserRole.NORMAL,
          created_time := 1, is_active := 1 } ∧
      (∃ info ∈ s1.userTree.getAllUsers, info.username = []) ∧
      (freshState demoLayout 0).disk.read 4113 17 = List.replicate 17 NUL ∧
      s1.disk.read 4113 17 = demoLayout.userBytes
        { username := [], password_hash := simpleHash "secret".toList, role := UserRole.NORMAL,
          created_time := 1, is_active := 1 } ∧
      s1.disk.read 4113 17 ≠ List.replicate 17 NUL := by
  obtain ⟨s1, h1⟩ := freshCreate_ok 0 1 "1".toList [] "secret".toList rfl
  have hreach0 := freshState_reach demoLayout 0
  have hreach : Reach demoLayout s1 := Reach.step 1 _ _ hreach0 h1
  obtain ⟨hrec, _⟩ := created_record (Reach_inv hreach0) rfl ⟨by decide, by decide⟩ h1
  have h1u := h1
  rw [processRequest_user_create demoLayout 1 _ _ rfl] at h1u
  obtain ⟨off, hoff, hdisk⟩ := userCreate_slot (Reach_inv hreach0) (Reach_blocks_low hreach0) h1u
  have hoff1 : findUserSlot demoLayout (freshState demoLayout 0).disk
      (freshState demoLayout 0).header.block_size (freshState demoLayout 0).header.max_users 0
      = some 4113 := demo_user_slot 0
  rw [hoff1, Option.some.injEq] at hoff
  subst hoff
  have hbytes : s1.disk.read 4113 17 = demoLayout.userBytes
      { username := [], password_hash := simpleHash "secret".toList, role := UserRole.NORMAL,
        created_time := 1, is_active := 1 } := by
    rw [hdisk 4113 17 (by decide)]
    exact Disk.read_write_same _ 4113 _
  refine ⟨s1, h1, hreach, hrec, ⟨_, search_mem (Reach_inv hreach).sorted hrec, rfl⟩, rfl, hbytes, ?_⟩
  rw [hbytes]
  decide

/-! ### Claim C24: the counts of `get_stats` -/

theorem getStats_counts (s : ServerState) :
    ∃ a b c, getStats s
      = respStats a b c (to_string (statsCounts s).1) (to_string (statsCounts s).2) :=
  ⟨_, _, _, rfl⟩

theorem type_cases (m : FileEntry) :
    m.type = EntryType.FILE ∨ m.type = EntryType.DIRECTORY := by
  cases m.type
  · exact Or.inl rfl
  · exact Or.inr rfl

mutual
/-- Below a node whose subtree has no file with children and no directory named `/`,
`countEntries` adds the number of files and the number of directories of the subtree. -/
theorem countEntries_eq : ∀ (n : FSNode) (acc : Nat × Nat),
    (∀ x ∈ n.nodes, x.metadata.type = EntryType.FILE → x.children = []) →
    (∀ x ∈ n.nodes, x.metadata.type = EntryType.DIRECTORY → x.metadata.name ≠ "/".toList) →
    countEntries n acc
      = (acc.1 + (n.nodes.filter (fun x => decide (x.metadata.type = EntryType.FILE))).length,
         acc.2 + (n.nodes.filter
            (fun x => decide (x.metadata.type = EntryType.DIRECTORY))).length)
  | .mk m cs, (f, d), hfile, hdir => by
    rw [nodes_mk] at hfile hdir ⊢
    rcases type_cases m with ht | ht
    · have hcs : cs = [] := hfile (.mk m cs) (List.mem_cons_self _ _) ht
      subst hcs
      have hnd : ¬ (m.type = EntryType.DIRECTORY) := by rw [ht]; decide
      have e1 : countEntries (.mk m []) (f, d) = (f + 1, d) := by
        simp only [countEntries, hnd, if_false]
      rw [e1, nodesL_nil, List.filter_cons_of_pos (by simpa using ht),
        List.filter_cons_of_neg (by simpa using hnd)]
      rfl
    · have hname : m.name ≠ "/".toList := hdir (.mk m cs) (List.mem_cons_self _ _) ht
      have hnf : ¬ (m.type = EntryType.FILE) := by rw [ht]; decide
      have ih := countEntriesL_eq cs (f, d + 1)
        (fun x hx => hfile x (List.mem_cons_of_mem _ hx))
        (fun x hx => hdir x (List.mem_cons_of_mem _ hx))
      have e1 : countEntries (.mk m cs) (f, d) = countEntriesL cs (f, d + 1) := by
        simp only [countEntries, ht, if_true, hname, ne_eq, not_false_eq_true]
      rw [e1, ih, List.filter_cons_of_neg (by simpa using hnf),
        List.filter_cons_of_pos (by simpa using ht), List.length_cons]
      simp only [Prod.mk.injEq, true_and]
      omega
/-- The loop over the children, as `countEntries_eq`. -/
theorem countEntriesL_eq : ∀ (cs : List FSNode) (acc : Nat × Nat),
    (∀ x ∈ nodesL cs, x.metadata.type = EntryType.FILE → x.children = []) →
    (∀ x ∈ nodesL cs, x.metadata.type = EntryType.DIRECTORY → x.metadata.name ≠ "/".toList) →
    countEntriesL cs acc
      = (acc.1 + ((nodesL cs).filter
            (fun x => decide (x.metadata.type = EntryType.FILE))).length,
         acc.2 + ((nodesL cs).filter
            (fun x => decide (x.metadata.type = EntryType.DIRECTORY))).length)
  | [], acc, _, _ => by
    simp only [countEntriesL, nodesL_nil, List.filter_nil, List.length_nil, Nat.add_zero]
  | c :: cs, acc, hfile, hdir => by
    rw [nodesL_cons] at hfile hdir ⊢
    have h1 := countEntries_eq c acc
      (fun x hx => hfile x (List.mem_append_left _ hx))
      (fun x hx => hdir x (List.mem_append_left _ hx))
    have h2 := countEntriesL_eq cs (countEntries c acc)
      (fun x hx => hfile x (List.mem_append_right _ hx))
      (fun x hx => hdir x (List.mem_append_right _ hx))
    have e : countEntriesL (c :: cs) acc = countEntriesL cs (countEntries c acc) := by
      simp only [countEntriesL]
    rw [e, h2, h1, List.filter_append, List.filter_append, List.length_append,
      List.length_append, Nat.add_assoc, Nat.add_assoc]
end

/-- In every reachable state the tree has a root, and its entry is the root entry of the
format. -/
theorem Reach_root {L : Layout} {s : ServerState} (h : Reach L s) :
    ∃ root, s.fileTree.root = some root ∧ root.metadata = rootDirEntry := by
  induction h with
  | format now hf =>
    rw [formatVolume_eq, Option.some.injEq] at hf
    subst hf
    exact ⟨_, rfl, rfl⟩
  | @step now req resp s s1 hprev he ih =>
    obtain ⟨root, hr, hm⟩ := ih
    rcases processRequest_tree (Reach_inv hprev) he with hsame | ⟨pp, entry, p, hadd, _, _⟩ |
      ⟨p, node, b, _, _, _, hrm⟩
    · exact ⟨root, by rw [hsame]; exact hr, hm⟩
    · obtain ⟨root0, pn, hr0, _, _, _, ht1⟩ := addChild_at hadd
      rw [hr, Option.some.injEq] at hr0
      subst hr0
      refine ⟨_, by rw [ht1], ?_⟩
      rw [modifyAt_metadata
        (fun n => FSNode.mk n.metadata (n.children ++
          [FSNode.mk { entry with inode := s.fileTree.next_inode_counter,
                                  parent_inode := pn.metadata.inode } []]))
        (fun _ => rfl) pp root]
      exact hm
    · cases hq : parentPtr p with
      | none =>
        rw [hq] at hrm
        simp only [removeChild, Option.some.injEq, Prod.mk.injEq] at hrm
        exact ⟨root, by rw [← hrm.2]; exact hr, hm⟩
      | some q =>
        rw [hq] at hrm
        cases hqn : s.fileTree.node q with
        | none =>
          simp only [removeChild, hqn] at hrm
          cases hrm
        | some qn =>
          simp only [removeChild, hqn, Option.some.injEq, Prod.mk.injEq] at hrm
          refine ⟨modifyAt (fun n => FSNode.mk n.metadata
            (removeLoop node.metadata.name n.children).2) q root,
            by rw [← hrm.2, hr]; rfl, ?_⟩
          rw [modifyAt_metadata
            (fun n => FSNode.mk n.metadata (removeLoop node.metadata.name n.children).2)
            (fun _ => rfl) q root]
          exact hm

/-- The last figure of the response of `get_stats` is the last figure of the count of
directories. -/
theorem respStats_last {a b c f d a1 b1 c1 f1 d1 : Str} (hd : d ≠ []) (hd1 : d1 ≠ [])
    (h : respStats a b c f d = respStats a1 b1 c1 f1 d1) : d.getLast? = d1.getLast? := by
  unfold respStats at h
  have h1 := List.append_cancel_right h
  have h2 := congrArg List.getLast? h1
  rw [List.getLast?_append_of_ne_nil _ hd, List.getLast?_append_of_ne_nil _ hd1] at h2
  exact h2

/-- Counterexample to C24 as stated: on the formatted volume `user_create` of the username `/`
answers with success; in the state it leaves, which is reachable, the tree has two directories
other than the root (`home` and the home directory named `/`), `get_stats` counts one, and its
response is not the response with the count of the specification. -/
theorem C24_counterexample :
    ∃ s1, processRequest demoLayout 1 (freshState demoLayout 0)
        (accountRequest "user_create".toList "1".toList "/".toList "secret".toList)
        = some (respUserCreated "1".toList, s1) ∧
      Reach demoLayout s1 ∧ statsCounts s1 = (0, 1) ∧ dirCountSpec s1.fileTree = 2 ∧
      ∀ a b c, getStats s1
        ≠ respStats a b c (to_string (fileCountSpec s1.fileTree))
            (to_string (dirCountSpec s1.fileTree)) := by
  obtain ⟨s1, h1⟩ := freshCreate_ok 0 1 "1".toList "/".toList "secret".toList rfl
  have hreach0 := freshState_reach demoLayout 0
  have hreach : Reach demoLayout s1 := Reach.step 1 _ _ hreach0 h1
  obtain ⟨b, bm1, p, t1, off, ut1, _, _, _, _, hadd, _, _, _, htree, _⟩ :=
    @userCreate_facts demoLayout 1 (freshState demoLayout 0) s1
      (accountRequest "user_create".toList "1".toList "/".toList "secret".toList) [0]
      (.mk { homeDirEntry with inode := 1 } []) 4
      (Reach_inv hreach0) rfl rfl rfl (fun c hc => by cases hc) fresh_free_run h1
  obtain ⟨root, pn, hr, hn, _, _, ht1⟩ := addChild_at hadd
  have hroot : root = .mk rootDirEntry [.mk { homeDirEntry with inode := 1 } []] :=
    (Option.some.inj hr).symm
  subst hroot
  have hpn : pn = .mk { homeDirEntry with inode := 1 } [] := (Option.some.inj hn).symm
  subst hpn
  have hroot1 : s1.fileTree.root = some (.mk rootDirEntry [.mk { homeDirEntry with inode := 1 }
      [.mk { userHomeEntry demoLayout "/".toList (.mk { homeDirEntry with inode := 1 } []) b with
          inode := 2, parent_inode := 1 } []]]) := by
    rw [htree, ht1]
    show some (modifyAt _ [0] (FSNode.mk rootDirEntry [.mk { homeDirEntry with inode := 1 } []]))
      = _
    rw [modifyAt_cons _ 0 [] rootDirEntry _ (.mk { homeDirEntry with inode := 1 } []) rfl,
      modifyAt_nil]
    rfl
  have hcounts : statsCounts s1 = (0, 1) := by
    unfold statsCounts
    rw [hroot1]
    simp [countEntries, countEntriesL, rootDirEntry, homeDirEntry, userHomeEntry, storedName,
      cstr, demoLayout, NUL]
  have hdirs : dirCountSpec s1.fileTree = 2 := by
    unfold dirCountSpec
    rw [hroot1]
    simp only [children_mk, nodesL_cons, nodes_mk, nodesL_nil, List.append_nil]
    rfl
  refine ⟨s1, h1, hreach, hcounts, hdirs, ?_⟩
  intro a b1 c h
  obtain ⟨a1, b2, c1, hg⟩ := getStats_counts s1
  rw [hg, hcounts, hdirs] at h
  have := respStats_last (by decide) (by decide) h
  revert this
  decide

/-- C24, amended. In every reachable state of the server in which no `FILE` node has children
and no directory other than the root is named `/`, the counts of `get_stats` are the number of
`FILE` nodes of the entire tree and the number of `DIRECTORY` nodes of the entire tree other
than the root, and these are the `total_files` and `total_directories` of its response. -/
theorem C24_stats_counts (L : Layout) (s : ServerState) (hreach : Reach L s)
    (hfiles : ∀ n ∈ s.fileTree.nodes, n.metadata.type = EntryType.FILE → n.children = [])
    (hslash : ∀ root, s.fileTree.root = some root → ∀ n ∈ nodesL root.children,
      n.metadata.type = EntryType.DIRECTORY → n.metadata.name ≠ "/".toList) :
    statsCounts s = (fileCountSpec s.fileTree, dirCountSpec s.fileTree) ∧
    ∀ (now : Nat) (req : Request), req.operation = "get_stats".toList →
      ∃ a b c, processRequest L now s req
        = some (respStats a b c (to_string (fileCountSpec s.fileTree))
            (to_string (dirCountSpec s.fileTree)), s) := by
  obtain ⟨root, hr, hm⟩ := Reach_root hreach
  have hcounts : statsCounts s = (fileCountSpec s.fileTree, dirCountSpec s.fileTree) := by
    cases root with
    | mk m cs =>
      rw [metadata_mk] at hm
      subst hm
      have hnodes : s.fileTree.nodes = FSNode.mk rootDirEntry cs :: nodesL cs := by
        rw [nodes_of_root hr, nodes_mk]
      have hL := countEntriesL_eq cs (0, 0)
        (fun x hx => hfiles x (by rw [hnodes]; exact List.mem_cons_of_mem _ hx))
        (fun x hx => hslash _ hr x hx)
      have e1 : countEntries (.mk rootDirEntry cs) (0, 0) = countEntriesL cs (0, 0) := by
        simp [countEntries, rootDirEntry]
      unfold statsCounts fileCountSpec dirCountSpec
      rw [hnodes]
      simp only [hr, e1, hL, children_mk, Nat.zero_add]
      rw [List.filter_cons_of_neg (by
        rw [metadata_mk]
        decide)]
  refine ⟨hcounts, ?_⟩
  intro now req hop
  obtain ⟨a, b, c, hg⟩ := getStats_counts s
  rw [hcounts] at hg
  exact ⟨a, b, c, by rw [processRequest_get_stats L now s req hop, hg]⟩

/-- Witness of `C24_stats_counts`: the formatted volume, with no file and the directory
`home`. -/
theorem C24_stats_counts_witness :
    statsCounts (freshState demoLayout 0) = (0, 1) ∧
    statsCounts (freshState demoLayout 0)
      = (fileCountSpec (freshState demoLayout 0).fileTree,
         dirCountSpec (freshState demoLayout 0).fileTree) := by
  have hnodes : (freshState demoLayout 0).fileTree.nodes
      = [.mk rootDirEntry [.mk { homeDirEntry with inode := 1 } []],
         .mk { homeDirEntry with inode := 1 } []] := by
    have hroot : (freshState demoLayout 0).fileTree.root
        = some (.mk rootDirEntry [.mk { homeDirEntry with inode := 1 } []]) := rfl
    rw [nodes_of_root hroot, nodes_mk, nodesL_cons, nodes_mk, nodesL_nil]
    rfl
  refine ⟨countEntries_fresh, (C24_stats_counts demoLayout (freshState demoLayout 0)
    (freshState_reach demoLayout 0) ?_ ?_).1⟩
  · intro n hn ht
    rw [hnodes] at hn
    simp only [List.mem_cons, List.mem_singleton, List.not_mem_nil, or_false] at hn
    rcases hn with h | h
    · rw [h] at ht
      cases ht
    · rw [h]
      rfl
  · intro root hr n hn _
    have hroot : root = .mk rootDirEntry [.mk { homeDirEntry with inode := 1 } []] :=
      (Option.some.inj hr).symm
    subst hroot
    rw [children_mk, nodesL_cons, nodes_mk, nodesL_nil] at hn
    simp only [List.append_nil, List.mem_singleton] at hn
    rw [hn]
    decide

/-! ### The layout that keeps every field -/

theorem natBytes_length (w n : Nat) : (natBytes w n).length = w := by
  simp [natBytes]

theorem padTo_eq (n : Nat) (s : Str) (h : s.length ≤ n) :
    padTo n s = s ++ List.replicate (n - s.length) NUL := by
  unfold padTo
  rw [List.take_append_eq_append_take, List.take_of_length_le h, List.take_replicate]
  congr 2
  omega

theorem cstr_append_zeros (k : Nat) : ∀ s : Str, NUL ∉ s → cstr (s ++ List.replicate k NUL) = s
  | [], _ => by
    cases k with
    | zero => rfl
    | succ k => simp [cstr, List.replicate_succ]
  | c :: rest, h => by
    have hc : c ≠ NUL := fun e => h (e ▸ List.mem_cons_self _ _)
    have hr : NUL ∉ rest := fun e => h (List.mem_cons_of_mem _ e)
    have ih := cstr_append_zeros k rest hr
    unfold cstr at ih ⊢
    simp only [List.cons_append, List.takeWhile_cons, bne_iff_ne, ne_eq, hc, not_false_eq_true,
      if_true, ih, decide_True]

/-- A name that fits its field is read back from the field. -/
theorem cstr_padTo (n : Nat) (s : Str) (h : s.length ≤ n) (hn : NUL ∉ s) :
    cstr (padTo n s) = s := by
  rw [padTo_eq n s h]
  exact cstr_append_zeros _ s hn

theorem fullLayout_user_len (u : UserInfo) : (fullLayout.userBytes u).length = 59 := by
  show (padTo 16 u.username ++ (_ :: _ :: (natBytes 8 u.created_time
    ++ padTo 33 u.password_hash))).length = 59
  simp only [List.length_append, List.length_cons, padTo_length, natBytes_length]

theorem fullLayout_userLawful : fullLayout.UserLawful 16 := by
  refine ⟨fullLayout_user_len, by decide, by decide, by decide, ?_, by decide⟩
  intro u hlen hnul hact
  have htake : (fullLayout.userBytes u).take 16 = padTo 16 u.username := by
    show (padTo 16 u.username ++ _).take 16 = _
    rw [List.take_left' (padTo_length 16 _)]
  have h16 : (fullLayout.userBytes u).getD 16 NUL = Char.ofNat (u.is_active % 256) := by
    show (padTo 16 u.username ++ (_ :: _)).getD 16 NUL = _
    rw [List.getD_append_right _ _ _ _ (by rw [padTo_length]), padTo_length]
    rfl
  have h17 : (fullLayout.userBytes u).getD 17 NUL
      = (if u.role = UserRole.ADMIN then Char.ofNat 1 else Char.ofNat 2) := by
    show (padTo 16 u.username ++ (_ :: _ :: _)).getD 17 NUL = _
    rw [List.getD_append_right _ _ _ _ (by rw [padTo_length]; decide), padTo_length]
    rfl
  refine ⟨?_, ?_, ?_⟩
  · show cstr ((fullLayout.userBytes u).take 16) = u.username
    rw [htake]
    exact cstr_padTo 16 _ hlen hnul
  · show ((fullLayout.userBytes u).getD 16 NUL).toNat = u.is_active
    rw [h16]
    have : u.is_active = 0 ∨ u.is_active = 1 := by omega
    rcases this with h | h <;> rw [h] <;> rfl
  · show (if (fullLayout.userBytes u).getD 17 NUL = Char.ofNat 1 then UserRole.ADMIN
      else UserRole.NORMAL) = u.role
    rw [h17]
    cases u.role <;> rfl

theorem fullLayout_lawful : fullLayout.Lawful := by
  refine ⟨by decide, ?_, ?_⟩
  · intro e
    show (padTo 16 e.name ++ (_ :: (natBytes 8 e.size ++ natBytes 4 e.permissions
      ++ padTo 16 e.owner ++ natBytes 4 e.inode ++ natBytes 4 e.parent_inode
      ++ natBytes 4 e.start_block))).length = 57
    simp only [List.length_append, List.length_cons, padTo_length, natBytes_length]
  · intro bs hbs
    show cstr (bs.take 16) = [] ↔ bs.head? = some NUL
    cases bs with
    | nil => simp [fullLayout] at hbs
    | cons c rest =>
      simp only [List.take_succ_cons, cstr, List.takeWhile_cons, List.head?_cons,
        Option.some.injEq]
      by_cases hc : c = NUL
      · simp [hc]
      · simp [hc]

theorem fullLayout_headerLawful : fullLayout.HeaderLawful := by
  refine ⟨?_, by decide⟩
  intro h
  show (padTo 8 h.magic ++ natBytes 4 h.format_version ++ natBytes 8 h.total_size
    ++ natBytes 8 h.header_size ++ natBytes 8 h.block_size
    ++ natBytes 8 h.user_table_offset ++ natBytes 4 h.max_users).length = 48
  simp only [List.length_append, padTo_length, natBytes_length]

theorem fullLayout_admin : fullLayout.userOfBytes (fullLayout.userBytes (adminInfo 0))
    = adminInfo 0 := by decide

theorem fullLayout_home : fullLayout.entryOfBytes (fullLayout.entryBytes homeDirEntry)
    = homeDirEntry := by decide

theorem fullLayout_header : fullHeaderOfBytes (fullLayout.headerBytes formatHeader)
    = formatHeader := by decide

/-! ### Claim C22: the user table on the volume -/

theorem slot_bound {sz i : Nat} (h : 50 * sz ≤ 4096) (hi : i < 50) :
    4096 + i * sz + sz ≤ 8192 := by
  have h1 := Nat.mul_le_mul_right sz (Nat.succ_le_of_lt hi)
  rw [Nat.succ_mul] at h1
  omega

theorem userSlot_format (L : Layout) (d : Disk) (i : Nat) :
    userSlot L formatHeader d i
      = L.userOfBytes (d.read (4096 + i * L.sizeofUserInfo) L.sizeofUserInfo) := rfl

/-- The slot a record was written to holds the record. -/
theorem userSlot_write_same {L : Layout} {cap : Nat} (hU : L.UserLawful cap) (d : Disk)
    (k : Nat) (r : UserInfo) :
    userSlot L formatHeader (d.write (4096 + k * L.sizeofUserInfo) (L.userBytes r)) k
      = L.userOfBytes (L.userBytes r) := by
  have h := Disk.read_write_same d (4096 + k * L.sizeofUserInfo) (L.userBytes r)
  rw [hU.user_len] at h
  rw [userSlot_format, h]

/-- A write to a slot leaves the other slots as they are. -/
theorem userSlot_write_other {L : Layout} {cap : Nat} (hU : L.UserLawful cap) (d : Disk)
    (k i : Nat) (r : UserInfo) (h : i ≠ k) :
    userSlot L formatHeader (d.write (4096 + k * L.sizeofUserInfo) (L.userBytes r)) i
      = userSlot L formatHeader d i := by
  rw [userSlot_format, userSlot_format, Disk.read_write_disjoint]
  rw [hU.user_len]
  rcases Nat.lt_or_gt_of_ne h with hlt | hgt
  · left
    have h1 := Nat.mul_le_mul_right L.sizeofUserInfo (Nat.succ_le_of_lt hlt)
    rw [Nat.succ_mul] at h1
    omega
  · right
    have h1 := Nat.mul_le_mul_right L.sizeofUserInfo (Nat.succ_le_of_lt hgt)
    rw [Nat.succ_mul] at h1
    omega

/-- The slot the loop of `user_create` returns is a slot of the table that is free. -/
theorem findUserSlot_spec (L : Layout) (d : Disk) (u : Nat) :
    ∀ (n k off : Nat), findUserSlot L d u n k = some off →
      ∃ i, k ≤ i ∧ i < k + n ∧ off = u + i * L.sizeofUserInfo ∧
        ((L.userOfBytes (d.read (u + i * L.sizeofUserInfo) L.sizeofUserInfo)).username = [] ∨
         (L.userOfBytes (d.read (u + i * L.sizeofUserInfo) L.sizeofUserInfo)).is_active = 0)
  | 0, _, _, h => by cases h
  | n + 1, k, off, h => by
    simp only [findUserSlot] at h
    split at h
    · rename_i hfree
      simp only [Option.some.injEq] at h
      exact ⟨k, le_refl _, by omega, h.symm, hfree⟩
    · obtain ⟨i, h1, h2, h3⟩ := findUserSlot_spec L d u n (k + 1) off h
      exact ⟨i, by omega, by omega, h3⟩

/-- The loop of `user_create` finds a slot when a slot of the table is free. -/
theorem findUserSlot_free (L : Layout) (d : Disk) (u : Nat) :
    ∀ (n k i : Nat), k ≤ i → i < k + n →
      ((L.userOfBytes (d.read (u + i * L.sizeofUserInfo) L.sizeofUserInfo)).username = [] ∨
       (L.userOfBytes (d.read (u + i * L.sizeofUserInfo) L.sizeofUserInfo)).is_active = 0) →
      ∃ off, findUserSlot L d u n k = some off
  | 0, k, i, h1, h2, _ => by omega
  | n + 1, k, i, h1, h2, hfree => by
    simp only [findUserSlot]
    split
    · exact ⟨_, rfl⟩
    · rename_i hk
      have hne : i ≠ k := fun e => hk (e ▸ hfree)
      exact findUserSlot_free L d u n (k + 1) i (by omega) (by omega) hfree

/-- The slot the loop of `user_delete` returns is a slot of the table with the name looked
for. -/
theorem findUserNamed_spec (L : Layout) (d : Disk) (u : Nat) (target : Str) :
    ∀ (n k off : Nat) (temp : UserInfo), findUserNamed L d u target n k = some (off, temp) →
      ∃ i, k ≤ i ∧ i < k + n ∧ off = u + i * L.sizeofUserInfo ∧
        temp = L.userOfBytes (d.read (u + i * L.sizeofUserInfo) L.sizeofUserInfo) ∧
        temp.username = target
  | 0, _, _, _, h => by cases h
  | n + 1, k, off, temp, h => by
    simp only [findUserNamed] at h
    split at h
    · rename_i hname
      simp only [Option.some.injEq, Prod.mk.injEq] at h
      refine ⟨k, le_refl _, by omega, h.1.symm, h.2.symm, ?_⟩
      rw [← h.2]
      exact hname
    · obtain ⟨i, h1, h2, h3⟩ := findUserNamed_spec L d u target n (k + 1) off temp h
      exact ⟨i, by omega, by omega, h3⟩

/-- The invariant of the user table is kept by a change of one slot other than slot 0, beside
an index that keeps its names, when the new record of the slot fits and, if it is active, has a
name the index did not hold and holds now. -/
theorem TableInv_update {L : Layout} {cap : Nat} {d d1 : Disk} {t t1 : UserAVLTree} {k : Nat}
    (hinv : TableInv L cap d t) (hk0 : k ≠ 0)
    (hgrow : ∀ v, (t.search v).isSome = true → (t1.search v).isSome = true)
    (hother : ∀ i, i < 50 → i ≠ k → userSlot L formatHeader d1 i = userSlot L formatHeader d i)
    (hfit : FitsName cap (userSlot L formatHeader d1 k).username ∧
      (userSlot L formatHeader d1 k).is_active ≤ 1)
    (hnew : (userSlot L formatHeader d1 k).is_active = 1 →
      t.search (userSlot L formatHeader d1 k).username = none ∧
      (t1.search (userSlot L formatHeader d1 k).username).isSome = true) :
    TableInv L cap d1 t1 := by
  refine ⟨?_, ?_, ?_, ?_⟩
  · intro i hi
    by_cases hik : i = k
    · rw [hik]
      exact hfit
    · rw [hother i hi hik]
      exact hinv.fits i hi
  · intro i hi hact
    by_cases hik : i = k
    · rw [hik] at hact ⊢
      exact (hnew hact).2
    · rw [hother i hi hik] at hact ⊢
      exact hgrow _ (hinv.known i hi hact)
  · intro i j hi hj hai haj hname
    by_cases hik : i = k
    · by_cases hjk : j = k
      · rw [hik, hjk]
      · exfalso
        rw [hik] at hai hname
        rw [hother j hj hjk] at haj hname
        have h1 := hinv.known j hj haj
        rw [← hname, (hnew hai).1] at h1
        cases h1
    · by_cases hjk : j = k
      · exfalso
        rw [hjk] at haj hname
        rw [hother i hi hik] at hai hname
        have h1 := hinv.known i hi hai
        rw [hname, (hnew haj).1] at h1
        cases h1
      · rw [hother i hi hik] at hai hname
        rw [hother j hj hjk] at haj hname
        exact hinv.unique i j hi hj hai haj hname
  · rw [hother 0 (by decide) (fun e => hk0 e.symm)]
    exact hinv.admin

/-- The invariant of the user table reads the volume only through the slots of the table. -/
theorem TableInv_congr {L : Layout} {cap : Nat} {d d1 : Disk} {t : UserAVLTree}
    (hinv : TableInv L cap d t)
    (hsame : ∀ i, i < 50 → userSlot L formatHeader d1 i = userSlot L formatHeader d i) :
    TableInv L cap d1 t := by
  refine ⟨?_, ?_, ?_, ?_⟩
  · intro i hi
    rw [hsame i hi]
    exact hinv.fits i hi
  · intro i hi hact
    rw [hsame i hi] at hact ⊢
    exact hinv.known i hi hact
  · intro i j hi hj hai haj hname
    rw [hsame i hi] at hai hname
    rw [hsame j hj] at haj hname
    exact hinv.unique i j hi hj hai haj hname
  · rw [hsame 0 (by decide)]
    exact hinv.admin

/-- Slots of the table are equal on volumes with the same bytes below block 2. -/
theorem userSlot_low {L : Layout} {cap : Nat} (hU : L.UserLawful cap) {d d1 : Disk}
    (h : ∀ o n, o + n ≤ 8192 → d1.read o n = d.read o n) (i : Nat) (hi : i < 50) :
    userSlot L formatHeader d1 i = userSlot L formatHeader d i := by
  rw [userSlot_format, userSlot_format, h _ _ (slot_bound hU.table_fits hi)]

/-- On the formatted volume slot 0 of the user table holds the bytes of the record of
`admin`. -/
theorem formatDisk_admin_slot {L : Layout} {cap : Nat} (hU : L.UserLawful cap) (now : Nat) :
    (formatDisk L now).read 4096 L.sizeofUserInfo = L.userBytes (adminInfo now) := by
  have hfit := hU.table_fits
  have e0 : formatHeader.user_table_offset = 4096 := rfl
  have e1 : formatHeader.total_size - 1 = 104857599 := rfl
  have e2 : formatHeader.block_size * 3 = 12288 := rfl
  have e3 : formatHeader.block_size * 2 = 8192 := rfl
  unfold formatDisk
  simp only [e0, e1, e2, e3]
  rw [Disk.read_write_disjoint _ _ _ _ _ (Or.inl (by omega)),
    Disk.read_write_disjoint _ _ _ _ _ (Or.inl (by omega)),
    Disk.read_write_disjoint _ _ _ _ _ (Or.inl (by omega)),
    Disk.read_write_disjoint _ _ _ _ _ (Or.inl (by omega))]
  have h := Disk.read_write_same
    (Disk.write (fun _ => NUL) 0 (L.headerBytes formatHeader)) 4096
    (L.userBytes (adminInfo now))
  rw [hU.user_len] at h
  exact h

/-- On the formatted volume every slot of the user table but the first holds zero bytes. -/
theorem formatDisk_user_slot {L : Layout} {cap : Nat} (hH : L.HeaderLawful)
    (hU : L.UserLawful cap) (now k : Nat) (h1 : 1 ≤ k) (h2 : k < 50) :
    (formatDisk L now).read (4096 + k * L.sizeofUserInfo) L.sizeofUserInfo
      = List.replicate L.sizeofUserInfo NUL := by
  have hb := slot_bound hU.table_fits h2
  have hk : L.sizeofUserInfo ≤ k * L.sizeofUserInfo := Nat.le_mul_of_pos_left _ h1
  have hh := hH.header_fits
  have e0 : formatHeader.user_table_offset = 4096 := rfl
  have e1 : formatHeader.total_size - 1 = 104857599 := rfl
  have e2 : formatHeader.block_size * 3 = 12288 := rfl
  have e3 : formatHeader.block_size * 2 = 8192 := rfl
  unfold formatDisk
  simp only [e0, e1, e2, e3]
  rw [Disk.read_write_disjoint _ _ _ _ _ (Or.inl (by omega)),
    Disk.read_write_disjoint _ _ _ _ _ (Or.inl (by omega)),
    Disk.read_write_disjoint _ _ _ _ _ (Or.inl (by omega)),
    Disk.read_write_disjoint _ _ _ _ _ (Or.inl (by omega)),
    Disk.read_write_disjoint _ _ _ _ _ (Or.inr (by rw [hU.user_len]; omega)),
    Disk.read_write_disjoint _ _ _ _ _ (Or.inr (by rw [hH.header_len]; omega))]
  apply List.ext_getElem?
  intro i
  by_cases hi : i < L.sizeofUserInfo
  · rw [Disk.read_getElem? _ _ _ _ hi, List.getElem?_replicate, if_pos hi]
  · rw [List.getElem?_eq_none (by rw [Disk.read_length]; omega),
      List.getElem?_eq_none (by rw [List.length_replicate]; omega)]

theorem admin_fits : NUL ∉ "admin".toList := by decide

/-- The user table of the formatted volume satisfies its invariant. -/
theorem TableInv_format {L : Layout} {cap : Nat} (hH : L.HeaderLawful)
    (hU : L.UserLawful cap) (now : Nat) :
    TableInv L cap (formatDisk L now) (freshState L now).userTree := by
  obtain ⟨ha1, ha2, ha3⟩ := hU.round_trip (adminInfo now) hU.admin_fits admin_fits
    (le_refl 1)
  have h0 : userSlot L formatHeader (formatDisk L now) 0
      = L.userOfBytes (L.userBytes (adminInfo now)) := by
    rw [userSlot_format, Nat.zero_mul, Nat.add_zero, formatDisk_admin_slot hU]
  have hz : ∀ i, 1 ≤ i → i < 50 → userSlot L formatHeader (formatDisk L now) i
      = L.userOfBytes (List.replicate L.sizeofUserInfo NUL) := by
    intro i h1 h2
    rw [userSlot_format, formatDisk_user_slot hH hU now i h1 h2]
  have hact : ∀ i, 1 ≤ i → i < 50 →
      (userSlot L formatHeader (formatDisk L now) i).is_active ≠ 1 := by
    intro i h1 h2 h
    rw [hz i h1 h2, hU.zero_active] at h
    cases h
  refine ⟨?_, ?_, ?_, ?_⟩
  · intro i hi
    by_cases h : i = 0
    · rw [h, h0, ha1, ha2]
      exact ⟨⟨hU.admin_fits, admin_fits⟩, le_refl 1⟩
    · rw [hz i (by omega) hi, hU.zero_name, hU.zero_active]
      exact ⟨⟨Nat.zero_le _, List.not_mem_nil _⟩, Nat.zero_le _⟩
  · intro i hi hai
    by_cases h : i = 0
    · rw [h, h0, ha1]
      rfl
    · exact absurd hai (hact i (by omega) hi)
  · intro i j hi hj hai haj _
    by_cases h : i = 0
    · by_cases h' : j = 0
      · rw [h, h']
      · exact absurd haj (hact j (by omega) hj)
    · exact absurd hai (hact i (by omega) hi)
  · rw [h0]
    exact ⟨ha1, ha2, ha3⟩

/-- Home provisioning leaves the header and the user index as they are. -/
theorem provisionHome_keeps {L : Layout} {s s1 : ServerState} {u : Str}
    (hprov : provisionHome L s u = some s1) :
    s1.header = s.header ∧ s1.userTree = s.userTree := by
  rcases provisionHome_done hprov with ⟨_, hs⟩ |
    ⟨hp, homeNode, db, bm1, _, hnode, hal, ⟨_, hs⟩ | ⟨hdb, r, t1, _, ⟨_, hs⟩ | ⟨p, _, hs⟩⟩⟩
  · rw [hs]
    exact ⟨rfl, rfl⟩
  · rw [hs]
    exact ⟨rfl, rfl⟩
  · rw [hs]
    exact ⟨rfl, rfl⟩
  · rw [hs]
    exact ⟨rfl, rfl⟩

/-- What `user_create` does to the user table of a reachable state with the header of the
format: nothing, or the record is written to a free slot of the table and inserted into the
index, which did not hold its name. -/
theorem userCreate_table {L : Layout} {cap : Nat} (hU : L.UserLawful cap) {now : Nat}
    {s s1 : ServerState} {rid u p resp : Str} (hinv : ServerInv s)
    (hlow : ∀ n ∈ s.fileTree.nodes, 2 ≤ n.metadata.start_block)
    (hhdr : s.header = formatHeader)
    (he : userCreate L now s rid u p = some (resp, s1)) :
    (s1 = s ∧ resp ≠ respUserCreated rid) ∨
    ∃ k, k < 50 ∧
      findUserSlot L s.disk 4096 50 0 = some (4096 + k * L.sizeofUserInfo) ∧
      ((userSlot L formatHeader s.disk k).username = [] ∨
        (userSlot L formatHeader s.disk k).is_active = 0) ∧
      s.userTree.search u = none ∧
      s.userTree.insert { username := storedName L.usernameCap u, password_hash := simpleHash p,
                          role := UserRole.NORMAL,
                          created_time := now, is_active := 1 } = some s1.userTree ∧
      s1.header = s.header ∧
      userSlot L formatHeader s1.disk k = L.userOfBytes (L.userBytes
        { username := storedName L.usernameCap u, password_hash := simpleHash p,
          role := UserRole.NORMAL,
          created_time := now, is_active := 1 }) ∧
      ∀ i, i < 50 → i ≠ k →
        userSlot L formatHeader s1.disk i = userSlot L formatHeader s.disk i := by
  rcases userCreate_done he with hs | ⟨off, ut1, hnone, hslot, hins, hprov, _⟩
  · exact Or.inl hs
  · right
    have hbs : s.header.block_size = 4096 := hinv.block_size
    have hmu : s.header.max_users = 50 := by rw [hhdr]; rfl
    rw [hbs, hmu] at hslot
    obtain ⟨k, _, hk, hoff, hfree⟩ := findUserSlot_spec L s.disk 4096 50 0 off hslot
    have hk50 : k < 50 := by omega
    obtain ⟨hh, hut⟩ := provisionHome_keeps hprov
    have hread := fun o n (hon : o + n ≤ 8192) =>
      provisionHome_frame_low hprov hinv.alloc hlow hinv.block_size o n hon
    refine ⟨k, hk50, hoff ▸ hslot, hfree, hnone, ?_, hh, ?_, ?_⟩
    · rw [hut]
      exact hins
    · rw [userSlot_low hU hread k hk50]
      show userSlot L formatHeader (s.disk.write off _) k = _
      rw [hoff]
      exact userSlot_write_same hU _ _ _
    · intro i hi hik
      rw [userSlot_low hU hread i hi]
      show userSlot L formatHeader (s.disk.write off _) i = _
      rw [hoff]
      exact userSlot_write_other hU _ _ _ _ hik

/-- What `user_delete` does to the user table of a state with the header of the format:
nothing, or the flag of the record found in the index is cleared and, when a slot of the table
has the name, the first such slot is written back with its flag cleared. -/
theorem userDelete_table {L : Layout} {s s1 : ServerState} {target resp : Str}
    (hinv : ServerInv s) (hhdr : s.header = formatHeader)
    (he : userDelete L s target = some (resp, s1)) :
    s1 = s ∨
    (target ≠ "admin".toList ∧ s1.header = s.header ∧
      s1.userTree = { root := setInactiveRec s.userTree.root target } ∧
      (s1.disk = s.disk ∨
        ∃ k, k < 50 ∧ (userSlot L formatHeader s.disk k).username = target ∧
          s1.disk = s.disk.write (4096 + k * L.sizeofUserInfo)
            (L.userBytes { (userSlot L formatHeader s.disk k) with is_active := 0 }))) := by
  unfold userDelete at he
  cases hsearch : s.userTree.search target with
  | none =>
    rw [hsearch] at he
    simp only [Option.some.injEq, Prod.mk.injEq] at he
    exact Or.inl he.2.symm
  | some u =>
    rw [hsearch] at he
    simp only [] at he
    by_cases hadm : u.username = "admin".toList
    · rw [if_pos hadm] at he
      simp only [Option.some.injEq, Prod.mk.injEq] at he
      exact Or.inl he.2.symm
    · rw [if_neg hadm] at he
      simp only [Option.some.injEq, Prod.mk.injEq] at he
      right
      have hname := search_name hinv.sorted hsearch
      have hbs : s.header.block_size = 4096 := hinv.block_size
      have hmu : s.header.max_users = 50 := by rw [hhdr]; rfl
      rw [hbs, hmu] at he
      refine ⟨fun e => hadm (hname.trans e), ?_, ?_, ?_⟩
      · rw [← he.2]
      · rw [← he.2]
      · cases hfind : findUserNamed L s.disk 4096 target 50 0 with
        | none =>
          left
          rw [← he.2, hfind]
        | some r =>
          obtain ⟨off, temp⟩ := r
          right
          obtain ⟨k, _, hk, hoff, htemp, htn⟩ :=
            findUserNamed_spec L s.disk 4096 target 50 0 off temp hfind
          refine ⟨k, by omega, ?_, ?_⟩
          · rw [userSlot_format, ← htemp]
            exact htn
          · rw [← he.2, hfind, userSlot_format, ← htemp, hoff]

/-- The write `u->is_active = 0` keeps the names of the index. -/
theorem search_setInactive (v u : Str) (t : UserNode) :
    (searchRec (setInactiveRec t v) u).isSome = (searchRec t u).isSome := by
  have h := congrArg Option.isSome (hash_setInactiveRec v u t)
  simpa only [Option.isSome_map'] using h

theorem ReachAccounts_reach {L : Layout} {fits : Str → Prop} {s : ServerState}
    (h : ReachAccounts L fits s) : Reach L s := by
  induction h with
  | format now hf => exact Reach.format now hf
  | create now req resp _ _ _ he ih => exact Reach.step now req resp ih he
  | delete now req resp _ _ he ih => exact Reach.step now req resp ih he

/-- Every state reached by `user_create` and `user_delete` requests with fitting usernames has
the header of the format and a user table that satisfies its invariant. -/
theorem ReachAccounts_table {L : Layout} {cap : Nat} (hH : L.HeaderLawful)
    (hU : L.UserLawful cap) {s : ServerState} (h : ReachAccounts L (FitsName cap) s) :
    s.header = formatHeader ∧ TableInv L cap s.disk s.userTree := by
  induction h with
  | format now hf =>
    rw [formatVolume_eq, Option.some.injEq] at hf
    subst hf
    exact ⟨rfl, TableInv_format hH hU now⟩
  | create now req resp hprev hop hfit he ih =>
    rename_i s0 s1
    obtain ⟨hhdr, hinv⟩ := ih
    have hr := ReachAccounts_reach hprev
    have hsi := Reach_inv hr
    rw [processRequest_user_create L now s0 req hop] at he
    have hst : storedName L.usernameCap req.username = req.username := by
      have hr0 := (hU.round_trip
        { username := req.username, password_hash := [], role := UserRole.NORMAL,
          created_time := 0, is_active := 1 } hfit.1 hfit.2 (le_refl 1)).1
      exact storedName_of_fits ⟨L.username_whole _ hr0, hfit.2⟩
    rcases userCreate_table hU hsi (Reach_blocks_low hr) hhdr he with
      ⟨hs, _⟩ | ⟨k, hk, _, hfree, hnone, hins, hh, hslot, hother⟩
    · rw [hs]
      exact ⟨hhdr, hinv⟩
    · rw [hst] at hins hslot
      obtain ⟨r1, r2, _⟩ := hU.round_trip
        { username := req.username, password_hash := simpleHash req.password,
          role := UserRole.NORMAL, created_time := now, is_active := 1 }
        hfit.1 hfit.2 (le_refl 1)
      refine ⟨hh.trans hhdr, TableInv_update hinv ?_ ?_ hother ?_ ?_⟩
      · intro e
        rw [e] at hfree
        rcases hfree with h0 | h0
        · rw [hinv.admin.1] at h0
          cases h0
        · rw [hinv.admin.2.1] at h0
          cases h0
      · intro v hv
        cases hfound : s0.userTree.search v with
        | none => rw [hfound] at hv; cases hv
        | some found =>
          rw [search_insert_other hsi.avl hsi.sorted hfound hins]
          rfl
      · rw [hslot, r1, r2]
        exact ⟨hfit, le_refl 1⟩
      · intro _
        rw [hslot, r1]
        refine ⟨hnone, ?_⟩
        rw [search_insert hsi.avl hsi.sorted hnone hins]
        rfl
  | delete now req resp hprev hop he ih =>
    rename_i s0 s1
    obtain ⟨hhdr, hinv⟩ := ih
    have hr := ReachAccounts_reach hprev
    have hsi := Reach_inv hr
    rw [processRequest_user_delete L now s0 req hop] at he
    rcases userDelete_table hsi hhdr he with hs | ⟨hadm, hh, hut, hd | ⟨k, hk, hname, hd⟩⟩
    · rw [hs]
      exact ⟨hhdr, hinv⟩
    · refine ⟨hh.trans hhdr, ?_⟩
      rw [hd, hut]
      refine ⟨hinv.fits, ?_, hinv.unique, hinv.admin⟩
      intro i hi hai
      have := hinv.known i hi hai
      unfold UserAVLTree.search at this ⊢
      rw [search_setInactive]
      exact this
    · refine ⟨hh.trans hhdr, ?_⟩
      rw [hd, hut]
      obtain ⟨hf1, hf2⟩ := hinv.fits k hk
      obtain ⟨r1, r2, _⟩ := hU.round_trip
        { (userSlot L formatHeader s0.disk k) with is_active := 0 } hf1.1 hf1.2 (Nat.zero_le 1)
      have hslot := userSlot_write_same hU s0.disk k
        { (userSlot L formatHeader s0.disk k) with is_active := 0 }
      refine TableInv_update hinv ?_ ?_
        (fun i _ hik => userSlot_write_other hU s0.disk k i _ hik) ?_ ?_
      · intro e
        rw [e, hinv.admin.1] at hname
        exact hadm hname.symm
      · intro v hv
        unfold UserAVLTree.search at hv ⊢
        rw [search_setInactive]
        exact hv
      · rw [hslot, r1, r2]
        exact ⟨hf1, Nat.zero_le 1⟩
      · intro hact
        rw [hslot, r2] at hact
        cases hact

/-- The loop of `user_create` returns the first free slot of the table. -/
theorem findUserSlot_first (L : Layout) (d : Disk) (u : Nat) :
    ∀ (n k i : Nat), k ≤ i → i < k + n →
      (∀ j, k ≤ j → j < i →
        ¬ ((L.userOfBytes (d.read (u + j * L.sizeofUserInfo) L.sizeofUserInfo)).username = [] ∨
           (L.userOfBytes (d.read (u + j * L.sizeofUserInfo) L.sizeofUserInfo)).is_active = 0)) →
      ((L.userOfBytes (d.read (u + i * L.sizeofUserInfo) L.sizeofUserInfo)).username = [] ∨
       (L.userOfBytes (d.read (u + i * L.sizeofUserInfo) L.sizeofUserInfo)).is_active = 0) →
      findUserSlot L d u n k = some (u + i * L.sizeofUserInfo)
  | 0, k, i, h1, h2, _, _ => by omega
  | n + 1, k, i, h1, h2, hused, hfree => by
    simp only [findUserSlot]
    by_cases hik : i = k
    · rw [← hik, if_pos hfree]
    · rw [if_neg (hused k (le_refl _) (by omega))]
      exact findUserSlot_first L d u n (k + 1) i (by omega) (by omega)
        (fun j hj1 hj2 => hused j (by omega) hj2) hfree

/-- C22, amended. In every state reachable from a freshly formatted volume by `user_create` and
`user_delete` requests whose `user_create` usernames fit the username field of a user record
(at most `cap` characters, no zero byte), the user table on the volume has at most one slot
with the active flag 1 for each username and holds an active record with the username `admin`
and the role `ADMIN`; a `user_create` of a username the index holds is answered with
`User exists` and a `user_delete` of `admin` or of a username the index does not hold with
`Invalid target`, and both leave the state as it is. -/
theorem C22_user_table {L : Layout} {cap : Nat} (hH : L.HeaderLawful) (hU : L.UserLawful cap)
    {s : ServerState} (h : ReachAccounts L (FitsName cap) s) :
    UserTableUnique L s ∧ AdminOnDisk L s ∧
    (∀ (now : Nat) (req : Request), req.operation = "user_create".toList →
      (s.userTree.search req.username).isSome = true →
      processRequest L now s req = some (respUserExists req.request_id, s)) ∧
    (∀ (now : Nat) (req : Request), req.operation = "user_delete".toList →
      (req.username = "admin".toList ∨ s.userTree.search req.username = none) →
      processRequest L now s req = some (respInvalidTarget, s)) := by
  obtain ⟨hhdr, hinv⟩ := ReachAccounts_table hH hU h
  have hr := ReachAccounts_reach h
  have hsi := Reach_inv hr
  refine ⟨?_, ?_, ?_, ?_⟩
  · unfold UserTableUnique
    rw [hhdr]
    exact hinv.unique
  · unfold AdminOnDisk
    rw [hhdr]
    exact ⟨0, by decide, hinv.admin⟩
  · intro now req hop hsome
    rw [processRequest_user_create L now s req hop]
    unfold userCreate
    cases hfound : s.userTree.search req.username with
    | none => rw [hfound] at hsome; cases hsome
    | some found => rfl
  · intro now req hop hcase
    rw [processRequest_user_delete L now s req hop]
    unfold userDelete
    rcases hcase with hadm | hnone
    · obtain ⟨info, hinfo⟩ := Reach_admin hr
      have hname := search_name hsi.sorted hinfo
      rw [hadm, hinfo]
      simp only [hname, if_true]
    · rw [hnone]

/-- On the formatted volume the first free slot of the user table is slot 1. -/
theorem format_user_slot {L : Layout} {cap : Nat} (hH : L.HeaderLawful)
    (hU : L.UserLawful cap) (now : Nat) :
    findUserSlot L (formatDisk L now) 4096 50 0 = some (4096 + 1 * L.sizeofUserInfo) := by
  have hinv : TableInv L cap (formatDisk L now) (freshState L now).userTree :=
    TableInv_format hH hU now
  apply findUserSlot_first L _ 4096 50 0 1 (by decide) (by decide)
  · intro j _ hj
    have hj0 : j = 0 := by omega
    rw [hj0]
    intro hfree
    have h1 := hinv.admin.1
    have h2 := hinv.admin.2.1
    rw [userSlot_format] at h1 h2
    rcases hfree with h0 | h0
    · rw [h1] at h0
      cases h0
    · rw [h2] at h0
      cases h0
  · left
    rw [formatDisk_user_slot hH hU now 1 (le_refl 1) (by decide)]
    exact hU.zero_name

/-- On the formatted volume `user_create` answers with success for every name the index does
not hold. -/
theorem formatCreate_ok {L : Layout} {cap : Nat} (hH : L.HeaderLawful) (hU : L.UserLawful cap)
    (now now1 : Nat) (rid u p : Str) (hu : (freshState L now).userTree.search u = none) :
    ∃ s1, processRequest L now1 (freshState L now)
        (accountRequest "user_create".toList rid u p) = some (respUserCreated rid, s1) := by
  rw [processRequest_user_create L now1 _ _ rfl]
  exact userCreate_ok L now1 (freshState L now) rid u p (freshState_inv L now) hu
    (format_user_slot hH hU now)

theorem C22_user_table_witness :
    fullLayout.HeaderLawful ∧ fullLayout.UserLawful 16 ∧
    ∃ s1, processRequest fullLayout 1 (freshState fullLayout 0)
        (accountRequest "user_create".toList "1".toList "bob".toList "secret".toList)
        = some (respUserCreated "1".toList, s1) ∧
      ReachAccounts fullLayout (FitsName 16) s1 ∧
      (UserTableUnique fullLayout s1 ∧ AdminOnDisk fullLayout s1 ∧
        (∀ (now : Nat) (req : Request), req.operation = "user_create".toList →
          (s1.userTree.search req.username).isSome = true →
          processRequest fullLayout now s1 req = some (respUserExists req.request_id, s1)) ∧
        (∀ (now : Nat) (req : Request), req.operation = "user_delete".toList →
          (req.username = "admin".toList ∨ s1.userTree.search req.username = none) →
          processRequest fullLayout now s1 req = some (respInvalidTarget, s1))) := by
  obtain ⟨s1, h1⟩ := formatCreate_ok fullLayout_headerLawful fullLayout_userLawful 0 1
    "1".toList "bob".toList "secret".toList rfl
  have hreach : ReachAccounts fullLayout (FitsName 16) s1 :=
    ReachAccounts.create 1
      (accountRequest "user_create".toList "1".toList "bob".toList "secret".toList)
      (respUserCreated "1".toList)
      (ReachAccounts.format 0 (formatVolume_eq fullLayout 0)) rfl
      ⟨by decide, by decide⟩ h1
  exact ⟨fullLayout_headerLawful, fullLayout_userLawful, s1, h1, hreach,
    C22_user_table fullLayout_headerLawful fullLayout_userLawful hreach⟩

/-- C22 as stated fails for usernames longer than the username field. On the formatted volume
of the layout `fullLayout`, whose username field has 16 bytes, the two requests `user_create`
for `aaaaaaaaaaaaaaaab` and `aaaaaaaaaaaaaaaac` (17 characters each) both answer with success,
and afterwards slots 1 and 2 of the user table both have the active flag 1 and the username
`aaaaaaaaaaaaaaaa`: the table has two active slots for one username. -/
theorem C22_counterexample :
    ∃ s1 s2,
      processRequest fullLayout 1 (freshState fullLayout 0)
        (accountRequest "user_create".toList "1".toList "aaaaaaaaaaaaaaaab".toList
          "secret".toList) = some (respUserCreated "1".toList, s1) ∧
      processRequest fullLayout 2 s1
        (accountRequest "user_create".toList "2".toList "aaaaaaaaaaaaaaaac".toList
          "secret".toList) = some (respUserCreated "2".toList, s2) ∧
      ReachAccounts fullLayout (fun _ => True) s2 ∧
      (userSlot fullLayout s2.header s2.disk 1).username = "aaaaaaaaaaaaaaaa".toList ∧
      (userSlot fullLayout s2.header s2.disk 1).is_active = 1 ∧
      (userSlot fullLayout s2.header s2.disk 2).username = "aaaaaaaaaaaaaaaa".toList ∧
      (userSlot fullLayout s2.header s2.disk 2).is_active = 1 ∧
      ¬ UserTableUnique fullLayout s2 := by
  have hH := fullLayout_headerLawful
  have hU := fullLayout_userLawful
  obtain ⟨s1, h1⟩ := formatCreate_ok hH hU 0 1 "1".toList "aaaaaaaaaaaaaaaab".toList
    "secret".toList rfl
  have hr0 : Reach fullLayout (freshState fullLayout 0) :=
    Reach.format 0 (formatVolume_eq fullLayout 0)
  have hr1 : Reach fullLayout s1 := Reach.step 1 _ _ hr0 h1
  have hi0 := freshState_inv fullLayout 0
  have hi1 := Reach_inv hr1
  have hc1 : userCreate fullLayout 1 (freshState fullLayout 0) "1".toList
      "aaaaaaaaaaaaaaaab".toList "secret".toList = some (respUserCreated "1".toList, s1) := by
    have e := h1
    rw [processRequest_user_create fullLayout 1 _ _ rfl] at e
    exact e
  have hA : (fullLayout.userOfBytes (fullLayout.userBytes
      { username := storedName fullLayout.usernameCap "aaaaaaaaaaaaaaaab".toList,
        password_hash := simpleHash "secret".toList,
        role := UserRole.NORMAL, created_time := 1, is_active := 1 })).username
      = "aaaaaaaaaaaaaaaa".toList := by decide
  have hA1 : (fullLayout.userOfBytes (fullLayout.userBytes
      { username := storedName fullLayout.usernameCap "aaaaaaaaaaaaaaaab".toList,
        password_hash := simpleHash "secret".toList,
        role := UserRole.NORMAL, created_time := 1, is_active := 1 })).is_active = 1 := by
    decide
  have hB : (fullLayout.userOfBytes (fullLayout.userBytes
      { username := storedName fullLayout.usernameCap "aaaaaaaaaaaaaaaac".toList,
        password_hash := simpleHash "secret".toList,
        role := UserRole.NORMAL, created_time := 2, is_active := 1 })).username
      = "aaaaaaaaaaaaaaaa".toList := by decide
  have hB1 : (fullLayout.userOfBytes (fullLayout.userBytes
      { username := storedName fullLayout.usernameCap "aaaaaaaaaaaaaaaac".toList,
        password_hash := simpleHash "secret".toList,
        role := UserRole.NORMAL, created_time := 2, is_active := 1 })).is_active = 1 := by
    decide
  have hfmt : TableInv fullLayout 16 (formatDisk fullLayout 0)
      (freshState fullLayout 0).userTree := TableInv_format hH hU 0
  rcases userCreate_table hU hi0 (Reach_blocks_low hr0) rfl hc1 with
    ⟨_, hne⟩ | ⟨k, hk, hoff, _, hnone1, hins1, hh1, hslot1, hother1⟩
  · exact absurd rfl hne
  have hk1 : k = 1 := by
    have h59 : fullLayout.sizeofUserInfo = 59 := rfl
    have e := hoff.symm.trans (format_user_slot hH hU 0)
    rw [Option.some.injEq, h59] at e
    omega
  subst hk1
  have hhdr1 : s1.header = formatHeader := hh1
  have hs1_0 : userSlot fullLayout formatHeader s1.disk 0
      = userSlot fullLayout formatHeader (formatDisk fullLayout 0) 0 :=
    hother1 0 (by decide) (by decide)
  have hs1_2 : userSlot fullLayout formatHeader s1.disk 2
      = userSlot fullLayout formatHeader (formatDisk fullLayout 0) 2 :=
    hother1 2 (by decide) (by decide)
  have hslotB : findUserSlot fullLayout s1.disk 4096 50 0
      = some (4096 + 2 * fullLayout.sizeofUserInfo) := by
    apply findUserSlot_first fullLayout _ 4096 50 0 2 (by decide) (by decide)
    · intro j _ hj
      have hj01 : j = 0 ∨ j = 1 := by omega
      rcases hj01 with e | e
      · rw [e]
        have h1 := hfmt.admin.1
        have h2 := hfmt.admin.2.1
        rw [← hs1_0, userSlot_format] at h1 h2
        intro hfree
        rcases hfree with h0 | h0
        · rw [h1] at h0
          cases h0
        · rw [h2] at h0
          cases h0
      · rw [e]
        have h1 := hA
        have h2 := hA1
        rw [← hslot1, userSlot_format] at h1 h2
        intro hfree
        rcases hfree with h0 | h0
        · rw [h1] at h0
          cases h0
        · rw [h2] at h0
          cases h0
    · left
      have h1 := hs1_2
      rw [userSlot_format, userSlot_format,
        formatDisk_user_slot hH hU 0 2 (by decide) (by decide)] at h1
      rw [h1]
      exact hU.zero_name
  have hnoneB : s1.userTree.search "aaaaaaaaaaaaaaaac".toList = none :=
    search_insert_none hi0.avl hi0.sorted rfl (by decide) hins1
  have hbs1 : s1.header.block_size = 4096 := hi1.block_size
  have hmu1 : s1.header.max_users = 50 := by rw [hhdr1]; rfl
  obtain ⟨s2, hc2⟩ := userCreate_ok fullLayout 2 s1 "2".toList "aaaaaaaaaaaaaaaac".toList
    "secret".toList hi1 hnoneB (by rw [hbs1, hmu1]; exact hslotB)
  have h2 : processRequest fullLayout 2 s1
      (accountRequest "user_create".toList "2".toList "aaaaaaaaaaaaaaaac".toList
        "secret".toList) = some (respUserCreated "2".toList, s2) := by
    rw [processRequest_user_create fullLayout 2 _ _ rfl]
    exact hc2
  rcases userCreate_table hU hi1 (Reach_blocks_low hr1) hhdr1 hc2 with
    ⟨_, hne⟩ | ⟨k, hk, hoff2, _, _, _, hh2, hslot2, hother2⟩
  · exact absurd rfl hne
  have hk2 : k = 2 := by
    have h59 : fullLayout.sizeofUserInfo = 59 := rfl
    have e := hoff2.symm.trans hslotB
    rw [Option.some.injEq, h59] at e
    omega
  subst hk2
  have hhdr2 : s2.header = formatHeader := hh2.trans hhdr1
  have hs2_1 : userSlot fullLayout formatHeader s2.disk 1
      = userSlot fullLayout formatHeader s1.disk 1 := hother2 1 (by decide) (by decide)
  have f1 : (userSlot fullLayout s2.header s2.disk 1).username = "aaaaaaaaaaaaaaaa".toList := by
    rw [hhdr2, hs2_1, hslot1]
    exact hA
  have f2 : (userSlot fullLayout s2.header s2.disk 1).is_active = 1 := by
    rw [hhdr2, hs2_1, hslot1]
    exact hA1
  have f3 : (userSlot fullLayout s2.header s2.disk 2).username = "aaaaaaaaaaaaaaaa".toList := by
    rw [hhdr2, hslot2]
    exact hB
  have f4 : (userSlot fullLayout s2.header s2.disk 2).is_active = 1 := by
    rw [hhdr2, hslot2]
    exact hB1
  refine ⟨s1, s2, h1, h2, ?_, f1, f2, f3, f4, ?_⟩
  · exact ReachAccounts.create 2 _ _
      (ReachAccounts.create 1 _ _ (ReachAccounts.format 0 (formatVolume_eq fullLayout 0))
        rfl trivial h1) rfl trivial h2
  · intro huniq
    have h12 := huniq 1 2 (by rw [hhdr2]; decide) (by rw [hhdr2]; decide) f2 f4
      (f1.trans f3.symm)
    cases h12

/-! ### Claim C26: loading the volume that was formatted -/

/-- On the formatted volume the first bytes are the bytes of the header. -/
theorem formatDisk_header {L : Layout} (hH : L.HeaderLawful) (now : Nat) :
    (formatDisk L now).read 0 L.sizeofOMNIHeader = L.headerBytes formatHeader := by
  have hh := hH.header_fits
  have e0 : formatHeader.user_table_offset = 4096 := rfl
  have e1 : formatHeader.total_size - 1 = 104857599 := rfl
  have e2 : formatHeader.block_size * 3 = 12288 := rfl
  have e3 : formatHeader.block_size * 2 = 8192 := rfl
  unfold formatDisk
  simp only [e0, e1, e2, e3]
  rw [Disk.read_write_disjoint _ _ _ _ _ (Or.inl (by omega)),
    Disk.read_write_disjoint _ _ _ _ _ (Or.inl (by omega)),
    Disk.read_write_disjoint _ _ _ _ _ (Or.inl (by omega)),
    Disk.read_write_disjoint _ _ _ _ _ (Or.inl (by omega)),
    Disk.read_write_disjoint _ _ _ _ _ (Or.inl (by omega))]
  have h := Disk.read_write_same (fun _ => NUL) 0 (L.headerBytes formatHeader)
  rw [hH.header_len] at h
  exact h

/-- On the formatted volume the first slot of the block of the root holds the entry of
`home`. -/
theorem formatDisk_home_entry {L : Layout} (hL : L.Lawful) (hsz : L.sizeofFileEntry ≤ 4096)
    (now : Nat) :
    (formatDisk L now).read 8192 L.sizeofFileEntry = L.entryBytes homeDirEntry := by
  have e0 : formatHeader.user_table_offset = 4096 := rfl
  have e1 : formatHeader.total_size - 1 = 104857599 := rfl
  have e2 : formatHeader.block_size * 3 = 12288 := rfl
  have e3 : formatHeader.block_size * 2 = 8192 := rfl
  unfold formatDisk
  simp only [e0, e1, e2, e3]
  rw [Disk.read_write_disjoint _ _ _ _ _ (Or.inl (by omega)),
    Disk.read_write_disjoint _ _ _ _ _ (Or.inl (by omega)),
    Disk.read_write_disjoint _ _ _ _ _ (Or.inl (by omega))]
  have h := Disk.read_write_same
    (Disk.write (Disk.write (fun _ => NUL) 0 (L.headerBytes formatHeader)) 4096
      (L.userBytes (adminInfo now))) 8192 (L.entryBytes homeDirEntry)
  rw [hL.entry_len] at h
  exact h

/-- On the formatted volume every slot of the block of `home` holds zero bytes. -/
theorem formatDisk_home_slot (L : Layout) (now k : Nat)
    (h2 : k * L.sizeofFileEntry + L.sizeofFileEntry ≤ 4096) :
    (formatDisk L now).read (12288 + k * L.sizeofFileEntry) L.sizeofFileEntry
      = List.replicate L.sizeofFileEntry NUL := by
  apply List.ext_getElem?
  intro i
  by_cases hi : i < L.sizeofFileEntry
  · rw [Disk.read_getElem? _ _ _ _ hi, List.getElem?_replicate, if_pos hi]
    have e1 : formatHeader.total_size - 1 = 104857599 := rfl
    have e2 : formatHeader.block_size * 3 = 12288 := rfl
    unfold formatDisk
    simp only [e1, e2]
    rw [Disk.write_apply, if_neg (by omega), Disk.write_apply,
      if_pos (by rw [List.length_replicate]; omega), getD_replicate_NUL]
  · rw [List.getElem?_eq_none (by rw [Disk.read_length]; omega),
      List.getElem?_eq_none (by rw [List.length_replicate]; omega)]

/-- A slot of zero bytes holds an entry without a name. -/
theorem zero_entry_name {L : Layout} (hL : L.Lawful) :
    (L.entryOfBytes (List.replicate L.sizeofFileEntry NUL)).name = [] := by
  rw [hL.name_first _ (List.length_replicate _ _)]
  have hp := hL.entry_pos
  cases hsz : L.sizeofFileEntry with
  | zero => omega
  | succ n => rfl

/-- The loop over the user table inserts nothing from slots that are not active. -/
theorem loadUsers_inactive (L : Layout) (d : Disk) (u : Nat) :
    ∀ (n i : Nat) (t : UserAVLTree),
      (∀ j, i ≤ j → j < i + n →
        (L.userOfBytes (d.read (u + j * L.sizeofUserInfo) L.sizeofUserInfo)).is_active = 0) →
      loadUsers L d u n i t = some t
  | 0, _, _, _ => rfl
  | n + 1, i, t, h => by
    simp only [loadUsers]
    rw [if_neg (fun hc => hc.1 (h i (le_refl _) (by omega)))]
    exact loadUsers_inactive L d u n (i + 1) t (fun j h1 h2 => h j (by omega) (by omega))

/-- The loop over the block of `home` adds nothing from slots without a name. -/
theorem loadHomeLoop_empty (L : Layout) (d : Disk) (base : Nat) (child : NodePtr) :
    ∀ (n j : Nat) (st : FileSystemTree × BlockManager),
      (∀ k, j ≤ k → k < j + n →
        (L.entryOfBytes (d.read (base + k * L.sizeofFileEntry) L.sizeofFileEntry)).name = []) →
      loadHomeLoop L d base child n j st = some st
  | 0, _, _, _ => rfl
  | n + 1, j, st, h => by
    simp only [loadHomeLoop]
    rw [if_neg (fun hc => hc (h j (le_refl _) (by omega)))]
    exact loadHomeLoop_empty L d base child n (j + 1) st
      (fun k h1 h2 => h k (by omega) (by omega))

/-- The loop over the block of the root adds nothing from slots without a name. -/
theorem loadRootLoop_empty (L : Layout) (d : Disk) (blk_size max_entries : Nat) :
    ∀ (n i : Nat) (st : FileSystemTree × BlockManager),
      (∀ k, i ≤ k → k < i + n →
        (L.entryOfBytes
          (d.read (2 * blk_size + k * L.sizeofFileEntry) L.sizeofFileEntry)).name = []) →
      loadRootLoop L d blk_size max_entries n i st = some st
  | 0, _, _, _ => rfl
  | n + 1, i, st, h => by
    simp only [loadRootLoop]
    rw [if_neg (fun hc => hc (h i (le_refl _) (by omega)))]
    exact loadRootLoop_empty L d blk_size max_entries n (i + 1) st
      (fun k h1 h2 => h k (by omega) (by omega))

/-- A slot below the bound `4096 / sizeof(FileEntry)` lies inside the block. -/
theorem slot_in_4096 {sz k : Nat} (hk : k < 4096 / sz) : k * sz + sz ≤ 4096 := by
  have h2 := Nat.mul_le_mul_right sz (Nat.succ_le_of_lt hk)
  have h3 := Nat.div_mul_le_self 4096 sz
  rw [Nat.succ_mul] at h2
  omega

theorem loadUsers_succ (L : Layout) (d : Disk) (u n i : Nat) (t : UserAVLTree) :
    loadUsers L d u (n + 1) i t
      = if (L.userOfBytes (d.read (u + i * L.sizeofUserInfo) L.sizeofUserInfo)).is_active ≠ 0 ∧
            (L.userOfBytes (d.read (u + i * L.sizeofUserInfo) L.sizeofUserInfo)).username ≠ []
        then (t.insert (L.userOfBytes
            (d.read (u + i * L.sizeofUserInfo) L.sizeofUserInfo))).bind
          (loadUsers L d u n (i + 1))
        else loadUsers L d u n (i + 1) t := rfl

/-- The loop over the user table of the formatted volume loads the record of `admin`. -/
theorem loadUsers_format {L : Layout} {cap : Nat} (hH : L.HeaderLawful)
    (hU : L.UserLawful cap) (now : Nat)
    (hadm : L.userOfBytes (L.userBytes (adminInfo now)) = adminInfo now) :
    loadUsers L (formatDisk L now) 4096 50 0 UserAVLTree.empty
      = some { root := .node (adminInfo now) .null .null 1 } := by
  have h1 : UserAVLTree.empty.insert (adminInfo now)
      = some { root := .node (adminInfo now) .null .null 1 } := rfl
  have hact : (adminInfo now).is_active ≠ 0 ∧ (adminInfo now).username ≠ [] :=
    ⟨show (1 : Nat) ≠ 0 by decide, show "admin".toList ≠ [] by decide⟩
  show loadUsers L (formatDisk L now) 4096 (49 + 1) 0 UserAVLTree.empty = _
  rw [loadUsers_succ, Nat.zero_mul, Nat.add_zero, formatDisk_admin_slot hU now, hadm,
    if_pos hact, h1, Option.some_bind]
  apply loadUsers_inactive
  intro j hj1 hj2
  rw [formatDisk_user_slot hH hU now j (by omega) (by omega)]
  exact hU.zero_active

/-- The loop over the block of the root of the formatted volume loads `home`, without
children. -/
theorem loadRootLoop_format {L : Layout} (hL : L.Lawful) (hsz : L.sizeofFileEntry ≤ 4096)
    (now : Nat) (hhome : L.entryOfBytes (L.entryBytes homeDirEntry) = homeDirEntry)
    (bm : BlockManager) :
    loadRootLoop L (formatDisk L now) 4096 (4096 / L.sizeofFileEntry)
        (4096 / L.sizeofFileEntry) 0 (setRoot FileSystemTree.new rootDirEntry, bm)
      = some ((freshState L now).fileTree, bm) := by
  have hpos : 0 < 4096 / L.sizeofFileEntry := Nat.div_pos hsz hL.entry_pos
  have h2 : addChild (setRoot FileSystemTree.new rootDirEntry) (some []) homeDirEntry
      = some (some [0], (freshState L now).fileTree) := rfl
  have hname : homeDirEntry.name ≠ [] := by decide
  have hhomeName : homeDirEntry.name = "home".toList := rfl
  have hblk : homeDirEntry.start_block * 4096 = 12288 := rfl
  have h8 : 2 * 4096 + 0 * L.sizeofFileEntry = 8192 := by omega
  have hloop : loadHomeLoop L (formatDisk L now) 12288 [0] (4096 / L.sizeofFileEntry) 0
      ((freshState L now).fileTree, bm) = some ((freshState L now).fileTree, bm) := by
    apply loadHomeLoop_empty
    intro k _ hk
    rw [formatDisk_home_slot L now k (slot_in_4096 (by omega))]
    exact zero_entry_name hL
  obtain ⟨m, hm⟩ : ∃ m, 4096 / L.sizeofFileEntry = m + 1 := ⟨4096 / L.sizeofFileEntry - 1, by omega⟩
  have hrest : loadRootLoop L (formatDisk L now) 4096 (4096 / L.sizeofFileEntry) m 1
      ((freshState L now).fileTree, bm) = some ((freshState L now).fileTree, bm) := by
    apply loadRootLoop_empty
    intro k hk1 hk2
    have e : 2 * 4096 + k * L.sizeofFileEntry = 8192 + k * L.sizeofFileEntry := by omega
    rw [e, formatDisk_root_slot L now k hk1 (slot_in_4096 (by omega))]
    exact zero_entry_name hL
  nth_rewrite 2 [hm]
  simp only [loadRootLoop]
  rw [h8, formatDisk_home_entry hL hsz now, hhome, if_pos hname, h2, Option.some_bind]
  simp only [hhomeName, if_true, hblk]
  rw [hloop, Option.some_bind, Nat.zero_add]
  exact hrest

/-- Loading the volume that `init` has just formatted builds the state `init` has built. -/
theorem load_format {L : Layout} {cap : Nat} (headerOfBytes : List Char → OMNIHeader)
    (now : Nat) (hL : L.Lawful) (hH : L.HeaderLawful) (hU : L.UserLawful cap)
    (hsz : L.sizeofFileEntry ≤ 4096)
    (hhdr : headerOfBytes (L.headerBytes formatHeader) = formatHeader)
    (hadm : L.userOfBytes (L.userBytes (adminInfo now)) = adminInfo now)
    (hhome : L.entryOfBytes (L.entryBytes homeDirEntry) = homeDirEntry) :
    loadFileSystem L headerOfBytes (formatDisk L now) = some (some (freshState L now)) := by
  have hm : ¬ (formatHeader.magic.take 8 ≠ "OMNIFS01".toList) := by decide
  have hb : (if formatHeader.block_size > 0 then formatHeader.block_size else 4096) = 4096 :=
    rfl
  have hbm : (BlockManager.new (formatHeader.total_size / 4096 % 2 ^ 32)).bind
      (fun bm0 => markUsed bm0 0 4)
      = some { bitmap := [true, true, true, true] ++ List.replicate 25596 false,
               total_blocks := 25600, used_blocks_count := 4 } := format_state
  have hme : (toInt32 (4096 / L.sizeofFileEntry)).toNat = 4096 / L.sizeofFileEntry := by
    have := Nat.div_le_self 4096 L.sizeofFileEntry
    rw [toInt32_small (by omega), Int.toNat_ofNat]
  have hus : loadUsers L (formatDisk L now) formatHeader.user_table_offset
      formatHeader.max_users 0 UserAVLTree.empty
      = some { root := .node (adminInfo now) .null .null 1 } :=
    loadUsers_format hH hU now hadm
  unfold loadFileSystem
  simp only [formatDisk_header hH now, hhdr]
  rw [if_neg hm]
  simp only [hb, hbm, Option.some_bind, hus, hme, loadRootLoop_format hL hsz now hhome]
  rfl

theorem fresh_bitmap (j : Nat) :
    ([true, true, true, true] ++ List.replicate 25596 false)[j]? = some true ↔ j < 4 := by
  by_cases h4 : j < 4
  · rw [List.getElem?_append_left (by simpa using h4)]
    rcases j with _ | _ | _ | _ | j
    · exact ⟨fun _ => h4, fun _ => rfl⟩
    · exact ⟨fun _ => h4, fun _ => rfl⟩
    · exact ⟨fun _ => h4, fun _ => rfl⟩
    · exact ⟨fun _ => h4, fun _ => rfl⟩
    · omega
  · rw [List.getElem?_append_right (by simpa using h4), List.getElem?_replicate]
    constructor
    · intro h
      split at h
      · cases h
      · cases h
    · intro h
      exact absurd h h4

/-- C26. For a layout whose records are read back from their bytes (header, record of `admin`
and entry of `home`), the state `loadFileSystem` builds from the bytes `init` has written when
it formatted the volume is the state `init` has built: the header of the format, a user index
that holds exactly the record of `admin`, a tree of the root `/` (start block 2) with the single
child `home` (start block 3, no children), and a bitmap in which exactly the blocks 0 to 3 are
used. -/
theorem C26_load_round_trip {L : Layout} {cap : Nat} (headerOfBytes : List Char → OMNIHeader)
    (now : Nat) (s : ServerState) (hL : L.Lawful) (hH : L.HeaderLawful)
    (hU : L.UserLawful cap) (hsz : L.sizeofFileEntry ≤ 4096)
    (hhdr : headerOfBytes (L.headerBytes formatHeader) = formatHeader)
    (hadm : L.userOfBytes (L.userBytes (adminInfo now)) = adminInfo now)
    (hhome : L.entryOfBytes (L.entryBytes homeDirEntry) = homeDirEntry)
    (hfmt : formatVolume L now = some s) :
    loadFileSystem L headerOfBytes s.disk = some (some s) ∧
    s.header = formatHeader ∧
    s.userTree.getAllUsers = [adminInfo now] ∧
    s.fileTree.root = some (.mk rootDirEntry [.mk { homeDirEntry with inode := 1 } []]) ∧
    rootDirEntry.name = "/".toList ∧ rootDirEntry.start_block = 2 ∧
    homeDirEntry.name = "home".toList ∧ homeDirEntry.start_block = 3 ∧
    ∀ j : Nat, s.blockManager.bitmap[j]? = some true ↔ j < 4 := by
  rw [formatVolume_eq, Option.some.injEq] at hfmt
  subst hfmt
  exact ⟨load_format headerOfBytes now hL hH hU hsz hhdr hadm hhome, rfl, rfl, rfl, rfl, rfl,
    rfl, rfl, fresh_bitmap⟩

/-- Witness of `C26_load_round_trip`: the volume formatted at the time 0 on the layout
`fullLayout`. -/
theorem C26_load_round_trip_witness :
    fullLayout.Lawful ∧ fullLayout.HeaderLawful ∧ fullLayout.UserLawful 16 ∧
    fullLayout.sizeofFileEntry ≤ 4096 ∧
    fullHeaderOfBytes (fullLayout.headerBytes formatHeader) = formatHeader ∧
    fullLayout.userOfBytes (fullLayout.userBytes (adminInfo 0)) = adminInfo 0 ∧
    fullLayout.entryOfBytes (fullLayout.entryBytes homeDirEntry) = homeDirEntry ∧
    formatVolume fullLayout 0 = some (freshState fullLayout 0) ∧
    (loadFileSystem fullLayout fullHeaderOfBytes (freshState fullLayout 0).disk
        = some (some (freshState fullLayout 0)) ∧
      (freshState fullLayout 0).header = formatHeader ∧
      (freshState fullLayout 0).userTree.getAllUsers = [adminInfo 0] ∧
      (freshState fullLayout 0).fileTree.root
        = some (.mk rootDirEntry [.mk { homeDirEntry with inode := 1 } []]) ∧
      rootDirEntry.name = "/".toList ∧ rootDirEntry.start_block = 2 ∧
      homeDirEntry.name = "home".toList ∧ homeDirEntry.start_block = 3 ∧
      ∀ j : Nat, (freshState fullLayout 0).blockManager.bitmap[j]? = some true ↔ j < 4) :=
  ⟨fullLayout_lawful, fullLayout_headerLawful, fullLayout_userLawful, by decide,
    fullLayout_header, fullLayout_admin, fullLayout_home, formatVolume_eq fullLayout 0,
    C26_load_round_trip fullHeaderOfBytes 0 (freshState fullLayout 0) fullLayout_lawful
      fullLayout_headerLawful fullLayout_userLawful (by decide) fullLayout_header
      fullLayout_admin fullLayout_home (formatVolume_eq fullLayout 0)⟩

/-! ### Claim C31: the index is a balanced search tree -/

theorem trueHeight_node (d : UserInfo) (l r : UserNode) (h : Int) :
    trueHeight (.node d l r h) = 1 + max (trueHeight l) (trueHeight r) := rfl

theorem IsBST_node (d : UserInfo) (l r : UserNode) (h : Int) :
    IsBST (.node d l r h) ↔ (IsBST l ∧ IsBST r ∧
      (∀ x ∈ inorderRec l, x.username < d.username) ∧
      (∀ x ∈ inorderRec r, d.username < x.username)) := Iff.rfl

theorem HeightsStored_node (d : UserInfo) (l r : UserNode) (h : Int) :
    HeightsStored (.node d l r h) ↔ (HeightsStored l ∧ HeightsStored r ∧
      h = (trueHeight (.node d l r h) : Int)) := Iff.rfl

theorem Balanced_node (d : UserInfo) (l r : UserNode) (h : Int) :
    Balanced (.node d l r h) ↔ (Balanced l ∧ Balanced r ∧
      trueHeight l ≤ trueHeight r + 1 ∧ trueHeight r ≤ trueHeight l + 1) := Iff.rfl

/-- In a tree that satisfies the invariant of the insertion, the stored heights are the heights
of the subtrees, and the subtrees of every node differ in height by at most one. -/
theorem AVL_trueHeight : ∀ t : UserNode, AVL t →
    height t = (trueHeight t : Int) ∧ HeightsStored t ∧ Balanced t
  | .null, _ => ⟨rfl, trivial, trivial⟩
  | .node d l r h, hav => by
    rw [AVL_node] at hav
    obtain ⟨hl, hr, hh, hb1, hb2⟩ := hav
    obtain ⟨el, sl, bl⟩ := AVL_trueHeight l hl
    obtain ⟨er, sr, br⟩ := AVL_trueHeight r hr
    rw [el, er] at hh hb1 hb2
    have hth : h = (trueHeight (.node d l r h) : Int) := by
      rw [trueHeight_node, hh]
      push_cast
      rfl
    refine ⟨?_, ?_, ?_⟩
    · rw [height_node]
      exact hth
    · rw [HeightsStored_node]
      exact ⟨sl, sr, hth⟩
    · rw [Balanced_node]
      exact ⟨bl, br, by omega, by omega⟩

/-- A tree whose in-order list has strictly increasing usernames is a search tree. -/
theorem IsBST_of_sorted : ∀ t : UserNode, SortedByName (inorderRec t) → IsBST t
  | .null, _ => trivial
  | .node d l r h, hs => by
    rw [inorderRec_node] at hs
    unfold SortedByName at hs
    rw [List.pairwise_append, List.pairwise_cons] at hs
    obtain ⟨hl, ⟨hd, hr⟩, hlr⟩ := hs
    rw [IsBST_node]
    exact ⟨IsBST_of_sorted l hl, IsBST_of_sorted r hr,
      fun x hx => hlr x hx d (List.mem_cons_self _ _), hd⟩

theorem pow_half_le (a b : Nat) (h1 : a ≤ b) (h2 : b ≤ a + 1) :
    2 ^ ((1 + b) / 2) ≤ 2 ^ (a / 2) + 2 ^ (b / 2) := by
  rcases Nat.even_or_odd' b with ⟨k, hk | hk⟩
  · have e1 : (1 + b) / 2 = b / 2 := by omega
    rw [e1]
    exact Nat.le_add_left _ _
  · have e1 : (1 + b) / 2 = k + 1 := by omega
    have e2 : b / 2 = k := by omega
    have e3 : k ≤ a / 2 := by omega
    have h3 : 2 ^ k ≤ 2 ^ (a / 2) := Nat.pow_le_pow_right (by decide) e3
    rw [e1, e2, Nat.pow_succ]
    omega

/-- A balanced tree of height `h` has at least `2 ^ (h / 2) - 1` nodes: its height is at most
twice the logarithm of the number of its nodes plus one. -/
theorem Balanced_height : ∀ t : UserNode, Balanced t →
    2 ^ (trueHeight t / 2) ≤ (inorderRec t).length + 1
  | .null, _ => by decide
  | .node d l r h, hb => by
    rw [Balanced_node] at hb
    obtain ⟨bl, br, h1, h2⟩ := hb
    have il := Balanced_height l bl
    have ir := Balanced_height r br
    rw [trueHeight_node, inorderRec_node, List.length_append, List.length_cons]
    by_cases hle : trueHeight l ≤ trueHeight r
    · rw [Nat.max_eq_right hle]
      have := pow_half_le _ _ hle h2
      omega
    · rw [Nat.max_eq_left (by omega)]
      have := pow_half_le (trueHeight r) (trueHeight l) (by omega) h1
      omega

theorem length_listInsert (info : UserInfo) :
    ∀ l : List UserInfo, (listInsert info l).length ≤ l.length + 1
  | [] => le_refl _
  | a :: rest => by
    simp only [listInsert]
    split
    · simp
    · split
      · have := length_listInsert info rest
        simp only [List.length_cons]
        omega
      · simp

theorem length_foldl_listInsert :
    ∀ (infos l : List UserInfo),
      (infos.foldl (fun l i => listInsert i l) l).length ≤ l.length + infos.length
  | [], _ => le_refl _
  | info :: rest, l => by
    rw [List.foldl_cons]
    have h1 := length_foldl_listInsert rest (listInsert info l)
    have h2 := length_listInsert info l
    simp only [List.length_cons]
    omega

/-- C31. Every sequence of `insert` calls from the empty tree returns, and the tree it builds
is a binary search tree on `username`, every stored `height` field is the height of its subtree,
and at every node the heights of the two subtrees differ by at most 1; so a tree of height `h`
holds at least `2 ^ (h / 2) - 1` users, which are not more than the calls: the height is at
most `2 * log2 (n + 1) + 1` for `n` users. -/
theorem C31_avl_balance (infos : List UserInfo) :
    ∃ t, UserAVLTree.empty.insertAll infos = some t ∧
      IsBST t.root ∧ HeightsStored t.root ∧ Balanced t.root ∧
      2 ^ (trueHeight t.root / 2) ≤ t.getAllUsers.length + 1 ∧
      t.getAllUsers.length ≤ infos.length := by
  obtain ⟨t, ht, hav, hs, hin⟩ := insertAll_spec infos UserAVLTree.empty trivial
    (by unfold SortedByName; exact List.Pairwise.nil)
  obtain ⟨_, hst, hbal⟩ := AVL_trueHeight t.root hav
  refine ⟨t, ht, IsBST_of_sorted t.root hs, hst, hbal, Balanced_height t.root hbal, ?_⟩
  have := length_foldl_listInsert infos (inorderRec UserAVLTree.empty.root)
  unfold UserAVLTree.getAllUsers
  rw [hin]
  exact this.trans (by simp [UserAVLTree.empty, inorderRec])

/-! ### Claim C34: the jail in the tree -/

/-- The node a walk ends at is the node it starts from or one of its descendants. -/
theorem walkSegments_mem : ∀ (segs : List Str) (current n : FSNode),
    walkSegments current segs = some n → n ∈ current.nodes
  | [], current, n, h => by
    simp only [walkSegments, Option.some.injEq] at h
    rw [← h]
    exact self_mem_nodes current
  | seg :: rest, current, n, h => by
    simp only [walkSegments] at h
    cases hf : current.children.find? (fun child => decide (child.metadata.name = seg)) with
    | none => rw [hf] at h; cases h
    | some next =>
      rw [hf] at h
      have h1 := walkSegments_mem rest next n h
      rw [nodes_eq]
      exact List.mem_cons_of_mem _ (mem_nodesL.mpr ⟨next, List.mem_of_find?_eq_some hf, h1⟩)

/-- A path that continues another path after a `/` resolves to a node at or below the node the
other path resolves to. -/
theorem resolvePath_below (t : FileSystemTree) (a rest : Str) (n : FSNode) (ha : a ≠ [])
    (h : resolvePath t (a ++ '/' :: rest) = some n) :
    ∃ home, resolvePath t a = some home ∧ n ∈ home.nodes := by
  cases hroot : t.root with
  | none => simp [resolvePath, hroot] at h
  | some root =>
    rw [resolvePath_eq_spec t root hroot _ (by simp), resolvePathSpec, pathSegments_append,
      walkSegments_append] at h
    cases hw : walkSegments root (pathSegments a) with
    | none => rw [hw] at h; cases h
    | some home =>
      rw [hw, Option.some_bind] at h
      refine ⟨home, ?_, walkSegments_mem _ home n h⟩
      rw [resolvePath_eq_spec t root hroot a ha, resolvePathSpec, hw]

/-- C34. For every directory tree, every session of a user `u` other than `admin` and every
virtual path `p`: when the translation of `p` is not empty and `resolvePath` returns a node for
it, the path `/home/u` resolves to a node and the node returned is that node or one of its
descendants. (Neither that `u` is non-empty nor that it holds no `/` is used.) -/
theorem C34_jail_tree (t : FileSystemTree) (sessions : SessionTable) (sid u p : Str)
    (n : FSNode) (hs : sessions.lookup sid = some u) (hadmin : u ≠ "admin".toList)
    (htr : translatePath sessions p sid ≠ [])
    (hres : resolvePath t (translatePath sessions p sid) = some n) :
    ∃ home, resolvePath t ("/home/".toList ++ u) = some home ∧ n ∈ home.nodes := by
  have hjail : "/home/".toList ++ u ≠ [] := by simp
  unfold translatePath at htr hres
  simp only [hs, if_neg hadmin] at htr hres
  by_cases hdd : (strFind p "..".toList).isSome = true
  · rw [if_pos hdd] at htr
    exact absurd rfl htr
  · rw [if_neg hdd] at hres
    by_cases hroot : p = "/".toList ∨ p = []
    · rw [if_pos hroot] at hres
      exact ⟨n, hres, self_mem_nodes n⟩
    · rw [if_neg hroot] at hres
      by_cases hhead : p.headD (Char.ofNat 0) ≠ '/'
      · rw [if_pos hhead] at hres
        exact resolvePath_below t _ p n hjail hres
      · rw [if_neg hhead] at hres
        cases p with
        | nil => exact absurd (Or.inr rfl) hroot
        | cons c rest =>
          have hc : c = '/' := by
            simp only [List.headD_cons, ne_eq, not_not] at hhead
            exact hhead
          rw [hc] at hres
          exact resolvePath_below t _ rest n hjail hres

/-- Witness of `C34_jail_tree`: in the tree of the examples the path `/notes` of a session of
`bob` resolves to the file `notes`, a descendant of `/home/bob`. -/
theorem C34_jail_tree_witness :
    [("s1".toList, "bob".toList)].lookup "s1".toList = some "bob".toList ∧
    "bob".toList ≠ "admin".toList ∧
    translatePath [("s1".toList, "bob".toList)] "/notes".toList "s1".toList
      = "/home/bob/notes".toList ∧
    resolvePath jailTree "/home/bob/notes".toList
      = some (.mk { name := "notes".toList, type := EntryType.FILE, size := 5,
                    permissions := 0o600, owner := "bob".toList, inode := 3, parent_inode := 2,
                    start_block := 5 } []) ∧
    ∃ home, resolvePath jailTree ("/home/".toList ++ "bob".toList) = some home ∧
      FSNode.mk { name := "notes".toList, type := EntryType.FILE, size := 5,
                  permissions := 0o600, owner := "bob".toList, inode := 3, parent_inode := 2,
                  start_block := 5 } [] ∈ home.nodes :=
  ⟨rfl, by decide, by decide, rfl,
    C34_jail_tree jailTree [("s1".toList, "bob".toList)] "s1".toList "bob".toList
      "/notes".toList
      (.mk { name := "notes".toList, type := EntryType.FILE, size := 5,
             permissions := 0o600, owner := "bob".toList, inode := 3, parent_inode := 2,
             start_block := 5 } [])
      rfl (by decide) (by decide) rfl⟩

/-! ### Claim C35: a session id determines its user -/

theorem lookup_filter_ne (k k1 : Str) (h : k1 ≠ k) :
    ∀ m : SessionTable, (m.filter (fun e => decide (e.1 ≠ k))).lookup k1 = m.lookup k1
  | [] => rfl
  | (a, b) :: rest => by
    by_cases hak : a = k
    · have hne : (k1 == a) = false := by
        rw [hak]
        simpa using h
      rw [List.filter_cons_of_neg (by simpa using hak), List.lookup_cons, hne]
      exact lookup_filter_ne k k1 h rest
    · rw [List.filter_cons_of_pos (by simpa using hak), List.lookup_cons, List.lookup_cons,
        lookup_filter_ne k k1 h rest]

/-- A store into the session table leaves the entries of the other keys as they are. -/
theorem lookup_sessionStore_ne (m : SessionTable) (k v k1 : Str) (h : k1 ≠ k) :
    (sessionStore m k v).lookup k1 = m.lookup k1 := by
  have hb : (k1 == k) = false := by simpa using h
  unfold sessionStore
  rw [List.lookup_cons, hb]
  exact lookup_filter_ne k k1 h m

/-- A `user_login` leaves the session table as it is or stores the id it has minted. -/
theorem login_sessions {L : Layout} {now : Nat} {s s1 : ServerState} {req : Request}
    {resp : Str} (hop : req.operation = "user_login".toList)
    (h : processRequest L now s req = some (resp, s1)) :
    (s1 = s ∧ resp = respInvalidCredentials req.request_id) ∨
    (resp = respLoginOk req.request_id (mintSid req.username now) ∧
      s1 = { s with active_sessions :=
        sessionStore s.active_sessions (mintSid req.username now) req.username }) := by
  rw [processRequest_user_login L now s req hop] at h
  unfold userLogin at h
  split at h
  · split at h
    · simp only [Option.some.injEq, Prod.mk.injEq] at h
      exact Or.inr ⟨h.1.symm, h.2.symm⟩
    · simp only [Option.some.injEq, Prod.mk.injEq] at h
      exact Or.inl ⟨h.2.symm, h.1.symm⟩
  · simp only [Option.some.injEq, Prod.mk.injEq] at h
    exact Or.inl ⟨h.2.symm, h.1.symm⟩

/-- A request other than `user_login` leaves the session table as it is. -/
theorem processRequest_sessions {L : Layout} {now : Nat} {s s1 : ServerState} {req : Request}
    {resp : Str} (h1 : req.operation ≠ "user_login".toList)
    (he : processRequest L now s req = some (resp, s1)) :
    s1.active_sessions = s.active_sessions := by
  by_cases h2 : req.operation = "user_create".toList
  · rw [processRequest_user_create L now s req h2] at he
    rcases userCreate_done he with ⟨hs, _⟩ | ⟨off, ut1, _, _, _, hprov, _⟩
    · rw [hs]
    · exact (provisionHome_frame hprov).2
  by_cases h3 : req.operation = "user_delete".toList
  · rw [processRequest_user_delete L now s req h3] at he
    unfold userDelete at he
    split at he
    · simp only [Option.some.injEq, Prod.mk.injEq] at he
      rw [← he.2]
    · split at he
      · simp only [Option.some.injEq, Prod.mk.injEq] at he
        rw [← he.2]
      · simp only [Option.some.injEq, Prod.mk.injEq] at he
        rw [← he.2]
  by_cases h4 : req.operation = "file_read".toList
  · rw [processRequest_file_read L now s req h4] at he
    split at he
    · simp only [Option.some.injEq, Prod.mk.injEq] at he
      rw [← he.2]
    · rw [fileRead_state he]
  by_cases h5 : req.operation = "file_delete".toList
  · rw [processRequest_file_delete L now s req h5] at he
    split at he
    · simp only [Option.some.injEq, Prod.mk.injEq] at he
      rw [← he.2]
    · rcases fileDelete_done he with ⟨_, _, hs⟩ | ⟨_, _, _, _, _, _, _, _, _, _, _, _, hs⟩
      · rw [hs]
      · rw [hs]
  by_cases h6 : req.operation = "dir_delete".toList
  · rw [processRequest_dir_delete L now s req h6] at he
    split at he
    · simp only [Option.some.injEq, Prod.mk.injEq] at he
      rw [← he.2]
    · rcases dirDelete_done he with ⟨hs, _⟩ | ⟨_, _, _, _, _, _, _, _, _, _, _, _, _, _, hs⟩
      · rw [hs]
      · rw [hs]
  by_cases h7 : req.operation = "file_create".toList
  · rw [processRequest_file_create L now s req h7] at he
    split at he
    · simp only [Option.some.injEq, Prod.mk.injEq] at he
      rw [← he.2]
    · rcases fileCreate_done he with ⟨_, hs⟩ |
        ⟨_, _, _, _, _, _, _, ⟨_, hs⟩ | ⟨_, _, _, _, ⟨_, _, hs⟩ | ⟨_, _, _, hs⟩⟩⟩
      · rw [hs]
      · rw [hs]
      · rw [hs]
      · rw [hs]
  obtain ⟨r, hr⟩ := processRequest_other L now s req h1 h2 h3 h4 h5 h6 h7
  rw [hr] at he
  simp only [Option.some.injEq, Prod.mk.injEq] at he
  rw [← he.2]

/-- In every reachable state every key of the session table is an id minted for the user the
entry names. -/
theorem Reach_minted {L : Layout} {s : ServerState} (h : Reach L s) :
    ∀ k v, s.active_sessions.lookup k = some v → ∃ t, k = mintSid v t := by
  induction h with
  | format now hf =>
    rw [formatVolume_eq, Option.some.injEq] at hf
    subst hf
    intro k v hk
    cases hk
  | @step now req resp s s1 hprev he ih =>
    by_cases h1 : req.operation = "user_login".toList
    · rcases login_sessions h1 he with ⟨hs, _⟩ | ⟨_, hs⟩
      · rw [hs]
        exact ih
      · have hs2 : s1.active_sessions
            = sessionStore s.active_sessions (mintSid req.username now) req.username := by
          rw [hs]
        intro k v hk
        rw [hs2] at hk
        by_cases hkk : k = mintSid req.username now
        · rw [hkk, lookup_sessionStore, Option.some.injEq] at hk
          exact ⟨now, by rw [hkk, hk]⟩
        · rw [lookup_sessionStore_ne _ _ _ _ hkk] at hk
          exact ih k v hk
    · rw [processRequest_sessions h1 he]
      exact ih

/-- C35. The minted id `sess_` + `u` + `_` + decimal(`t`) determines the pair (`u`, `t`): ids
minted for two different usernames differ, whatever the clock values. In every reachable state
a `user_login` that is answered with success has minted the id of its username and clock
value, the session table holds the username under this id afterwards, and every entry of the
table that names another user has another id and is as before. -/
theorem C35_session_owner (L : Layout) (s s1 : ServerState) (hreach : Reach L s) (now : Nat)
    (req : Request) (sid : Str) (hop : req.operation = "user_login".toList)
    (h : processRequest L now s req = some (respLoginOk req.request_id sid, s1)) :
    (∀ (u1 u2 : Str) (t1 t2 : Nat), mintSid u1 t1 = mintSid u2 t2 → u1 = u2 ∧ t1 = t2) ∧
    (∀ (u1 u2 : Str) (t1 t2 : Nat), u1 ≠ u2 → mintSid u1 t1 ≠ mintSid u2 t2) ∧
    sid = "sess_".toList ++ req.username ++ "_".toList ++ to_string now ∧
    s1.active_sessions.lookup sid = some req.username ∧
    ∀ (sid0 u0 : Str), s.active_sessions.lookup sid0 = some u0 → u0 ≠ req.username →
      sid0 ≠ sid ∧ s1.active_sessions.lookup sid0 = some u0 := by
  have hsid : sid = mintSid req.username now := login_sid hop h
  have hs1 : s1.active_sessions
      = sessionStore s.active_sessions (mintSid req.username now) req.username := by
    rcases login_sessions hop h with ⟨_, hr⟩ | ⟨_, hs⟩
    · exact absurd hr.symm (respInvalidCredentials_ne_respLoginOk _ _ _)
    · rw [hs]
  refine ⟨fun u1 u2 t1 t2 e => mintSid_inj e,
    fun u1 u2 t1 t2 hne e => hne (mintSid_inj e).1, hsid, ?_, ?_⟩
  · rw [hs1, hsid]
    exact lookup_sessionStore _ _ _
  · intro sid0 u0 h0 hne
    obtain ⟨t0, ht0⟩ := Reach_minted hreach sid0 u0 h0
    have hdiff : sid0 ≠ mintSid req.username now := by
      intro e
      rw [ht0] at e
      exact hne (mintSid_inj e).1
    refine ⟨by rw [hsid]; exact hdiff, ?_⟩
    rw [hs1, lookup_sessionStore_ne _ _ _ _ hdiff]
    exact h0

/-- Witness of `C35_session_owner`: `admin` has logged in at the time 1, `bob` is created at
the time 2 and logs in at the time 3; the entry of `admin` stays. -/
theorem C35_session_owner_witness :
    ∃ s1, processRequest demoLayout 2 (adminState demoLayout 0 1)
        (accountRequest "user_create".toList "1".toList "bob".toList "secret".toList)
        = some (respUserCreated "1".toList, s1) ∧
      Reach demoLayout s1 ∧
      s1.active_sessions.lookup (mintSid "admin".toList 1) = some "admin".toList ∧
      processRequest demoLayout 3 s1
        (accountRequest "user_login".toList "2".toList "bob".toList "secret".toList)
        = some (respLoginOk "2".toList (mintSid "bob".toList 3),
            { s1 with active_sessions :=
                sessionStore s1.active_sessions (mintSid "bob".toList 3) "bob".toList }) ∧
      ((∀ (u1 u2 : Str) (t1 t2 : Nat), mintSid u1 t1 = mintSid u2 t2 → u1 = u2 ∧ t1 = t2) ∧
       (∀ (u1 u2 : Str) (t1 t2 : Nat), u1 ≠ u2 → mintSid u1 t1 ≠ mintSid u2 t2) ∧
       mintSid "bob".toList 3 = "sess_".toList ++ "bob".toList ++ "_".toList ++ to_string 3 ∧
       ({ s1 with active_sessions :=
            sessionStore s1.active_sessions (mintSid "bob".toList 3) "bob".toList }
          : ServerState).active_sessions.lookup (mintSid "bob".toList 3) = some "bob".toList ∧
       ∀ (sid0 u0 : Str), s1.active_sessions.lookup sid0 = some u0 → u0 ≠ "bob".toList →
         sid0 ≠ mintSid "bob".toList 3 ∧
         ({ s1 with active_sessions :=
              sessionStore s1.active_sessions (mintSid "bob".toList 3) "bob".toList }
            : ServerState).active_sessions.lookup sid0 = some u0) := by
  have hr0 := adminState_reach demoLayout 0 1
  have hi0 := Reach_inv hr0
  obtain ⟨s1, hc⟩ := userCreate_ok demoLayout 2 (adminState demoLayout 0 1) "1".toList
    "bob".toList "secret".toList hi0 rfl (demo_user_slot 0)
  have h1 : processRequest demoLayout 2 (adminState demoLayout 0 1)
      (accountRequest "user_create".toList "1".toList "bob".toList "secret".toList)
      = some (respUserCreated "1".toList, s1) := by
    rw [processRequest_user_create demoLayout 2 _ _ rfl]
    exact hc
  have hr1 : Reach demoLayout s1 := Reach.step 2 _ _ hr0 h1
  obtain ⟨hrec, hsess⟩ := created_record hi0 rfl ⟨by decide, by decide⟩ h1
  have hadm : s1.active_sessions.lookup (mintSid "admin".toList 1) = some "admin".toList := by
    rw [hsess]
    decide
  have hlog : processRequest demoLayout 3 s1
      (accountRequest "user_login".toList "2".toList "bob".toList "secret".toList)
      = some (respLoginOk "2".toList (mintSid "bob".toList 3),
          { s1 with active_sessions :=
              sessionStore s1.active_sessions (mintSid "bob".toList 3) "bob".toList }) := by
    rw [processRequest_user_login demoLayout 3 s1 _ rfl]
    exact userLogin_ok (p := "secret".toList) hrec rfl
  exact ⟨s1, h1, hr1, hadm, hlog,
    C35_session_owner demoLayout s1
      { s1 with active_sessions :=
          sessionStore s1.active_sessions (mintSid "bob".toList 3) "bob".toList }
      hr1 3 (accountRequest "user_login".toList "2".toList "bob".toList "secret".toList)
      (mintSid "bob".toList 3) rfl hlog⟩

/-! ### Claim C33: a file that gets a child -/

/-- C33, the behaviour of the code. In every reachable state of the server, when the parent
path of a `file_create` resolves to a `FILE` node that has no child of the name and a run of
`floor(len(data) / 4096) + 1` free blocks exists, the request answers `Created` and the new
node is appended to the children of the `FILE` node: the state it leaves, which is reachable,
has a node with a child whose type is `FILE`. The name is the name the new entry holds: the last
component of the path as far as the name field of a directory entry has room for it. -/
theorem C33_file_gets_child (L : Layout) (s : ServerState) (hreach : Reach L s) (now : Nat)
    (req : Request) (pp : NodePtr) (parent : FSNode) (j : Nat)
    (hop : req.operation = "file_create".toList)
    (hpp : resolvePathPtr s.fileTree
      (parentPath (translatePath s.active_sessions req.path req.session_id)) = some pp)
    (hpar : s.fileTree.node pp = some parent)
    (hfile : parent.metadata.type = EntryType.FILE)
    (hfree : ∀ c ∈ parent.children, c.metadata.name ≠ storedName L.nameCap
      (fileName (translatePath s.active_sessions req.path req.session_id)))
    (hrun : FreeRun s.blockManager.bitmap j (req.data.length / 4096 + 1)) :
    ∃ s1 child, processRequest L now s req = some (respCreated req.request_id, s1) ∧
      Reach L s1 ∧
      s1.fileTree.node pp = some (.mk parent.metadata (parent.children ++ [child])) ∧
      child.metadata.name = storedName L.nameCap
        (fileName (translatePath s.active_sessions req.path req.session_id)) ∧
      ∃ n ∈ s1.fileTree.nodes, n.children ≠ [] ∧ n.metadata.type = EntryType.FILE := by
  have hinv := Reach_inv hreach
  have hne : translatePath s.active_sessions req.path req.session_id ≠ [] := by
    intro h
    rw [h, parentPath_nil] at hpp
    unfold resolvePathPtr at hpp
    split at hpp
    · cases hpp
    · simp at hpp
  obtain ⟨s1, hc⟩ := fileCreate_ok L s req.request_id req.session_id
    (translatePath s.active_sessions req.path req.session_id) req.data req.type
    hinv.alloc hpp hpar hfree hrun
  have hproc : processRequest L now s req = some (respCreated req.request_id, s1) := by
    rw [processRequest_file_create L now s req hop, if_neg hne]
    exact hc
  obtain ⟨pp1, parent1, sb, bm1, p, t1, hpp1, _, _, _, hadd, hs1⟩ := fileCreate_created hc
  rw [hpp, Option.some.injEq] at hpp1
  subst hpp1
  obtain ⟨root, pn, hr, hn, _, _, ht1⟩ := addChild_at hadd
  have hpn : pn = parent := by
    have h1 : s.fileTree.node pp = some pn := by
      simp only [FileSystemTree.node, hr, Option.some_bind, hn]
    rw [hpar, Option.some.injEq] at h1
    exact h1.symm
  subst hpn
  have happ := (nodeAt_appendChild root pn pp hn
    { (createEntry L s req.session_id
        (fileName (translatePath s.active_sessions req.path req.session_id))
        req.data req.type parent1 (sb % 2 ^ 32).toNat) with
      inode := s.fileTree.next_inode_counter
      parent_inode := pn.metadata.inode }).1
  have htree : s1.fileTree = t1 := by rw [hs1]
  have hnode1 : s1.fileTree.node pp = some (.mk pn.metadata (pn.children ++
      [.mk { (createEntry L s req.session_id
          (fileName (translatePath s.active_sessions req.path req.session_id))
          req.data req.type parent1 (sb % 2 ^ 32).toNat) with
        inode := s.fileTree.next_inode_counter
        parent_inode := pn.metadata.inode } []])) := by
    rw [htree, ht1]
    simp only [FileSystemTree.node, Option.some_bind]
    exact happ
  refine ⟨s1, _, hproc, Reach.step now req _ hreach hproc, hnode1, rfl, _,
    node_mem_nodes hnode1, ?_, ?_⟩
  · rw [children_mk]
    exact List.append_ne_nil_of_right_ne_nil _ (List.cons_ne_nil _ _)
  · exact hfile

theorem fresh_bit_free (j : Nat) (h4 : 4 ≤ j) (h : j < 25600) :
    ([true, true, true, true] ++ List.replicate 25596 false)[j]? = some false := by
  rw [List.getElem?_append_right (by simpa using h4), List.getElem?_replicate]
  simp only [List.length_cons, List.length_nil]
  rw [if_pos (by omega)]

/-- Witness of `C33_file_gets_child`: with `admin` logged in on the formatted volume the file
`/home/f` is created, then `file_create` of `/home/f/g` answers `Created`. -/
theorem C33_file_gets_child_witness :
    ∃ s1 p fnode j,
      processRequest demoLayout 2 (adminState demoLayout 0 1)
        (adminRequest 1 "file_create".toList "/home/f".toList "hello".toList "file".toList)
        = some (respCreated "1".toList, s1) ∧
      Reach demoLayout s1 ∧
      resolvePathPtr s1.fileTree
        (parentPath (translatePath s1.active_sessions "/home/f/g".toList (adminSid 1)))
        = some p ∧
      s1.fileTree.node p = some fnode ∧ fnode.metadata.type = EntryType.FILE ∧
      (∀ c ∈ fnode.children, c.metadata.name ≠ storedName demoLayout.nameCap
        (fileName (translatePath s1.active_sessions "/home/f/g".toList (adminSid 1)))) ∧
      FreeRun s1.blockManager.bitmap j ("x".toList.length / 4096 + 1) ∧
      ∃ s2 child,
        processRequest demoLayout 3 s1
          (adminRequest 1 "file_create".toList "/home/f/g".toList "x".toList "file".toList)
          = some (respCreated "1".toList, s2) ∧
        Reach demoLayout s2 ∧
        s2.fileTree.node p = some (.mk fnode.metadata (fnode.children ++ [child])) ∧
        child.metadata.name = storedName demoLayout.nameCap
          (fileName (translatePath s1.active_sessions "/home/f/g".toList (adminSid 1))) ∧
        ∃ n ∈ s2.fileTree.nodes, n.children ≠ [] ∧ n.metadata.type = EntryType.FILE := by
  obtain ⟨s1, h1⟩ := adminCreate_ok demoLayout 0 1 2 "f".toList "hello".toList "file".toList
    (by decide) (by decide)
  have hr0 := adminState_reach demoLayout 0 1
  have hi0 := Reach_inv hr0
  have hr1 : Reach demoLayout s1 := Reach.step 2 _ _ hr0 h1
  have hcf : fileCreate demoLayout (adminState demoLayout 0 1) "1".toList (adminSid 1)
      ("/home".toList ++ '/' :: "f".toList) "hello".toList "file".toList
      = some (respCreated "1".toList, s1) := by
    have e := h1
    rw [processRequest_file_create demoLayout 2 _ _ rfl, translatePath_adminRequest,
      if_neg (by decide)] at e
    exact e
  obtain ⟨pp0, parent0, sb, bm1, p, t1, hpp0, hpar0, hal, hsb, hadd, hs1⟩ :=
    fileCreate_created hcf
  rw [parentPath_append "/home".toList "f".toList (by decide)] at hpp0
  rw [fileName_append "/home".toList "f".toList (by decide)] at hadd hs1
  obtain ⟨hres, pn, _, _, hnode⟩ := @resolve_created _ _ _ _ _ "/home".toList "f".toList
    hpp0 hadd rfl (by decide) (by decide)
  have htree : s1.fileTree = t1 := by rw [hs1]
  have hsess : s1.active_sessions = (adminState demoLayout 0 1).active_sessions := by rw [hs1]
  have hbm : s1.blockManager = bm1 := by rw [hs1]
  have htr : translatePath s1.active_sessions "/home/f/g".toList (adminSid 1)
      = "/home/f/g".toList := by
    rw [hsess]
    exact translatePath_admin demoLayout 0 1 _
  have hpar : parentPath "/home/f/g".toList = "/home/f".toList :=
    parentPath_append "/home/f".toList "g".toList (by decide)
  obtain ⟨s0, c, hcount, _, _, _, h4, hle, hbm1⟩ :=
    alloc_result hi0.alloc (toInt32_le_max _) hal hsb
  have hc1 : c = 1 := by
    have e : toInt32 ("hello".toList.length / 4096 + 1) = 1 := by decide
    rw [e] at hcount
    omega
  subst hc1
  have hbits : s1.blockManager.bitmap
      = setBits true (toInt32 (adminState demoLayout 0 1).blockManager.total_blocks)
          (adminState demoLayout 0 1).blockManager.bitmap s0 1 := by
    rw [hbm, hbm1]
    simp only [ofBitmap]
  have hrun : FreeRun s1.blockManager.bitmap (if s0 = 4 then 5 else 4)
      ("x".toList.length / 4096 + 1) := by
    show FreeRun s1.blockManager.bitmap (if s0 = 4 then 5 else 4) 1
    rw [hbits]
    refine ⟨?_, ?_⟩
    · rw [setBits_length]
      show _ ≤ ([true, true, true, true] ++ List.replicate 25596 false).length
      rw [List.length_append, List.length_replicate]
      split <;> decide
    · intro i hi1 hi2
      have hi : i = if s0 = 4 then 5 else 4 := by omega
      rw [getElem?_setBits, if_neg (by
        rintro ⟨ha, hb, _⟩
        split at hi <;> omega)]
      show ([true, true, true, true] ++ List.replicate 25596 false)[i]? = some false
      exact fresh_bit_free i (by split at hi <;> omega) (by split at hi <;> omega)
  have hpp : resolvePathPtr s1.fileTree
      (parentPath (translatePath s1.active_sessions "/home/f/g".toList (adminSid 1)))
      = some p := by
    rw [htr, hpar, htree]
    exact hres
  have hnode1 : s1.fileTree.node p = some (.mk
      { (createEntry demoLayout (adminState demoLayout 0 1) (adminSid 1) "f".toList "hello".toList
          "file".toList parent0 (sb % 2 ^ 32).toNat) with
        inode := (adminState demoLayout 0 1).fileTree.next_inode_counter
        parent_inode := pn.metadata.inode } []) := by
    rw [htree]
    exact hnode
  refine ⟨s1, p, _, _, h1, hr1, hpp, hnode1, ?_, ?_, hrun, ?_⟩
  · show (if "file".toList = "dir".toList then EntryType.DIRECTORY else EntryType.FILE)
      = EntryType.FILE
    rw [if_neg (by decide)]
  · intro c hc
    cases hc
  · exact C33_file_gets_child demoLayout s1 hr1 3
      (adminRequest 1 "file_create".toList "/home/f/g".toList "x".toList "file".toList)
      p _ (if s0 = 4 then 5 else 4) rfl hpp hnode1
      (by
        show (if "file".toList = "dir".toList then EntryType.DIRECTORY else EntryType.FILE)
          = EntryType.FILE
        rw [if_neg (by decide)])
      (fun c hc => by cases hc) hrun

/-! ### Claim C32: a delete that removes nothing -/

theorem size_zero_blocks (m : FileEntry) (h : m.size = 0) :
    toInt32 (m.size / 4096 + 1) ≤ 25600 := by
  rw [h]
  decide

/-- In every reachable state the number of blocks `file_delete` computes for a node,
`size / 4096 + 1` as an `int`, is at most the number of blocks of the volume. -/
theorem Reach_sizes {L : Layout} {s : ServerState} (h : Reach L s) :
    ∀ n ∈ s.fileTree.nodes, toInt32 (n.metadata.size / 4096 + 1) ≤ 25600 := by
  induction h with
  | format now hf =>
    rw [formatVolume_eq, Option.some.injEq] at hf
    subst hf
    intro n hn
    have hnodes : (freshState L now).fileTree.nodes
        = [.mk rootDirEntry [.mk { homeDirEntry with inode := 1 } []],
           .mk { homeDirEntry with inode := 1 } []] := by
      have hroot : (freshState L now).fileTree.root
          = some (.mk rootDirEntry [.mk { homeDirEntry with inode := 1 } []]) := rfl
      rw [nodes_of_root hroot, nodes_mk, nodesL_cons, nodes_mk, nodesL_nil]
      rfl
    rw [hnodes] at hn
    simp only [List.mem_cons, List.mem_singleton, List.not_mem_nil, or_false] at hn
    rcases hn with h1 | h1
    · rw [h1]
      exact size_zero_blocks _ rfl
    · rw [h1]
      exact size_zero_blocks _ rfl
  | @step now req resp s s1 hprev he ih =>
    have hinv := Reach_inv hprev
    by_cases h1 : req.operation = "user_login".toList
    · rcases login_sessions h1 he with ⟨hs, _⟩ | ⟨_, hs⟩
      · rw [hs]
        exact ih
      · rw [hs]
        exact ih
    by_cases h2 : req.operation = "user_create".toList
    · rw [processRequest_user_create L now s req h2] at he
      rcases userCreate_done he with ⟨hs, _⟩ | ⟨off, ut1, _, _, _, hprov, _⟩
      · rw [hs]
        exact ih
      · rcases provisionHome_done hprov with ⟨_, hs⟩ |
          ⟨hp, homeNode, db, bm1, _, _, hal, ⟨_, hs⟩ | ⟨hdb, r, t1, hadd, ⟨_, hs⟩ | ⟨p, _, hs⟩⟩⟩
        · rw [hs]
          exact ih
        · rw [hs]
          exact ih
        · rw [hs]
          exact addChild_forall (fun m => toInt32 (m.size / 4096 + 1) ≤ 25600)
            (fun _ _ => size_zero_blocks _ rfl) ih hadd
        · rw [hs]
          exact addChild_forall (fun m => toInt32 (m.size / 4096 + 1) ≤ 25600)
            (fun _ _ => size_zero_blocks _ rfl) ih hadd
    by_cases h3 : req.operation = "user_delete".toList
    · rw [processRequest_user_delete L now s req h3] at he
      unfold userDelete at he
      split at he
      · simp only [Option.some.injEq, Prod.mk.injEq] at he
        rw [← he.2]
        exact ih
      · split at he
        · simp only [Option.some.injEq, Prod.mk.injEq] at he
          rw [← he.2]
          exact ih
        · simp only [Option.some.injEq, Prod.mk.injEq] at he
          rw [← he.2]
          exact ih
    by_cases h4 : req.operation = "file_read".toList
    · rw [processRequest_file_read L now s req h4] at he
      split at he
      · simp only [Option.some.injEq, Prod.mk.injEq] at he
        rw [← he.2]
        exact ih
      · rw [fileRead_state he]
        exact ih
    by_cases h5 : req.operation = "file_delete".toList
    · rw [processRequest_file_delete L now s req h5] at he
      split at he
      · simp only [Option.some.injEq, Prod.mk.injEq] at he
        rw [← he.2]
        exact ih
      · rcases fileDelete_done he with ⟨_, _, hs⟩ | ⟨_, _, _, _, _, _, _, _, _, _, hrm, _, hs⟩
        · rw [hs]
          exact ih
        · rw [hs]
          exact removeChild_forall (fun m => toInt32 (m.size / 4096 + 1) ≤ 25600) ih hrm
    by_cases h6 : req.operation = "dir_delete".toList
    · rw [processRequest_dir_delete L now s req h6] at he
      split at he
      · simp only [Option.some.injEq, Prod.mk.injEq] at he
        rw [← he.2]
        exact ih
      · rcases dirDelete_done he with ⟨hs, _⟩ |
          ⟨_, _, _, _, _, _, _, _, _, _, _, _, hrm, _, hs⟩
        · rw [hs]
          exact ih
        · rw [hs]
          exact removeChild_forall (fun m => toInt32 (m.size / 4096 + 1) ≤ 25600) ih hrm
    by_cases h7 : req.operation = "file_create".toList
    · rw [processRequest_file_create L now s req h7] at he
      split at he
      · simp only [Option.some.injEq, Prod.mk.injEq] at he
        rw [← he.2]
        exact ih
      · rcases fileCreate_done he with ⟨_, hs⟩ |
          ⟨pp, parent, sb, bm1, _, _, hal, ⟨_, hs⟩ | ⟨hsb, r, t1, hadd, hcase⟩⟩
        · rw [hs]
          exact ih
        · rw [hs]
          exact ih
        · obtain ⟨s0, c, hcount, _, _, _, _, hle, _⟩ :=
            alloc_result hinv.alloc (toInt32_le_max _) hal hsb
          have htree : s1.fileTree = t1 := by
            rcases hcase with ⟨_, _, hs⟩ | ⟨_, _, _, hs⟩
            · rw [hs]
            · rw [hs]
          rw [htree]
          refine addChild_forall (fun m => toInt32 (m.size / 4096 + 1) ≤ 25600)
            (fun _ _ => ?_) ih hadd
          show toInt32 (req.data.length / 4096 + 1) ≤ 25600
          rw [hcount]
          omega
    obtain ⟨r, hr⟩ := processRequest_other L now s req h1 h2 h3 h4 h5 h6 h7
    rw [hr] at he
    simp only [Option.some.injEq, Prod.mk.injEq] at he
    rw [← he.2]
    exact ih

/-- `freeBlocks` returns for a start block of the volume and a count of at most the number of
blocks of the volume. -/
theorem freeBlocks_defined {bm : BlockManager} (h : AllocInv bm) {sb : Nat} (hsb : sb < 25600)
    {count : Int} (hc : count ≤ 25600) : ∃ bm1, freeBlocks bm (toInt32 sb) count = some bm1 := by
  rw [toInt32_small (by omega)]
  have hn : count.toNat ≤ 25600 := by omega
  have := freeBlocksLoop_eq sb count.toNat 0 bm h.1 (by omega)
  exact ⟨_, by simpa [freeBlocks] using this⟩

/-- `removeChild` returns `false` and leaves the tree as it is for the name of a directory
that has children. -/
theorem removeChild_refused {t : FileSystemTree} {root parent child : FSNode} {pp : NodePtr}
    {i : Nat} (hr : t.root = some root) (hpar : nodeAt root pp = some parent)
    (hidx : findChildIdx parent.children child.metadata.name = some i)
    (hci : parent.children[i]? = some child)
    (hdir : child.metadata.type = EntryType.DIRECTORY) (hch : child.children ≠ []) :
    removeChild t (some pp) child.metadata.name = some (false, t) := by
  have hnode : t.node pp = some parent := by
    simp only [FileSystemTree.node, hr, Option.some_bind, hpar]
  have hempty : child.children.isEmpty = false := by
    cases hc : child.children with
    | nil => exact absurd hc hch
    | cons a l => rfl
  have hloop : removeLoop child.metadata.name parent.children = (false, parent.children) := by
    rcases removeLoop_spec child.metadata.name parent.children with ⟨h1, _⟩ |
      ⟨i1, c, h1, h2, h3, _⟩
    · rw [hidx] at h1
      cases h1
    · rw [hidx, Option.some.injEq] at h1
      subst h1
      rw [hci, Option.some.injEq] at h2
      subst h2
      exact h3 ⟨hdir, hempty⟩
  have hid : modifyAt
      (fun n => FSNode.mk n.metadata (removeLoop child.metadata.name n.children).2) pp root
      = root := modifyAt_id _ pp root parent hpar (by simp only [hloop]; exact FSNode.eta parent)
  simp only [removeChild, hnode, hloop]
  cases t with
  | mk r cnt =>
    simp only at hr
    subst hr
    simp only [Option.map_some', hid]

/-- C32, the behaviour of the code. In every reachable state of the server, when the translated
path of a `file_delete` resolves to the root, or to a directory that has at least one child, the
request answers `Deleted`, the tree is as before, and the path resolves to the same node
afterwards. -/
theorem C32_deleted_still_resolves (L : Layout) (s : ServerState) (hreach : Reach L s)
    (now : Nat) (req : Request) (p : NodePtr) (node : FSNode)
    (hop : req.operation = "file_delete".toList)
    (hres : resolvePathPtr s.fileTree
      (translatePath s.active_sessions req.path req.session_id) = some p)
    (hnode : s.fileTree.node p = some node)
    (hkeep : p = [] ∨ (node.metadata.type = EntryType.DIRECTORY ∧ node.children ≠ [])) :
    ∃ s1, processRequest L now s req = some (respDeleted, s1) ∧
      s1.fileTree = s.fileTree ∧
      resolvePath s1.fileTree (translatePath s.active_sessions req.path req.session_id)
        = some node := by
  have hinv := Reach_inv hreach
  have hne : translatePath s.active_sessions req.path req.session_id ≠ [] := by
    intro h
    rw [h] at hres
    unfold resolvePathPtr at hres
    split at hres
    · cases hres
    · simp at hres
  have hlt := hinv.blocks node (node_mem_nodes hnode)
  have hsz := Reach_sizes hreach node (node_mem_nodes hnode)
  obtain ⟨bm1, hbm1⟩ : ∃ bm1, (if node.metadata.start_block > 3 then
      freeBlocks s.blockManager (toInt32 node.metadata.start_block)
        (toInt32 (node.metadata.size / 4096 + 1))
      else some s.blockManager) = some bm1 := by
    by_cases h3 : node.metadata.start_block > 3
    · rw [if_pos h3]
      exact freeBlocks_defined hinv.alloc hlt hsz
    · rw [if_neg h3]
      exact ⟨_, rfl⟩
  obtain ⟨disk1, hdisk1⟩ := clearSlot_some L s p node (by
    intro pp hpp
    have hp : p ≠ [] := by
      intro e
      rw [e] at hpp
      cases hpp
    obtain ⟨pp1, i, root, parent, child, hpi, hr, hpar, _, _, _⟩ := resolvePathPtr_last hres hp
    rw [hpi, parentPtr_append, Option.some.injEq] at hpp
    subst hpp
    exact ⟨parent, by simp only [FileSystemTree.node, hr, Option.some_bind, hpar]⟩)
  have hrm : removeChild s.fileTree (parentPtr p) node.metadata.name
      = some (false, s.fileTree) := by
    by_cases hp : p = []
    · rw [hp]
      rfl
    · rcases hkeep with h | ⟨hdir, hch⟩
      · exact absurd h hp
      · obtain ⟨pp1, i, root, parent, child, hpi, hr, hpar, hci, hchild, hidx⟩ :=
          resolvePathPtr_last hres hp
        rw [hnode, Option.some.injEq] at hchild
        subst hchild
        rw [hpi, parentPtr_append]
        exact removeChild_refused hr hpar hidx hci hdir hch
  refine ⟨{ s with blockManager := bm1, disk := disk1, fileTree := s.fileTree }, ?_, rfl, ?_⟩
  · rw [processRequest_file_delete L now s req hop, if_neg hne]
    unfold fileDelete
    simp only [hres, hnode, hbm1, hdisk1, hrm]
  · show resolvePath s.fileTree _ = some node
    rw [resolvePath_eq_node, hres, Option.some_bind, hnode]

/-- Witness of `C32_deleted_still_resolves`: with `admin` logged in on the formatted volume the
file `/home/f` is created, then `file_delete` of `/home` answers `Deleted` and `/home` still
resolves. -/
theorem C32_deleted_still_resolves_witness :
    ∃ s1 node,
      processRequest demoLayout 2 (adminState demoLayout 0 1)
        (adminRequest 1 "file_create".toList "/home/f".toList "hello".toList "file".toList)
        = some (respCreated "1".toList, s1) ∧
      Reach demoLayout s1 ∧
      resolvePathPtr s1.fileTree
        (translatePath s1.active_sessions "/home".toList (adminSid 1)) = some [0] ∧
      s1.fileTree.node [0] = some node ∧
      (([0] : NodePtr) = [] ∨
        (node.metadata.type = EntryType.DIRECTORY ∧ node.children ≠ [])) ∧
      ∃ s2, processRequest demoLayout 3 s1
          (adminRequest 1 "file_delete".toList "/home".toList [] []) = some (respDeleted, s2) ∧
        s2.fileTree = s1.fileTree ∧
        resolvePath s2.fileTree (translatePath s1.active_sessions "/home".toList (adminSid 1))
          = some node := by
  obtain ⟨s1, h1⟩ := adminCreate_ok demoLayout 0 1 2 "f".toList "hello".toList "file".toList
    (by decide) (by decide)
  have hc1 : processRequest demoLayout 2 (adminState demoLayout 0 1)
      (adminRequest 1 "file_create".toList "/home/f".toList "hello".toList "file".toList)
      = some (respCreated "1".toList, s1) := h1
  have hr1 : Reach demoLayout s1 := Reach.step 2 _ _ (adminState_reach demoLayout 0 1) hc1
  obtain ⟨newNode, nf, _, _, hsess, _, htree⟩ := adminCreate_state hc1
  have htr : translatePath s1.active_sessions "/home".toList (adminSid 1) = "/home".toList := by
    rw [hsess]
    exact translatePath_admin demoLayout 0 1 _
  have hres : resolvePathPtr s1.fileTree
      (translatePath s1.active_sessions "/home".toList (adminSid 1)) = some [0] := by
    rw [htr, resolvePathPtr_eq s1.fileTree _ htree _ (by decide),
      show pathSegments "/home".toList = ["home".toList] by decide]
    rfl
  have hnode : s1.fileTree.node [0]
      = some (.mk { homeDirEntry with inode := 1 } [newNode]) := by
    simp only [FileSystemTree.node, htree, Option.some_bind]
    rfl
  have hkeep : ([0] : NodePtr) = [] ∨
      ((FSNode.mk { homeDirEntry with inode := 1 } [newNode]).metadata.type
          = EntryType.DIRECTORY ∧
        (FSNode.mk { homeDirEntry with inode := 1 } [newNode]).children ≠ []) :=
    Or.inr ⟨rfl, List.cons_ne_nil _ _⟩
  exact ⟨s1, _, hc1, hr1, hres, hnode, hkeep,
    C32_deleted_still_resolves demoLayout s1 hr1 3
      (adminRequest 1 "file_delete".toList "/home".toList [] []) [0]
      (.mk { homeDirEntry with inode := 1 } [newNode]) rfl hres hnode hkeep⟩

/-! ### The slot of a file in the block of its parent -/

/-- Counterexample to C18 as stated: on the formatted volume of the layout of the examples,
whose username field has 16 bytes, `user_create` of the username `aaaaaaaaaaaaaaaab` (17
characters) with the password `secret` answers with success; the index holds the record under
the first 16 characters, and the `user_login` with the same username and password that follows at
once answers `Invalid credentials`, which is not the response of a login, and leaves the session
table empty. -/
theorem C18_counterexample :
    ∃ s1, Reach demoLayout (freshState demoLayout 0) ∧
      processRequest demoLayout 1 (freshState demoLayout 0)
        (accountRequest "user_create".toList "1".toList "aaaaaaaaaaaaaaaab".toList
          "secret".toList) = some (respUserCreated "1".toList, s1) ∧
      s1.userTree.search "aaaaaaaaaaaaaaaa".toList = some
        { username := "aaaaaaaaaaaaaaaa".toList, password_hash := simpleHash "secret".toList,
          role := UserRole.NORMAL, created_time := 1, is_active := 1 } ∧
      s1.userTree.search "aaaaaaaaaaaaaaaab".toList = none ∧
      processRequest demoLayout 2 s1
        (accountRequest "user_login".toList "2".toList "aaaaaaaaaaaaaaaab".toList
          "secret".toList) = some (respInvalidCredentials "2".toList, s1) ∧
      respInvalidCredentials "2".toList
        ≠ respLoginOk "2".toList (mintSid "aaaaaaaaaaaaaaaab".toList 2) ∧
      s1.active_sessions = [] := by
  obtain ⟨s1, h1⟩ := freshCreate_ok 0 1 "1".toList "aaaaaaaaaaaaaaaab".toList "secret".toList rfl
  have hr0 := freshState_reach demoLayout 0
  have hi0 := freshState_inv demoLayout 0
  have hc := h1
  rw [processRequest_user_create demoLayout 1 _ _ rfl] at hc
  obtain ⟨_, hins, hsess⟩ := userCreate_created hc
  have hfound : s1.userTree.search "aaaaaaaaaaaaaaaa".toList = some
      { username := "aaaaaaaaaaaaaaaa".toList, password_hash := simpleHash "secret".toList,
        role := UserRole.NORMAL, created_time := 1, is_active := 1 } :=
    @search_insert (freshState demoLayout 0).userTree s1.userTree
      { username := "aaaaaaaaaaaaaaaa".toList, password_hash := simpleHash "secret".toList,
        role := UserRole.NORMAL, created_time := 1, is_active := 1 }
      hi0.avl hi0.sorted rfl hins
  have hunfit : ¬ FitsName demoLayout.usernameCap "aaaaaaaaaaaaaaaab".toList := by
    intro h
    exact absurd h.1 (by decide)
  have hnone : s1.userTree.search "aaaaaaaaaaaaaaaab".toList = none :=
    Reach_unfit (Reach.step 1 _ _ hr0 h1) hunfit
  refine ⟨s1, hr0, h1, hfound, hnone, ?_, by decide, by rw [hsess]; rfl⟩
  rw [processRequest_user_login demoLayout 2 s1 _ rfl]
  show userLogin 2 s1 "2".toList "aaaaaaaaaaaaaaaab".toList "secret".toList = _
  simp only [userLogin, hnone]

/-- On the formatted volume of the layout of the examples, whose name field has 16 bytes, `admin`
creates the file `/home/aaaaaaaaaaaaaaaab` (a name of 17 characters) with the content `hello`:
the request answers `Created`, the node below `home` has the first 16 characters as its name, and
the `file_read` of the same path that follows answers `File not found`. -/
theorem long_name_read :
    ∃ s1 child, processRequest demoLayout 2 (adminState demoLayout 0 1)
        (adminRequest 1 "file_create".toList "/home/aaaaaaaaaaaaaaaab".toList "hello".toList
          "file".toList) = some (respCreated "1".toList, s1) ∧
      s1.fileTree.root
        = some (.mk rootDirEntry [.mk { homeDirEntry with inode := 1 } [child]]) ∧
      child.metadata.name = "aaaaaaaaaaaaaaaa".toList ∧
      processRequest demoLayout 3 s1
        (adminRequest 1 "file_read".toList "/home/aaaaaaaaaaaaaaaab".toList [] [])
        = some (respError "File not found".toList, s1) := by
  obtain ⟨s1, h1⟩ := adminCreate_ok demoLayout 0 1 2 "aaaaaaaaaaaaaaaab".toList "hello".toList
    "file".toList (by decide) (by decide)
  have hinv := Reach_inv (adminState_reach demoLayout 0 1)
  obtain ⟨pp, root, parent, s0, hpp, hr, hn, _, _, h4, _, hs1⟩ :=
    create_facts hinv rfl (show "hello".toList.length < 8192 by decide) h1
  rw [translatePath_adminRequest] at hpp hs1
  have hpar : parentPath ("/home".toList ++ '/' :: "aaaaaaaaaaaaaaaab".toList) = "/home".toList :=
    parentPath_append "/home".toList "aaaaaaaaaaaaaaaab".toList (by decide)
  rw [hpar] at hpp
  have hpp0 : resolvePathPtr (adminState demoLayout 0 1).fileTree "/home".toList = some [0] :=
    rfl
  rw [hpp0, Option.some.injEq] at hpp
  subst hpp
  have hroot : root = .mk rootDirEntry [.mk { homeDirEntry with inode := 1 } []] :=
    (Option.some.inj hr).symm
  subst hroot
  have hparent : parent = .mk { homeDirEntry with inode := 1 } [] :=
    (Option.some.inj hn).symm
  subst hparent
  have hsess : s1.active_sessions = (adminState demoLayout 0 1).active_sessions := by rw [hs1]
  have hroot1 : s1.fileTree.root = some (.mk rootDirEntry [.mk { homeDirEntry with inode := 1 }
      [FSNode.mk
        { createEntry demoLayout (adminState demoLayout 0 1) (adminSid 1)
            (fileName ("/home".toList ++ '/' :: "aaaaaaaaaaaaaaaab".toList))
            "hello".toList "file".toList (.mk { homeDirEntry with inode := 1 } []) s0 with
          inode := 2
          parent_inode := 1 } []]]) := by
    rw [hs1]
    show some (modifyAt _ [0] (FSNode.mk rootDirEntry [.mk { homeDirEntry with inode := 1 } []]))
      = _
    rw [modifyAt_cons _ 0 [] rootDirEntry _ (.mk { homeDirEntry with inode := 1 } []) rfl,
      modifyAt_nil]
    rfl
  refine ⟨s1, _, h1, hroot1, rfl, ?_⟩
  rw [processRequest_file_read demoLayout 3 s1 _ rfl]
  have htr : translatePath s1.active_sessions
      (adminRequest 1 "file_read".toList "/home/aaaaaaaaaaaaaaaab".toList [] []).path
      (adminRequest 1 "file_read".toList "/home/aaaaaaaaaaaaaaaab".toList [] []).session_id
      = "/home/aaaaaaaaaaaaaaaab".toList := by
    rw [hsess]
    exact translatePath_admin demoLayout 0 1 _
  rw [htr, if_neg (by decide)]
  unfold fileRead
  have hres : resolvePath s1.fileTree "/home/aaaaaaaaaaaaaaaab".toList = none := by
    rw [resolvePath_eq_node, resolvePathPtr_eq s1.fileTree _ hroot1 _ (by decide)]
    rfl
  rw [hres]

/-- Counterexample to C14 as stated, in two parts. (1) A path that ends in `/`: on the formatted
volume with `admin` logged in, the parent `/home` of `/home/` exists and has no child with the
new (empty) name, `file_create` of `/home/` with the content `hello` answers `Created`, and the
`file_read` of `/home/` that follows answers `File not found`. (2) A name longer than the name
field of a directory entry (16 bytes in the layout of the examples): the parent `/home` of
`/home/aaaaaaaaaaaaaaaab` exists and has no child with the new name, which is not empty and holds
no `/`; `file_create` with the content `hello` answers `Created`, the new node has the first 16
characters as its name, and the `file_read` of the same path that follows answers
`File not found`. -/
theorem C14_counterexample :
    (Reach demoLayout (adminState demoLayout 0 1) ∧
      (adminState demoLayout 0 1).active_sessions.lookup (adminSid 1) = some "admin".toList ∧
      NUL ∉ "hello".toList ∧
      (∃ parent, resolvePath (adminState demoLayout 0 1).fileTree (parentPath "/home/".toList)
          = some parent ∧
        ∀ c ∈ parent.children, c.metadata.name ≠ fileName "/home/".toList) ∧
      ∃ s1, processRequest demoLayout 2 (adminState demoLayout 0 1)
          (adminRequest 1 "file_create".toList "/home/".toList "hello".toList "file".toList)
          = some (respCreated "1".toList, s1) ∧
        processRequest demoLayout 3 s1
          (adminRequest 1 "file_read".toList "/home/".toList [] [])
          = some (respError "File not found".toList, s1) ∧
        respError "File not found".toList ≠ respContent "hello".toList) ∧
    ((∃ parent, resolvePath (adminState demoLayout 0 1).fileTree
          (parentPath "/home/aaaaaaaaaaaaaaaab".toList) = some parent ∧
        ∀ c ∈ parent.children,
          c.metadata.name ≠ fileName "/home/aaaaaaaaaaaaaaaab".toList) ∧
      fileName "/home/aaaaaaaaaaaaaaaab".toList = "aaaaaaaaaaaaaaaab".toList ∧
      '/' ∉ "aaaaaaaaaaaaaaaab".toList ∧
      ¬ FitsName demoLayout.nameCap "aaaaaaaaaaaaaaaab".toList ∧
      ∃ s1 child, processRequest demoLayout 2 (adminState demoLayout 0 1)
          (adminRequest 1 "file_create".toList "/home/aaaaaaaaaaaaaaaab".toList "hello".toList
            "file".toList) = some (respCreated "1".toList, s1) ∧
        s1.fileTree.root
          = some (.mk rootDirEntry [.mk { homeDirEntry with inode := 1 } [child]]) ∧
        child.metadata.name = "aaaaaaaaaaaaaaaa".toList ∧
        processRequest demoLayout 3 s1
          (adminRequest 1 "file_read".toList "/home/aaaaaaaaaaaaaaaab".toList [] [])
          = some (respError "File not found".toList, s1) ∧
        respError "File not found".toList ≠ respContent "hello".toList) := by
  refine ⟨create_slash_read, ?_, ?_, by decide, fun h => absurd h.1 (by decide), ?_⟩
  · have hpar : parentPath "/home/aaaaaaaaaaaaaaaab".toList = "/home".toList :=
      parentPath_append "/home".toList "aaaaaaaaaaaaaaaab".toList (by decide)
    rw [hpar]
    exact ⟨.mk { homeDirEntry with inode := 1 } [], rfl, fun c hc => by cases hc⟩
  · exact fileName_append "/home".toList "aaaaaaaaaaaaaaaab".toList (by decide)
  · obtain ⟨s1, child, h1, h2, h3, h4⟩ := long_name_read
    exact ⟨s1, child, h1, h2, h3, h4, by simp [respError, respContent]⟩

/-- On the formatted volume of the layout of the examples, whose name field has 16 bytes,
`user_create` of the username `aaaaaaaaaaaaaaaab` (17 characters) answers with success, and
afterwards the only child of `/home` has the first 16 characters as its name: `/home` has no
child named as the user. -/
theorem long_name_home :
    ∃ s1 child, processRequest demoLayout 1 (freshState demoLayout 0)
        (accountRequest "user_create".toList "1".toList "aaaaaaaaaaaaaaaab".toList
          "secret".toList) = some (respUserCreated "1".toList, s1) ∧
      s1.fileTree.root
        = some (.mk rootDirEntry [.mk { homeDirEntry with inode := 1 } [child]]) ∧
      child.metadata.name = "aaaaaaaaaaaaaaaa".toList ∧
      child.metadata.name ≠ "aaaaaaaaaaaaaaaab".toList := by
  obtain ⟨s1, h1⟩ := freshCreate_ok 0 1 "1".toList "aaaaaaaaaaaaaaaab".toList "secret".toList
    rfl
  have hreach0 := freshState_reach demoLayout 0
  obtain ⟨b, bm1, p, t1, off, ut1, _, _, _, _, hadd, _, _, _, htree, _⟩ :=
    @userCreate_facts demoLayout 1 (freshState demoLayout 0) s1
      (accountRequest "user_create".toList "1".toList "aaaaaaaaaaaaaaaab".toList
        "secret".toList) [0]
      (.mk { homeDirEntry with inode := 1 } []) 4
      (Reach_inv hreach0) rfl rfl rfl (fun c hc => by cases hc) fresh_free_run h1
  obtain ⟨root, pn, hr, hn, _, _, ht1⟩ := addChild_at hadd
  have hroot : root = .mk rootDirEntry [.mk { homeDirEntry with inode := 1 } []] :=
    (Option.some.inj hr).symm
  subst hroot
  have hpn : pn = .mk { homeDirEntry with inode := 1 } [] := (Option.some.inj hn).symm
  subst hpn
  have hroot1 : s1.fileTree.root = some (.mk rootDirEntry [.mk { homeDirEntry with inode := 1 }
      [.mk { userHomeEntry demoLayout "aaaaaaaaaaaaaaaab".toList
              (.mk { homeDirEntry with inode := 1 } []) b with
          inode := 2, parent_inode := 1 } []]]) := by
    rw [htree, ht1]
    show some (modifyAt _ [0] (FSNode.mk rootDirEntry [.mk { homeDirEntry with inode := 1 } []]))
      = _
    rw [modifyAt_cons _ 0 [] rootDirEntry _ (.mk { homeDirEntry with inode := 1 } []) rfl,
      modifyAt_nil]
    rfl
  refine ⟨s1, _, h1, hroot1, rfl, ?_⟩
  show "aaaaaaaaaaaaaaaa".toList ≠ "aaaaaaaaaaaaaaaab".toList
  decide

/-- Counterexample to C21 as stated, in two parts. (1) Without `/home`: `admin` removes the
directory `home` from the formatted volume; in the state this leaves, which is reachable,
`user_create` of `bob` answers with success, and afterwards the root has no children, so there
is no node `/home` and no home directory of `bob`. (2) A username longer than the name field of
a directory entry (16 bytes in the layout of the examples): on the formatted volume, where
`/home` has no children and block 4 is free, `user_create` of `aaaaaaaaaaaaaaaab` answers with
success, and afterwards the only child of `/home` has the first 16 characters as its name:
`/home` has no child named as the user. -/
theorem C21_counterexample :
    (∃ s1 s2, Reach demoLayout s1 ∧
      processRequest demoLayout 3 s1
        (accountRequest "user_create".toList "1".toList "bob".toList "secret".toList)
        = some (respUserCreated "1".toList, s2) ∧
      s2.fileTree.root = some (.mk rootDirEntry []) ∧
      resolvePathPtr s2.fileTree "/home".toList = none) ∧
    (Reach demoLayout (freshState demoLayout 0) ∧
      resolvePathPtr (freshState demoLayout 0).fileTree "/home".toList = some [0] ∧
      (freshState demoLayout 0).fileTree.node [0]
        = some (.mk { homeDirEntry with inode := 1 } []) ∧
      FreeRun (freshState demoLayout 0).blockManager.bitmap 4 1 ∧
      ¬ FitsName demoLayout.nameCap "aaaaaaaaaaaaaaaab".toList ∧
      ∃ s1 child, processRequest demoLayout 1 (freshState demoLayout 0)
          (accountRequest "user_create".toList "1".toList "aaaaaaaaaaaaaaaab".toList
            "secret".toList) = some (respUserCreated "1".toList, s1) ∧
        s1.fileTree.root
          = some (.mk rootDirEntry [.mk { homeDirEntry with inode := 1 } [child]]) ∧
        child.metadata.name = "aaaaaaaaaaaaaaaa".toList ∧
        child.metadata.name ≠ "aaaaaaaaaaaaaaaab".toList) :=
  ⟨create_without_home, freshState_reach demoLayout 0, rfl, rfl, fresh_free_run,
    fun h => absurd h.1 (by decide), long_name_home⟩

end OFS
